import Mathlib

/-!
Verification development for the search-engine core.

Shallow embedding of parts of the matcher (`matcher/orpostlist.cc`), the query
parser (`queryparser/queryparser_internal.cc`) and the compaction tool
(`bin/xapian-compact.cc`, `bin/xapian-compact-flint.cc`), with theorems about
them.

Conventions: docids and counts are natural numbers (reduced modulo `2^32`
where the source can wrap); weights, which are `double` in the source and are
only compared and subtracted by the code embedded here, are integers.
-/

namespace Matcher

/-- Stand-in for `Xapian::weight`; only its order and subtraction are used. -/
abbrev Weight := Int

/-- A child posting list seen through the `PostList` interface: `docs` are the
postings not yet passed.  Once `started`, the head of `docs` is the current
posting and the list is at its end when `docs` is empty. -/
structure ChildPL where
  started : Bool
  docs : List Nat
  maxw : Weight
  deriving DecidableEq, Repr

namespace ChildPL

/-- A fresh child over the docid sequence `ds`. -/
def fresh (ds : List Nat) (maxw : Weight) : ChildPL := ⟨false, ds, maxw⟩

/-- `PostList::next(w_min)` followed by `next_handling_prune`: a child that
prunes itself is observed as the same docid sequence. -/
def next (c : ChildPL) (_w_min : Weight) : ChildPL :=
  if c.started then { c with docs := c.docs.tail } else { c with started := true }

/-- `PostList::skip_to(did, w_min)`: move to the first posting at or after
`did` (never backwards). -/
def skip_to (c : ChildPL) (did : Nat) (_w_min : Weight) : ChildPL :=
  { c with started := true, docs := c.docs.dropWhile (fun d => decide (d < did)) }

def at_end (c : ChildPL) : Bool := c.started && c.docs.isEmpty

def get_docid (c : ChildPL) : Nat := c.docs.headD 0

def recalc_maxweight (c : ChildPL) : Weight := c.maxw

end ChildPL

/-- `OrPostList` with both children present (`l` and `r` non-NULL). -/
structure OrPostList where
  l : ChildPL
  r : ChildPL
  lhead : Nat
  rhead : Nat
  lmax : Weight
  rmax : Weight
  minmax : Weight
  dbsize : Nat
  deriving DecidableEq, Repr

/-- The operator node built by an OR that rewrites itself.  The classes
`MultiAndPostList` and `AndMaybePostList` are constructed with these arguments. -/
inductive NewNode where
  /-- `new MultiAndPostList(l, r, lmax, rmax, matcher, dbsize)` -/
  | multiAnd (l r : ChildPL) (lmax rmax : Weight) (dbsize : Nat)
  /-- `new AndMaybePostList(req, opt, matcher, dbsize, reqhead, opthead)` -/
  | andMaybe (req opt : ChildPL) (dbsize : Nat) (reqhead opthead : Nat)
  deriving DecidableEq, Repr

/-- The call made on the new node (through `next_handling_prune` or
`skip_to_handling_prune`) before it is returned. -/
inductive FollowUp where
  | next (w_min : Weight)
  | skipTo (did : Nat) (w_min : Weight)
  deriving DecidableEq, Repr

/-- What `OrPostList::next` / `skip_to` hands back. -/
inductive Ret where
  /-- `RETURN(NULL)`: the OR stays in place, with its updated state. -/
  | null (s : OrPostList)
  /-- `RETURN(l)` or `RETURN(r)`: the surviving child replaces the OR. -/
  | child (c : ChildPL)
  /-- The OR is replaced by another operator. -/
  | rewrite (n : NewNode) (f : FollowUp)
  deriving DecidableEq, Repr

namespace OrPostList

/-- The constructor: heads and maximum weights start at zero. -/
def mk0 (left right : ChildPL) (dbsize : Nat) : OrPostList :=
  { l := left, r := right, lhead := 0, rhead := 0, lmax := 0, rmax := 0, minmax := 0,
    dbsize := dbsize }

/-- `OrPostList::recalc_maxweight`, as the updated state. -/
def recalc_maxweight (s : OrPostList) : OrPostList :=
  let lmax := s.l.recalc_maxweight
  let rmax := s.r.recalc_maxweight
  { s with lmax := lmax, rmax := rmax, minmax := min lmax rmax }

/-- `OrPostList::get_maxweight`. -/
def get_maxweight (s : OrPostList) : Weight := s.lmax + s.rmax

/-- `OrPostList::get_docid`. -/
def get_docid (s : OrPostList) : Nat := min s.lhead s.rhead

/-- `OrPostList::at_end`. -/
def at_end (_s : OrPostList) : Bool := false

/-- The part of `next` and `skip_to` after the children have been moved: `l`
and `r` are the moved children, `ldry` the flag of the source, `rmoved` whether
the right child was moved. -/
def finish (s : OrPostList) (l r : ChildPL) (ldry rmoved : Bool) : Ret :=
  if rmoved && r.at_end then
    Ret.child l
  else
    let rhead := if rmoved then r.get_docid else s.rhead
    if !ldry then
      Ret.null { s with l := l, r := r, lhead := l.get_docid, rhead := rhead }
    else
      Ret.child r

/-- `OrPostList::next`. -/
def next (s : OrPostList) (w_min : Weight) : Ret :=
  if w_min > s.minmax then
    if w_min > s.lmax then
      if w_min > s.rmax then
        Ret.rewrite (NewNode.multiAnd s.l s.r s.lmax s.rmax s.dbsize)
          (FollowUp.skipTo ((max s.lhead s.rhead + 1) % 2 ^ 32) w_min)
      else
        Ret.rewrite (NewNode.andMaybe s.r s.l s.dbsize s.rhead s.lhead) (FollowUp.next w_min)
    else
      Ret.rewrite (NewNode.andMaybe s.l s.r s.dbsize s.lhead s.rhead) (FollowUp.next w_min)
  else
    if s.lhead ≤ s.rhead then
      let rnext := decide (s.lhead = s.rhead)
      let l := s.l.next (w_min - s.rmax)
      let ldry := l.at_end
      if rnext then
        finish s l (s.r.next (w_min - s.lmax)) ldry true
      else
        finish s l s.r ldry false
    else
      finish s s.l (s.r.next (w_min - s.lmax)) false true

/-- `OrPostList::skip_to`. -/
def skip_to (s : OrPostList) (did : Nat) (w_min : Weight) : Ret :=
  if w_min > s.minmax then
    if w_min > s.lmax then
      if w_min > s.rmax then
        Ret.rewrite (NewNode.multiAnd s.l s.r s.lmax s.rmax s.dbsize)
          (FollowUp.skipTo (max did (max s.lhead s.rhead)) w_min)
      else
        Ret.rewrite (NewNode.andMaybe s.r s.l s.dbsize s.rhead s.lhead)
          (FollowUp.skipTo (max did s.rhead) w_min)
    else
      Ret.rewrite (NewNode.andMaybe s.l s.r s.dbsize s.lhead s.rhead)
        (FollowUp.skipTo (max did s.lhead) w_min)
  else
    let lmoved := decide (s.lhead < did)
    let l := if lmoved then s.l.skip_to did (w_min - s.rmax) else s.l
    let ldry := if lmoved then l.at_end else false
    if s.rhead < did then
      finish s l (s.r.skip_to did (w_min - s.lmax)) ldry true
    else
      finish s l s.r ldry false

end OrPostList

/-- Keep calling `next` on a surviving child, reading `get_docid` after each
call, until it is at its end. -/
def drainChild : Nat → (Nat → Weight) → Nat → ChildPL → List Nat
  | 0, _, _, _ => []
  | fuel + 1, wmin, i, c =>
    let c1 := c.next (wmin i)
    if c1.at_end then [] else c1.get_docid :: drainChild fuel wmin (i + 1) c1

/-- Keep calling `next(w_min)` (the `i`-th call gets `wmin i`), substituting the
replacement when one is returned, and read `get_docid()` after each call.  The
result is `none` when the OR rewrote itself into another operator or the fuel
ran out before the end of the list. -/
def drain : Nat → (Nat → Weight) → Nat → OrPostList → Option (List Nat)
  | 0, _, _, _ => none
  | fuel + 1, wmin, i, s =>
    match s.next (wmin i) with
    | Ret.null s1 => (drain fuel wmin (i + 1) s1).map (fun out => s1.get_docid :: out)
    | Ret.child c =>
      if c.at_end then some []
      else some (c.get_docid :: drainChild fuel wmin (i + 1) c)
    | Ret.rewrite _ _ => none

/-- Union of two strictly increasing lists, each value once. -/
def sortedUnion : List Nat → List Nat → List Nat
  | [], r => r
  | a :: l, [] => a :: l
  | a :: l, b :: r =>
    if a < b then a :: sortedUnion l (b :: r)
    else if b < a then b :: sortedUnion (a :: l) r
    else a :: sortedUnion l r
termination_by l r => l.length + r.length

/-- The surviving child handed back by an OR whose other child ran dry: `l1` and
`r1` are the children at their (possibly advanced) positions. -/
def IsSurvivor (s : OrPostList) (ret : Ret) : Prop :=
  ∃ l1 r1 : ChildPL, l1.docs <:+ s.l.docs ∧ l1.maxw = s.l.maxw ∧
    r1.docs <:+ s.r.docs ∧ r1.maxw = s.r.maxw ∧
    ((ret = Ret.child l1 ∧ r1.at_end = true) ∨ (ret = Ret.child r1 ∧ l1.at_end = true))

/-- A started OR over `[3, 7]` and `[4]` with `lmax = 5` and `rmax = 2`. -/
def exampleOr : OrPostList :=
  { l := ⟨true, [3, 7], 5⟩, r := ⟨true, [4], 2⟩, lhead := 3, rhead := 4,
    lmax := 5, rmax := 2, minmax := 2, dbsize := 10 }

end Matcher

/-! ## The matcher: accessors and the in-place states of `OrPostList` -/

namespace Matcher

namespace OrPostList

/-- `OrPostList::get_weight`.  `W` stands for `Xapian::weight` with its
addition, and `child_weight` for `PostList::get_weight` of a child. -/
def get_weight {W : Type} [Add W] (child_weight : ChildPL → W) (s : OrPostList) : W :=
  if s.lhead < s.rhead then child_weight s.l
  else if s.lhead > s.rhead then child_weight s.r
  else child_weight s.l + child_weight s.r

/-- `OrPostList::get_wdf`; `child_wdf` is `PostList::get_wdf` of a child, and
the sum is one of `Xapian::termcount`, which has 32 bits. -/
def get_wdf (child_wdf : ChildPL → Nat) (s : OrPostList) : Nat :=
  if s.lhead < s.rhead then child_wdf s.l
  else if s.lhead > s.rhead then child_wdf s.r
  else (child_wdf s.l + child_wdf s.r) % 2 ^ 32

/-- `OrPostList::count_matching_subqs`; `child_count` is
`PostList::count_matching_subqs` of a child. -/
def count_matching_subqs (child_count : ChildPL → Nat) (s : OrPostList) : Nat :=
  if s.lhead < s.rhead then child_count s.l
  else if s.lhead > s.rhead then child_count s.r
  else (child_count s.l + child_count s.r) % 2 ^ 32

/-- The left child after the moves of `next(w_min)` when the OR does not
rewrite itself: it is moved when `lhead <= rhead`. -/
def nextLeft (s : OrPostList) (w_min : Weight) : ChildPL :=
  if s.lhead ≤ s.rhead then s.l.next (w_min - s.rmax) else s.l

/-- The right child after the moves of `next(w_min)`: it is moved when
`lhead >= rhead`. -/
def nextRight (s : OrPostList) (w_min : Weight) : ChildPL :=
  if s.rhead ≤ s.lhead then s.r.next (w_min - s.lmax) else s.r

/-- The left child after the moves of `skip_to(did, w_min)`: it is moved
when `lhead < did`. -/
def skipLeft (s : OrPostList) (did : Nat) (w_min : Weight) : ChildPL :=
  if s.lhead < did then s.l.skip_to did (w_min - s.rmax) else s.l

/-- The right child after the moves of `skip_to(did, w_min)`: it is moved
when `rhead < did`. -/
def skipRight (s : OrPostList) (did : Nat) (w_min : Weight) : ChildPL :=
  if s.rhead < did then s.r.skip_to did (w_min - s.lmax) else s.r

/-- The states of an OR that is in place: as constructed over two children
neither of which is at its end, and as left by each `recalc_maxweight` and by
each `next` or `skip_to` that returned NULL. -/
inductive InPlace : OrPostList → Prop
  | ctor (left right : ChildPL) (dbsize : Nat) (hl : left.at_end = false)
      (hr : right.at_end = false) : InPlace (mk0 left right dbsize)
  | recalc {s : OrPostList} (h : InPlace s) : InPlace s.recalc_maxweight
  | next {s s1 : OrPostList} (w_min : Weight) (h : InPlace s)
      (hret : s.next w_min = Ret.null s1) : InPlace s1
  | skip_to {s s1 : OrPostList} (did : Nat) (w_min : Weight) (h : InPlace s)
      (hret : s.skip_to did w_min = Ret.null s1) : InPlace s1

end OrPostList

end Matcher

namespace Matcher

/-- Modelled from the spec: the docids that a `MultiAndPostList` over the
children `l` and `r` (the class is not among the sources) has yet to give
after `skip_to(did, w_min)`, an AND being a "zig-zag intersect, always
`skip_to` the larger head": the docids at or after `did` that both children
have yet to give, in order. The list stands on the first of them, and is at
its end when there is none. -/
def multiAndSkipTo (l r : ChildPL) (did : Nat) (w_min : Weight) : List Nat :=
  (l.skip_to did w_min).docs.filter (fun d => decide (d ∈ (r.skip_to did w_min).docs))

/-- The docids that the operator handed back by a rewrite into an AND has yet
to give, once the call made on it before it is returned is done; `none` when
the value returned is not such a rewrite. -/
def Ret.andDocs : Ret → Option (List Nat)
  | Ret.rewrite (NewNode.multiAnd l r _ _ _) (FollowUp.skipTo did w_min) =>
    some (multiAndSkipTo l r did w_min)
  | _ => none

namespace OrPostList

/-- `OrPostList::get_termfreq_max`; `child_max` is `get_termfreq_max` of a
child, and the sum is one of `Xapian::doccount`, which has 32 bits. -/
def get_termfreq_max (child_max : ChildPL → Nat) (s : OrPostList) : Nat :=
  min ((child_max s.l + child_max s.r) % 2 ^ 32) s.dbsize

/-- `OrPostList::get_termfreq_min`; `child_min` is `get_termfreq_min` of a
child. -/
def get_termfreq_min (child_min : ChildPL → Nat) (s : OrPostList) : Nat :=
  max (child_min s.l) (child_min s.r)

end OrPostList

/-- An OR over the docids `[3, 4]` and `[4]`, both children with maximum
weight 1, after `recalc_maxweight` and a first `next(0)`: it stands on docid 3,
with the right child on docid 4. -/
def decayOr : OrPostList :=
  { l := ⟨true, [3, 4], 1⟩, r := ⟨true, [4], 1⟩, lhead := 3, rhead := 4,
    lmax := 1, rmax := 1, minmax := 1, dbsize := 10 }

/-- An OR in a database of `3 * 2 ^ 30` documents. -/
def largeOr : OrPostList :=
  { l := ⟨true, [1], 1⟩, r := ⟨true, [1], 1⟩, lhead := 1, rhead := 1,
    lmax := 1, rmax := 1, minmax := 1, dbsize := 3 * 2 ^ 30 }

end Matcher

namespace QueryParser

/-- `Xapian::Query::op`. -/
inductive Op where
  | OP_AND | OP_OR | OP_AND_NOT | OP_XOR | OP_AND_MAYBE | OP_FILTER | OP_NEAR | OP_PHRASE
  | OP_VALUE_RANGE | OP_SCALE_WEIGHT | OP_ELITE_SET | OP_VALUE_GE | OP_VALUE_LE | OP_SYNONYM
  deriving DecidableEq, Repr

/-- `Xapian::Query`, whose class is not part of the sources, as the record of
the constructor call that built it. -/
inductive Query where
  /-- `Query()` -/
  | empty : Query
  /-- `Query(tname, wqf, pos)` -/
  | term (tname : String) (wqf pos : Nat) : Query
  /-- `Query(op, left, right)` -/
  | pair (op : Op) (left right : Query) : Query
  /-- `Query(op, begin, end, param)` over a range of subqueries -/
  | multi (op : Op) (subqs : List Query) (param : Nat) : Query
  /-- `Query(op, valno, begin, end)` -/
  | range (op : Op) (valno : Nat) (start stop : String) : Query
  /-- `Query(op, subquery, factor)` -/
  | scale (op : Op) (q : Query) (factor : Int) : Query
  deriving Repr

/-- `Query::empty()`: the query was built by the default constructor or from an
empty range of subqueries. -/
def Query.isEmpty : Query → Bool
  | Query.empty => true
  | Query.multi _ [] _ => true
  | _ => false

/-- `Xapian::BAD_VALUENO`. -/
def BAD_VALUENO : Nat := 0xffffffff

/-- `QueryParser::stem_strategy`. -/
inductive stem_strategy where
  | STEM_NONE | STEM_SOME | STEM_ALL
  deriving DecidableEq, Repr

def FLAG_BOOLEAN : Nat := 1
def FLAG_PHRASE : Nat := 2
def FLAG_LOVEHATE : Nat := 4
def FLAG_BOOLEAN_ANY_CASE : Nat := 8
def FLAG_WILDCARD : Nat := 16
def FLAG_PURE_NOT : Nat := 32
def FLAG_PARTIAL : Nat := 64
def FLAG_SPELLING_CORRECTION : Nat := 128
def FLAG_SYNONYM : Nat := 256
def FLAG_AUTO_SYNONYMS : Nat := 512
def FLAG_AUTO_MULTIWORD_SYNONYMS : Nat := 1024 ||| FLAG_AUTO_SYNONYMS
def FLAG_DEFAULT : Nat := FLAG_PHRASE ||| FLAG_BOOLEAN ||| FLAG_LOVEHATE

/-- The test `flags & F`. -/
def hasFlag (flags f : Nat) : Bool := (flags &&& f) != 0

/-- What can stop the embedded code short of a result: the step budget of a
loop ran out, a null pointer was dereferenced, or a stack slot held a value of
another kind than the rule expects. -/
inductive Fault where
  | fuel | nullDeref | badStack
  deriving DecidableEq, Repr

/-- The functions of `Xapian::Unicode` used by the parser. -/
structure UnicodeLib where
  is_wordchar : Nat → Bool
  is_whitespace : Nat → Bool
  is_currency : Nat → Bool
  get_category : Nat → Nat
  tolower : String → String

/-- Values of `Unicode::category` used by the parser. -/
def LOWERCASE_LETTER : Nat := 2
def TITLECASE_LETTER : Nat := 3
def MODIFIER_LETTER : Nat := 4
def OTHER_LETTER : Nat := 5
def DECIMAL_DIGIT_NUMBER : Nat := 9

/-- The read-only database calls made by the parser. -/
structure Database where
  term_exists : String → Bool
  get_spelling_suggestion : String → String
  synonyms : String → List String
  synonym_keys : String → List String
  allterms : String → List String

/-- `PrefixInfo`: whether the field is a boolean filter, and its term prefixes. -/
structure PrefixInfo where
  filter : Bool
  prefixes : List String
  deriving DecidableEq, Repr

/-- A `ValueRangeProcessor`: given the two ends, the value slot (or
`BAD_VALUENO`) and the possibly rewritten ends. -/
abbrev ValueRangeProcessor := String → String → Nat × String × String

/-- The settings held by `QueryParser::Internal`. -/
structure Internal where
  stemmer : Option (String → String)
  stem_action : stem_strategy
  stopper : Option (String → Bool)
  default_op : Op
  db : Database
  prefixmap : List (String × PrefixInfo)
  valrangeprocs : List ValueRangeProcessor
  uni : UnicodeLib

/-- Token passed from the lexer to the parser (`class Term`). -/
structure Term where
  name : String
  prefixes : List String
  unstemmed : String
  stem : stem_strategy
  pos : Nat
  deriving DecidableEq, Repr

/-- `State`, with the lists of `QueryParser::Internal` that the rule actions
append to. -/
structure State where
  query : Query
  error : Option String
  flags : Nat
  stoplist : List String
  unstem : List (String × String)

def C_isupper (ch : Nat) : Bool := decide (65 ≤ ch) && decide (ch ≤ 90)
def C_islower (ch : Nat) : Bool := decide (97 ≤ ch) && decide (ch ≤ 122)
def C_isdigit (ch : Nat) : Bool := decide (48 ≤ ch) && decide (ch ≤ 57)
def C_isalpha (ch : Nat) : Bool := C_isupper ch || C_islower ch
def C_toupper (c : Char) : Char := if C_islower c.toNat then Char.ofNat (c.toNat - 32) else c

def U_isupper (ch : Nat) : Bool := decide (ch < 128) && C_isupper ch
def U_isdigit (ch : Nat) : Bool := decide (ch < 128) && C_isdigit ch
def U_isalpha (ch : Nat) : Bool := decide (ch < 128) && C_isalpha ch

def is_digit (u : UnicodeLib) (ch : Nat) : Bool := u.get_category ch == DECIMAL_DIGIT_NUMBER

def is_suffix (ch : Nat) : Bool := ch == 43 || ch == 35

/-- Number of bytes of a string (`std::string::size`). -/
def strSize (s : String) : Nat := (s.data.map Char.utf8Size).sum

/-- The value of `s[0]` as far as the tests on it can tell: the first byte when
it is ASCII, `0` for the empty string, and a value above 127 otherwise. -/
def firstByte (s : String) : Nat :=
  match s.data with
  | [] => 0
  | c :: _ => if c.toNat < 128 then c.toNat else 255

def prefix_needs_colon (pfx : String) (ch : Nat) : Bool :=
  if !U_isupper ch then false
  else decide (strSize pfx > 1) && pfx.data.getLast? != some ':'

/-- `State::stem_term`: the stemmer, which leaves the word alone when none is set. -/
def State.stem_term (qpi : Internal) (term : String) : String :=
  match qpi.stemmer with
  | some f => f term
  | none => term

def State.add_to_stoplist (st : State) (term : Term) : State :=
  { st with stoplist := st.stoplist ++ [term.name] }

def State.add_to_unstem (st : State) (term unstemmed : String) : State :=
  { st with unstem := st.unstem ++ [(term, unstemmed)] }

def State.is_stopword (qpi : Internal) (term : Term) : Bool :=
  match qpi.stopper with
  | some f => f term.name
  | none => false

/-- `State::value_range`: the slot and the query of the first processor that
accepts the range; otherwise `BAD_VALUENO` with the error message set. -/
def State.value_range (qpi : Internal) (st : State) (a b : Term) : Nat × Query × State :=
  let rec go : List ValueRangeProcessor → Nat × Query × State
    | [] => (BAD_VALUENO, Query.empty, { st with error := some "Unknown range operation" })
    | proc :: rest =>
      let start := a.name
      let stop := b.name
      let r := proc start stop
      if r.1 != BAD_VALUENO then
        (r.1, Query.range Op.OP_VALUE_RANGE r.1 r.2.1 r.2.2, st)
      else go rest
  go qpi.valrangeprocs

/-- `Term::make_term`. -/
def Term.make_term (qpi : Internal) (t : Term) (pfx : String) (st : State) : String × State :=
  let term := if t.stem == stem_strategy.STEM_SOME then "Z" else ""
  let term :=
    if pfx != "" then
      let term := term ++ pfx
      if prefix_needs_colon pfx (firstByte t.name) then term ++ ":" else term
    else term
  let term :=
    if t.stem != stem_strategy.STEM_NONE then term ++ State.stem_term qpi t.name
    else term ++ t.name
  if t.unstemmed != "" then (term, st.add_to_unstem term t.unstemmed) else (term, st)

def Term.need_positions (t : Term) : Term :=
  if t.stem == stem_strategy.STEM_SOME then { t with stem := stem_strategy.STEM_NONE } else t

/-- `Term::get_query`.  Every `PrefixInfo` holds at least one prefix (the
source asserts it); for an empty list the default query stands in. -/
def Term.get_query (qpi : Internal) (t : Term) (st : State) : Query × State :=
  match t.prefixes with
  | [] => (Query.empty, st)
  | p :: ps =>
    let r := t.make_term qpi p st
    ps.foldl (fun (acc : Query × State) piter =>
        let r := t.make_term qpi piter acc.2
        (Query.pair Op.OP_OR acc.1 (Query.term r.1 1 t.pos), r.2))
      (Query.term r.1 1 t.pos, r.2)

/-- The part of a term name put before the word: the prefix and its colon. -/
def Term.pfxPart (t : Term) (piter : String) : String :=
  if piter != "" then
    if prefix_needs_colon piter (firstByte t.name) then piter ++ ":" else piter
  else ""

/-- `Term::get_query_with_synonyms`. -/
def Term.get_query_with_synonyms (qpi : Internal) (t : Term) (st : State) : Query × State :=
  let r := t.get_query qpi st
  let q := t.prefixes.foldl (fun (q : Query) piter =>
      let term := t.pfxPart piter ++ t.name
      let syn := qpi.db.synonyms term
      let syn :=
        if syn.isEmpty && t.stem != stem_strategy.STEM_NONE then
          qpi.db.synonyms ("Z" ++ t.pfxPart piter ++ State.stem_term qpi t.name)
        else syn
      syn.foldl (fun q s => Query.pair Op.OP_SYNONYM q (Query.term s 1 t.pos)) q)
    r.1
  (q, r.2)

def Term.get_query_with_auto_synonyms (qpi : Internal) (t : Term) (st : State) : Query × State :=
  if hasFlag st.flags FLAG_AUTO_SYNONYMS then t.get_query_with_synonyms qpi st
  else t.get_query qpi st

/-- `add_to_query(Query *& q, Query::op op, Query * term)`; with `q` set, a
null `term` is dereferenced. -/
def add_to_query (q : Option Query) (op : Op) (term : Option Query) :
    Except Fault (Option Query) :=
  match q with
  | some q0 =>
    match term with
    | some t => Except.ok (some (Query.pair op q0 t))
    | none => Except.error Fault.nullDeref
  | none => Except.ok term

/-- `add_to_query(Query *& q, Query::op op, const Query & term)`. -/
def add_to_query_ref (q : Option Query) (op : Op) (term : Query) : Option Query :=
  match q with
  | some q0 => some (Query.pair op q0 term)
  | none => some term

/-- `Term::as_wildcarded_query`. -/
def Term.as_wildcarded_query (qpi : Internal) (t : Term) : Query :=
  let subqs := t.prefixes.foldl (fun (subqs : List Query) piter =>
      subqs ++ (qpi.db.allterms (piter ++ t.name)).map (fun tn => Query.term tn 1 t.pos)) []
  Query.multi Op.OP_SYNONYM subqs 0

/-- `Term::as_partial_query`. -/
def Term.as_partial_query (qpi : Internal) (t : Term) (st : State) : Query × State :=
  let r := t.prefixes.foldl
    (fun (acc : (List Query × List Query) × State) piter =>
      let part := acc.1.1 ++ (qpi.db.allterms (piter ++ t.name)).map
        (fun tn => Query.term tn 1 t.pos)
      let m := t.make_term qpi piter acc.2
      ((part, acc.1.2 ++ [Query.term m.1 1 t.pos]), m.2))
    (([], []), st)
  (Query.pair Op.OP_OR (Query.multi Op.OP_SYNONYM r.1.1 0) (Query.multi Op.OP_SYNONYM r.1.2 0),
    r.2)

end QueryParser

namespace QueryParser

/-- Lexicographic `<` of two sequences whose elements are compared by `lt`
(`std::lexicographical_compare`). -/
def lexLt {α : Type} (lt : α → α → Bool) : List α → List α → Bool
  | [], [] => false
  | [], _ :: _ => true
  | _ :: _, [] => false
  | x :: xs, y :: ys =>
    if lt x y then true
    else if lt y x then false
    else lexLt lt xs ys

/-- Byte-wise `<` of `std::string` (the order of the code points). -/
def strLt (a b : List Char) : Bool := lexLt (fun x y => decide (x.toNat < y.toNat)) a b

/-- `<` of `std::list<std::string>`. -/
def strListLt (a b : List String) : Bool := lexLt (fun x y => strLt x.data y.data) a b

/-- `filter_group_id`. -/
structure filter_group_id where
  prefixes : List String
  valno : Nat
  deriving DecidableEq, Repr

/-- `filter_group_id(const list<string> &)`: the group of a boolean filter. -/
def filter_group_id.ofPrefixes (prefixes : List String) : filter_group_id :=
  ⟨prefixes, BAD_VALUENO⟩

/-- `filter_group_id(Xapian::valueno)`: the group of a value range. -/
def filter_group_id.ofValno (valno : Nat) : filter_group_id := ⟨[], valno⟩

/-- `filter_group_id::operator<`. -/
def filter_group_id.lt (a b : filter_group_id) : Bool :=
  if a.prefixes != b.prefixes then strListLt a.prefixes b.prefixes
  else decide (a.valno < b.valno)

def Term.get_filter_group_id (t : Term) : filter_group_id :=
  filter_group_id.ofPrefixes t.prefixes

/-- `filter[id] = f(filter[id])` on the `std::map`, kept as a list in key
order; an absent entry starts as the default query. -/
def filterUpdate : List (filter_group_id × Query) → filter_group_id → (Query → Query) →
    List (filter_group_id × Query)
  | [], k, f => [(k, f Query.empty)]
  | (k1, v1) :: rest, k, f =>
    if k1.lt k then (k1, v1) :: filterUpdate rest k f
    else if k.lt k1 then (k, f Query.empty) :: (k1, v1) :: rest
    else (k1, f v1) :: rest

/-- `ProbQuery`. -/
structure ProbQuery where
  query : Option Query
  love : Option Query
  hate : Option Query
  filter : List (filter_group_id × Query)

/-- `ProbQuery()`. -/
def ProbQuery.new : ProbQuery := ⟨none, none, none, []⟩

/-- `ProbQuery::merge_filters` (called on a non-empty map only). -/
def ProbQuery.merge_filters (p : ProbQuery) : Query :=
  match p.filter with
  | [] => Query.empty
  | (_, q) :: rest => rest.foldl (fun q e => Query.pair Op.OP_AND q e.2) q

/-- `TermGroup`. -/
structure TermGroup where
  terms : List Term

/-- One term of a group: dropped onto the stoplist, or its query appended. -/
def groupTerm (qpi : Internal) (t : Term) (acc : List Query × State) : List Query × State :=
  if State.is_stopword qpi t then (acc.1, acc.2.add_to_stoplist t)
  else
    let r := t.get_query_with_auto_synonyms qpi acc.2
    (acc.1 ++ [r.1], r.2)

/-- The inner loop of `as_group` that lengthens the key word by word while some
synonym key still starts with it: the key, the number of words used and the
rest of the synonym keys. -/
def extendKey : List Term → String → Nat → List String → String × Nat
  | [], key, j, _ => (key, j)
  | t :: rest, key, j, synkeys =>
    let key := if key != "" then key ++ " " else key
    let key := key ++ t.name
    let synkeys := synkeys.dropWhile (fun k => strLt k.data key.data)
    match synkeys with
    | [] => (key, j + 1)
    | k :: _ => if !(key.data.isPrefixOf k.data) then (key, j + 1) else extendKey rest key (j + 1) synkeys

/-- The loop of `as_group` that shortens the key word by word until it has
synonyms: the number of words left (0 when none matched) and the synonyms. -/
def shrinkKey (db : Database) (words : List Term) : Nat → String → Nat → Nat × List String
  | 0, key, j => (j, db.synonyms key)
  | fuel + 1, key, j =>
    let syn := db.synonyms key
    if !syn.isEmpty then (j, syn)
    else if j - 1 == 0 then (0, syn)
    else
      let name := (words.getD (j - 1) ⟨"", [], "", stem_strategy.STEM_NONE, 0⟩).name
      shrinkKey db words fuel ⟨key.data.take (key.data.length - name.data.length - 1)⟩ (j - 1)

/-- The loop of `as_group` under `FLAG_AUTO_MULTIWORD_SYNONYMS`, over the terms
from `begin` on. -/
def multiwordLoop (qpi : Internal) : Nat → List Term → List Query × State → List Query × State
  | 0, _, acc => acc
  | _ + 1, [], acc => acc
  | fuel + 1, t :: rest, acc =>
    let synkeys := qpi.db.synonym_keys t.name
    if synkeys.isEmpty then multiwordLoop qpi fuel rest (groupTerm qpi t acc)
    else
      let e := extendKey (t :: rest) "" 0 synkeys
      let s := shrinkKey qpi.db (t :: rest) e.2 e.1 e.2
      if s.1 == 0 then multiwordLoop qpi fuel rest (groupTerm qpi t acc)
      else
        let r := ((t :: rest).take s.1).foldl
          (fun (a : List Query × State) tj =>
            if State.is_stopword qpi tj then (a.1, a.2.add_to_stoplist tj)
            else
              let g := tj.get_query qpi a.2
              (a.1 ++ [g.1], g.2))
          ([], acc.2)
        let q_original_terms :=
          if qpi.default_op == Op.OP_NEAR || qpi.default_op == Op.OP_PHRASE then
            Query.multi qpi.default_op r.1 (r.1.length + 9)
          else Query.multi qpi.default_op r.1 0
        let q_synonym_terms := Query.multi Op.OP_SYNONYM (s.2.map (fun sn => Query.term sn 1 t.pos)) 0
        multiwordLoop qpi fuel ((t :: rest).drop s.1)
          (acc.1 ++ [Query.pair Op.OP_SYNONYM q_original_terms q_synonym_terms], r.2)

/-- `TermGroup::as_group`. -/
def TermGroup.as_group (qpi : Internal) (g : TermGroup) (st : State) : Option Query × State :=
  let r :=
    if hasFlag st.flags FLAG_AUTO_MULTIWORD_SYNONYMS then
      multiwordLoop qpi g.terms.length g.terms ([], st)
    else
      g.terms.foldl (fun acc t => groupTerm qpi t acc) ([], st)
  if r.1.isEmpty then (none, r.2)
  else if qpi.default_op == Op.OP_NEAR || qpi.default_op == Op.OP_PHRASE then
    (some (Query.multi qpi.default_op r.1 (r.1.length + 9)), r.2)
  else (some (Query.multi qpi.default_op r.1 0), r.2)

/-- `TermList`. -/
structure TermList where
  terms : List Term
  window : Nat
  uniform_prefixes : Bool
  prefixes : List String

/-- `TermList()`. -/
def TermList.new : TermList := ⟨[], 0, true, []⟩

def TermList.add_positional_term (tl : TermList) (term : Term) : TermList :=
  let tl :=
    if tl.terms.isEmpty then { tl with prefixes := term.prefixes }
    else if tl.uniform_prefixes && tl.prefixes != term.prefixes then
      { tl with prefixes := [], uniform_prefixes := false }
    else tl
  { tl with terms := tl.terms ++ [term.need_positions] }

def TermList.adjust_window (tl : TermList) (alternative_window : Nat) : TermList :=
  if alternative_window > tl.window then { tl with window := alternative_window } else tl

/-- `TermList::as_opwindow_query`. -/
def TermList.as_opwindow_query (qpi : Internal) (tl : TermList) (op : Op) (w_delta : Nat)
    (st : State) : Option Query × State :=
  let w := (w_delta + tl.terms.length) % 2 ^ 32
  if tl.uniform_prefixes then
    tl.prefixes.foldl
      (fun (acc : Option Query × State) piter =>
        let r := tl.terms.foldl
          (fun (a : List Query × State) t =>
            let m := t.make_term qpi piter a.2
            (a.1 ++ [Query.term m.1 1 t.pos], m.2))
          ([], acc.2)
        (add_to_query_ref acc.1 Op.OP_OR (Query.multi op r.1 w), r.2))
      (none, st)
  else
    let r := tl.terms.foldl
      (fun (a : List Query × State) t =>
        let g := t.get_query qpi a.2
        (a.1 ++ [g.1], g.2))
      ([], st)
    (some (Query.multi op r.1 w), r.2)

def TermList.as_phrase_query (qpi : Internal) (tl : TermList) (st : State) :
    Option Query × State :=
  tl.as_opwindow_query qpi Op.OP_PHRASE 0 st

def TermList.as_near_query (qpi : Internal) (tl : TermList) (st : State) :
    Option Query × State :=
  let w := if tl.window == 0 then 10 else tl.window
  tl.as_opwindow_query qpi Op.OP_NEAR ((w - 1) % 2 ^ 32) st

def TermList.as_adj_query (qpi : Internal) (tl : TermList) (st : State) :
    Option Query × State :=
  let w := if tl.window == 0 then 10 else tl.window
  tl.as_opwindow_query qpi Op.OP_PHRASE ((w - 1) % 2 ^ 32) st

end QueryParser

namespace QueryParser

/-! ### The generated parser tables -/

def YYNOCODE : Nat := 39
def YYNSTATE : Nat := 75
def YYNRULE : Nat := 52
def YY_NO_ACTION : Nat := YYNSTATE + YYNRULE + 2
def YY_ACCEPT_ACTION : Nat := YYNSTATE + YYNRULE + 1
def YY_ERROR_ACTION : Nat := YYNSTATE + YYNRULE

def yy_action : List Nat := [
    128, 24, 37, 17, 8, 57, 19, 13, 16, 51, 27, 28, 29, 31, 6, 1, 2, 11, 12, 7,
    36, 15, 23, 75, 47, 48, 72, 34, 44, 14, 5, 40, 37, 38, 8, 57, 19, 13, 16, 45,
    27, 28, 29, 31, 40, 37, 39, 8, 57, 19, 13, 16, 52, 27, 28, 29, 31, 40, 37, 21,
    8, 57, 19, 13, 16, 53, 27, 28, 29, 31, 40, 37, 22, 8, 57, 19, 13, 16, 30, 27,
    28, 29, 31, 33, 37, 17, 8, 57, 19, 13, 16, 54, 27, 28, 29, 31, 40, 37, 73, 8,
    57, 19, 13, 16, 32, 27, 28, 29, 31, 40, 37, 74, 8, 57, 19, 13, 16, 76, 27, 28,
    29, 31, 4, 1, 2, 11, 12, 55, 36, 15, 9, 10, 47, 48, 72, 34, 56, 14, 5, 66,
    35, 11, 12, 58, 36, 15, 59, 50, 47, 48, 72, 34, 63, 14, 5, 49, 129, 102, 102, 129,
    36, 18, 129, 129, 47, 48, 102, 102, 129, 14, 5, 106, 129, 106, 106, 106, 106, 25, 26, 3,
    4, 1, 2, 129, 43, 42, 36, 20, 129, 129, 47, 48, 61, 106, 129, 14, 5, 36, 20, 129,
    129, 47, 48, 65, 36, 20, 14, 5, 47, 48, 69, 129, 129, 14, 5, 36, 20, 129, 129, 47,
    48, 71, 129, 129, 14, 5, 129, 41, 46, 129, 27, 28, 29, 31, 60, 129, 129, 62, 129, 27,
    28, 29, 31, 64, 129, 129, 62, 129, 27, 28, 29, 31, 129, 129, 68, 129, 129, 62, 129, 27,
    28, 29, 31, 70, 129, 129, 62, 129, 27, 28, 29, 31, 36, 18, 129, 129, 47, 48, 129, 129,
    129, 14, 5, 67, 46, 129, 27, 28, 29, 31, 107, 129, 107, 107, 107, 107, 129, 25, 26, 129,
    129, 129, 129, 129, 43, 42, 129, 129, 129, 129, 129, 129, 107]

def yy_lookahead : List Nat := [
    24, 25, 26, 27, 28, 29, 30, 31, 32, 12, 34, 35, 36, 37, 5, 4, 5, 8, 9, 10,
    11, 12, 33, 0, 15, 16, 17, 18, 12, 20, 21, 25, 26, 27, 28, 29, 30, 31, 32, 12,
    34, 35, 36, 37, 25, 26, 27, 28, 29, 30, 31, 32, 14, 34, 35, 36, 37, 25, 26, 27,
    28, 29, 30, 31, 32, 13, 34, 35, 36, 37, 25, 26, 27, 28, 29, 30, 31, 32, 6, 34,
    35, 36, 37, 25, 26, 27, 28, 29, 30, 31, 32, 12, 34, 35, 36, 37, 25, 26, 27, 28,
    29, 30, 31, 32, 7, 34, 35, 36, 37, 25, 26, 27, 28, 29, 30, 31, 32, 0, 34, 35,
    36, 37, 3, 4, 5, 8, 9, 12, 11, 12, 8, 9, 15, 16, 17, 18, 22, 20, 21, 17,
    18, 8, 9, 19, 11, 12, 19, 12, 15, 16, 17, 18, 12, 20, 21, 20, 38, 8, 9, 38,
    11, 12, 38, 38, 15, 16, 17, 18, 38, 20, 21, 0, 38, 2, 3, 4, 5, 6, 7, 2,
    3, 4, 5, 38, 13, 14, 11, 12, 38, 38, 15, 16, 17, 22, 38, 20, 21, 11, 12, 38,
    38, 15, 16, 17, 11, 12, 20, 21, 15, 16, 17, 38, 38, 20, 21, 11, 12, 38, 38, 15,
    16, 17, 38, 38, 20, 21, 38, 31, 32, 38, 34, 35, 36, 37, 29, 38, 38, 32, 38, 34,
    35, 36, 37, 29, 38, 38, 32, 38, 34, 35, 36, 37, 38, 38, 29, 38, 38, 32, 38, 34,
    35, 36, 37, 29, 38, 38, 32, 38, 34, 35, 36, 37, 11, 12, 38, 38, 15, 16, 38, 38,
    38, 20, 21, 31, 32, 38, 34, 35, 36, 37, 0, 38, 2, 3, 4, 5, 38, 6, 7, 38,
    38, 38, 38, 38, 13, 14, 38, 38, 38, 38, 38, 38, 22]

def YY_SHIFT_USE_DFLT : Int := -4
def YY_SHIFT_MAX : Nat := 36

def yy_shift_ofst : List Int := [
    117, 9, 133, 133, 133, 133, 133, 133, 149, 175, 186, 193, 204, 261, -3, 171, 290, 177, 291, 122,
    291, 119, 11, 135, 23, 16, 27, 38, 52, 72, 79, 97, 115, 114, 124, 127, 140]

def YY_REDUCE_USE_DFLT : Int := -25
def YY_REDUCE_MAX : Nat := 14

def yy_reduce_ofst : List Int := [
    -24, 6, 19, 32, 45, 58, 71, 84, 196, 205, 214, 225, 234, 252, -11]

def yy_default : List Nat := [
    85, 85, 85, 85, 85, 85, 85, 85, 86, 127, 127, 127, 127, 103, 127, 104, 105, 127, 104, 127,
    106, 82, 83, 127, 84, 127, 127, 111, 112, 113, 127, 114, 127, 84, 127, 127, 127, 77, 78, 79,
    84, 91, 119, 121, 123, 125, 105, 108, 109, 110, 118, 117, 120, 122, 124, 126, 115, 87, 88, 89,
    93, 101, 107, 116, 95, 97, 99, 90, 92, 100, 94, 96, 98, 80, 81]

def YY_SZ_ACTTAB : Nat := yy_action.length

/-- `yyRuleInfo`: the left-hand side symbol and the number of right-hand side
symbols of each rule. -/
def yyRuleInfo : List (Nat × Nat) := [
    (24, 1), (24, 0), (25, 1), (25, 3), (25, 3), (25, 4), (25, 4), (25, 3), (25, 3), (27, 1),
    (27, 0), (26, 1), (26, 1), (28, 2), (28, 3), (28, 2), (28, 2), (28, 2), (28, 3), (28, 2),
    (28, 3), (28, 2), (28, 3), (28, 1), (28, 2), (28, 2), (28, 3), (30, 1), (30, 1), (31, 1),
    (31, 1), (29, 1), (29, 1), (32, 1), (32, 1), (32, 3), (32, 1), (32, 1), (32, 1), (32, 1),
    (32, 3), (32, 2), (33, 1), (33, 2), (34, 2), (34, 2), (35, 2), (35, 2), (36, 3), (36, 3),
    (37, 3), (37, 3)]

/-! Token codes (`queryparser_token.h`, in the order of `yyTokenName`). -/

def ERROR : Nat := 1
def OR : Nat := 2
def XOR : Nat := 3
def AND : Nat := 4
def NOT : Nat := 5
def NEAR : Nat := 6
def ADJ : Nat := 7
def LOVE : Nat := 8
def HATE : Nat := 9
def HATE_AFTER_AND : Nat := 10
def SYNONYM : Nat := 11
def TERM : Nat := 12
def GROUP_TERM : Nat := 13
def PHR_TERM : Nat := 14
def WILD_TERM : Nat := 15
def PARTIAL_TERM : Nat := 16
def BOOLEAN_FILTER : Nat := 17
def RANGE_START : Nat := 18
def RANGE_END : Nat := 19
def QUOTE : Nat := 20
def BRA : Nat := 21
def KET : Nat := 22

/-- `YYMINORTYPE`: the semantic value of a stack slot. -/
inductive Minor where
  /-- not set (`yyinit`) -/
  | unset
  /-- `yy0`: a `Term *` from the lexer, possibly NULL -/
  | token (t : Option Term)
  /-- `yy73`: a `Query *`, possibly NULL -/
  | query (q : Option Query)
  /-- `yy12`: a `ProbQuery *` -/
  | prob (p : ProbQuery)
  /-- `yy27`: a `TermList *` -/
  | terms (l : TermList)
  /-- `yy76`: a `TermGroup *` -/
  | group (g : TermGroup)

def Minor.yy0 : Minor → Except Fault (Option Term)
  | Minor.token t => Except.ok t
  | _ => Except.error Fault.badStack

def Minor.yy73 : Minor → Except Fault (Option Query)
  | Minor.query q => Except.ok q
  | _ => Except.error Fault.badStack

def Minor.yy12 : Minor → Except Fault ProbQuery
  | Minor.prob p => Except.ok p
  | _ => Except.error Fault.badStack

def Minor.yy27 : Minor → Except Fault TermList
  | Minor.terms l => Except.ok l
  | _ => Except.error Fault.badStack

def Minor.yy76 : Minor → Except Fault TermGroup
  | Minor.group g => Except.ok g
  | _ => Except.error Fault.badStack

/-- Dereference of a `Term *`. -/
def derefTerm : Option Term → Except Fault Term
  | some t => Except.ok t
  | none => Except.error Fault.nullDeref

/-- `yyStackEntry`. -/
structure yyStackEntry where
  stateno : Nat
  major : Nat
  minor : Minor

/-- `yyParser`; the top of `yystack` is the head of the list. -/
structure yyParser where
  yyerrcnt : Int
  yystack : List yyStackEntry

/-- `ParseAlloc`. -/
def ParseAlloc : yyParser := ⟨0, []⟩

/-- `yy_find_shift_action`, for the state on top of the stack. -/
def yy_find_shift_action (stateno : Nat) (iLookAhead : Nat) : Nat :=
  if stateno > YY_SHIFT_MAX then yy_default.getD stateno 0
  else
    let i := yy_shift_ofst.getD stateno 0
    if i == YY_SHIFT_USE_DFLT then yy_default.getD stateno 0
    else
      let i := i + (iLookAhead : Int)
      if i < 0 || i ≥ (YY_SZ_ACTTAB : Int) || yy_lookahead.getD i.toNat 0 != iLookAhead then
        yy_default.getD stateno 0
      else yy_action.getD i.toNat 0

/-- `yy_find_reduce_action` (no error symbol is defined, so the table is read
without checks). -/
def yy_find_reduce_action (stateno : Nat) (iLookAhead : Nat) : Nat :=
  let i := yy_reduce_ofst.getD stateno 0 + (iLookAhead : Int)
  yy_action.getD i.toNat 0

/-- `yy_shift`. -/
def yy_shift (p : yyParser) (yyNewState yyMajor : Nat) (yypMinor : Minor) : yyParser :=
  { p with yystack := ⟨yyNewState, yyMajor, yypMinor⟩ :: p.yystack }

/-- `yy_parse_failed`: empty the stack and set the default message. -/
def yy_parse_failed (p : yyParser) (st : State) : yyParser × State :=
  ({ p with yystack := [] },
    if st.error.isNone then { st with error := some "parse error" } else st)

/-- `yy_accept`. -/
def yy_accept (p : yyParser) : yyParser := { p with yystack := [] }

/-- Outcome of the code of a rule: the value of its left-hand side, or the
parse was failed and the action returned. -/
inductive ActionResult where
  | value (m : Minor) (st : State)
  | failed (st : State)

/-- `yymsp[-k].minor`. -/
def msp (stack : List yyStackEntry) (k : Nat) : Except Fault Minor :=
  match stack.get? k with
  | some e => Except.ok e.minor
  | none => Except.error Fault.badStack

/-- `BOOL_OP_TO_QUERY`. -/
def BOOL_OP_TO_QUERY (st : State) (a : Option Query) (op : Op) (b : Option Query)
    (op_txt : String) : ActionResult :=
  match a, b with
  | some qa, some qb => ActionResult.value (Minor.query (some (Query.pair op qa qb))) st
  | _, _ =>
    ActionResult.failed { st with error := some ("Syntax: <expression> " ++ op_txt ++ " <expression>") }

/-- The first step of `prob_expr ::= prob`: the plain query with the loved
part applied. -/
def probLoved (p : ProbQuery) : Option Query :=
  let q := p.query
  -- Handle any "+ terms".
  match p.love with
  | some love =>
    if love.isEmpty then some love
    else
      match q with
      | some q0 => some (Query.pair Op.OP_AND_MAYBE love q0)
      | none => some love
  | none => q

/-- The second step of `prob_expr ::= prob`: the boolean filters applied. -/
def probPositive (p : ProbQuery) : Option Query :=
  let q := probLoved p
  -- Handle any boolean filters.
  if !p.filter.isEmpty then
    match q with
    | some q0 => some (Query.pair Op.OP_FILTER q0 p.merge_filters)
    | none => some (Query.scale Op.OP_SCALE_WEIGHT p.merge_filters 0)
  else q

/-- The code of `prob_expr ::= prob`. -/
def probExprAction (st : State) (p : ProbQuery) : ActionResult :=
  let q := probPositive p
  -- Handle any "- terms".
  match p.hate with
  | some hate =>
    if !hate.isEmpty then
      match q with
      | none => ActionResult.failed st
      | some q0 => ActionResult.value (Minor.query (some (Query.pair Op.OP_AND_NOT q0 hate))) st
    else ActionResult.value (Minor.query q) st
  | none => ActionResult.value (Minor.query q) st

/-- `prob ::= RANGE_START RANGE_END` (rule 13), once the range was accepted
for slot `valno`. -/
def prob_range_first (valno : Nat) (range : Query) : ProbQuery :=
  { ProbQuery.new with filter := filterUpdate [] (filter_group_id.ofValno valno) (fun _ => range) }

/-- `prob ::= stop_prob RANGE_START RANGE_END` (rule 14), once the range was
accepted for slot `valno`. -/
def prob_range_next (p : ProbQuery) (valno : Nat) (range : Query) : ProbQuery :=
  let g := filter_group_id.ofValno valno
  { p with filter := filterUpdate p.filter g (fun q => Query.pair Op.OP_OR q range) }

/-- `prob ::= stop_term stop_term` (rule 15). -/
def prob_terms_first (default_op : Op) (q1 q2 : Option Query) : Except Fault ProbQuery := do
  match q2 with
  | some t2 =>
    let op := default_op
    match q1 with
    | some t1 =>
      if op == Op.OP_NEAR || op == Op.OP_NEAR then
        -- Set the window size to 11 for the first pair of terms.
        return { ProbQuery.new with query := some (Query.multi op [t1, t2] 11) }
      else
        return { ProbQuery.new with query := ← add_to_query q1 op q2 }
    | none => return { ProbQuery.new with query := ← add_to_query q1 op q2 }
  | none => return { ProbQuery.new with query := q1 }

/-- `prob ::= prob stop_term` (rule 16). -/
def prob_term_next (default_op : Op) (p : ProbQuery) (t : Option Query) :
    Except Fault ProbQuery := do
  match t with
  | some _ => return { p with query := ← add_to_query p.query default_op t }
  | none => return p

/-- `prob ::= LOVE term` (rule 17). -/
def prob_love_first (default_op : Op) (t : Option Query) : ProbQuery :=
  if default_op == Op.OP_AND then { ProbQuery.new with query := t }
  else { ProbQuery.new with love := t }

/-- `prob ::= stop_prob LOVE term` (rule 18). -/
def prob_love_next (default_op : Op) (p : ProbQuery) (t : Option Query) :
    Except Fault ProbQuery := do
  if default_op == Op.OP_AND then
    -- The default op is AND, so we just put loved terms into the query.
    return { p with query := ← add_to_query p.query Op.OP_AND t }
  else
    return { p with love := ← add_to_query p.love Op.OP_AND t }

/-- `prob ::= HATE term` (rule 19). -/
def prob_hate_first (t : Option Query) : ProbQuery := { ProbQuery.new with hate := t }

/-- `prob ::= stop_prob HATE term` (rule 20). -/
def prob_hate_next (p : ProbQuery) (t : Option Query) : Except Fault ProbQuery := do
  return { p with hate := ← add_to_query p.hate Op.OP_OR t }

/-- `prob ::= HATE BOOLEAN_FILTER` (rule 21); `q` is the filter's `get_query()`. -/
def prob_hate_filter_first (q : Query) : ProbQuery := { ProbQuery.new with hate := some q }

/-- `prob ::= stop_prob HATE BOOLEAN_FILTER` (rule 22). -/
def prob_hate_filter_next (p : ProbQuery) (q : Query) : ProbQuery :=
  { p with hate := add_to_query_ref p.hate Op.OP_OR q }

/-- `prob ::= BOOLEAN_FILTER` and `prob ::= LOVE BOOLEAN_FILTER` (rules 23 and
25); `q` is the filter's `get_query()` and `g` its group. -/
def prob_filter_first (g : filter_group_id) (q : Query) : ProbQuery :=
  { ProbQuery.new with filter := filterUpdate [] g (fun _ => q) }

/-- `prob ::= stop_prob BOOLEAN_FILTER` and `prob ::= stop_prob LOVE
BOOLEAN_FILTER` (rules 24 and 26). -/
def prob_filter_next (p : ProbQuery) (g : filter_group_id) (q : Query) : ProbQuery :=
  -- We OR filters with the same prefix...
  { p with filter := filterUpdate p.filter g (fun old => Query.pair Op.OP_OR old q) }

/-- `stop_prob ::= stop_term` (rule 28). -/
def stop_prob_of_term (t : Option Query) : ProbQuery := { ProbQuery.new with query := t }

/-- The code of the two `RANGE_START RANGE_END` rules; `base` is the
`ProbQuery` to extend (a new one for rule 13). -/
def rangeAction (qpi : Internal) (st : State) (base : Option ProbQuery) (a b : Option Term) :
    Except Fault ActionResult := do
  let ta ← derefTerm a
  let tb ← derefTerm b
  let r := State.value_range qpi st ta tb
  if r.1 == BAD_VALUENO then
    return ActionResult.failed r.2.2
  match base with
  | none => return ActionResult.value (Minor.prob (prob_range_first r.1 r.2.1)) r.2.2
  | some p => return ActionResult.value (Minor.prob (prob_range_next p r.1 r.2.1)) r.2.2

/-- The code run for rule `yyruleno` (the `switch` of `yy_reduce`). -/
def ruleAction (qpi : Internal) (st : State) (stk : List yyStackEntry) (yyruleno : Nat) :
    Except Fault ActionResult := do
  match yyruleno with
  | 0 => -- query ::= expr
    match ← (← msp stk 0).yy73 with
    | some q => return ActionResult.value Minor.unset { st with query := q }
    | none => return ActionResult.value Minor.unset { st with query := Query.empty }
  | 1 => -- query ::=
    return ActionResult.value Minor.unset { st with query := Query.empty }
  | 2 | 9 => -- expr ::= prob_expr, bool_arg ::= expr
    return ActionResult.value (Minor.query (← (← msp stk 0).yy73)) st
  | 3 => -- expr ::= bool_arg AND bool_arg
    return BOOL_OP_TO_QUERY st (← (← msp stk 2).yy73) Op.OP_AND (← (← msp stk 0).yy73) "AND"
  | 4 => -- expr ::= bool_arg NOT bool_arg
    let a ← (← msp stk 2).yy73
    let a := if a.isNone && hasFlag st.flags FLAG_PURE_NOT then some (Query.term "" 1 0) else a
    return BOOL_OP_TO_QUERY st a Op.OP_AND_NOT (← (← msp stk 0).yy73) "NOT"
  | 5 => -- expr ::= bool_arg AND NOT bool_arg
    return BOOL_OP_TO_QUERY st (← (← msp stk 3).yy73) Op.OP_AND_NOT (← (← msp stk 0).yy73)
      "AND NOT"
  | 6 => -- expr ::= bool_arg AND HATE_AFTER_AND bool_arg
    return BOOL_OP_TO_QUERY st (← (← msp stk 3).yy73) Op.OP_AND_NOT (← (← msp stk 0).yy73) "AND"
  | 7 => -- expr ::= bool_arg OR bool_arg
    return BOOL_OP_TO_QUERY st (← (← msp stk 2).yy73) Op.OP_OR (← (← msp stk 0).yy73) "OR"
  | 8 => -- expr ::= bool_arg XOR bool_arg
    return BOOL_OP_TO_QUERY st (← (← msp stk 2).yy73) Op.OP_XOR (← (← msp stk 0).yy73) "XOR"
  | 10 => -- bool_arg ::=
    return ActionResult.value (Minor.query none) st
  | 11 => -- prob_expr ::= prob
    return probExprAction st (← (← msp stk 0).yy12)
  | 12 | 30 | 32 => -- prob_expr ::= term, stop_term ::= compound_term, term ::= compound_term
    return ActionResult.value (Minor.query (← (← msp stk 0).yy73)) st
  | 13 => -- prob ::= RANGE_START RANGE_END
    rangeAction qpi st none (← (← msp stk 1).yy0) (← (← msp stk 0).yy0)
  | 14 => -- prob ::= stop_prob RANGE_START RANGE_END
    rangeAction qpi st (some (← (← msp stk 2).yy12)) (← (← msp stk 1).yy0) (← (← msp stk 0).yy0)
  | 15 => -- prob ::= stop_term stop_term
    let p ← prob_terms_first qpi.default_op (← (← msp stk 1).yy73) (← (← msp stk 0).yy73)
    return ActionResult.value (Minor.prob p) st
  | 16 => -- prob ::= prob stop_term
    let p ← prob_term_next qpi.default_op (← (← msp stk 1).yy12) (← (← msp stk 0).yy73)
    return ActionResult.value (Minor.prob p) st
  | 17 => -- prob ::= LOVE term
    return ActionResult.value
      (Minor.prob (prob_love_first qpi.default_op (← (← msp stk 0).yy73))) st
  | 18 => -- prob ::= stop_prob LOVE term
    let p ← prob_love_next qpi.default_op (← (← msp stk 2).yy12) (← (← msp stk 0).yy73)
    return ActionResult.value (Minor.prob p) st
  | 19 => -- prob ::= HATE term
    return ActionResult.value (Minor.prob (prob_hate_first (← (← msp stk 0).yy73))) st
  | 20 => -- prob ::= stop_prob HATE term
    let p ← prob_hate_next (← (← msp stk 2).yy12) (← (← msp stk 0).yy73)
    return ActionResult.value (Minor.prob p) st
  | 21 => -- prob ::= HATE BOOLEAN_FILTER
    let t ← derefTerm (← (← msp stk 0).yy0)
    let r := t.get_query qpi st
    return ActionResult.value (Minor.prob (prob_hate_filter_first r.1)) r.2
  | 22 => -- prob ::= stop_prob HATE BOOLEAN_FILTER
    let p ← (← msp stk 2).yy12
    let t ← derefTerm (← (← msp stk 0).yy0)
    let r := t.get_query qpi st
    return ActionResult.value (Minor.prob (prob_hate_filter_next p r.1)) r.2
  | 23 | 25 => -- prob ::= BOOLEAN_FILTER, prob ::= LOVE BOOLEAN_FILTER
    let t ← derefTerm (← (← msp stk 0).yy0)
    let r := t.get_query qpi st
    return ActionResult.value (Minor.prob (prob_filter_first t.get_filter_group_id r.1)) r.2
  | 24 => -- prob ::= stop_prob BOOLEAN_FILTER
    let p ← (← msp stk 1).yy12
    let t ← derefTerm (← (← msp stk 0).yy0)
    let r := t.get_query qpi st
    return ActionResult.value (Minor.prob (prob_filter_next p t.get_filter_group_id r.1)) r.2
  | 26 => -- prob ::= stop_prob LOVE BOOLEAN_FILTER
    let p ← (← msp stk 2).yy12
    let t ← derefTerm (← (← msp stk 0).yy0)
    let r := t.get_query qpi st
    return ActionResult.value (Minor.prob (prob_filter_next p t.get_filter_group_id r.1)) r.2
  | 27 => -- stop_prob ::= prob
    return ActionResult.value (Minor.prob (← (← msp stk 0).yy12)) st
  | 28 => -- stop_prob ::= stop_term
    return ActionResult.value (Minor.prob (stop_prob_of_term (← (← msp stk 0).yy73))) st
  | 29 => -- stop_term ::= TERM
    let t ← derefTerm (← (← msp stk 0).yy0)
    if State.is_stopword qpi t then
      return ActionResult.value (Minor.query none) (st.add_to_stoplist t)
    else
      let r := t.get_query_with_auto_synonyms qpi st
      return ActionResult.value (Minor.query (some r.1)) r.2
  | 31 => -- term ::= TERM
    let t ← derefTerm (← (← msp stk 0).yy0)
    let r := t.get_query_with_auto_synonyms qpi st
    return ActionResult.value (Minor.query (some r.1)) r.2
  | 33 => -- compound_term ::= WILD_TERM
    let t ← derefTerm (← (← msp stk 0).yy0)
    return ActionResult.value (Minor.query (some (t.as_wildcarded_query qpi))) st
  | 34 => -- compound_term ::= PARTIAL_TERM
    let t ← derefTerm (← (← msp stk 0).yy0)
    let r := t.as_partial_query qpi st
    return ActionResult.value (Minor.query (some r.1)) r.2
  | 35 => -- compound_term ::= QUOTE phrase QUOTE
    let r := (← (← msp stk 1).yy27).as_phrase_query qpi st
    return ActionResult.value (Minor.query r.1) r.2
  | 36 => -- compound_term ::= phrased_term
    let r := (← (← msp stk 0).yy27).as_phrase_query qpi st
    return ActionResult.value (Minor.query r.1) r.2
  | 37 => -- compound_term ::= group
    let r := (← (← msp stk 0).yy76).as_group qpi st
    return ActionResult.value (Minor.query r.1) r.2
  | 38 => -- compound_term ::= near_expr
    let r := (← (← msp stk 0).yy27).as_near_query qpi st
    return ActionResult.value (Minor.query r.1) r.2
  | 39 => -- compound_term ::= adj_expr
    let r := (← (← msp stk 0).yy27).as_adj_query qpi st
    return ActionResult.value (Minor.query r.1) r.2
  | 40 => -- compound_term ::= BRA expr KET
    return ActionResult.value (Minor.query (← (← msp stk 1).yy73)) st
  | 41 => -- compound_term ::= SYNONYM TERM
    let t ← derefTerm (← (← msp stk 0).yy0)
    let r := t.get_query_with_synonyms qpi st
    return ActionResult.value (Minor.query (some r.1)) r.2
  | 42 => -- phrase ::= TERM
    let t ← derefTerm (← (← msp stk 0).yy0)
    return ActionResult.value (Minor.terms (TermList.new.add_positional_term t)) st
  | 43 | 45 => -- phrase ::= phrase TERM, phrased_term ::= phrased_term PHR_TERM
    let l ← (← msp stk 1).yy27
    let t ← derefTerm (← (← msp stk 0).yy0)
    return ActionResult.value (Minor.terms (l.add_positional_term t)) st
  | 44 => -- phrased_term ::= TERM PHR_TERM
    let t1 ← derefTerm (← (← msp stk 1).yy0)
    let t0 ← derefTerm (← (← msp stk 0).yy0)
    return ActionResult.value
      (Minor.terms ((TermList.new.add_positional_term t1).add_positional_term t0)) st
  | 46 => -- group ::= TERM GROUP_TERM
    let t1 ← derefTerm (← (← msp stk 1).yy0)
    let t0 ← derefTerm (← (← msp stk 0).yy0)
    return ActionResult.value (Minor.group ⟨[t1, t0]⟩) st
  | 47 => -- group ::= group GROUP_TERM
    let g ← (← msp stk 1).yy76
    let t0 ← derefTerm (← (← msp stk 0).yy0)
    return ActionResult.value (Minor.group ⟨g.terms ++ [t0]⟩) st
  | 48 | 50 => -- near_expr ::= TERM NEAR TERM, adj_expr ::= TERM ADJ TERM
    let t2 ← derefTerm (← (← msp stk 2).yy0)
    let t0 ← derefTerm (← (← msp stk 0).yy0)
    let l := (TermList.new.add_positional_term t2).add_positional_term t0
    match ← (← msp stk 1).yy0 with
    | some w => return ActionResult.value (Minor.terms (l.adjust_window w.pos)) st
    | none => return ActionResult.value (Minor.terms l) st
  | 49 | 51 => -- near_expr ::= near_expr NEAR TERM, adj_expr ::= adj_expr ADJ TERM
    let l ← (← msp stk 2).yy27
    let t0 ← derefTerm (← (← msp stk 0).yy0)
    let l := l.add_positional_term t0
    match ← (← msp stk 1).yy0 with
    | some w => return ActionResult.value (Minor.terms (l.adjust_window w.pos)) st
    | none => return ActionResult.value (Minor.terms l) st
  | _ => return ActionResult.value Minor.unset st

/-- `yy_reduce`. -/
def yy_reduce (qpi : Internal) (p : yyParser) (st : State) (yyruleno : Nat) :
    Except Fault (yyParser × State) := do
  match ← ruleAction qpi st p.yystack yyruleno with
  | ActionResult.failed st1 => return yy_parse_failed p st1
  | ActionResult.value yygotominor st1 =>
    let info := yyRuleInfo.getD yyruleno (0, 0)
    let yygoto := info.1
    let yysize := info.2
    let stack := p.yystack.drop yysize
    match stack with
    | [] => throw Fault.badStack
    | top :: _ =>
      let yyact := yy_find_reduce_action top.stateno yygoto
      if yyact < YYNSTATE then
        return (yy_shift { p with yystack := stack } yyact yygoto yygotominor, st1)
      else
        return (yy_accept { p with yystack := stack }, st1)

/-- The `do ... while` loop of `Parse`; `yyendofinput` is fixed by the token the
call started with. -/
def parseLoop (qpi : Internal) (yymajor : Nat) (yyminor : Minor) (yyendofinput : Bool) :
    Nat → yyParser → State → Except Fault (yyParser × State)
  | 0, _, _ => Except.error Fault.fuel
  | fuel + 1, p, st =>
    match p.yystack with
    | [] => Except.error Fault.badStack
    | top :: _ =>
      let yyact := yy_find_shift_action top.stateno yymajor
      if yyact < YYNSTATE then
        let p := yy_shift p yyact yymajor yyminor
        Except.ok ({ p with yyerrcnt := p.yyerrcnt - 1 }, st)
      else if yyact < YYNSTATE + YYNRULE then
        match yy_reduce qpi p st (yyact - YYNSTATE) with
        | Except.error e => Except.error e
        | Except.ok (p1, st1) =>
          if p1.yystack.isEmpty then Except.ok (p1, st1)
          else parseLoop qpi yymajor yyminor yyendofinput fuel p1 st1
      else
        let r := if p.yyerrcnt ≤ 0 then yy_parse_failed p st else (p, st)
        let p1 := { r.1 with yyerrcnt := 3 }
        if yyendofinput then
          let r2 := yy_parse_failed p1 r.2
          Except.ok r2
        else Except.ok (p1, r.2)

/-- `Parse`. -/
def Parse (qpi : Internal) (fuel : Nat) (p : yyParser) (yymajor : Nat) (yyminor : Option Term)
    (st : State) : Except Fault (yyParser × State) :=
  let p := if p.yystack.isEmpty then { yyerrcnt := -1, yystack := [⟨0, 0, Minor.unset⟩] } else p
  parseLoop qpi yymajor (Minor.token yyminor) (yymajor == 0) fuel p st

end QueryParser

namespace QueryParser

/-! ### The lexer (`QueryParser::Internal::parse_query`) -/

/-- `*it` of a `Utf8Iterator`: the code point, or `unsigned(-1)` at the end. -/
def deref : List Char → Nat
  | [] => 0xffffffff
  | c :: _ => c.toNat

/-- Number of bytes of a run of characters. -/
def bytesOf (cs : List Char) : Nat := (cs.map Char.utf8Size).sum

def is_phrase_generator (ch : Nat) : Bool :=
  ch != 0 && decide (ch < 128) && ".-/:\\@".data.any (fun c => c.toNat == ch)

def is_stem_preventer (ch : Nat) : Bool :=
  ch != 0 && decide (ch < 128) && "(/\\@<>=*[\x7b\"".data.any (fun c => c.toNat == ch)

def should_stem (u : UnicodeLib) (term : String) : Bool :=
  let SHOULD_STEM_MASK : Nat :=
    (1 <<< LOWERCASE_LETTER) ||| (1 <<< TITLECASE_LETTER) ||| (1 <<< MODIFIER_LETTER) |||
      (1 <<< OTHER_LETTER)
  ((SHOULD_STEM_MASK >>> u.get_category (deref term.data)) &&& 1) != 0

def UNICODE_IGNORE : Nat := 0xffffffff

def check_infix (ch : Nat) : Nat :=
  if ch == 39 || ch == 38 || ch == 0xb7 || ch == 0x5f4 || ch == 0x2027 then ch
  else if ch == 0x2019 || ch == 0x201b then 39
  else if decide (ch ≥ 0x200b) && (decide (ch ≤ 0x200d) || ch == 0x2060 || ch == 0xfeff) then
    UNICODE_IGNORE
  else 0

def check_infix_digit (ch : Nat) : Nat :=
  if ch == 44 || ch == 46 || ch == 59 || ch == 0x037e || ch == 0x0589 || ch == 0x060D ||
      ch == 0x07F8 || ch == 0x2044 || ch == 0xFE10 || ch == 0xFE13 || ch == 0xFE14 then ch
  else if decide (ch ≥ 0x200b) && (decide (ch ≤ 0x200d) || ch == 0x2060 || ch == 0xfeff) then
    UNICODE_IGNORE
  else 0

/-- The acronym loop of `parse_term`, entered with `*p` an upper-case letter:
the initials read and the position reached. -/
def acronymLoop : List Char → String → String × List Char
  | [], t => (t, [])
  | c :: p, t =>
    let t := t.push c
    match p with
    | [] => (t, [])
    | d :: p1 =>
      if d != '.' then (t, d :: p1)
      else
        match p1 with
        | [] => (t, [])
        | e :: _ => if U_isupper e.toNat then acronymLoop p1 t else (t, p1)

/-- The word loop of `parse_term`, at the test `++it != end`: `it` still points
at the character handled last. -/
def wordLoop (u : UnicodeLib) : List Char → Nat → String → String × List Char
  | [], _, term => (term, [])
  | _ :: [], _, term => (term, [])
  | _ :: c :: rest, prevch, term =>
    let ch := c.toNat
    if !u.is_wordchar ch then
      match rest with
      | [] => (term, c :: rest)
      | n :: _ =>
        if !u.is_wordchar n.toNat then (term, c :: rest)
        else
          let nextch := n.toNat
          let ch := if is_digit u prevch && is_digit u nextch then check_infix_digit ch
            else check_infix ch
          if ch == 0 then (term, c :: rest)
          else if ch == UNICODE_IGNORE then wordLoop u (c :: rest) prevch term
          else wordLoop u (c :: rest) ch (term.push (Char.ofNat ch))
    else wordLoop u (c :: rest) ch (term.push (Char.ofNat ch))

/-- The suffix loop of `parse_term` (`do ... while (is_suffix(*++p))`), entered
with `*p` a suffix character. -/
def suffixLoop (term : String) : List Char → String → String × List Char
  | [], suff_term => (suff_term, [])
  | c :: p, suff_term =>
    if strSize suff_term - strSize term == 3 then ("", c :: p)
    else
      let suff_term := suff_term.push c
      if is_suffix (deref p) then suffixLoop term p suff_term else (suff_term, p)

/-- `QueryParser::Internal::parse_term`: the term, the new position of `it` and
`was_acronym`. -/
def parse_term (qpi : Internal) (it : List Char) : String × List Char × Bool :=
  let a : String × List Char :=
    if U_isupper (deref it) then
      let r := acronymLoop it ""
      if strSize r.1 > 1 && (r.2.isEmpty || !qpi.uni.is_wordchar (deref r.2)) then (r.1, r.2)
      else ("", it)
    else ("", it)
  let was_acronym := a.1 != ""
  if a.1 == "" then
    let prevch := deref it
    let w := wordLoop qpi.uni it prevch ("".push (Char.ofNat prevch))
    let term := w.1
    let it := w.2
    if !it.isEmpty && is_suffix (deref it) then
      let s := suffixLoop term it term
      if s.1 != "" && (s.2.isEmpty || !qpi.uni.is_wordchar (deref s.2)) then
        let use_suff_term :=
          if qpi.db.term_exists (qpi.uni.tolower s.1) then true
          else !qpi.db.term_exists (qpi.uni.tolower term)
        if use_suff_term then (s.1, s.2, was_acronym) else (term, it, was_acronym)
      else (term, it, was_acronym)
    else (term, it, was_acronym)
  else (a.1, a.2, was_acronym)

/-- The lexer modes. -/
inductive Mode where
  | DEFAULT | IN_QUOTES | IN_PREFIXED_QUOTES | IN_PHRASED_TERM | IN_GROUP | EXPLICIT_SYNONYM
  deriving DecidableEq, Repr

/-- The variables of `parse_query` that live across loop iterations.  `it` is
the unread rest of the query string; the back of `prefix_stack` is the head of
the list. -/
structure LexState where
  it : List Char
  mode : Mode
  newprev : Nat
  term_pos : Nat
  prefix_stack : List PrefixInfo
  pParser : yyParser
  state : State
  corrected_query : String
  correction_offset : Int

/-- Where control goes next in `parse_query`. -/
inductive Entry where
  /-- the label `main_lex_loop` -/
  | main_lex_loop
  /-- the test of the `while` loop -/
  | loop_test
  /-- the label `just_had_operator` -/
  | just_had_operator
  /-- the label `just_had_synonym_operator` -/
  | just_had_synonym_operator
  /-- the label `phrased_term`, with the locals that are live there -/
  | phrased_term (prefixinfo : Option PrefixInfo) (last_was_operator : Bool)
      (term_start_index : Nat)
  /-- the label `done` (also reached by `break`) -/
  | done

/-- A call of `Parse` from the lexer. -/
def LexState.parse (qpi : Internal) (fuel : Nat) (ls : LexState) (token : Nat)
    (minor : Option Term) : Except Fault LexState := do
  let r ← Parse qpi fuel ls.pParser token minor ls.state
  return { ls with pParser := r.1, state := r.2 }

/-- `prefix_stack.back()`. -/
def LexState.prefix_back (ls : LexState) : Except Fault PrefixInfo :=
  match ls.prefix_stack with
  | p :: _ => Except.ok p
  | [] => Except.error Fault.nullDeref

/-- `prefix_stack.pop_back()`. -/
def LexState.prefix_pop (ls : LexState) : Except Fault LexState :=
  match ls.prefix_stack with
  | _ :: rest => Except.ok { ls with prefix_stack := rest }
  | [] => Except.error Fault.nullDeref

/-- `Term(const string & name_)`. -/
def Term.ofName (name : String) : Term := ⟨name, [], "", stem_strategy.STEM_NONE, 0⟩

/-- `Term(termpos pos_)`. -/
def Term.ofPos (pos : Nat) : Term := ⟨"", [], "", stem_strategy.STEM_NONE, pos % 2 ^ 32⟩

/-- The forward scan for a "start of range" token: how many characters from
`it` lie before the end of the `..`, when the scan finds one that is followed
by a character allowed to start the end of the range. -/
def rangeScan (u : UnicodeLib) : List Char → Nat → Nat → Option Nat
  | [], _, _ => none
  | c :: p, ch, k =>
    if ch == 46 && c.toNat == 46 then
      match p with
      | [] => none
      | d :: _ => if d.toNat ≤ 32 || d.toNat == 41 then none else some (k + 1)
    else
      let ch := c.toNat
      if !(u.is_wordchar ch || u.is_currency ch ||
          (decide (ch < 128) && (ch == 0 || "%,-./:@".data.any (fun x => x.toNat == ch)))) then
        none
      else rangeScan u p ch (k + 1)

/-- The characters of a `RANGE_END`: the first one, then all up to whitespace
or `)`. -/
def rangeEnd : List Char → List Char × List Char
  | [] => ([], [])
  | c :: p =>
    let r := p.span (fun d => decide (d.toNat > 32) && d.toNat != 41)
    (c :: r.1, r.2)

/-- The name of a quoted boolean filter term, where `""` stands for `"`. -/
def quotedName : List Char → String → String × List Char
  | [], name => (name, [])
  | c :: it, name =>
    if c == '"' then
      match it with
      | [] => (name, [])
      | d :: it1 => if d != '"' then (name, d :: it1) else quotedName it1 (name.push d)
    else quotedName it (name.push c)

/-- The digits of `NEAR/n` or `ADJ/n` (`while (++p != end && U_isdigit(*p))`),
with `p` still on the character before them; `width` is a `size_t`. -/
def widthLoop : List Char → Nat → Nat × List Char
  | [], width => (width, [])
  | _ :: [], width => (width, [])
  | _ :: d :: rest, width =>
    if U_isdigit d.toNat then widthLoop (d :: rest) ((width * 10 + (d.toNat - 48)) % 2 ^ 64)
    else (width, d :: rest)

/-- `s.replace(pos, n, repl)` counted in bytes, for `pos` and `pos + n` on
character boundaries. -/
def replaceBytes : List Char → Nat → Nat → List Char → List Char
  | s, 0, n, repl =>
    let rec dropBytes : List Char → Nat → List Char
      | [], _ => []
      | c :: cs, m => if m == 0 then c :: cs else dropBytes cs (m - c.utf8Size)
    repl ++ dropBytes s n
  | [], _ + 1, _, repl => repl
  | c :: cs, pos + 1, n, repl => c :: replaceBytes cs (pos + 1 - c.utf8Size) n repl

end QueryParser

namespace QueryParser

/-- `prefixmap.find(field)`. -/
def findPrefix : List (String × PrefixInfo) → String → Option PrefixInfo
  | [], _ => none
  | (k, v) :: rest, field => if k == field then some v else findPrefix rest field

/-- The text of an operator word, upper-cased under `FLAG_BOOLEAN_ANY_CASE`. -/
def operatorText (flags : Nat) (term : String) : String :=
  if hasFlag flags FLAG_BOOLEAN_ANY_CASE then ⟨term.data.map C_toupper⟩ else term

/-- Whether `strchr(s, c)` of the C library is not `NULL`: `c` is converted to
`char`, which keeps its low byte, and the terminating NUL counts as a
character of `s`. -/
def strchr (s : String) (c : Nat) : Bool :=
  c % 256 == 0 || s.data.any (fun x => x.toNat == c % 256)

/-- The handling of a character that is not a word character (the `switch` of
the lexer loop). -/
def lexPunct (qpi : Internal) (fuel flags : Nat) (ls : LexState) (last_was_operator : Bool) :
    Except Fault (LexState × Entry) := do
  match ls.it with
  | [] => return (ls, Entry.done)
  | c :: it =>
    let prev := ls.newprev
    let ch := c.toNat
    let ls := { ls with it := it, newprev := ch }
    let ls := if ls.mode == Mode.IN_GROUP then { ls with mode := Mode.DEFAULT } else ls
    if ch == 34 then
      -- Quoted phrase.
      let skipped := if ls.mode == Mode.DEFAULT then
          ls.it.dropWhile (fun d => qpi.uni.is_whitespace d.toNat) else ls.it
      let ls := { ls with it := skipped }
      if ls.mode == Mode.DEFAULT && ls.it.isEmpty then
        return (ls, Entry.done)
      else if ls.mode == Mode.DEFAULT && deref ls.it == 34 then
        return ({ ls with newprev := 34, it := ls.it.tail }, Entry.loop_test)
      else if hasFlag flags FLAG_PHRASE then
        let ls ← ls.parse qpi fuel QUOTE none
        if ls.mode == Mode.DEFAULT then
          return ({ ls with mode := Mode.IN_QUOTES }, Entry.loop_test)
        else
          let ls ← if ls.mode == Mode.IN_PREFIXED_QUOTES then ls.prefix_pop else pure ls
          return ({ ls with mode := Mode.DEFAULT }, Entry.loop_test)
      else return (ls, Entry.loop_test)
    else if ch == 43 || ch == 45 then
      -- Loved or hated term/phrase/subexpression.
      if ls.it.isEmpty then return (ls, Entry.done)
      else if decide (prev > 32) && prev != 40 then return (ls, Entry.loop_test)
      else if qpi.uni.is_whitespace (deref ls.it) || deref ls.it == 43 || deref ls.it == 45 then
        return ({ ls with newprev := deref ls.it, it := ls.it.tail }, Entry.loop_test)
      else if ls.mode == Mode.DEFAULT && hasFlag flags FLAG_LOVEHATE then
        let token := if ch == 43 then LOVE else if last_was_operator then HATE_AFTER_AND else HATE
        let ls ← ls.parse qpi fuel token none
        return (ls, Entry.just_had_operator)
      else return (ls, Entry.loop_test)
    else if ch == 40 then
      -- Bracketed subexpression.
      let ls := { ls with it := ls.it.dropWhile (fun d => qpi.uni.is_whitespace d.toNat) }
      if ls.it.isEmpty then return (ls, Entry.done)
      else if decide (prev > 32) && !strchr "()+-" prev then
        return (ls, Entry.loop_test)
      else if deref ls.it == 41 then
        return ({ ls with newprev := 41, it := ls.it.tail }, Entry.loop_test)
      else if ls.mode == Mode.DEFAULT && hasFlag flags FLAG_BOOLEAN then
        let top ← ls.prefix_back
        let ls := { ls with prefix_stack := top :: ls.prefix_stack }
        let ls ← ls.parse qpi fuel BRA none
        return (ls, Entry.loop_test)
      else return (ls, Entry.loop_test)
    else if ch == 41 then
      -- End of bracketed subexpression.
      if ls.mode == Mode.DEFAULT && hasFlag flags FLAG_BOOLEAN then
        let ls ← if ls.prefix_stack.length > 1 then ls.prefix_pop else pure ls
        let ls ← ls.parse qpi fuel KET none
        return (ls, Entry.loop_test)
      else return (ls, Entry.loop_test)
    else if ch == 126 then
      -- Synonym expansion.
      if ls.it.isEmpty then return (ls, Entry.done)
      else if ls.mode == Mode.DEFAULT && hasFlag flags FLAG_SYNONYM then
        if decide (prev > 32) && !strchr "+-(" prev then
          return (ls, Entry.loop_test)
        else if !qpi.uni.is_wordchar (deref ls.it) then return (ls, Entry.loop_test)
        else
          let ls ← ls.parse qpi fuel SYNONYM none
          return ({ ls with mode := Mode.EXPLICIT_SYNONYM }, Entry.just_had_synonym_operator)
      else return (ls, Entry.loop_test)
    else return (ls, Entry.loop_test)

/-- The check for a field name in front of a term.  The result is either the
next entry point (the token was a boolean filter, a prefixed phrase or a
prefixed subexpression) or the state and the `prefixinfo` to lex the term with. -/
def lexField (qpi : Internal) (fuel flags : Nat) (ls : LexState) :
    Except Fault ((LexState × Entry) ⊕ (LexState × Option PrefixInfo)) := do
  if (ls.mode == Mode.DEFAULT || ls.mode == Mode.IN_GROUP || ls.mode == Mode.EXPLICIT_SYNONYM) &&
      !qpi.prefixmap.isEmpty then
    let p := ls.it.dropWhile (fun d => qpi.uni.is_wordchar d.toNat)
    match p with
    | c :: d :: _ =>
      if c == ':' && decide (d.toNat > 32) && d.toNat != 41 then
        let field : String := ⟨ls.it.takeWhile (fun x => x != ':')⟩
        -- `p` now stands on the colon
        let p := (ls.it.dropWhile (fun x => x != ':')).tail
        match findPrefix qpi.prefixmap field with
        | some prefixinfo =>
          let ch := deref p
          if prefixinfo.filter then
            let ls := if ls.mode == Mode.IN_GROUP then { ls with mode := Mode.DEFAULT } else ls
            let r : String × List Char :=
              if deref p == 34 then quotedName p.tail ""
              else
                let s := p.span (fun x => decide (x.toNat > 32) && x.toNat != 41)
                (⟨s.1⟩, s.2)
            let ls := { ls with it := r.2 }
            let field := (field.push ':') ++ r.1
            let token : Term := ⟨r.1, prefixinfo.prefixes, field, stem_strategy.STEM_NONE, 0⟩
            let ls ← ls.parse qpi fuel BOOLEAN_FILTER (some token)
            return Sum.inl (ls, Entry.loop_test)
          else if ch == 34 && hasFlag flags FLAG_PHRASE then
            -- Prefixed phrase, e.g.: subject:"space flight"
            let ls := { ls with mode := Mode.IN_PREFIXED_QUOTES }
            let ls ← ls.parse qpi fuel QUOTE none
            let stack := prefixinfo :: ls.prefix_stack
            return Sum.inl ({ ls with it := p.tail, newprev := ch, prefix_stack := stack },
              Entry.loop_test)
          else if ch == 40 && hasFlag flags FLAG_BOOLEAN then
            -- Prefixed subexpression, e.g.: title:(fast NEAR food)
            let ls := { ls with mode := Mode.DEFAULT }
            let ls ← ls.parse qpi fuel BRA none
            let stack := prefixinfo :: ls.prefix_stack
            return Sum.inl ({ ls with it := p.tail, newprev := ch, prefix_stack := stack },
              Entry.loop_test)
          else if qpi.uni.is_wordchar ch then
            return Sum.inr ({ ls with it := p }, some prefixinfo)
          else return Sum.inr (ls, none)
        | none => return Sum.inr (ls, none)
      else return Sum.inr (ls, none)
    | _ => return Sum.inr (ls, none)
  else return Sum.inr (ls, none)

/-- The boolean operator words: the token and its value when the term just
read is one, together with the new position of `it`. -/
def lexOperator (qpi : Internal) (flags : Nat) (ls : LexState) (prefixinfo : Option PrefixInfo)
    (term : String) (was_acronym : Bool) : Option (Nat × Option Term × List Char) :=
  if (ls.mode == Mode.DEFAULT || ls.mode == Mode.IN_GROUP) && hasFlag flags FLAG_BOOLEAN &&
      !was_acronym && prefixinfo.isNone && decide (strSize term ≥ 2) &&
      decide (strSize term ≤ 4) && U_isalpha (firstByte term) then
    let op := operatorText flags term
    let windowed (token : Nat) : Option (Nat × Option Term × List Char) :=
      if deref ls.it == 47 then
        let w := widthLoop ls.it 0
        if w.1 != 0 && (w.2.isEmpty || qpi.uni.is_whitespace (deref w.2)) then
          some (token, some (Term.ofPos w.1), w.2)
        else some (token, none, ls.it)
      else some (token, none, ls.it)
    if strSize op == 3 then
      if op == "AND" then some (AND, none, ls.it)
      else if op == "NOT" then some (NOT, none, ls.it)
      else if op == "XOR" then some (XOR, none, ls.it)
      else if op == "ADJ" then windowed ADJ
      else none
    else if strSize op == 2 then
      if op == "OR" then some (OR, none, ls.it) else none
    else if strSize op == 4 then
      if op == "NEAR" then windowed NEAR else none
    else none
  else none

/-- The spelling check of a term, updating `corrected_query` and
`correction_offset`. -/
def lexSpelling (qpi : Internal) (flags : Nat) (qs : String) (ls : LexState)
    (prefixinfo : PrefixInfo) (term : String) (was_acronym : Bool) (term_start_index : Nat) :
    LexState :=
  if hasFlag flags FLAG_SPELLING_CORRECTION && !was_acronym then
    -- the loop stops at the first empty prefix
    if prefixinfo.prefixes.any (fun p => p == "") then
      if !qpi.db.term_exists term then
        let suggestion := qpi.db.get_spelling_suggestion term
        if suggestion != "" then
          let corrected := if ls.corrected_query == "" then qs else ls.corrected_query
          let term_end_index := strSize qs - bytesOf ls.it
          let n := term_end_index - term_start_index
          let pos := ((term_start_index : Int) + ls.correction_offset).toNat
          { ls with
            corrected_query := ⟨replaceBytes corrected.data pos n suggestion.data⟩
            correction_offset := ls.correction_offset + (strSize suggestion : Int) - (n : Int) }
        else ls
      else ls
    else ls
  else ls

/-- From the label `phrased_term` to the end of the loop body. -/
def lexTerm (qpi : Internal) (fuel flags : Nat) (qs : String) (ls : LexState)
    (prefixinfo : Option PrefixInfo) (last_was_operator : Bool) (term_start_index : Nat) :
    Except Fault (LexState × Entry) := do
  let pt := parse_term qpi ls.it
  let term := pt.1
  let was_acronym := pt.2.2
  let ls := { ls with it := pt.2.1 }
  -- Boolean operators.
  match lexOperator qpi flags ls prefixinfo term was_acronym with
  | some (token, minor, it) =>
    let ls ← { ls with it := it }.parse qpi fuel token minor
    return (ls, Entry.just_had_operator)
  | none =>
    -- If no prefix is set, use the default one.
    let prefixinfo ← match prefixinfo with
      | some pi => pure pi
      | none => ls.prefix_back
    let unstemmed_term := term
    let term := qpi.uni.tolower term
    let stem_term :=
      if qpi.stem_action != stem_strategy.STEM_NONE then
        if qpi.stemmer.isNone then stem_strategy.STEM_NONE
        else if qpi.stem_action == stem_strategy.STEM_SOME then
          if !should_stem qpi.uni unstemmed_term ||
              (!ls.it.isEmpty && is_stem_preventer (deref ls.it)) then
            stem_strategy.STEM_NONE
          else qpi.stem_action
        else qpi.stem_action
      else qpi.stem_action
    let term_obj : Term := ⟨term, prefixinfo.prefixes, unstemmed_term, stem_term, ls.term_pos⟩
    let ls := { ls with term_pos := (ls.term_pos + 1) % 2 ^ 32 }
    let isWild := (ls.mode == Mode.DEFAULT || ls.mode == Mode.IN_GROUP) && !ls.it.isEmpty &&
      hasFlag flags FLAG_WILDCARD && deref ls.it == 42 &&
      (ls.it.tail.isEmpty || !qpi.uni.is_wordchar (deref ls.it.tail))
    let isPartial := (ls.mode == Mode.DEFAULT || ls.mode == Mode.IN_GROUP) && ls.it.isEmpty &&
      hasFlag flags FLAG_PARTIAL
    if isWild then
      -- Wildcard at end of term (also known as "right truncation").
      let ls ← { ls with it := ls.it.tail }.parse qpi fuel WILD_TERM (some term_obj)
      return (ls, Entry.loop_test)
    else if isPartial then
      let ls ← ls.parse qpi fuel PARTIAL_TERM (some term_obj)
      return (ls, Entry.loop_test)
    else
      let ls := lexSpelling qpi flags qs ls prefixinfo term was_acronym term_start_index
      let r : LexState × Bool ←
        if ls.mode == Mode.IN_PHRASED_TERM then do
          let ls ← ls.parse qpi fuel PHR_TERM (some term_obj)
          pure (ls, false)
        else do
          -- See if the next token will be PHR_TERM - if so, this one needs to
          -- be TERM not GROUP_TERM.
          let ls :=
            if ls.mode == Mode.IN_GROUP && is_phrase_generator (deref ls.it) then
              let p := ls.it.tail.dropWhile (fun d => is_phrase_generator d.toNat)
              if !p.isEmpty && qpi.uni.is_wordchar (deref p) then { ls with mode := Mode.DEFAULT }
              else ls
            else ls
          let ls ← ls.parse qpi fuel (if ls.mode == Mode.IN_GROUP then GROUP_TERM else TERM)
            (some term_obj)
          pure (ls, ls.mode != Mode.DEFAULT && ls.mode != Mode.IN_GROUP)
      let ls := r.1
      if r.2 then return (ls, Entry.loop_test)
      else if ls.it.isEmpty then return (ls, Entry.done)
      else if is_phrase_generator (deref ls.it) then
        -- Skip multiple phrase generators.
        let it := ls.it.tail.dropWhile (fun d => is_phrase_generator d.toNat)
        let ls := { ls with it := it }
        if !it.isEmpty && qpi.uni.is_wordchar (deref it) then
          return ({ ls with mode := Mode.IN_PHRASED_TERM },
            Entry.phrased_term (some prefixinfo) last_was_operator (strSize qs - bytesOf it))
        else return (ls, Entry.loop_test)
      else if ls.mode == Mode.DEFAULT || ls.mode == Mode.IN_GROUP then
        let ls := { ls with mode := Mode.DEFAULT }
        if !last_was_operator && qpi.uni.is_whitespace (deref ls.it) then
          -- Skip multiple whitespace.
          let it := ls.it.tail.dropWhile (fun d => qpi.uni.is_whitespace d.toNat)
          let ls := { ls with newprev := 32, it := it }
          -- Don't generate a group unless the terms are only separated by
          -- whitespace.
          if !it.isEmpty && qpi.uni.is_wordchar (deref it) then
            return ({ ls with mode := Mode.IN_GROUP }, Entry.loop_test)
          else return (ls, Entry.loop_test)
        else return (ls, Entry.loop_test)
      else return (ls, Entry.loop_test)

/-- The loop body from `if (mode == IN_PHRASED_TERM)` on. -/
def lexBody (qpi : Internal) (fuel flags : Nat) (qs : String) (value_ranges : Bool)
    (ls : LexState) (last_was_operator : Bool) : Except Fault (LexState × Entry) := do
  let ls := if ls.mode == Mode.IN_PHRASED_TERM then { ls with mode := Mode.DEFAULT } else ls
  let ls :=
    if qpi.uni.is_whitespace (deref ls.it) then
      { ls with newprev := 32,
                it := ls.it.tail.dropWhile (fun d => qpi.uni.is_whitespace d.toNat) }
    else ls
  if ls.it.isEmpty then return (ls, Entry.done)
  let scan :=
    if (ls.mode == Mode.DEFAULT || ls.mode == Mode.IN_GROUP) && value_ranges then
      rangeScan qpi.uni ls.it 0 0
    else none
  match scan with
  | some k =>
    -- Trim off the trailing "..".
    let r : String := ⟨ls.it.take (k - 2)⟩
    let ls1 ← { ls with it := ls.it.drop k }.parse qpi fuel RANGE_START (some (Term.ofName r))
    let e := rangeEnd ls1.it
    let ls2 ← { ls1 with it := e.2 }.parse qpi fuel RANGE_END (some (Term.ofName ⟨e.1⟩))
    return (ls2, Entry.main_lex_loop)
  | none =>
    if !qpi.uni.is_wordchar (deref ls.it) then
      lexPunct qpi fuel flags ls last_was_operator
    else
      let term_start_index := strSize qs - bytesOf ls.it
      let ls := { ls with newprev := 65 }
      match ← lexField qpi fuel flags ls with
      | Sum.inl r => return r
      | Sum.inr (ls, prefixinfo) =>
        lexTerm qpi fuel flags qs ls prefixinfo last_was_operator term_start_index

/-- One move of the lexer from an entry point to the next. -/
def lexStep (qpi : Internal) (fuel flags : Nat) (qs : String) (value_ranges : Bool)
    (ls : LexState) : Entry → Except Fault (LexState × Entry)
  | Entry.done => Except.ok (ls, Entry.done)
  | Entry.main_lex_loop => Except.ok ({ ls with mode := Mode.DEFAULT }, Entry.loop_test)
  | Entry.loop_test =>
    if ls.it.isEmpty || ls.state.error.isSome then Except.ok (ls, Entry.done)
    else
      let ls := if ls.mode == Mode.EXPLICIT_SYNONYM then { ls with mode := Mode.DEFAULT } else ls
      lexBody qpi fuel flags qs value_ranges ls false
  | Entry.just_had_operator =>
    if ls.it.isEmpty then Except.ok (ls, Entry.done)
    else lexBody qpi fuel flags qs value_ranges { ls with mode := Mode.DEFAULT } true
  | Entry.just_had_synonym_operator => lexBody qpi fuel flags qs value_ranges ls true
  | Entry.phrased_term prefixinfo last_was_operator term_start_index =>
    lexTerm qpi fuel flags qs ls prefixinfo last_was_operator term_start_index

/-- The lexer loop, run until the label `done`. -/
def lexRun (qpi : Internal) (fuel flags : Nat) (qs : String) (value_ranges : Bool) :
    Nat → LexState → Entry → Except Fault LexState
  | _, ls, Entry.done => Except.ok ls
  | 0, _, _ => Except.error Fault.fuel
  | n + 1, ls, e =>
    match lexStep qpi fuel flags qs value_ranges ls e with
    | Except.error f => Except.error f
    | Except.ok (ls1, e1) => lexRun qpi fuel flags qs value_ranges n ls1 e1

/-- Whether `qs` contains `..`. -/
def hasDotDot : List Char → Bool
  | a :: b :: rest => (a == '.' && b == '.') || hasDotDot (b :: rest)
  | _ => false

/-- `State(qpi, flags)`. -/
def State.new (flags : Nat) : State := ⟨Query.empty, none, flags, [], []⟩

/-- `QueryParser::Internal::parse_query`: the final values of the variables;
the query returned is `state.query` and `errmsg` is `state.error`.  `fuel`
bounds the moves of the lexer and the steps of each call of `Parse`. -/
def parse_query (qpi : Internal) (fuel : Nat) (qs : String) (flags : Nat)
    (default_prefix_ : String) : Except Fault LexState := do
  let value_ranges := !qpi.valrangeprocs.isEmpty && hasDotDot qs.data
  let def_pfx : PrefixInfo := ⟨false, [default_prefix_]⟩
  let default_prefixinfo :=
    if default_prefix_ == "" then
      match findPrefix qpi.prefixmap "" with
      | some f => f
      | none => def_pfx
    else def_pfx
  let ls : LexState :=
    { it := qs.data, mode := Mode.DEFAULT, newprev := 32, term_pos := 1,
      prefix_stack := [default_prefixinfo], pParser := ParseAlloc, state := State.new flags,
      corrected_query := "", correction_offset := 0 }
  let ls ← lexRun qpi fuel flags qs value_ranges fuel ls Entry.main_lex_loop
  if ls.state.error.isNone then
    -- Implicitly close any unclosed quotes...
    let ls ← if ls.mode == Mode.IN_QUOTES || ls.mode == Mode.IN_PREFIXED_QUOTES then
        ls.parse qpi fuel QUOTE none else pure ls
    ls.parse qpi fuel 0 none
  else return ls

end QueryParser

namespace QueryParser

/-- `Xapian::Unicode` restricted to ASCII text (code points above 127 count as
unassigned): letters, digits and `_` are word characters, space and the control
characters are whitespace, `$` is the currency symbol. -/
def asciiUnicode : UnicodeLib where
  is_wordchar := fun ch => decide (ch < 128) && (C_isalpha ch || C_isdigit ch || ch == 95)
  is_whitespace := fun ch => decide (ch ≤ 32) || ch == 127
  is_currency := fun ch => ch == 36
  get_category := fun ch =>
    if C_isupper ch then 1 else if C_islower ch then LOWERCASE_LETTER
    else if C_isdigit ch then DECIMAL_DIGIT_NUMBER else if ch == 32 then 12
    else if decide (ch < 32) || ch == 127 then 15 else if ch == 95 then 19
    else if ch == 36 then 27 else if decide (ch < 128) then 25 else 0
  tolower := fun s => ⟨s.data.map (fun c => if C_isupper c.toNat then Char.ofNat (c.toNat + 32) else c)⟩

/-- A database without terms, spellings or synonyms. -/
def emptyDatabase : Database where
  term_exists := fun _ => false
  get_spelling_suggestion := fun _ => ""
  synonyms := fun _ => []
  synonym_keys := fun _ => []
  allterms := fun _ => []

/-- A parser as constructed (no stemmer, no stopper, `default_op` OR, no
database), with the given fields and value range processors. -/
def plainParser (prefixmap : List (String × PrefixInfo))
    (valrangeprocs : List ValueRangeProcessor) : Internal where
  stemmer := none
  stem_action := stem_strategy.STEM_NONE
  stopper := none
  default_op := Op.OP_OR
  db := emptyDatabase
  prefixmap := prefixmap
  valrangeprocs := valrangeprocs
  uni := asciiUnicode

/-- The parser of the `site:` scenario: the field `site` is a boolean filter
with term prefix `H` (`add_boolean_prefix("site", "H")`). -/
def siteParser : Internal := plainParser [("site", ⟨true, ["H"]⟩)] []

/-- A value range processor that accepts every range for slot 0 and leaves the
two strings as they are. -/
def acceptSlot0 : ValueRangeProcessor := fun start stop => (0, start, stop)

/-- A value range processor that rejects every range. -/
def rejectAll : ValueRangeProcessor := fun start stop => (BAD_VALUENO, start, stop)

/-- The parser of the `hello..world` scenario. -/
def rangeParser : Internal := plainParser [] [acceptSlot0]

/-- A parser with the stop word `the`. -/
def stopParser : Internal :=
  { plainParser [] [] with stopper := some (fun w => w == "the") }

/-- The query returned and the error message, when the run ends. -/
def resultOf (r : Except Fault LexState) : Option (Query × Option String) :=
  match r with
  | Except.ok ls => some (ls.state.query, ls.state.error)
  | Except.error _ => none

end QueryParser

namespace QueryParser

/-- One component of a `prob` expression, with the value the rule handles: the
query of a plain, loved or hated term (NULL for a dropped stopword or an empty
group), the `get_query()` of a hated or plain boolean filter with its group, or
an accepted value range with its slot. -/
inductive ProbItem where
  | plain (q : Option Query)
  | love (q : Option Query)
  | hate (q : Option Query)
  | hateFilter (q : Query)
  | filter (g : filter_group_id) (q : Query)
  | range (valno : Nat) (q : Query)

/-- The `ProbQuery` of a first component (rules 13, 17, 19, 21, 23, 25, and 28
for a plain term that is followed by another kind of component). -/
def ProbItem.first (default_op : Op) : ProbItem → ProbQuery
  | ProbItem.plain q => stop_prob_of_term q
  | ProbItem.love q => prob_love_first default_op q
  | ProbItem.hate q => prob_hate_first q
  | ProbItem.hateFilter q => prob_hate_filter_first q
  | ProbItem.filter g q => prob_filter_first g q
  | ProbItem.range valno q => prob_range_first valno q

/-- The `ProbQuery` after a further component (rules 14, 16, 18, 20, 22, 24
and 26). -/
def ProbItem.next (default_op : Op) (p : ProbQuery) : ProbItem → Except Fault ProbQuery
  | ProbItem.plain q => prob_term_next default_op p q
  | ProbItem.love q => prob_love_next default_op p q
  | ProbItem.hate q => prob_hate_next p q
  | ProbItem.hateFilter q => Except.ok (prob_hate_filter_next p q)
  | ProbItem.filter g q => Except.ok (prob_filter_next p g q)
  | ProbItem.range valno q => Except.ok (prob_range_next p valno q)

/-- The further components, left to right. -/
def probFold (default_op : Op) : ProbQuery → List ProbItem → Except Fault ProbQuery
  | p, [] => Except.ok p
  | p, x :: rest =>
    match x.next default_op p with
    | Except.ok p1 => probFold default_op p1 rest
    | Except.error e => Except.error e

/-- The `ProbQuery` that the rules for `prob` build for a sequence of
components: two leading plain terms go through rule 15, any other first
component through its own rule, and each later one extends the result. -/
def buildProb (default_op : Op) : List ProbItem → Except Fault ProbQuery
  | [] => Except.ok ProbQuery.new
  | ProbItem.plain a :: ProbItem.plain b :: rest =>
    match prob_terms_first default_op a b with
    | Except.ok p => probFold default_op p rest
    | Except.error e => Except.error e
  | x :: rest => probFold default_op (x.first default_op) rest

/-- `filter.find(g)` on the map. -/
def filterFind : List (filter_group_id × Query) → filter_group_id → Option Query
  | [], _ => none
  | (k, v) :: rest, g => if k = g then some v else filterFind rest g

/-- The queries of the filter and range components of group `g`, in order. -/
def groupQueries (g : filter_group_id) : List ProbItem → List Query
  | [] => []
  | ProbItem.filter g1 q :: rest =>
    if g1 = g then q :: groupQueries g rest else groupQueries g rest
  | ProbItem.range valno q :: rest =>
    if filter_group_id.ofValno valno = g then q :: groupQueries g rest else groupQueries g rest
  | _ :: rest => groupQueries g rest

/-- The queries of the loved terms, in order. -/
def lovedQueries : List ProbItem → List Query
  | [] => []
  | ProbItem.love (some q) :: rest => q :: lovedQueries rest
  | _ :: rest => lovedQueries rest

/-- The queries of the hated terms and hated boolean filters, in order. -/
def hatedQueries : List ProbItem → List Query
  | [] => []
  | ProbItem.hate (some q) :: rest => q :: hatedQueries rest
  | ProbItem.hateFilter q :: rest => q :: hatedQueries rest
  | _ :: rest => hatedQueries rest

/-- The queries `qs` added one by one with `op` to a query pointer `o`, as
`add_to_query` does: `o op q1 op q2 ...` nested to the left, and just
`q1 op q2 ...` when `o` is NULL. -/
def extend (op : Op) (o : Option Query) (qs : List Query) : Option Query :=
  qs.foldl (fun acc q => add_to_query_ref acc op q) o

/-- `q1 op q2 op ... op qn`, nested to the left; NULL for no query. -/
def combine (op : Op) (qs : List Query) : Option Query := extend op none qs

/-- The queries `qs` OR-ed one by one into a map entry, which starts as the
default query `Query()` when it is new (`o` is `none`). -/
def orInto (o : Option Query) (qs : List Query) : Option Query :=
  qs.foldl (fun acc q => some (Query.pair Op.OP_OR (acc.getD Query.empty) q)) o

/-- The entry of group `g` in the filter map of a `prob` expression: its
queries OR-ed together left to right; the first component of the expression
sets the entry directly, every later one is OR-ed into it. -/
def expectedFilter (g : filter_group_id) : List ProbItem → Option Query
  | [] => none
  | ProbItem.filter g1 q :: rest =>
    orInto (if g1 = g then some q else none) (groupQueries g rest)
  | ProbItem.range valno q :: rest =>
    orInto (if filter_group_id.ofValno valno = g then some q else none) (groupQueries g rest)
  | _ :: rest => orInto none (groupQueries g rest)

/-- The queries of the plain terms that are not dropped, in order. -/
def plainQueries : List ProbItem → List Query
  | [] => []
  | ProbItem.plain (some q) :: rest => q :: plainQueries rest
  | _ :: rest => plainQueries rest

/-- The combination of the plain terms of a `prob` expression: joined with
`default_op` left to right, except that under `OP_NEAR` two leading plain terms
start it as one `OP_NEAR` query of window 11. -/
def plainSide (default_op : Op) : List ProbItem → Option Query
  | ProbItem.plain (some a) :: ProbItem.plain (some b) :: rest =>
    if default_op == Op.OP_NEAR then
      extend default_op (some (Query.multi default_op [a, b] 11)) (plainQueries rest)
    else combine default_op (a :: b :: plainQueries rest)
  | items => combine default_op (plainQueries items)

/-- A loved term with a query, taken as a plain term. -/
def unlove : ProbItem → ProbItem
  | ProbItem.love (some q) => ProbItem.plain (some q)
  | x => x

/-- Whether every loved term of the list has a query. -/
def lovedAllSet : List ProbItem → Bool
  | [] => true
  | ProbItem.love none :: _ => false
  | _ :: rest => lovedAllSet rest

/-- A strict total order given as a boolean test. -/
structure StrictTotal {α : Type} (lt : α → α → Bool) : Prop where
  irrefl : ∀ a, lt a a = false
  trans : ∀ a b c, lt a b = true → lt b c = true → lt a c = true
  total : ∀ a b, lt a b = false → lt b a = false → a = b

/-- The keys of a filter map are in strictly increasing order. -/
def SortedKeys (m : List (filter_group_id × Query)) : Prop :=
  m.Pairwise (fun a b => a.1.lt b.1 = true)

end QueryParser

namespace QueryParser

/-- The group of the boolean filters with term prefix `H`. -/
def groupH : filter_group_id := filter_group_id.ofPrefixes ["H"]

/-- The components of a `prob` expression such as `site:a quick site:b x..y +fox -dog`. -/
def exampleItems : List ProbItem :=
  [ProbItem.filter groupH (Query.term "Ha" 1 0), ProbItem.plain (some (Query.term "quick" 1 1)),
    ProbItem.filter groupH (Query.term "Hb" 1 0),
    ProbItem.range 0 (Query.range Op.OP_VALUE_RANGE 0 "x" "y"),
    ProbItem.love (some (Query.term "fox" 1 2)), ProbItem.hate (some (Query.term "dog" 1 3))]

/-- The `ProbQuery` built for `exampleItems`. -/
def exampleProb : ProbQuery :=
  { query := some (Query.term "quick" 1 1)
    love := some (Query.term "fox" 1 2)
    hate := some (Query.term "dog" 1 3)
    filter :=
      [(filter_group_id.ofValno 0,
          Query.pair Op.OP_OR Query.empty (Query.range Op.OP_VALUE_RANGE 0 "x" "y")),
        (groupH, Query.pair Op.OP_OR (Query.term "Ha" 1 0) (Query.term "Hb" 1 0))] }

end QueryParser

/-! ## The query parser: boolean rules, windows and spelling fixtures -/

namespace QueryParser

/-- The rules `expr ::= bool_arg OP bool_arg` of the grammar: the number of
the rule, the place of the left operand on the stack (`yymsp[-2]` or
`yymsp[-3]`), the operator of the query built and the text of the operator in
the error message. -/
def boolRules : List (Nat × Nat × Op × String) :=
  [(3, 2, Op.OP_AND, "AND"), (4, 2, Op.OP_AND_NOT, "NOT"), (5, 3, Op.OP_AND_NOT, "AND NOT"),
    (6, 3, Op.OP_AND_NOT, "AND"), (7, 2, Op.OP_OR, "OR"), (8, 2, Op.OP_XOR, "XOR")]

/-- The left operand as rule 4 (`expr ::= bool_arg NOT bool_arg`) sees it:
under `FLAG_PURE_NOT` an absent one is `Query("", 1, 0)`, which matches all
documents. The other rules take it as it is. -/
def leftOperand (st : State) (rule : Nat) (a : Option Query) : Option Query :=
  if rule = 4 ∧ a.isNone = true ∧ hasFlag st.flags FLAG_PURE_NOT = true then
    some (Query.term "" 1 0)
  else a

/-- The `TermList` that the rules `near_expr ::= TERM NEAR TERM` and
`near_expr ::= near_expr NEAR TERM` (and the same rules of `adj_expr`) build
for a chain: `first` is the first term, and each further term comes with the
value of the operator before it, a `Term` holding the width when the operator
was written `NEAR/n`. -/
def windowChain (first : Term) (rest : List (Option Term × Term)) : TermList :=
  rest.foldl
    (fun l e =>
      match e.1 with
      | some w => (l.add_positional_term e.2).adjust_window w.pos
      | none => l.add_positional_term e.2)
    (TermList.new.add_positional_term first)

/-- The `TermList` that the rules `phrase ::= TERM`, `phrase ::= phrase TERM`,
`phrased_term ::= TERM PHR_TERM` and `phrased_term ::= phrased_term PHR_TERM`
build for the terms of a phrase. -/
def phraseList (terms : List Term) : TermList :=
  terms.foldl (fun l t => l.add_positional_term t) TermList.new

/-- The largest width that an operator of the chain carries, 0 when none
carries one. -/
def chainWidth (rest : List (Option Term × Term)) : Nat :=
  rest.foldl
    (fun m e =>
      match e.1 with
      | some w => max m w.pos
      | none => m)
    0

/-- The largest of the widths written on the operators of a chain, each as the
32 bits of a `termpos` keep it; 0 when no operator carries a width. -/
def cutWidth (rest : List (Option Nat × Term)) : Nat :=
  ((rest.filterMap (fun e => e.1)).map (fun n => n % 2 ^ 32)).foldl max 0

/-- The values of the operators of a chain as the lexer passes them to the
parser: `new Term(width)` for an operator written with a width. -/
def chainOf (rest : List (Option Nat × Term)) : List (Option Term × Term) :=
  rest.map (fun e => (e.1.map Term.ofPos, e.2))

/-- Modelled from the spec: the query that a recorded constructor call builds,
for the call `Query(OP_SCALE_WEIGHT, q, factor)` on a value range. The class
`Query` is not among the sources. The spec gives `VALUE_RANGE(slot, lo, hi)` as
what a range yields, also where the range is the whole query ("result is
`VALUE_RANGE(0, "hello", "world")`"), and `SCALE_WEIGHT(f, 0)` for a filter
term: scaling the weight of a value range, which has no weight, gives the
range itself, and any other call builds the query it records. -/
def Query.built : Query → Query
  | Query.scale Op.OP_SCALE_WEIGHT (Query.range op valno start stop) _ =>
    Query.range op valno start stop
  | q => q

/-- Whether a query is a window query `Query(op, subqs, w)`, or an OR of such
queries (one for each prefix of a field with several prefixes). -/
def isWindowQuery (op : Op) (w : Nat) : Query → Bool
  | Query.multi o _ p => o == op && p == w
  | Query.pair Op.OP_OR a b => isWindowQuery op w a && isWindowQuery op w b
  | _ => false

/-- A database with the terms `hello`, `world`, `c` and `d++`, which suggests
`hello` for `helo` and `world` for `wrld` and `wold`. -/
def spellingDatabase : Database where
  term_exists := fun t => t == "hello" || t == "world" || t == "c" || t == "d++"
  get_spelling_suggestion := fun t =>
    if t == "helo" then "hello" else if t == "wrld" || t == "wold" then "world" else ""
  synonyms := fun _ => []
  synonym_keys := fun _ => []
  allterms := fun _ => []

/-- A parser over `spellingDatabase` with the given fields. -/
def spellingParser (prefixmap : List (String × PrefixInfo)) : Internal :=
  { plainParser prefixmap [] with db := spellingDatabase }

/-- The corrected query string that a call of `parse_query` leaves (what
`get_corrected_query_string` returns after it). -/
def correctedOf (r : Except Fault LexState) : Option String :=
  match r with
  | Except.ok ls => some ls.corrected_query
  | Except.error _ => none

end QueryParser

namespace QueryParser

/-- The stack of prefixes is as `parse_query` keeps it: not empty, and with an
entry above the first one while a prefixed phrase is open. -/
def StackOk (ls : LexState) : Prop :=
  ls.prefix_stack ≠ [] ∧ (ls.mode = Mode.IN_PREFIXED_QUOTES → 2 ≤ ls.prefix_stack.length)

/-- Whatever the computation returns has the property. -/
def Ensures {α : Type} (x : Except Fault α) (P : α → Prop) : Prop :=
  ∀ a, x = Except.ok a → P a

/-- The variables of `parse_query` when it enters the lexer loop: the whole
query string to read, and `default_prefixinfo` alone on `prefix_stack`. -/
def lexStart (qpi : Internal) (qs : String) (flags : Nat) (default_prefix_ : String) : LexState :=
  let def_pfx : PrefixInfo := ⟨false, [default_prefix_]⟩
  let default_prefixinfo :=
    if default_prefix_ == "" then
      match findPrefix qpi.prefixmap "" with
      | some f => f
      | none => def_pfx
    else def_pfx
  { it := qs.data, mode := Mode.DEFAULT, newprev := 32, term_pos := 1,
    prefix_stack := [default_prefixinfo], pParser := ParseAlloc, state := State.new flags,
    corrected_query := "", correction_offset := 0 }

/-- The variables of `parse_query` and the place it is at after the given
number of moves of the lexer. -/
def lexTrace (qpi : Internal) (fuel flags : Nat) (qs : String) (value_ranges : Bool) :
    Nat → LexState → Entry → Except Fault (LexState × Entry)
  | 0, ls, e => Except.ok (ls, e)
  | n + 1, ls, e =>
    match lexStep qpi fuel flags qs value_ranges ls e with
    | Except.error f => Except.error f
    | Except.ok (ls1, e1) => lexTrace qpi fuel flags qs value_ranges n ls1 e1

end QueryParser

namespace Compact

/-! ### `xapian-compact`: the `--no-renumber` reordering and range check -/

/-- `CmpByFirstUsed::operator()`. -/
def CmpByFirstUsed (used_ranges : List (Nat × Nat)) (a b : Nat) : Bool :=
  decide ((used_ranges.getD a (0, 0)).1 < (used_ranges.getD b (0, 0)).1)

/-- What `std::sort(order.begin(), order.end(), CmpByFirstUsed(used_ranges))`
guarantees of its result `order`: it holds the indexes `0 .. n-1` in some
order, and no element compares less than an element before it. -/
def IsSortedOrder (used_ranges : List (Nat × Nat)) (order : List Nat) : Prop :=
  order.Perm (List.range used_ranges.length) ∧
    order.Pairwise (fun a b => CmpByFirstUsed used_ranges b a = false)

/-- The variables of the reordering loop of `main`. -/
structure ReorderState where
  sources : List String
  sources_ : List String
  used_ranges_ : List (Nat × Nat)
  last_start : Nat
  last_end : Nat

/-- The loop `for (size_t j = 0; j != order.size(); ++j)` of `main`, from index
`j` on; `Except.error 1` is `exit(1)`. -/
def reorderLoop (used_ranges : List (Nat × Nat)) :
    List Nat → Nat → ReorderState → Except Nat ReorderState
  | [], _, s => Except.ok s
  | n :: order, j, s =>
    -- swap(sources_[j], sources[n])
    let s := { s with sources_ := s.sources_.set j (s.sources.getD n ""),
                      sources := s.sources.set n (s.sources_.getD j "") }
    let s := { s with used_ranges_ := s.used_ranges_ ++ [used_ranges.getD n (0, 0)] }
    let p := used_ranges.getD n (0, 0)
    -- Skip empty databases.
    if p.1 == 0 && p.2 == 0 then reorderLoop used_ranges order (j + 1) s
    -- Check for overlap with the previous database's range.
    else if p.1 ≤ s.last_end then Except.error 1
    else reorderLoop used_ranges order (j + 1) { s with last_start := p.1, last_end := p.2 }

/-- The block `if (!renumber && sources.size() > 1)` of `main`, given the
result `order` of the sort: the reordered `sources` and `used_ranges`, or the
exit status. -/
def noRenumberReorder (renumber : Bool) (order : List Nat) (sources : List String)
    (used_ranges : List (Nat × Nat)) : Except Nat (List String × List (Nat × Nat)) :=
  if !renumber && sources.length > 1 then
    match reorderLoop used_ranges order 0
        ⟨sources, List.replicate sources.length "", [], 0, 0⟩ with
    | Except.ok s => Except.ok (s.sources_, s.used_ranges_)
    | Except.error code => Except.error code
  else Except.ok (sources, used_ranges)

/-- The used docid ranges of two sources do not overlap; an empty source, whose
range is `(0, 0)`, overlaps nothing. -/
def DisjointUsed (a b : Nat × Nat) : Prop :=
  a ≠ (0, 0) → b ≠ (0, 0) → a.2 < b.1 ∨ b.2 < a.1

/-- The range recorded for a source by `main`: `(0, 0)` for a database without
documents, else the first and last used docid. -/
def WellFormedRange (r : Nat × Nat) : Prop := r = (0, 0) ∨ (1 ≤ r.1 ∧ r.1 ≤ r.2)

/-- The ranges taken in order pass the check, starting from `last_end = e`. -/
def PassesFrom (e : Nat) (rs : List (Nat × Nat)) : Prop :=
  (∀ r ∈ rs, r ≠ (0, 0) → e < r.1) ∧
    rs.Pairwise (fun a b => a ≠ (0, 0) → b ≠ (0, 0) → a.2 < b.1)

end Compact

namespace Compact

/-! ### `xapian-compact-flint`: merging the postlist tables -/

/-- A `std::string`, as its bytes. -/
abbrev Bytes := List Nat

/-- `operator<` of `std::string`: the bytes compared as unsigned values. -/
def strLess (a b : Bytes) : Bool := QueryParser.lexLt (fun x y => decide (x < y)) a b

/-- The functions of `flint_utils.h` that `merge_postlists`, `PostlistCursor`
and `merge_spellings` call, and the width in bits of the type `totlen_t` of
`internaltypes.h`. An unpacking function reads from the front of the bytes it
is given and returns the value with the bytes it has not read, or fails.
`F_unpack_uint_last` is a template over the type of the value it reads:
the field of that name is its instance for `totlen_t`, which `merge_postlists`
calls, and `F_unpack_uint_last_termcount` is its instance for the 32-bit
`Xapian::termcount`, which `merge_spellings` calls. -/
structure Codec where
  totlen_bits : Nat
  F_pack_uint : Nat → Bytes
  F_pack_uint_last : Nat → Bytes
  F_pack_uint_preserving_sort : Nat → Bytes
  F_unpack_uint : Bytes → Option (Nat × Bytes)
  F_unpack_uint_last : Bytes → Option Nat
  F_unpack_uint_preserving_sort : Bytes → Option (Nat × Bytes)
  F_unpack_string_preserving_sort : Bytes → Option (Bytes × Bytes)
  F_unpack_uint_last_termcount : Bytes → Option Nat

/-- The ways `merge_postlists` stops without finishing: one of its `throw`s, a
write to `tag[0]` of an empty string, or the model running out of steps. -/
inductive MergeError where
  | corrupt (what : String)
  | totlenWrapped
  | emptyTag
  | steps
  deriving DecidableEq, Repr

/-- `is_metainfo_key`. -/
def is_metainfo_key (key : Bytes) : Bool :=
  key.length == 1 && key.getD 0 0 == 0

/-- `is_user_metadata_key`. -/
def is_user_metadata_key (key : Bytes) : Bool :=
  decide (key.length > 1) && key.getD 0 0 == 0 && key.getD 1 0 == 0xc0

/-- `class PostlistCursor`; `rest` holds the entries of the table, in key
order, that `FlintCursor::next` has yet to visit. -/
structure PostlistCursor where
  rest : List (Bytes × Bytes)
  offset : Nat
  key : Bytes
  tag : Bytes
  firstdid : Nat
  tf : Nat
  cf : Nat
  deriving DecidableEq, Repr

/-- The body of `PostlistCursor::next` once `FlintCursor::next` has moved to
the entry `(current_key, current_tag)`, leaving `rest` to visit. -/
def PostlistCursor.read (cd : Codec) (c : PostlistCursor) (current_key current_tag : Bytes)
    (rest : List (Bytes × Bytes)) : Except MergeError PostlistCursor :=
  let c := { c with rest := rest, key := current_key, tag := current_tag, tf := 0, cf := 0 }
  if is_metainfo_key c.key then Except.ok c
  else if is_user_metadata_key c.key then Except.ok c
  else
    match cd.F_unpack_string_preserving_sort c.key with
    | none => Except.error (MergeError.corrupt "Bad postlist key")
    | some (_, d) =>
      if d = [] then
        -- This is an initial chunk for a term, so adjust tag header.
        match cd.F_unpack_uint c.tag with
        | none => Except.error (MergeError.corrupt "Bad postlist tag")
        | some (tf, d) =>
          match cd.F_unpack_uint d with
          | none => Except.error (MergeError.corrupt "Bad postlist tag")
          | some (cf, d) =>
            match cd.F_unpack_uint d with
            | none => Except.error (MergeError.corrupt "Bad postlist tag")
            | some (firstdid, d) =>
              let firstdid := (firstdid + 1) % 2 ^ 32
              Except.ok { c with tf := tf, cf := cf, tag := d,
                                 firstdid := (firstdid + c.offset) % 2 ^ 32 }
      else
        -- Not an initial chunk, so adjust key.
        let tmp := c.key.length - d.length
        match cd.F_unpack_uint_preserving_sort d with
        | some (firstdid, []) =>
          Except.ok { c with key := c.key.take tmp,
                             firstdid := (firstdid + c.offset) % 2 ^ 32 }
        | _ => Except.error (MergeError.corrupt "Bad postlist key")

/-- `PostlistCursor::next`: `none` is the return value `false`. -/
def PostlistCursor.next (cd : Codec) (c : PostlistCursor) :
    Except MergeError (Option PostlistCursor) :=
  match c.rest with
  | [] => Except.ok none
  | (k, t) :: rest =>
    match c.read cd k t rest with
    | Except.ok c1 => Except.ok (some c1)
    | Except.error e => Except.error e

/-- The constructor of `PostlistCursor` on a table that is not empty:
`find_entry(string())` and then `next()`. -/
def PostlistCursor.create (cd : Codec) (table : List (Bytes × Bytes)) (offset_ : Nat) :
    Except MergeError PostlistCursor :=
  let c : PostlistCursor := ⟨table, offset_, [], [], 0, 0, 0⟩
  match c.next cd with
  | Except.ok (some c1) => Except.ok c1
  | Except.ok none => Except.ok c
  | Except.error e => Except.error e

/-- `PostlistCursorGt::operator()`. -/
def PostlistCursorGt (a b : PostlistCursor) : Bool :=
  if strLess b.key a.key then true
  else if a.key ≠ b.key then false
  else decide (a.firstdid > b.firstdid)

/-- What `std::priority_queue<…, PostlistCursorGt>` guarantees of `top()` and
`pop()`, which `top` does in one step on the queue's elements: nothing on an
empty queue, else an element that is greater than no other and the other
elements. -/
def IsPriorityQueue (top : List PostlistCursor → Option (PostlistCursor × List PostlistCursor)) :
    Prop :=
  top [] = none ∧
    ∀ pq, pq ≠ [] → ∃ c rest, top pq = some (c, rest) ∧ (c :: rest).Perm pq ∧
      ∀ d ∈ rest, PostlistCursorGt c d = false

/-- The loop of `merge_postlists` that opens the source tables; a source is its
postlist table and its docid offset. -/
def openLoop (cd : Codec) :
    List (List (Bytes × Bytes) × Nat) → Nat → List PostlistCursor →
      Except MergeError (Nat × List PostlistCursor)
  | [], tot_totlen, pq => Except.ok (tot_totlen, pq)
  | (table, offset) :: more, tot_totlen, pq =>
    -- Skip empty tables.
    if table.isEmpty then openLoop cd more tot_totlen pq
    else
      match PostlistCursor.create cd table offset with
      | Except.error e => Except.error e
      | Except.ok cur =>
        let totals : Except MergeError Nat :=
          if is_metainfo_key cur.key then
            match cd.F_unpack_uint cur.tag with
            | none => Except.error
                (MergeError.corrupt "Tag containing meta information is corrupt.")
            | some (_, data) =>
              match cd.F_unpack_uint_last data with
              | none => Except.error
                  (MergeError.corrupt "Tag containing meta information is corrupt.")
              | some totlen =>
                let tot := (tot_totlen + totlen) % 2 ^ cd.totlen_bits
                if tot < totlen then Except.error MergeError.totlenWrapped
                else Except.ok tot
          else Except.ok tot_totlen
        match totals with
        | Except.error e => Except.error e
        | Except.ok tot_totlen =>
          match cur.next cd with
          | Except.error e => Except.error e
          | Except.ok (some cur) => openLoop cd more tot_totlen (pq ++ [cur])
          | Except.ok none => openLoop cd more tot_totlen pq

/-- The user-metadata loop of `merge_postlists`: the queue, `last_key` and the
entries added to `out` when it ends. The warning written to `cerr` is left
out. -/
def metaLoop (cd : Codec) (top : List PostlistCursor → Option (PostlistCursor × List PostlistCursor)) :
    Nat → List PostlistCursor → Bytes → Bytes → List (Bytes × Bytes) →
      Except MergeError (List PostlistCursor × Bytes × List (Bytes × Bytes))
  | 0, _, _, _, _ => Except.error MergeError.steps
  | fuel + 1, pq, last_key, last_tag, out =>
    match top pq with
    | none => Except.ok (pq, last_key, out)
    | some (cur, others) =>
      if !is_user_metadata_key cur.key then Except.ok (pq, last_key, out)
      else
        let added := !(cur.key == last_key)
        let out := if added then out ++ [(cur.key, cur.tag)] else out
        let last_tag := if added then cur.tag else last_tag
        let last_key := if added then cur.key else last_key
        match cur.next cd with
        | Except.error e => Except.error e
        | Except.ok (some cur) => metaLoop cd top fuel (others ++ [cur]) last_key last_tag out
        | Except.ok none => metaLoop cd top fuel others last_key last_tag out

/-- The assignment `tag[0] = last ? '1' : '0'`. -/
def setFlag (tag : Bytes) (last : Bool) : Except MergeError Bytes :=
  match tag with
  | [] => Except.error MergeError.emptyTag
  | _ :: body => Except.ok ((if last then 0x31 else 0x30) :: body)

/-- The loop `while (++i != tags.end())` of `merge_postlists`, from `i` on. -/
def flushRest (cd : Codec) (last_key : Bytes) :
    List (Nat × Bytes) → List (Bytes × Bytes) → Except MergeError (List (Bytes × Bytes))
  | [], out => Except.ok out
  | (did, t) :: more, out =>
    let new_key := last_key ++ cd.F_pack_uint_preserving_sort did
    match setFlag t more.isEmpty with
    | Except.error e => Except.error e
    | Except.ok tag => flushRest cd last_key more (out ++ [(new_key, tag)])

/-- The block `if (!tags.empty()) { ... }` of `merge_postlists`. -/
def flushTags (cd : Codec) (last_key : Bytes) (tf cf : Nat) (tags : List (Nat × Bytes))
    (out : List (Bytes × Bytes)) : Except MergeError (List (Bytes × Bytes)) :=
  match tags with
  | [] => Except.ok out
  | (did, t) :: more =>
    let first_tag := cd.F_pack_uint tf ++ cd.F_pack_uint cf ++
      cd.F_pack_uint ((did + 2 ^ 32 - 1) % 2 ^ 32)
    match setFlag t more.isEmpty with
    | Except.error e => Except.error e
    | Except.ok tag => flushRest cd last_key more (out ++ [(last_key, first_tag ++ tag)])

/-- The variables of the term loop of `merge_postlists` other than the queue;
`out` holds the calls `out->add(key, tag)` made so far, in order. -/
structure TermState where
  last_key : Bytes
  tf : Nat
  cf : Nat
  tags : List (Nat × Bytes)
  out : List (Bytes × Bytes)

/-- The start of an iteration of the term loop for a cursor `cur` that is not
`NULL`: the tags collected for `last_key` are written when `cur` has another
key. -/
def TermState.turn (cd : Codec) (s : TermState) (cur : PostlistCursor) :
    Except MergeError TermState :=
  if cur.key ≠ s.last_key then
    match flushTags cd s.last_key s.tf s.cf s.tags s.out with
    | Except.error e => Except.error e
    | Except.ok out =>
      Except.ok { s with out := out, tags := [], tf := 0, cf := 0, last_key := cur.key }
  else Except.ok s

/-- The statements `tf += cur->tf; cf += cur->cf; tags.push_back(...)`. -/
def TermState.collect (s : TermState) (cur : PostlistCursor) : TermState :=
  { s with tf := (s.tf + cur.tf) % 2 ^ 32, cf := (s.cf + cur.cf) % 2 ^ 32,
           tags := s.tags ++ [(cur.firstdid, cur.tag)] }

/-- The term loop `while (true)` of `merge_postlists`: the entries added to
`out`. -/
def termLoop (cd : Codec) (top : List PostlistCursor → Option (PostlistCursor × List PostlistCursor)) :
    Nat → List PostlistCursor → TermState → Except MergeError (List (Bytes × Bytes))
  | 0, _, _ => Except.error MergeError.steps
  | fuel + 1, pq, s =>
    match top pq with
    | none => flushTags cd s.last_key s.tf s.cf s.tags s.out
    | some (cur, others) =>
      match s.turn cd cur with
      | Except.error e => Except.error e
      | Except.ok s =>
        let s := s.collect cur
        match cur.next cd with
        | Except.error e => Except.error e
        | Except.ok (some cur) => termLoop cd top fuel (others ++ [cur]) s
        | Except.ok none => termLoop cd top fuel others s

/-- The function `merge_postlists`: the calls `out->add(key, tag)` it makes, in
order. A source is its postlist table, the entries in key order, and its docid
offset. -/
def merge_postlists (cd : Codec)
    (top : List PostlistCursor → Option (PostlistCursor × List PostlistCursor)) (fuel : Nat)
    (sources : List (List (Bytes × Bytes) × Nat)) (tot_off : Nat) :
    Except MergeError (List (Bytes × Bytes)) :=
  match openLoop cd sources 0 [] with
  | Except.error e => Except.error e
  | Except.ok (tot_totlen, pq) =>
    let out := [([0], cd.F_pack_uint tot_off ++ cd.F_pack_uint_last tot_totlen)]
    match metaLoop cd top fuel pq [] [] out with
    | Except.error e => Except.error e
    | Except.ok (pq, last_key, out) => termLoop cd top fuel pq ⟨last_key, 0, 0, [], out⟩

/-- The term loop of `merge_postlists` run on the cursors in the order the
queue hands them over: `turn` and `collect` for each, and the final write of
the collected tags. -/
def feed (cd : Codec) : List PostlistCursor → TermState → Except MergeError (List (Bytes × Bytes))
  | [], s => flushTags cd s.last_key s.tf s.cf s.tags s.out
  | c :: cs, s =>
    match s.turn cd c with
    | Except.error e => Except.error e
    | Except.ok s1 => feed cd cs (s1.collect c)

/-- The cursors in the order the term loop takes them off the queue. -/
def popAll (cd : Codec) (top : List PostlistCursor → Option (PostlistCursor × List PostlistCursor)) :
    Nat → List PostlistCursor → Except MergeError (List PostlistCursor)
  | 0, _ => Except.error MergeError.steps
  | fuel + 1, pq =>
    match top pq with
    | none => Except.ok []
    | some (cur, others) =>
      match cur.next cd with
      | Except.error e => Except.error e
      | Except.ok (some c1) =>
        match popAll cd top fuel (others ++ [c1]) with
        | Except.ok cs => Except.ok (cur :: cs)
        | Except.error e => Except.error e
      | Except.ok none =>
        match popAll cd top fuel others with
        | Except.ok cs => Except.ok (cur :: cs)
        | Except.error e => Except.error e

/-- The states a cursor `c` goes through when `next` is called until it returns
`false`, `entries` being what is left to visit; `none` when a call throws. -/
def following (cd : Codec) : List (Bytes × Bytes) → PostlistCursor → Option (List PostlistCursor)
  | [], _ => some []
  | (k, t) :: rest, c =>
    match c.read cd k t rest with
    | Except.error _ => none
    | Except.ok c1 =>
      match following cd rest c1 with
      | none => none
      | some l => some (c1 :: l)

/-- A cursor's current state followed by the states it has yet to go through. -/
def PostlistCursor.stream (cd : Codec) (c : PostlistCursor) : List PostlistCursor :=
  c :: (following cd c.rest c).getD []

/-- The states of the cursor of a source, from its first entry to its last. -/
def chunksOf (cd : Codec) (src : List (Bytes × Bytes) × Nat) : Option (List PostlistCursor) :=
  following cd src.1 ⟨src.1, src.2, [], [], 0, 0, 0⟩

/-- A key of a posting-list chunk: neither the metainfo key nor a user-metadata
key. -/
def isTermKey (key : Bytes) : Bool := !is_metainfo_key key && !is_user_metadata_key key

/-- The posting-list chunks of a source, as its cursor presents them: the key
without the docid of a continuation chunk, the tag without the header of an
initial chunk, and the first docid with the offset added. -/
def termChunks (cd : Codec) (src : List (Bytes × Bytes) × Nat) : List PostlistCursor :=
  ((chunksOf cd src).getD []).filter (fun c => isTermKey c.key)

/-- The order of the queue: `a` is not greater than `b`. -/
def CursorLe (a b : PostlistCursor) : Prop := PostlistCursorGt a b = false

instance : DecidableRel CursorLe :=
  fun a b => inferInstanceAs (Decidable (PostlistCursorGt a b = false))

/-- The entry the term loop writes for the cursor state `c`, the `i`-th of the
states `group` with the key `key`: the initial chunk carries the header of the
frequencies summed in the 32 bits of `Xapian::termcount` and the smallest first
docid less one in the 32 bits of `Xapian::docid`, every other chunk has its
first docid appended to the key, and the flag byte is `'1'` on the last chunk
and `'0'` elsewhere. -/
def expectedEntry (cd : Codec) (key : Bytes) (group : List PostlistCursor) (i : Nat)
    (c : PostlistCursor) : Bytes × Bytes :=
  let flag := if i + 1 = group.length then 0x31 else 0x30
  if i = 0 then
    (key, cd.F_pack_uint ((group.map (fun g => g.tf)).sum % 2 ^ 32) ++
          cd.F_pack_uint ((group.map (fun g => g.cf)).sum % 2 ^ 32) ++
          cd.F_pack_uint
            (((group.map (fun g => g.firstdid)).foldr min c.firstdid + 2 ^ 32 - 1) % 2 ^ 32) ++
          flag :: c.tag.tail)
  else (key ++ cd.F_pack_uint_preserving_sort c.firstdid, flag :: c.tag.tail)

/-- The entries the term loop writes for the cursor states `group` of one key,
in their order. -/
def expectedGroup (cd : Codec) (key : Bytes) (group : List PostlistCursor) :
    List (Bytes × Bytes) :=
  group.enum.map (fun ic => expectedEntry cd key group ic.1 ic.2)

/-- The entries the term loop writes for the cursor states `cs`: for each key
that occurs, the entries of the states with that key. -/
def expectedTerms (cd : Codec) (cs : List PostlistCursor) : List (Bytes × Bytes) :=
  (cs.map (fun c => c.key)).dedup.flatMap
    (fun key => expectedGroup cd key (cs.filter (fun c => c.key == key)))

/-- The total document length a source records under its metainfo key. -/
def totlenOf (cd : Codec) (src : List (Bytes × Bytes) × Nat) : Nat :=
  match chunksOf cd src with
  | some (m :: _) =>
    match cd.F_unpack_uint m.tag with
    | none => 0
    | some (_, data) => (cd.F_unpack_uint_last data).getD 0
  | _ => 0

/-- A source `merge_postlists` can read: its table is empty, or holds the
metainfo entry, then user-metadata entries, then posting-list chunks that
decode, have a tag with a flag byte, and come in the order of the queue. -/
def WellFormedSource (cd : Codec) (src : List (Bytes × Bytes) × Nat) : Prop :=
  src.1 = [] ∨
    ∃ m us ts, chunksOf cd src = some (m :: (us ++ ts)) ∧
      is_metainfo_key m.key = true ∧
      (∃ v data totlen, cd.F_unpack_uint m.tag = some (v, data) ∧
        cd.F_unpack_uint_last data = some totlen) ∧
      (∀ u ∈ us, is_user_metadata_key u.key = true) ∧
      (∀ c ∈ ts, isTermKey c.key = true ∧ c.tag ≠ []) ∧
      ts.Pairwise CursorLe

/-! ### The postlist table format, for the statement of the merge -/

/-- A posting-list chunk as the table format describes it: the key
`StringPreservingSort(term)` of its term, the first docid of the chunk, the
`term_freq` and `collection_freq` that the initial chunk of a term carries (a
continuation chunk carries none, which counts as 0), and the tag from the
`chunk_flag_byte` on. -/
structure Chunk where
  key : Bytes
  first_did : Nat
  term_freq : Nat
  collection_freq : Nat
  payload : Bytes
  deriving DecidableEq, Repr

/-- The chunk that an entry of a postlist table holds, with the first docid
offset-adjusted in the 32 bits of a docid. An initial chunk has the key
`StringPreservingSort(term)` and the tag `Uint(term_freq) ·
Uint(collection_freq) · Uint(first_did − 1) · chunk_flag_byte · chunk_body`; a
continuation chunk has the key `StringPreservingSort(term) ·
UintPreservingSort(first_did_of_chunk)` and the tag `chunk_flag_byte ·
chunk_body`. `none` when the entry is of neither form. -/
def chunkOfEntry (cd : Codec) (offset : Nat) (e : Bytes × Bytes) : Option Chunk :=
  match cd.F_unpack_string_preserving_sort e.1 with
  | none => none
  | some (_, []) =>
    match cd.F_unpack_uint e.2 with
    | none => none
    | some (term_freq, r1) =>
      match cd.F_unpack_uint r1 with
      | none => none
      | some (collection_freq, r2) =>
        match cd.F_unpack_uint r2 with
        | none => none
        | some (did_less_one, payload) =>
          some ⟨e.1, (did_less_one + 1 + offset) % 2 ^ 32, term_freq, collection_freq, payload⟩
  | some (_, b :: did) =>
    match cd.F_unpack_uint_preserving_sort (b :: did) with
    | some (first_did, []) =>
      some ⟨e.1.take (e.1.length - (b :: did).length), (first_did + offset) % 2 ^ 32, 0, 0, e.2⟩
    | _ => none

/-- The posting-list chunks of a source: what its entries hold other than the
metainfo entry and the user-metadata entries. -/
def tableChunks (cd : Codec) (src : List (Bytes × Bytes) × Nat) : List Chunk :=
  (src.1.filter (fun e => isTermKey e.1)).filterMap (chunkOfEntry cd src.2)

/-- The order by key and then by first docid: the key of `b` is not below the
key of `a`, and with the same key the first docid of `a` is not above that of
`b`. -/
def ChunkLe (a b : Chunk) : Prop :=
  strLess b.key a.key = false ∧ (a.key = b.key → a.first_did ≤ b.first_did)

instance : DecidableRel ChunkLe :=
  fun a b => inferInstanceAs
    (Decidable (strLess b.key a.key = false ∧ (a.key = b.key → a.first_did ≤ b.first_did)))

/-- The chunk that a state of the cursor presents. -/
def PostlistCursor.toChunk (c : PostlistCursor) : Chunk := ⟨c.key, c.firstdid, c.tf, c.cf, c.tag⟩

/-- The entry of the merged table for the chunk `c`, the `i`-th of the chunks
`group` of the term with the key `key`. For `i = 0` it is the initial chunk,
under the key itself, with the header `Uint(sum of term_freq) · Uint(sum of
collection_freq) · Uint(d0 − 1)`, where `d0` is the smallest first docid of the
group; the sums are taken modulo `2 ^ 32`, and so is `d0 − 1`. Every other
chunk is under the key followed by `UintPreservingSort` of its first docid.
The flag byte is `'1'` on the last chunk of the group and `'0'` on every
other. -/
def mergedEntry (cd : Codec) (key : Bytes) (group : List Chunk) (i : Nat) (c : Chunk) :
    Bytes × Bytes :=
  let flag := if i + 1 = group.length then 0x31 else 0x30
  if i = 0 then
    (key, cd.F_pack_uint ((group.map (fun g => g.term_freq)).sum % 2 ^ 32) ++
          cd.F_pack_uint ((group.map (fun g => g.collection_freq)).sum % 2 ^ 32) ++
          cd.F_pack_uint
            (((group.map (fun g => g.first_did)).foldr min c.first_did + 2 ^ 32 - 1) % 2 ^ 32) ++
          flag :: c.payload.tail)
  else (key ++ cd.F_pack_uint_preserving_sort c.first_did, flag :: c.payload.tail)

/-- The entries of the merged table for the chunks `group` of one term, in
their order. -/
def mergedGroup (cd : Codec) (key : Bytes) (group : List Chunk) : List (Bytes × Bytes) :=
  group.enum.map (fun ic => mergedEntry cd key group ic.1 ic.2)

/-- The entries of the merged table for the chunks `cs` of all terms: for each
key that occurs, in the order of first occurrence, the entries of the chunks
with that key. -/
def mergedTerms (cd : Codec) (cs : List Chunk) : List (Bytes × Bytes) :=
  (cs.map (fun c => c.key)).dedup.flatMap
    (fun key => mergedGroup cd key (cs.filter (fun c => c.key == key)))

/-- A postlist table as `merge_postlists` expects it: empty, or the metainfo
entry with a tag that decodes, then user-metadata entries, then entries that
hold posting-list chunks, each with a term key and a flag byte, in the order
by key and first docid. -/
def WellFormedTable (cd : Codec) (src : List (Bytes × Bytes) × Nat) : Prop :=
  src.1 = [] ∨
    ∃ m us ts, src.1 = m :: (us ++ ts) ∧
      is_metainfo_key m.1 = true ∧
      (∃ v data totlen, cd.F_unpack_uint m.2 = some (v, data) ∧
        cd.F_unpack_uint_last data = some totlen) ∧
      (∀ u ∈ us, is_user_metadata_key u.1 = true) ∧
      (∀ e ∈ ts, isTermKey e.1 = true ∧
        ∃ c, chunkOfEntry cd src.2 e = some c ∧ isTermKey c.key = true ∧ c.payload ≠ []) ∧
      (ts.filterMap (chunkOfEntry cd src.2)).Pairwise ChunkLe

/-- The total document length that the metainfo entry of a table records, 0
for a table without one. -/
def tableTotlen (cd : Codec) (src : List (Bytes × Bytes) × Nat) : Nat :=
  match src.1 with
  | (key, tag) :: _ =>
    if is_metainfo_key key then
      match cd.F_unpack_uint tag with
      | none => 0
      | some (_, data) => (cd.F_unpack_uint_last data).getD 0
    else 0
  | [] => 0

/-- How a state of the cursor presents an entry of the table: an entry with a
term key as the chunk it holds, another entry as it is. -/
def Presents (cd : Codec) (offset : Nat) (c : PostlistCursor) (e : Bytes × Bytes) : Prop :=
  (isTermKey e.1 = true → chunkOfEntry cd offset e = some c.toChunk) ∧
    (isTermKey e.1 = false → c.key = e.1 ∧ c.tag = e.2)

/-- A cursor of the queue before the term loop: it runs through user-metadata
entries `us` and then through posting-list chunks `ts` in queue order, and no
call of `next` throws. -/
def Readable (cd : Codec) (c : PostlistCursor) : Prop :=
  ∃ l us ts, following cd c.rest c = some l ∧ c :: l = us ++ ts ∧
    (∀ u ∈ us, is_user_metadata_key u.key = true) ∧
    (∀ t ∈ ts, isTermKey t.key = true) ∧ ts.Pairwise CursorLe

/-- The number of entries the cursors of a queue have yet to give. -/
def queueSize (pq : List PostlistCursor) : Nat := (pq.map (fun c => c.rest.length + 1)).sum

/-- A priority queue that scans for the first element no other is less than. -/
def popMin : List PostlistCursor → Option (PostlistCursor × List PostlistCursor)
  | [] => none
  | c :: cs =>
    match popMin cs with
    | none => some (c, [])
    | some (m, rest) => if PostlistCursorGt c m then some (m, c :: rest) else some (c, cs)

/-- Modelled from the spec: `F_pack_uint` of `flint_utils.h`, "unsigned varint,
7 data bits per byte, high-bit-continuation; the encoded length is the minimum
possible", here with the low bits first. -/
def packUint (v : Nat) : Bytes :=
  let rec go : Nat → Nat → Bytes
    | 0, _ => []
    | fuel + 1, v => if v < 128 then [v] else (v % 128 + 128) :: go fuel (v / 128)
  go 10 v

/-- Modelled from the spec: `F_unpack_uint` of `flint_utils.h` for a 32-bit
value, the inverse of `packUint`. -/
def unpackUint : Bytes → Option (Nat × Bytes)
  | [] => none
  | b :: bs =>
    if b < 128 then some (b, bs)
    else
      match unpackUint bs with
      | none => none
      | some (v, r) => if (b - 128) + 128 * v < 2 ^ 32 then some ((b - 128) + 128 * v, r) else none

/-- Modelled from the spec: `F_pack_uint_last` of `flint_utils.h`, the "variant
used at the very end of a value where the length is implicit from the remaining
buffer — all bytes are data", here with the low byte first. -/
def packUintLast (v : Nat) : Bytes :=
  let rec go : Nat → Nat → Bytes
    | 0, _ => []
    | fuel + 1, v => if v = 0 then [] else (v % 256) :: go fuel (v / 256)
  go 8 v

/-- Modelled from the spec: `F_unpack_uint_last` of `flint_utils.h`, the
inverse of `packUintLast`. -/
def unpackUintLast (bs : Bytes) : Option Nat :=
  if bs.length ≤ 8 then some (bs.foldr (fun b v => b + 256 * v) 0) else none

/-- Modelled from the spec: `F_unpack_uint_last` of `flint_utils.h` for a value
of 32 bits, which has at most four bytes. -/
def unpackUintLastTermcount (bs : Bytes) : Option Nat :=
  if bs.length ≤ 4 then some (bs.foldr (fun b v => b + 256 * v) 0) else none

/-- Modelled from the spec: `F_pack_uint_preserving_sort` of `flint_utils.h`,
"a leading byte encodes the width of the following big-endian payload". -/
def packUintPreservingSort (v : Nat) : Bytes :=
  let rec go : Nat → Nat → Bytes → Bytes
    | 0, _, acc => acc
    | fuel + 1, v, acc => if v = 0 then acc else go fuel (v / 256) ((v % 256) :: acc)
  let payload := go 4 v []
  payload.length :: payload

/-- Modelled from the spec: `F_unpack_uint_preserving_sort` of `flint_utils.h`,
the inverse of `packUintPreservingSort`. -/
def unpackUintPreservingSort : Bytes → Option (Nat × Bytes)
  | [] => none
  | n :: bs =>
    if n ≤ 4 ∧ n ≤ bs.length then some ((bs.take n).foldl (fun v b => 256 * v + b) 0, bs.drop n)
    else none

/-- Modelled from the spec: `F_pack_string_preserving_sort` of `flint_utils.h`,
"`s` with every `\0` byte escaped as `\0\xff`, terminated by `\0\0`". -/
def packStringPreservingSort (s : Bytes) : Bytes :=
  s.flatMap (fun b => if b = 0 then [0, 0xff] else [b]) ++ [0, 0]

/-- Modelled from the spec: `F_unpack_string_preserving_sort` of
`flint_utils.h`, the inverse of `packStringPreservingSort`. -/
def unpackStringPreservingSort : Bytes → Option (Bytes × Bytes)
  | [] => none
  | [_] => none
  | b :: c :: r =>
    if b = 0 then
      if c = 0xff then
        match unpackStringPreservingSort r with
        | none => none
        | some (s, r1) => some (0 :: s, r1)
      else if c = 0 then some ([], r)
      else none
    else
      match unpackStringPreservingSort (c :: r) with
      | none => none
      | some (s, r1) => some (b :: s, r1)

/-- The codec of the flint backend, with a `totlen_t` of 64 bits. -/
def flintCodec : Codec :=
  ⟨64, packUint, packUintLast, packUintPreservingSort, unpackUint, unpackUintLast,
    unpackUintPreservingSort, unpackStringPreservingSort, unpackUintLastTermcount⟩

/-- A postlist table with documents 1 to 3: the term `a` in one chunk. -/
def exampleTableA : List (Bytes × Bytes) :=
  [([0], packUint 3 ++ packUintLast 7),
   (packStringPreservingSort [97], packUint 2 ++ packUint 3 ++ packUint 0 ++ [0x31, 1, 1, 1])]

/-- A postlist table with a user-metadata entry, the term `a` in two chunks and
the term `b` in one chunk. -/
def exampleTableB : List (Bytes × Bytes) :=
  [([0], packUint 6 ++ packUintLast 9),
   ([0, 0xc0, 120], [7]),
   (packStringPreservingSort [97], packUint 2 ++ packUint 2 ++ packUint 0 ++ [0x30, 5]),
   (packStringPreservingSort [97] ++ packUintPreservingSort 5, [0x31, 6]),
   (packStringPreservingSort [98], packUint 1 ++ packUint 4 ++ packUint 299 ++ [0x31, 8])]

/-- The two example tables, the second with docid offset 10. -/
def exampleSources : List (List (Bytes × Bytes) × Nat) :=
  [(exampleTableA, 0), (exampleTableB, 10)]

end Compact

namespace Compact

/-! ### `xapian-compact`: the docid offsets of the sources -/

/-- What `main` reads of a source database through `Xapian::Database`:
`get_doccount()`, the docids in use in ascending order (the posting list of the
empty term) and `get_lastdocid()`. -/
structure SourceDb where
  doccount : Nat
  docids : List Nat
  lastdocid : Nat

/-- The ways `main` stops early: `exit(status)`, or the model running out of
steps. -/
inductive Stop where
  | exit (status : Nat)
  | steps
  deriving DecidableEq, Repr

/-- The loop `while (last_lbound < last)` of `main`, the binary chop for the
last docid in use; `it` holds the docids from the iterator's position on. -/
def lastUsedLoop (db : SourceDb) : Nat → List Nat → Nat → Nat → Except Stop Nat
  | 0, _, last_lbound, last =>
    if last_lbound < last then Except.error Stop.steps else Except.ok last
  | fuel + 1, it, last_lbound, last =>
    if last_lbound < last then
      let mid := last_lbound + (last - last_lbound + 1) / 2
      -- it.skip_to(mid)
      match it.dropWhile (fun d => d < mid) with
      | [] => lastUsedLoop db fuel db.docids last_lbound (mid - 1)
      | d :: it => lastUsedLoop db fuel (d :: it) d last
    else Except.ok last

/-- The vectors `offset` and `used_ranges` and the variable `tot_off` of
`main`. -/
structure OffsetState where
  offset : List Nat
  used_ranges : List (Nat × Nat)
  tot_off : Nat
  deriving DecidableEq, Repr

/-- The body of the loop of `main` over the source directories, from the
opening of the database on: the used docid range of the source and its offset.
The tests of the directory names and of the backend type come before and are
left out. -/
def sourceStep (renumber : Bool) (fuel : Nat) (db : SourceDb) (s : OffsetState) :
    Except Stop OffsetState :=
  let num_docs := db.doccount
  let ranged : Except Stop (Nat × Nat × Nat) :=
    if num_docs != 0 then
      match db.docids with
      | [] => Except.error (Stop.exit 1)
      | first :: _ =>
        let tot_off :=
          if renumber && first != 0 then (s.tot_off + 2 ^ 32 - (first - 1)) % 2 ^ 32
          else s.tot_off
        let last_lbound := (first + num_docs - 1) % 2 ^ 32
        match lastUsedLoop db fuel db.docids last_lbound db.lastdocid with
        | Except.error e => Except.error e
        | Except.ok last => Except.ok (first, last, tot_off)
    else Except.ok (0, 0, s.tot_off)
  match ranged with
  | Except.error e => Except.error e
  | Except.ok (first, last, tot_off) =>
    Except.ok ⟨s.offset ++ [tot_off], s.used_ranges ++ [(first, last)],
      if renumber then (tot_off + last) % 2 ^ 32 else tot_off⟩

/-- The loop of `main` over the source directories. -/
def offsetLoop (renumber : Bool) (fuel : Nat) : List SourceDb → OffsetState → Except Stop OffsetState
  | [], s => Except.ok s
  | db :: dbs, s =>
    match sourceStep renumber fuel db s with
    | Except.error e => Except.error e
    | Except.ok s1 => offsetLoop renumber fuel dbs s1

/-- A source database as the backends keep it: the docids in use, counted by
`doccount`, ascend from 1 or more to `lastdocid` or less, which fits 32 bits. -/
def SourceDb.WellFormed (db : SourceDb) : Prop :=
  db.doccount = db.docids.length ∧ db.docids.Pairwise (fun a b => a < b) ∧
    (∀ d ∈ db.docids, 1 ≤ d ∧ d ≤ db.lastdocid) ∧ db.lastdocid < 2 ^ 32

/-- The number of docids in the used range `(first, last)` of a source; an
empty source has the range `(0, 0)` and uses none. -/
def rangeSize (r : Nat × Nat) : Nat := if r = (0, 0) then 0 else r.2 - r.1 + 1

/-- The used docid range of a source: the first and the last docid in use, and
`(0, 0)` when it has no documents. -/
def SourceDb.usedRange (db : SourceDb) : Nat × Nat :=
  (db.docids.headD 0, db.docids.getLastD 0)

/-- Three sources: docids 3 to 7 with a gap, an empty one, and docids 2, 3. -/
def exampleDbs : List SourceDb :=
  [⟨3, [3, 4, 7], 9⟩, ⟨0, [], 0⟩, ⟨2, [2, 3], 3⟩]

/-! ### `xapian-compact-flint`: the tables keyed by docid -/

/-- An entry of a table as `merge_docid_keyed` copies it: the key, the tag as
stored, and whether the stored tag is compressed. -/
abbrev RawEntry := Bytes × Bytes × Bool

/-- The ways `merge_docid_keyed` stops without finishing: its `throw`, or a read
of `offset[i]` past the end of the vector. -/
inductive KeyedStop where
  | corrupt (what : String)
  | noOffset
  deriving DecidableEq, Repr

/-- The loop `while (cur.next())` of `merge_docid_keyed` over the entries of the
input named `name`, whose docid offset is `off`. -/
def docidKeyedCopy (cd : Codec) (name : String) (off : Nat) :
    List RawEntry → List RawEntry → Except KeyedStop (List RawEntry)
  | [], out => Except.ok out
  | (current_key, current_tag, compressed) :: rest, out =>
    -- Adjust the key if this isn't the first database.
    if off != 0 then
      match cd.F_unpack_uint_preserving_sort current_key with
      | none => Except.error (KeyedStop.corrupt ("Bad key in " ++ name))
      | some (did, d) =>
        let did := (did + off) % 2 ^ 32
        -- Copy over the termname for the position table.
        let key := cd.F_pack_uint_preserving_sort did ++ d
        docidKeyedCopy cd name off rest (out ++ [(key, current_tag, compressed)])
    else docidKeyedCopy cd name off rest (out ++ [(current_key, current_tag, compressed)])

/-- The function `merge_docid_keyed`, from input `i` on: the calls
`out->add(key, tag, compressed)` it makes, in order. An input is the name of
its directory and the entries of its table in key order. -/
def merge_docid_keyed (cd : Codec) :
    List (String × List RawEntry) → List Nat → List RawEntry → Except KeyedStop (List RawEntry)
  | [], _, out => Except.ok out
  | _ :: _, [], _ => Except.error KeyedStop.noOffset
  | (name, table) :: inputs, off :: offset, out =>
    if table.isEmpty then merge_docid_keyed cd inputs offset out
    else
      match docidKeyedCopy cd name off table out with
      | Except.error e => Except.error e
      | Except.ok out => merge_docid_keyed cd inputs offset out

/-- The entry the merged table holds for the entry `e` of a source with docid
offset `off`: the key as it is when the offset is 0, else with the docid at its
front replaced by the docid plus the offset, modulo `2 ^ 32`; the tag and its
compressed flag as they are. -/
def rekeyed (cd : Codec) (off : Nat) (e : RawEntry) : RawEntry :=
  if off = 0 then e
  else
    match cd.F_unpack_uint_preserving_sort e.1 with
    | none => e
    | some (did, term) => (cd.F_pack_uint_preserving_sort ((did + off) % 2 ^ 32) ++ term, e.2.1, e.2.2)

/-- Every key of a source that needs new keys starts with a docid that
decodes. -/
def Rekeyable (cd : Codec) (off : Nat) (table : List RawEntry) : Prop :=
  off = 0 ∨ ∀ e ∈ table, cd.F_unpack_uint_preserving_sort e.1 ≠ none

/-- Two record tables: docids 1 and 2, and docid 1 with the term `a`. -/
def exampleKeyed : List (String × List RawEntry) :=
  [("db1/", [(packUintPreservingSort 1, [10], false), (packUintPreservingSort 2, [11], true)]),
   ("db2/", [(packUintPreservingSort 1 ++ [97], [12], true)])]

/-! ### `xapian-compact-flint`: merging the postlist tables in several passes -/

/-- Modelled from the spec: `FlintTable::add`, which is not among the sources,
on a table that is "an ordered map from byte-string key to byte-string value":
"`add(key, value)` — insert/overwrite". The entries are kept in key order. -/
def tableAdd : List (Bytes × Bytes) → Bytes → Bytes → List (Bytes × Bytes)
  | [], key, tag => [(key, tag)]
  | (k, t) :: rest, key, tag =>
    if strLess key k then (key, tag) :: (k, t) :: rest
    else if key = k then (key, tag) :: rest
    else (k, t) :: tableAdd rest key tag

/-- The table that a sequence of calls `add(key, tag)` leaves. -/
def tableOf (adds : List (Bytes × Bytes)) : List (Bytes × Bytes) :=
  adds.foldl (fun t e => tableAdd t e.1 e.2) []

/-- The loop `for (unsigned int i = 0, j; i < tmp.size(); i = j)` of
`multimerge_postlists`, from `i` on: the temporary tables `tmpout` of a pass.
`none` is the model running out of steps; the removal of files is left out. -/
def passLoop (cd : Codec)
    (top : List PostlistCursor → Option (PostlistCursor × List PostlistCursor)) (fuel : Nat)
    (tmp : List (List (Bytes × Bytes))) (off : List Nat) :
    Nat → Nat → List (List (Bytes × Bytes)) →
      Option (Except MergeError (List (List (Bytes × Bytes))))
  | 0, _, _ => none
  | steps + 1, i, tmpout =>
    if i < tmp.length then
      let j := i + 2
      let j := if j == tmp.length - 1 then j + 1 else j
      -- merge_postlists(&tmptab, off.begin() + i, tmp.begin() + i, tmp.begin() + j, 0)
      match merge_postlists cd top fuel (((tmp.drop i).take (j - i)).zip (off.drop i)) 0 with
      | Except.error e => some (Except.error e)
      | Except.ok adds => passLoop cd top fuel tmp off steps j (tmpout ++ [tableOf adds])
    else some (Except.ok tmpout)

/-- The function `multimerge_postlists`: the calls `out->add(key, tag)` made on
the output table. `none` is the model running out of steps. -/
def multimerge_postlists (cd : Codec)
    (top : List PostlistCursor → Option (PostlistCursor × List PostlistCursor)) (fuel : Nat)
    (tot_off : Nat) :
    Nat → List (List (Bytes × Bytes)) → List Nat →
      Option (Except MergeError (List (Bytes × Bytes)))
  | 0, _, _ => none
  | steps + 1, tmp, off =>
    if tmp.length > 3 then
      -- newoff.resize(tmp.size() / 2)
      let newoff := List.replicate (tmp.length / 2) 0
      match passLoop cd top fuel tmp off steps 0 [] with
      | none => none
      | some (Except.error e) => some (Except.error e)
      | some (Except.ok tmpout) => multimerge_postlists cd top fuel tot_off steps tmpout newoff
    else some (merge_postlists cd top fuel (tmp.zip off) tot_off)

/-- The groups of a pass, as the claim gives them: consecutive pairs, the last
group a triple when one input would be left over. -/
def pairUp {α : Type} : List α → List (List α)
  | [] => []
  | [a] => [[a]]
  | [a, b] => [[a, b]]
  | [a, b, c] => [[a, b, c]]
  | a :: b :: c :: d :: rest => [a, b] :: pairUp (c :: d :: rest)

/-- The temporary tables of a pass, as the claim gives them: each group is
merged with `merge_postlists` into one table, with the offsets in the group and
`tot_off` 0. -/
def mergeGroups (cd : Codec)
    (top : List PostlistCursor → Option (PostlistCursor × List PostlistCursor)) (fuel : Nat) :
    List (List (List (Bytes × Bytes) × Nat)) → Except MergeError (List (List (Bytes × Bytes)))
  | [] => Except.ok []
  | g :: gs =>
    match merge_postlists cd top fuel g 0 with
    | Except.error e => Except.error e
    | Except.ok adds =>
      match mergeGroups cd top fuel gs with
      | Except.error e => Except.error e
      | Except.ok tables => Except.ok (tableOf adds :: tables)

/-- Five postlist tables that hold a metainfo entry and one term each. -/
def exampleFive : List (List (Bytes × Bytes)) :=
  [98, 97, 99, 97, 98].map (fun t =>
    [([0], packUint 1 ++ packUintLast t),
     (packStringPreservingSort [t], packUint 1 ++ packUint 1 ++ packUint 0 ++ [0x31, t])])

/-- Two postlist tables that hold only a metainfo entry, with total document
lengths of 3000000000 and 2000000000. -/
def exampleLongSources : List (List (Bytes × Bytes) × Nat) :=
  [([([0], packUint 2 ++ packUintLast 3000000000)], 0),
   ([([0], packUint 1 ++ packUintLast 2000000000)], 2)]

/-- A codec like `flintCodec` but with a `totlen_t` of 32 bits. -/
def narrowCodec : Codec := { flintCodec with totlen_bits := 32 }

end Compact

namespace Compact

/-! ### `xapian-compact`: the options -/

/-- The test `isspace` of the C library in the "C" locale. -/
def isSpace (c : Char) : Bool :=
  c == ' ' || c == '\t' || c == '\n' || c == '\x0b' || c == '\x0c' || c == '\r'

/-- The value of the decimal digits at the front of a string, taken on from
`acc`, with the rest of the string and whether any digit was read. -/
def scanDigits : List Char → Nat → Bool → Nat × List Char × Bool
  | [], acc, any => (acc, [], any)
  | c :: cs, acc, any =>
    if c.isDigit then scanDigits cs (10 * acc + (c.toNat - '0'.toNat)) true
    else (acc, c :: cs, any)

/-- The sign that may stand before the digits of a number: whether it is a
minus sign, and the string after it. -/
def stripSign : List Char → Bool × List Char
  | '-' :: rest => (true, rest)
  | '+' :: rest => (false, rest)
  | body => (false, body)

/-- The call `strtoul(s, &p, 10)` of the C library for an `unsigned long` of
`bits` bits: the value and the rest `p` of the string. White space and then a
sign are passed over; without a digit the value is 0 and `p` is `s`; a number
that does not fit gives the largest value; a minus sign negates the value
modulo `2 ^ bits`. -/
def strtoul (bits : Nat) (s : List Char) : Nat × List Char :=
  let (negative, digits) := stripSign (s.dropWhile isSpace)
  match scanDigits digits 0 false with
  | (_, _, false) => (0, s)
  | (value, p, true) =>
    if 2 ^ bits ≤ value then (2 ^ bits - 1, p)
    else if negative then ((2 ^ bits - value) % 2 ^ bits, p)
    else (value, p)

/-- The handling of the option `-b` of `main` for an `unsigned long` and
`size_t` of `bits` bits: the block size, or the exit status after the message
about a bad value. -/
def blockSizeOption (bits : Nat) (optarg : String) : Except Stop Nat :=
  let (block_size, p) := strtoul bits optarg.data
  let (block_size, p) :=
    if block_size ≤ 64 && (p.head? == some 'K' || p.head? == some 'k') then
      ((block_size * 1024) % 2 ^ bits, p.tail)
    else (block_size, p)
  if !p.isEmpty || block_size < 2048 || block_size > 65536 ||
      (block_size &&& (block_size - 1)) != 0 then
    Except.error (Stop.exit 1)
  else Except.ok block_size

/-- The type `compaction_level` of `xapian-compact.h`. -/
inductive compaction_level where
  | STANDARD
  | FULL
  | FULLER
  deriving DecidableEq, Repr

/-- An option as `gnu_getopt_long` hands it to `main`. -/
inductive CommandOption where
  | b (optarg : String)
  | n
  | F
  | m
  | noRenumber
  | help
  | version
  | other
  deriving DecidableEq, Repr

/-- The variables that the options of `main` set. -/
structure Settings where
  compaction : compaction_level
  block_size : Nat
  multipass : Bool
  renumber : Bool
  deriving DecidableEq, Repr

/-- The values of the variables of `main` before the options are read. -/
def Settings.initial : Settings := ⟨compaction_level.FULL, 8192, false, true⟩

/-- The loop `while ((c = gnu_getopt_long(...)) != -1)` of `main` with its
`switch`, on the options in the order they are given. -/
def readOptions (bits : Nat) : List CommandOption → Settings → Except Stop Settings
  | [], s => Except.ok s
  | CommandOption.b optarg :: rest, s =>
    match blockSizeOption bits optarg with
    | Except.error e => Except.error e
    | Except.ok block_size => readOptions bits rest { s with block_size := block_size }
  | CommandOption.n :: rest, s =>
    readOptions bits rest { s with compaction := compaction_level.STANDARD }
  | CommandOption.F :: rest, s =>
    readOptions bits rest { s with compaction := compaction_level.FULLER }
  | CommandOption.m :: rest, s => readOptions bits rest { s with multipass := true }
  | CommandOption.noRenumber :: rest, s => readOptions bits rest { s with renumber := false }
  | CommandOption.help :: _, _ => Except.error (Stop.exit 0)
  | CommandOption.version :: _, _ => Except.error (Stop.exit 0)
  | CommandOption.other :: _, _ => Except.error (Stop.exit 1)

/-- A string of decimal digits, at least one. -/
def IsDecimal (ds : List Char) : Prop := ds ≠ [] ∧ ∀ c ∈ ds, c.isDigit = true

/-- The number that decimal digits write. -/
def decimalValue (ds : List Char) : Nat :=
  ds.foldl (fun acc c => 10 * acc + (c.toNat - '0'.toNat)) 0

end Compact

namespace Compact

/-! ### `xapian-compact-flint.cc`: `merge_spellings` -/

/-- Modelled from the spec: `struct MergeCursor`, a `FlintCursor` (which is not
among the sources) on an entry of a table: the key and the tag of the entry,
and the entries after it in key order. -/
structure MergeCursor where
  current_key : Bytes
  current_tag : Bytes
  rest : List (Bytes × Bytes)
  deriving DecidableEq, Repr

/-- Modelled from the spec: the constructor of `MergeCursor`, which goes to
the first entry of the table (`find_entry(string()); next();`); `none` for a
table without entries, for which `merge_spellings` makes no cursor. -/
def MergeCursor.create : List (Bytes × Bytes) → Option MergeCursor
  | [] => none
  | (key, tag) :: rest => some ⟨key, tag, rest⟩

/-- Modelled from the spec: `FlintCursor::next`, which returns `false`
(`none`) when there is no entry left. -/
def MergeCursor.next (c : MergeCursor) : Option MergeCursor := MergeCursor.create c.rest

/-- `struct CursorGt`, for cursors that are not after the end: whether the key
of `a` is strictly greater than the key of `b`. -/
def CursorGt (a b : MergeCursor) : Bool := strLess b.current_key a.current_key

/-- What is assumed of `std::priority_queue` with the comparison `gt`, as for
`IsPriorityQueue`: `top` of a queue that is not empty gives an element that is
greater than no other and the other elements. -/
def IsPriorityQueueOf {α : Type} (gt : α → α → Bool) (top : List α → Option (α × List α)) :
    Prop :=
  top [] = none ∧
    ∀ pq, pq ≠ [] → ∃ c rest, top pq = some (c, rest) ∧ (c :: rest).Perm pq ∧
      ∀ d ∈ rest, gt c d = false

/-- `#define MAGIC_XOR_VALUE 96`. -/
def MAGIC_XOR_VALUE : Nat := 96

/-- `std::string::resize(n)`. -/
def resize (s : Bytes) (n : Nat) : Bytes := s.take n ++ List.replicate (n - s.length) 0

/-- `class PrefixCompressedStringItor`: `p` holds the `left` bytes from `p` on,
and `none` is the null pointer. -/
structure PrefixCompressedStringItor where
  p : Option Bytes
  current : Bytes
  deriving DecidableEq, Repr

/-- `PrefixCompressedStringItor::operator++()`. -/
def PrefixCompressedStringItor.incr (it : PrefixCompressedStringItor) :
    Except MergeError PrefixCompressedStringItor :=
  match it.p with
  | none => Except.ok { it with p := none }
  | some [] => Except.ok { it with p := none }
  | some (b :: bs) =>
    let step : Bytes × Bytes :=
      if !it.current.isEmpty then (resize it.current (b ^^^ MAGIC_XOR_VALUE), bs)
      else (it.current, b :: bs)
    let current := step.1
    match step.2 with
    | [] => Except.error (MergeError.corrupt "Bad spelling data (too little left)")
    | a :: p =>
      let add := a ^^^ MAGIC_XOR_VALUE
      if add ≥ p.length + 1 then
        Except.error (MergeError.corrupt "Bad spelling data (too little left)")
      else Except.ok ⟨some (p.drop add), current ++ p.take add⟩

/-- The constructor `PrefixCompressedStringItor(const std::string & s)`. -/
def PrefixCompressedStringItor.create (s : Bytes) : Except MergeError PrefixCompressedStringItor :=
  if !s.isEmpty then PrefixCompressedStringItor.incr ⟨some s, []⟩ else Except.ok ⟨none, []⟩

/-- `PrefixCompressedStringItor::at_end`. -/
def PrefixCompressedStringItor.at_end (it : PrefixCompressedStringItor) : Bool := it.p.isNone

/-- `struct PrefixCompressedStringItorGt`: whether the string of `a` is
strictly greater than the string of `b`. -/
def PrefixCompressedStringItorGt (a b : PrefixCompressedStringItor) : Bool :=
  strLess b.current a.current

/-- `class PrefixCompressedStringWriter`. -/
structure PrefixCompressedStringWriter where
  current : Bytes
  out : Bytes
  deriving DecidableEq, Repr

/-- The count `i` that the `for` loop of `PrefixCompressedStringWriter::append`
ends with: the length of the longest common start of the two strings. -/
def commonLength : Bytes → Bytes → Nat
  | a :: current, b :: word => if a ≠ b then 0 else commonLength current word + 1
  | _, _ => 0

/-- `PrefixCompressedStringWriter::append`; `char(n)` keeps the low 8 bits. -/
def PrefixCompressedStringWriter.append (wr : PrefixCompressedStringWriter) (word : Bytes) :
    PrefixCompressedStringWriter :=
  -- If this isn't the first entry, see how much of the previous one
  -- we can reuse.
  if !wr.current.isEmpty then
    let i := commonLength wr.current word
    ⟨word, wr.out ++ [(i ^^^ MAGIC_XOR_VALUE) % 256] ++
      [((word.length - i) ^^^ MAGIC_XOR_VALUE) % 256] ++ word.drop i⟩
  else ⟨word, wr.out ++ [(word.length ^^^ MAGIC_XOR_VALUE) % 256] ++ word⟩

/-- `pq.push(cur)` if `cur->next()` is true, else `delete cur`. -/
def pushNext (pq : List MergeCursor) (cur : MergeCursor) : List MergeCursor :=
  match cur.next with
  | some cur => pq ++ [cur]
  | none => pq

/-- The loop of `merge_spellings` that opens the source tables; a source is
the entries of its spelling table in key order. -/
def openSpellings : List (List (Bytes × Bytes)) → List MergeCursor → List MergeCursor
  | [], pq => pq
  | table :: more, pq =>
    match MergeCursor.create table with
    | some cur => openSpellings more (pq ++ [cur])
    | none => openSpellings more pq

/-- The first `while (true)` loop of the branch of `merge_spellings` for keys
that do not start with `W`: it takes the cursors with the key `key` off the
queue into `vec`, with an iterator over the tag of each in `pqtag`. -/
def gatherLoop (top : List MergeCursor → Option (MergeCursor × List MergeCursor)) (key : Bytes) :
    Nat → MergeCursor → List MergeCursor → List PrefixCompressedStringItor → List MergeCursor →
      Except MergeError (List MergeCursor × List PrefixCompressedStringItor × List MergeCursor)
  | 0, _, _, _, _ => Except.error MergeError.steps
  | fuel + 1, cur, pq, pqtag, vec =>
    match PrefixCompressedStringItor.create cur.current_tag with
    | Except.error e => Except.error e
    | Except.ok it =>
      let pqtag := pqtag ++ [it]
      let vec := vec ++ [cur]
      match top pq with
      | none => Except.ok (pq, pqtag, vec)
      | some (cur, others) =>
        if cur.current_key ≠ key then Except.ok (pq, pqtag, vec)
        else gatherLoop top key fuel cur others pqtag vec

/-- The loop `while (!pqtag.empty())` of `merge_spellings`, which writes the
words of the iterators without the repeated ones. -/
def wordLoop
    (toptag : List PrefixCompressedStringItor →
      Option (PrefixCompressedStringItor × List PrefixCompressedStringItor)) :
    Nat → List PrefixCompressedStringItor → PrefixCompressedStringWriter → Bytes →
      Except MergeError PrefixCompressedStringWriter
  | 0, _, _, _ => Except.error MergeError.steps
  | fuel + 1, pqtag, wr, lastword =>
    match toptag pqtag with
    | none => Except.ok wr
    | some (it, others) =>
      let word := it.current
      let wr := if word ≠ lastword then wr.append word else wr
      let lastword := if word ≠ lastword then word else lastword
      match it.incr with
      | Except.error e => Except.error e
      | Except.ok it =>
        if !it.at_end then wordLoop toptag fuel (others ++ [it]) wr lastword
        else wordLoop toptag fuel others wr lastword

/-- The `while (true)` loop of the branch of `merge_spellings` for keys that
start with `W`, which sums the frequencies of the tags with the key `key` in
the 32 bits of `Xapian::termcount`. -/
def freqLoop (cd : Codec) (top : List MergeCursor → Option (MergeCursor × List MergeCursor))
    (key : Bytes) :
    Nat → MergeCursor → List MergeCursor → Nat → Except MergeError (List MergeCursor × Nat)
  | 0, _, _, _ => Except.error MergeError.steps
  | fuel + 1, cur, pq, tot_freq =>
    match cd.F_unpack_uint_last_termcount cur.current_tag with
    | none => Except.error (MergeError.corrupt "Bad spelling word freq")
    | some freq =>
      if freq = 0 then Except.error (MergeError.corrupt "Bad spelling word freq")
      else
        let tot_freq := (tot_freq + freq) % 2 ^ 32
        let pq := pushNext pq cur
        match top pq with
        | none => Except.ok (pq, tot_freq)
        | some (cur, others) =>
          if cur.current_key ≠ key then Except.ok (pq, tot_freq)
          else freqLoop cd top key fuel cur others tot_freq

/-- One turn of the loop `while (!pq.empty())` of `merge_spellings`: `none`
when the queue is empty, else the entry added to `out` and the queue after the
turn. `steps` bounds the turns of the inner loops. -/
def mergeStep (cd : Codec) (top : List MergeCursor → Option (MergeCursor × List MergeCursor))
    (toptag : List PrefixCompressedStringItor →
      Option (PrefixCompressedStringItor × List PrefixCompressedStringItor))
    (steps : Nat) (pq : List MergeCursor) :
    Except MergeError (Option ((Bytes × Bytes) × List MergeCursor)) :=
  match top pq with
  | none => Except.ok none
  | some (cur, pq) =>
    let key := cur.current_key
    let single :=
      match top pq with
      | none => true
      | some (next, _) => strLess key next.current_key
    if single then
      -- No need to merge the tags, just copy the (possibly compressed)
      -- tag value.
      Except.ok (some ((key, cur.current_tag), pushNext pq cur))
    else if key.head? ≠ some 'W'.toNat then
      -- We just want the union of words, so copy over the first instance
      -- and skip any identical ones.
      match gatherLoop top key steps cur pq [] [] with
      | Except.error e => Except.error e
      | Except.ok (pq, pqtag, vec) =>
        match wordLoop toptag steps pqtag ⟨[], []⟩ [] with
        | Except.error e => Except.error e
        | Except.ok wr => Except.ok (some ((key, wr.out), vec.foldl pushNext pq))
    else
      -- We want to sum the frequencies from tags for the same key.
      match freqLoop cd top key steps cur pq 0 with
      | Except.error e => Except.error e
      | Except.ok (pq, tot_freq) => Except.ok (some ((key, cd.F_pack_uint_last tot_freq), pq))

/-- The loop `while (!pq.empty())` of `merge_spellings`, with a bound on the
number of its turns: the entries added to `out`, in order. -/
def mergeLoop (cd : Codec) (top : List MergeCursor → Option (MergeCursor × List MergeCursor))
    (toptag : List PrefixCompressedStringItor →
      Option (PrefixCompressedStringItor × List PrefixCompressedStringItor))
    (steps : Nat) :
    Nat → List MergeCursor → List (Bytes × Bytes) → Except MergeError (List (Bytes × Bytes))
  | 0, _, _ => Except.error MergeError.steps
  | fuel + 1, pq, out =>
    match mergeStep cd top toptag steps pq with
    | Except.error e => Except.error e
    | Except.ok none => Except.ok out
    | Except.ok (some (entry, pq)) => mergeLoop cd top toptag steps fuel pq (out ++ [entry])

/-- The function `merge_spellings`: the calls `out->add(key, tag)` it makes, in
order, for sources given by the entries of their spelling tables in key
order. -/
def merge_spellings (cd : Codec) (top : List MergeCursor → Option (MergeCursor × List MergeCursor))
    (toptag : List PrefixCompressedStringItor →
      Option (PrefixCompressedStringItor × List PrefixCompressedStringItor))
    (steps : Nat) (sources : List (List (Bytes × Bytes))) :
    Except MergeError (List (Bytes × Bytes)) :=
  mergeLoop cd top toptag steps steps (openSpellings sources []) []

/-- A priority queue for the comparison `gt` that scans for the first element
no other is less than. -/
def popLeast {α : Type} (gt : α → α → Bool) : List α → Option (α × List α)
  | [] => none
  | c :: cs =>
    match popLeast gt cs with
    | none => some (c, [])
    | some (m, rest) => if gt c m then some (m, c :: rest) else some (c, cs)

/-- The words that an iterator gives until it is at the end, in at most the
given number of steps. -/
def wordsFrom : Nat → PrefixCompressedStringItor → Option (List Bytes)
  | 0, _ => none
  | fuel + 1, it =>
    if it.at_end then some []
    else
      match it.incr with
      | Except.error _ => none
      | Except.ok next => (wordsFrom fuel next).map (fun ws => it.current :: ws)

/-- The list of words that a tag holds in prefix-compressed form, as
`PrefixCompressedStringItor` reads it; `none` when the iterator throws. -/
def wordsOf (tag : Bytes) : Option (List Bytes) :=
  match PrefixCompressedStringItor.create tag with
  | Except.error _ => none
  | Except.ok it => wordsFrom (tag.length + 1) it

/-- The prefix-compressed form of a list of words, as
`PrefixCompressedStringWriter` writes it. -/
def encodeWords (ws : List Bytes) : Bytes :=
  (ws.foldl PrefixCompressedStringWriter.append ⟨[], []⟩).out

/-- The tags that a key has in the sources, in the order of the sources. -/
def tagsOf (sources : List (List (Bytes × Bytes))) (key : Bytes) : List Bytes :=
  (sources.flatten.filter (fun e => e.1 = key)).map Prod.snd

/-- Spelling tables for the examples: in both sources the word `cat` with a
frequency (keys that start with `W`) and a list of words under the key `Hct`;
`dog` only in the first and `cow` only in the second. -/
def exampleSpellingA : List (Bytes × Bytes) :=
  [([72, 99, 116], encodeWords [[99, 97, 116], [99, 111, 116]]),
    ([87, 99, 97, 116], packUintLast 3), ([87, 100, 111, 103], packUintLast 1)]

/-- The second spelling table of the examples. -/
def exampleSpellingB : List (Bytes × Bytes) :=
  [([72, 99, 116], encodeWords [[99, 97, 116], [99, 117, 116]]),
    ([87, 99, 97, 116], packUintLast 4), ([87, 99, 111, 119], packUintLast 2)]

/-- The words an iterator gives from its position until it is at the end. -/
inductive Decodes : PrefixCompressedStringItor → List Bytes → Prop where
  | done (it : PrefixCompressedStringItor) : it.p = none → Decodes it []
  | more (it next : PrefixCompressedStringItor) (ws : List Bytes) :
      it.p ≠ none → it.incr = Except.ok next → Decodes next ws → Decodes it (it.current :: ws)

/-- A bound on the calls of `operator++` an iterator takes before it is
dropped: one at the end, else the bytes left and two. -/
def itorSize (it : PrefixCompressedStringItor) : Nat :=
  match it.p with
  | none => 1
  | some p => p.length + 2

/-- Strings in strictly ascending byte order. -/
def Ascending (ws : List Bytes) : Prop := ws.Pairwise (fun a b => strLess a b = true)

instance (ws : List Bytes) : Decidable (Ascending ws) := by
  unfold Ascending
  infer_instance

/-- An iterator whose words from its position on are in strictly ascending
order, and whose string is empty if it is at the end. -/
def ValidItor (it : PrefixCompressedStringItor) : Prop :=
  ∃ ws, Decodes it ws ∧ Ascending ws ∧ (it.p = none → it.current = [])

/-- The entry a cursor is on and the entries after it. -/
def MergeCursor.entries (c : MergeCursor) : List (Bytes × Bytes) :=
  (c.current_key, c.current_tag) :: c.rest

/-- The entries that the cursors of a queue have yet to give. -/
def entriesOf (pq : List MergeCursor) : List (Bytes × Bytes) := pq.flatMap MergeCursor.entries

/-- The tags that a key has among entries. -/
def tagsIn (entries : List (Bytes × Bytes)) (key : Bytes) : List Bytes :=
  (entries.filter (fun e => e.1 = key)).map Prod.snd

/-- A table whose keys are in strictly ascending order. -/
def SortedTable (table : List (Bytes × Bytes)) : Prop := Ascending (table.map Prod.fst)

instance (table : List (Bytes × Bytes)) : Decidable (SortedTable table) := by
  unfold SortedTable
  infer_instance

/-- A bound on the steps that the entries take: their number and the bytes of
their tags. -/
def spellingSize (entries : List (Bytes × Bytes)) : Nat :=
  (entries.map (fun e => e.2.length + 1)).sum

/-- The frequency that a tag of a key starting with `W` holds, a
`Xapian::termcount`, 0 when it does not decode. -/
def freqOf (cd : Codec) (tag : Bytes) : Nat := (cd.F_unpack_uint_last_termcount tag).getD 0

/-- What the merge expects of the tags of a key that several sources have: for
a key that starts with `W` each is a frequency that is not zero, for another
key each is a list of words in strictly ascending order. -/
def GroupValid (cd : Codec) (key : Bytes) (tags : List Bytes) : Prop :=
  (key.head? = some 'W'.toNat → ∀ t ∈ tags, ∃ f ∈ cd.F_unpack_uint_last_termcount t, f ≠ 0) ∧
  (key.head? ≠ some 'W'.toNat → ∀ t ∈ tags, ∃ ws ∈ wordsOf t, Ascending ws)

instance (cd : Codec) (key : Bytes) (tags : List Bytes) : Decidable (GroupValid cd key tags) := by
  unfold GroupValid
  infer_instance

/-- The number of bytes that two strings have in common at their start. -/
def sharedPrefix (a b : Bytes) : Nat := ((a.zip b).takeWhile (fun p => p.1 == p.2)).length

/-- The bytes of the words `ws` that follow the word `prev` in a
prefix-compressed list: for each word the number of bytes it has in common
with the word before it, the number of its other bytes, and those bytes; each
number is one byte, xor-ed with `MAGIC_XOR_VALUE`. -/
def prefixCompressedAfter : Bytes → List Bytes → Bytes
  | _, [] => []
  | prev, w :: ws =>
    (sharedPrefix prev w ^^^ MAGIC_XOR_VALUE) % 256 ::
      ((w.length - sharedPrefix prev w) ^^^ MAGIC_XOR_VALUE) % 256 ::
        (w.drop (sharedPrefix prev w) ++ prefixCompressedAfter w ws)

/-- The prefix-compressed form of a list of words, none empty, which is the
format of a spelling tag that `PrefixCompressedStringItor` reads: the first
word as its length, xor-ed with `MAGIC_XOR_VALUE`, and its bytes, and each
later word by what it adds to the word before it. -/
def prefixCompressed : List Bytes → Bytes
  | [] => []
  | w :: ws => (w.length ^^^ MAGIC_XOR_VALUE) % 256 :: (w ++ prefixCompressedAfter w ws)

/-- The tag that the merge is to write for a key with the tags `tags` in the
sources: the tag itself when there is one; for a key that starts with `W` the
sum of the frequencies in the 32 bits of `Xapian::termcount`; for another key
the prefix-compressed form of the words of the lists that are not empty, in
ascending order and each once. -/
def Merged (cd : Codec) (key : Bytes) (tags : List Bytes) (tag : Bytes) : Prop :=
  (∀ t, tags = [t] → tag = t) ∧
  (2 ≤ tags.length → key.head? = some 'W'.toNat →
    tag = cd.F_pack_uint_last ((tags.map (freqOf cd)).sum % 2 ^ 32)) ∧
  (2 ≤ tags.length → key.head? ≠ some 'W'.toNat →
    ∃ ws, Ascending ws ∧
      (∀ w, w ∈ ws ↔ w ≠ [] ∧ ∃ t ∈ tags, ∃ l, wordsOf t = some l ∧ w ∈ l) ∧
      tag = prefixCompressed ws)

/-- What a turn of the loop of `merge_spellings` is to do for the least key of
the queue, `tags` being the tags the key has in the queue and `left` the
entries of the other keys: it throws `DatabaseCorruptError` or adds an entry
for the key and leaves the other entries in the queue; it throws when the key
starts with `W`, has several tags and one of them is not a frequency; and it
adds the merged tag when the tags are as the merge expects. -/
def StepSpec (cd : Codec) (key : Bytes) (tags : List Bytes) (left : List (Bytes × Bytes))
    (r : Except MergeError (Option ((Bytes × Bytes) × List MergeCursor))) : Prop :=
  ((∃ what, r = Except.error (MergeError.corrupt what)) ∨
    ∃ tag pq, r = Except.ok (some ((key, tag), pq)) ∧ (∀ d ∈ pq, SortedTable d.entries) ∧
      (entriesOf pq).Perm left) ∧
  (key.head? = some 'W'.toNat → 2 ≤ tags.length →
    (∃ t ∈ tags, cd.F_unpack_uint_last_termcount t = none ∨
      cd.F_unpack_uint_last_termcount t = some 0) →
    r = Except.error (MergeError.corrupt "Bad spelling word freq")) ∧
  ((2 ≤ tags.length → GroupValid cd key tags) →
    ∃ tag pq, r = Except.ok (some ((key, tag), pq)) ∧ Merged cd key tags tag ∧
      (∀ d ∈ pq, SortedTable d.entries) ∧ (entriesOf pq).Perm left)

end Compact

namespace Compact

/-! ### `xapian-compact-flint.cc`: `merge_synonyms` -/

/-- The ways `merge_synonyms` stops without finishing: a `throw` of
`DatabaseCorruptError`, a call of `pq.top()` on an empty queue, a read of
`operator*` past the end of the tag, or the model running out of steps. -/
inductive SynonymStop where
  | corrupt (what : String)
  | emptyTop
  | readPastEnd
  | steps
  deriving DecidableEq, Repr

/-- `class ByteLengthPrefixedStringItor`: `p` holds the `left` bytes from `p`
on. -/
structure ByteLengthPrefixedStringItor where
  p : Bytes
  deriving DecidableEq, Repr

/-- `ByteLengthPrefixedStringItor::operator*`, which does not look at
`left`. -/
def ByteLengthPrefixedStringItor.deref (it : ByteLengthPrefixedStringItor) :
    Except SynonymStop Bytes :=
  match it.p with
  | [] => Except.error SynonymStop.readPastEnd
  | b :: rest =>
    let len := b ^^^ MAGIC_XOR_VALUE
    if rest.length < len then Except.error SynonymStop.readPastEnd
    else Except.ok (rest.take len)

/-- `ByteLengthPrefixedStringItor::operator++()`. -/
def ByteLengthPrefixedStringItor.incr (it : ByteLengthPrefixedStringItor) :
    Except SynonymStop ByteLengthPrefixedStringItor :=
  match it.p with
  | [] => Except.error (SynonymStop.corrupt "Bad synonym data (none left)")
  | b :: rest =>
    let add := (b ^^^ MAGIC_XOR_VALUE) + 1
    if rest.length + 1 < add then
      Except.error (SynonymStop.corrupt "Bad synonym data (too little left)")
    else Except.ok ⟨(b :: rest).drop add⟩

/-- `ByteLengthPrefixedStringItor::at_end`. -/
def ByteLengthPrefixedStringItor.at_end (it : ByteLengthPrefixedStringItor) : Bool :=
  it.p.isEmpty

/-- `struct ByteLengthPrefixedStringItorGt`, for iterators that can be read. -/
def ByteLengthPrefixedStringItorGt (a b : ByteLengthPrefixedStringItor) : Bool :=
  match a.deref, b.deref with
  | Except.ok x, Except.ok y => strLess y x
  | _, _ => false

/-- The first `while (true)` loop of `merge_synonyms`: it takes the cursors
with the key `key` off the queue into `vec`, with an iterator over the tag of
each in `pqtag`. -/
def gatherSynonyms (top : List MergeCursor → Option (MergeCursor × List MergeCursor))
    (key : Bytes) :
    Nat → MergeCursor → List MergeCursor → List ByteLengthPrefixedStringItor →
      List MergeCursor →
      Except SynonymStop
        (List MergeCursor × List ByteLengthPrefixedStringItor × List MergeCursor)
  | 0, _, _, _, _ => Except.error SynonymStop.steps
  | fuel + 1, cur, pq, pqtag, vec =>
    let pqtag := pqtag ++ [⟨cur.current_tag⟩]
    let vec := vec ++ [cur]
    match top pq with
    | none => Except.ok (pq, pqtag, vec)
    | some (cur, others) =>
      if cur.current_key ≠ key then Except.ok (pq, pqtag, vec)
      else gatherSynonyms top key fuel cur others pqtag vec

/-- The loop `while (!pqtag.empty())` of `merge_synonyms`, which writes the
words of the iterators without the repeated ones; `byte(n)` keeps the low 8
bits. -/
def synonymWordLoop
    (toptag : List ByteLengthPrefixedStringItor →
      Option (ByteLengthPrefixedStringItor × List ByteLengthPrefixedStringItor)) :
    Nat → List ByteLengthPrefixedStringItor → Bytes → Bytes → Except SynonymStop Bytes
  | 0, _, _, _ => Except.error SynonymStop.steps
  | fuel + 1, pqtag, tag, lastword =>
    match toptag pqtag with
    | none => Except.ok tag
    | some (it, others) =>
      match it.deref with
      | Except.error e => Except.error e
      | Except.ok word =>
        let tag :=
          if word ≠ lastword then tag ++ [(word.length ^^^ MAGIC_XOR_VALUE) % 256] ++ word
          else tag
        let lastword := if word ≠ lastword then word else lastword
        match it.incr with
        | Except.error e => Except.error e
        | Except.ok it =>
          if !it.at_end then synonymWordLoop toptag fuel (others ++ [it]) tag lastword
          else synonymWordLoop toptag fuel others tag lastword

/-- One turn of the loop `while (!pq.empty())` of `merge_synonyms`: `none`
when the queue is empty, else the entry added to `out` and the queue after the
turn. The test `pq.top()->current_key > key` comes without a test of
`pq.empty()`. -/
def synonymStep (top : List MergeCursor → Option (MergeCursor × List MergeCursor))
    (toptag : List ByteLengthPrefixedStringItor →
      Option (ByteLengthPrefixedStringItor × List ByteLengthPrefixedStringItor))
    (steps : Nat) (pq : List MergeCursor) :
    Except SynonymStop (Option ((Bytes × Bytes) × List MergeCursor)) :=
  match top pq with
  | none => Except.ok none
  | some (cur, pq) =>
    let key := cur.current_key
    match top pq with
    | none => Except.error SynonymStop.emptyTop
    | some (next, _) =>
      if strLess key next.current_key then
        -- No need to merge the tags, just copy the (possibly compressed)
        -- tag value.
        Except.ok (some ((key, cur.current_tag), pushNext pq cur))
      else
        -- We just want the union of words, so copy over the first instance
        -- and skip any identical ones.
        match gatherSynonyms top key steps cur pq [] [] with
        | Except.error e => Except.error e
        | Except.ok (pq, pqtag, vec) =>
          match synonymWordLoop toptag steps pqtag [] [] with
          | Except.error e => Except.error e
          | Except.ok tag => Except.ok (some ((key, tag), vec.foldl pushNext pq))

/-- The loop `while (!pq.empty())` of `merge_synonyms`, with a bound on the
number of its turns: the entries added to `out`, in order. -/
def synonymLoop (top : List MergeCursor → Option (MergeCursor × List MergeCursor))
    (toptag : List ByteLengthPrefixedStringItor →
      Option (ByteLengthPrefixedStringItor × List ByteLengthPrefixedStringItor))
    (steps : Nat) :
    Nat → List MergeCursor → List (Bytes × Bytes) → Except SynonymStop (List (Bytes × Bytes))
  | 0, _, _ => Except.error SynonymStop.steps
  | fuel + 1, pq, out =>
    match synonymStep top toptag steps pq with
    | Except.error e => Except.error e
    | Except.ok none => Except.ok out
    | Except.ok (some (entry, pq)) => synonymLoop top toptag steps fuel pq (out ++ [entry])

/-- The function `merge_synonyms`: the calls `out->add(key, tag)` it makes, in
order, for sources given by the entries of their synonym tables in key order
(the loop that opens the tables is that of `merge_spellings`). -/
def merge_synonyms (top : List MergeCursor → Option (MergeCursor × List MergeCursor))
    (toptag : List ByteLengthPrefixedStringItor →
      Option (ByteLengthPrefixedStringItor × List ByteLengthPrefixedStringItor))
    (steps : Nat) (sources : List (List (Bytes × Bytes))) :
    Except SynonymStop (List (Bytes × Bytes)) :=
  synonymLoop top toptag steps steps (openSpellings sources []) []

/-- A synonym table with one entry: the key `a` with the synonym `b`. -/
def exampleSynonyms : List (Bytes × Bytes) := [([97], [1 ^^^ MAGIC_XOR_VALUE, 98])]

/-- A second synonym table: the keys `a` and `c`. -/
def exampleSynonymsB : List (Bytes × Bytes) :=
  [([97], [1 ^^^ MAGIC_XOR_VALUE, 100]), ([99], [1 ^^^ MAGIC_XOR_VALUE, 101])]

/-- The bytes that `PrefixCompressedStringWriter::append` adds to `out` for
`word` when the word before it was `current`. -/
def encodeWord (current word : Bytes) : Bytes :=
  if !current.isEmpty then
    [(commonLength current word ^^^ MAGIC_XOR_VALUE) % 256] ++
      [((word.length - commonLength current word) ^^^ MAGIC_XOR_VALUE) % 256] ++
      word.drop (commonLength current word)
  else [(word.length ^^^ MAGIC_XOR_VALUE) % 256] ++ word

/-- The bytes that a writer whose last word was `current` adds for a list of
words. -/
def encodeFrom : Bytes → List Bytes → Bytes
  | _, [] => []
  | current, w :: ws => encodeWord current w ++ encodeFrom w ws

/-- A source database with the documents 1 to 5. -/
def fiveDocs : SourceDb := ⟨5, [1, 2, 3, 4, 5], 5⟩

/-- A postlist table without a metainfo entry: a user-metadata entry and the
term `a`. -/
def noMetainfoTable : List (Bytes × Bytes) :=
  [([0, 0xc0, 120], [7]),
   (packStringPreservingSort [97], packUint 2 ++ packUint 3 ++ packUint 0 ++ [0x31, 1, 1, 1])]

/-- A postlist table without a metainfo entry and without user metadata: the
terms `a` and `b`, each in one chunk. -/
def noMetainfoTerms : List (Bytes × Bytes) :=
  [(packStringPreservingSort [97], packUint 2 ++ packUint 3 ++ packUint 0 ++ [0x31, 1, 1, 1]),
   (packStringPreservingSort [98], packUint 1 ++ packUint 4 ++ packUint 2 ++ [0x31, 8])]

/-- Two postlist tables with the same user-metadata key and different tags. -/
def clashingSources : List (List (Bytes × Bytes) × Nat) :=
  [([([0], packUint 3 ++ packUintLast 7), ([0, 0xc0, 120], [7])], 0),
   ([([0], packUint 3 ++ packUintLast 7), ([0, 0xc0, 120], [8])], 0)]

/-- A postlist table with one document: the metainfo entry and the term `a`
with the term frequency 1 and the collection frequency `3 * 2 ^ 30`. -/
def wrappingTable : List (Bytes × Bytes) :=
  [([0], packUint 1 ++ packUintLast 1),
   (packStringPreservingSort [97], packUint 1 ++ packUint 3221225472 ++ packUint 0 ++ [0x31, 1])]

/-- Two sources with that table, the second with docid offset 10. -/
def wrappingSources : List (List (Bytes × Bytes) × Nat) :=
  [(wrappingTable, 0), (wrappingTable, 10)]

end Compact

namespace Flint

open Compact

/-! ### `flint_positionlist.cc`: the position lists of the flint backend -/

/-- The classes `BitReader` and `BitWriter` of `bitstream.h`, which is not
among the sources, as far as `flint_positionlist.cc` uses them, for a reader
state `R` and a writer state `W`: the constructor `BitReader(data, start)`,
`decode(outof)`, `decode_interpolative(pos, j, k)`, which fills `pos`, and the
constructor `BitWriter(init)`, `encode(value, outof)`,
`encode_interpolative(pos, j, k)` and `freeze()`. -/
structure BitStream (R W : Type) where
  reader : Bytes → Nat → R
  decode : R → Nat → Nat × R
  decode_interpolative : R → List Nat → Nat → Nat → List Nat × R
  writer : Bytes → W
  encode : W → Nat → Nat → W
  encode_interpolative : W → List Nat → Nat → Nat → W
  freeze : W → Bytes

/-- The ways the functions of `flint_positionlist.cc` stop without a result:
the `throw` of `DatabaseCorruptError`, or an access to an element of an empty
vector. -/
inductive PositionStop where
  | corrupt (what : String)
  | emptyVector
  deriving DecidableEq, Repr

/-- Modelled from the spec: `FlintTable::get_exact_entry`, which is not among
the sources, on a table that is "an ordered map from byte-string key to
byte-string value": "`get_exact(key) → value?` — returns the value or signals
absence". -/
def get_exact_entry : List (Bytes × Bytes) → Bytes → Option Bytes
  | [], _ => none
  | (k, t) :: rest, key => if key = k then some t else get_exact_entry rest key

/-- Modelled from the spec: `FlintPositionListTable::make_key` of
`flint_positionlist.h`, which is not among the sources: the position table is
"keyed by `UintPreservingSort(did) · term`". -/
def make_key (cd : Codec) (did : Nat) (tname : Bytes) : Bytes :=
  cd.F_pack_uint_preserving_sort did ++ tname

/-- `FlintPositionListTable::set_positionlist` on the positions `poscopy` from
`pos` to `pos_end`: the table after the call `add(key, tag)`. -/
def set_positionlist {R W : Type} (cd : Codec) (bs : BitStream R W) (table : List (Bytes × Bytes))
    (did : Nat) (tname : Bytes) (poscopy : List Nat) : Except PositionStop (List (Bytes × Bytes)) :=
  let key := make_key cd did tname
  match poscopy with
  | [] => Except.error PositionStop.emptyVector
  | [p] =>
    -- Special case for single entry position list.
    Except.ok (tableAdd table key (cd.F_pack_uint p))
  | first :: more =>
    let back := (first :: more).getLastD 0
    let wr := bs.writer (cd.F_pack_uint back)
    let wr := bs.encode wr first back
    let wr := bs.encode wr (poscopy.length - 2) ((back + 2 ^ 32 - first) % 2 ^ 32)
    let wr := bs.encode_interpolative wr poscopy 0 (poscopy.length - 1)
    Except.ok (tableAdd table key (bs.freeze wr))

/-- `FlintPositionListTable::positionlist_count`. -/
def positionlist_count {R W : Type} (cd : Codec) (bs : BitStream R W)
    (table : List (Bytes × Bytes)) (did : Nat) (term : Bytes) : Except PositionStop Nat :=
  match get_exact_entry table (cd.F_pack_uint_preserving_sort did ++ term) with
  | none =>
    -- There's no positional information for this term.
    Except.ok 0
  | some data =>
    match cd.F_unpack_uint data with
    | none => Except.error (PositionStop.corrupt "Position list data corrupt")
    | some (pos_last, pos) =>
      if pos = [] then
        -- Special case for single entry position list.
        Except.ok 1
      else
        -- Skip the header we just read.
        let rd := bs.reader data (data.length - pos.length)
        let (pos_first, rd) := bs.decode rd pos_last
        let pos_size := ((bs.decode rd ((pos_last + 2 ^ 32 - pos_first) % 2 ^ 32)).1 + 2) % 2 ^ 32
        Except.ok pos_size

/-- The members of `class FlintPositionList`; `current_pos` is the index in
`positions` the iterator is at. -/
structure FlintPositionList where
  positions : List Nat
  current_pos : Nat
  have_started : Bool
  deriving DecidableEq, Repr

/-- `FlintPositionList::read_data`: the return value and the list read. -/
def FlintPositionList.read_data {R W : Type} (cd : Codec) (bs : BitStream R W)
    (table : List (Bytes × Bytes)) (did : Nat) (tname : Bytes) :
    Except PositionStop (Bool × FlintPositionList) :=
  match get_exact_entry table (cd.F_pack_uint_preserving_sort did ++ tname) with
  | none =>
    -- There's no positional information for this term.
    Except.ok (false, ⟨[], 0, false⟩)
  | some data =>
    match cd.F_unpack_uint data with
    | none => Except.error (PositionStop.corrupt "Position list data corrupt")
    | some (pos_last, pos) =>
      if pos = [] then
        -- Special case for single entry position list.
        Except.ok (true, ⟨[pos_last], 0, false⟩)
      else
        -- Skip the header we just read.
        let rd := bs.reader data (data.length - pos.length)
        let (pos_first, rd) := bs.decode rd pos_last
        let pos_size := ((bs.decode rd ((pos_last + 2 ^ 32 - pos_first) % 2 ^ 32)).1 + 2) % 2 ^ 32
        let rd := (bs.decode rd ((pos_last + 2 ^ 32 - pos_first) % 2 ^ 32)).2
        -- positions.resize(pos_size); positions[0] = pos_first; positions.back() = pos_last
        if pos_size = 0 then Except.error PositionStop.emptyVector
        else
          let positions := (List.replicate pos_size 0).set 0 pos_first
          let positions := positions.set (pos_size - 1) pos_last
          let positions := (bs.decode_interpolative rd positions 0 (pos_size - 1)).1
          Except.ok (true, ⟨positions, 0, false⟩)

/-- `FlintPositionList::get_size`. -/
def FlintPositionList.get_size (l : FlintPositionList) : Nat := l.positions.length

/-- A bit stream for the examples, with a byte for each number: a reader is
the bytes left, and `decode_interpolative` reads the positions between the
first and the last one byte each. -/
def byteStream : BitStream Bytes Bytes where
  reader := fun data start => data.drop start
  decode := fun r _ => (r.headD 0, r.tail)
  decode_interpolative := fun r pos j k =>
    (pos.enum.map (fun ip => if j < ip.1 ∧ ip.1 < k then r.getD (ip.1 - j - 1) 0 else ip.2),
      r.drop (k - j - 1))
  writer := fun init => init
  encode := fun w value _ => w ++ [value]
  encode_interpolative := fun w pos j k => w ++ (pos.take k).drop (j + 1)
  freeze := fun w => w

end Flint

namespace Brass

open Compact

/-! ### `brass_termlist.cc`: the term list of a document -/

/-- What `unpack_uint(&pos, end, &value)` of `pack.h`, which is not among the
sources, leaves: the value and the bytes after it, or `false` with `pos` null
(too little data) or not null (the value overflows). -/
inductive Unpacked where
  | value (v : Nat) (rest : Bytes)
  | underrun
  | overflow
  deriving DecidableEq, Repr

/-- The ways the functions of `brass_termlist.cc` stop without a result: a
`throw` of `DocNotFoundError` or of `DatabaseCorruptError`, or a read at or past
`end`. -/
inductive TermListStop where
  | notFound
  | corrupt (what : String)
  | pastEnd
  deriving DecidableEq, Repr

/-- The members of `class BrassTermList` that `next` uses; `pos` holds the
bytes from `pos` to `end`, and `none` is the null pointer. -/
structure BrassTermList where
  pos : Option Bytes
  doclen : Nat
  termlist_size : Nat
  current_term : Bytes
  current_wdf : Nat
  current_termfreq : Nat
  deriving DecidableEq, Repr

/-- The message of the `DatabaseCorruptError` that follows a failed
`unpack_uint` for the value named `what`. -/
def unpackFailure (what : String) (pos_is_null : Bool) : TermListStop :=
  TermListStop.corrupt
    ((if pos_is_null then "Too little data for " else "Overflowed value for ") ++ what ++
      " in termlist")

/-- The constructor of `BrassTermList`, on the tag `data` that
`get_exact_entry` finds for the document, if any. -/
def BrassTermList.create (unpack_uint : Bytes → Unpacked) (data : Option Bytes) :
    Except TermListStop BrassTermList :=
  match data with
  | none => Except.error TermListStop.notFound
  | some [] => Except.ok ⟨some [], 0, 0, [], 0, 0⟩
  | some data =>
    -- Read doclen
    match unpack_uint data with
    | Unpacked.underrun => Except.error (unpackFailure "doclen" true)
    | Unpacked.overflow => Except.error (unpackFailure "doclen" false)
    | Unpacked.value doclen pos =>
      -- Read termlist_size
      match unpack_uint pos with
      | Unpacked.underrun => Except.error (unpackFailure "list size" true)
      | Unpacked.overflow => Except.error (unpackFailure "list size" false)
      | Unpacked.value termlist_size pos => Except.ok ⟨some pos, doclen, termlist_size, [], 0, 0⟩

/-- `BrassTermList::next`. A call at the end (`pos` null), which the code
excludes by `Assert(!at_end())`, is a read past the end. -/
def BrassTermList.next (unpack_uint : Bytes → Unpacked) (tl : BrassTermList) :
    Except TermListStop BrassTermList :=
  match tl.pos with
  | none => Except.error TermListStop.pastEnd
  | some [] => Except.ok { tl with pos := none }
  | some (b :: pos) =>
    -- Reset to 0 to indicate that the termfreq needs to be read.
    let tl := { tl with current_termfreq := 0 }
    let reused : BrassTermList × Bytes × Bool :=
      if !tl.current_term.isEmpty then
        -- Find out how much of the previous term to reuse.
        let len := b
        if len > tl.current_term.length then
          -- The wdf is also stored in the "reuse" byte.
          let divisor := tl.current_term.length + 1
          ({ tl with current_wdf := len / divisor - 1,
                     current_term := resize tl.current_term (len % divisor) }, pos, true)
        else ({ tl with current_term := resize tl.current_term len }, pos, false)
      else (tl, b :: pos, false)
    let tl := reused.1
    let wdf_in_reuse := reused.2.2
    -- Append the new tail to form the next term.
    match reused.2.1 with
    | [] => Except.error TermListStop.pastEnd
    | append_len :: pos =>
      if pos.length < append_len then Except.error TermListStop.pastEnd
      else
        let tl := { tl with current_term := tl.current_term ++ pos.take append_len }
        let pos := pos.drop append_len
        -- Read the wdf if it wasn't packed into the reuse byte.
        if wdf_in_reuse then Except.ok { tl with pos := some pos }
        else
          match unpack_uint pos with
          | Unpacked.underrun => Except.error (unpackFailure "wdf" true)
          | Unpacked.overflow => Except.error (unpackFailure "wdf" false)
          | Unpacked.value wdf pos => Except.ok { tl with pos := some pos, current_wdf := wdf }

/-- `BrassTermList::at_end`. -/
def BrassTermList.at_end (tl : BrassTermList) : Bool := tl.pos.isNone

/-- An `unpack_uint` for the examples that reads one byte. -/
def unpackByte : Bytes → Unpacked
  | [] => Unpacked.underrun
  | v :: rest => Unpacked.value v rest

end Brass

namespace Brass

open Compact

/-! ### `brass_alltermslist.h`, `brass_alltermslist.cc`: the terms of a database -/

/-- Modelled from the spec: a cursor over a table (`class BrassCursor`, which
is not among the sources). `following` holds the keys of the table after the
position, in key order; before the first entry `current_key` is empty. -/
structure BrassCursor where
  current_key : Bytes
  following : List Bytes
  is_after_end : Bool
  deriving DecidableEq, Repr

/-- Modelled from the spec: `find_entry_lt(key)` positions the cursor at the
greatest key less than `key` of a table whose keys are in order. -/
def find_entry_lt (table : List Bytes) (key : Bytes) : BrassCursor :=
  ⟨((table.takeWhile (fun k => strLess k key)).getLast?).getD [],
    table.dropWhile (fun k => strLess k key), false⟩

/-- Modelled from the spec: `next()` advances the cursor, and `after_end()`
becomes true at the end of the table. -/
def BrassCursor.next (c : BrassCursor) : BrassCursor :=
  match c.following with
  | [] => { c with is_after_end := true }
  | key :: following => ⟨key, following, false⟩

/-- Modelled from the spec: `after_end()`. -/
def BrassCursor.after_end (c : BrassCursor) : Bool := c.is_after_end

/-- Modelled from the spec: `to_end()` forces the `after_end()` state. -/
def BrassCursor.to_end (c : BrassCursor) : BrassCursor := { c with is_after_end := true }

/-- `startswith(s, pfx)` of `stringutils.h`. -/
def startswith (s pfx : Bytes) : Bool := pfx.isPrefixOf s

/-- The ways `BrassAllTermsList::next` stops without a result: a `throw` of
`DatabaseCorruptError`, or the steps allowed to the loop run out. -/
inductive AllTermsStop where
  | corrupt (what : String)
  | steps
  deriving DecidableEq, Repr

/-- The members of `class BrassAllTermsList` that `next` uses. -/
structure BrassAllTermsList where
  cursor : BrassCursor
  current_term : Bytes
  prefix_ : Bytes
  termfreq : Nat
  deriving DecidableEq, Repr

/-- The constructor of `BrassAllTermsList`, on the keys of the postlist table
in key order. `pack_brass_postlist_key` is a function of `brass_postlist.h`,
which is not among the sources. -/
def BrassAllTermsList.create (pack_brass_postlist_key : Bytes → Bytes)
    (postlist_table : List Bytes) (prefix_ : Bytes) : BrassAllTermsList :=
  -- Position the cursor on the highest key before the first key we want,
  -- so that the first call to next() will put us on the first key we
  -- want.
  let cursor :=
    if prefix_.isEmpty then find_entry_lt postlist_table [0x00, 0xff]
    else
      let key := pack_brass_postlist_key prefix_
      find_entry_lt postlist_table key
  ⟨cursor, [], prefix_, 0⟩

/-- The `while (true)` loop of `BrassAllTermsList::next`, with a bound on the
number of its turns. The result holds `true` when the loop is left by `break`
and `false` when the function returns from within it.
`unpack_string_preserving_sort` is a function of `pack.h`, which is not among
the sources: it gives the string read and the bytes left after it. -/
def nextLoop (unpack_string_preserving_sort : Bytes → Option (Bytes × Bytes)) :
    Nat → BrassAllTermsList → Except AllTermsStop (Bool × BrassAllTermsList)
  | 0, _ => Except.error AllTermsStop.steps
  | fuel + 1, tl =>
    let tl := { tl with cursor := tl.cursor.next }
    if tl.cursor.after_end then Except.ok (false, { tl with current_term := [] })
    else
      match unpack_string_preserving_sort tl.cursor.current_key with
      | none => Except.error (AllTermsStop.corrupt "PostList table key has unexpected format")
      | some (term, p) =>
        let tl := { tl with current_term := term }
        -- If this key is for the first chunk of a postlist, we're done.
        -- Otherwise we need to skip past continuation chunks until we find the
        -- first chunk of the next postlist.
        if p.isEmpty then Except.ok (true, tl)
        else nextLoop unpack_string_preserving_sort fuel tl

/-- `BrassAllTermsList::next`, with a bound on the turns of its loop. -/
def BrassAllTermsList.next (unpack_string_preserving_sort : Bytes → Option (Bytes × Bytes))
    (fuel : Nat) (tl : BrassAllTermsList) : Except AllTermsStop BrassAllTermsList :=
  -- Set termfreq to 0 to indicate no termfreq/collfreq have been read for
  -- the current term.
  let tl := { tl with termfreq := 0 }
  match nextLoop unpack_string_preserving_sort fuel tl with
  | Except.error e => Except.error e
  | Except.ok (false, tl) => Except.ok tl
  | Except.ok (true, tl) =>
    if !startswith tl.current_term tl.prefix_ then
      -- We've reached the end of the prefixed terms.
      Except.ok { tl with cursor := tl.cursor.to_end, current_term := [] }
    else Except.ok tl

/-- `BrassAllTermsList::at_end`. -/
def BrassAllTermsList.at_end (tl : BrassAllTermsList) : Bool := tl.cursor.after_end

/-- `BrassAllTermsList::get_termname`. -/
def BrassAllTermsList.get_termname (tl : BrassAllTermsList) : Bytes := tl.current_term

/-- Repeated `next()` until `at_end()` is true, at most `calls` times: the key
under the cursor and the term name after each call but the last, with the list
as the last call leaves it. -/
def allTerms (unpack_string_preserving_sort : Bytes → Option (Bytes × Bytes)) (fuel : Nat) :
    Nat → BrassAllTermsList → Except AllTermsStop (List (Bytes × Bytes) × BrassAllTermsList)
  | 0, _ => Except.error AllTermsStop.steps
  | calls + 1, tl =>
    match tl.next unpack_string_preserving_sort fuel with
    | Except.error e => Except.error e
    | Except.ok tl =>
      if tl.at_end then Except.ok ([], tl)
      else
        match allTerms unpack_string_preserving_sort fuel calls tl with
        | Except.error e => Except.error e
        | Except.ok (terms, last) =>
          Except.ok ((tl.cursor.current_key, tl.get_termname) :: terms, last)

/-- The key at which the constructor of `BrassAllTermsList` positions the
cursor's search. -/
def seekKey (pack_brass_postlist_key : Bytes → Bytes) (prefix_ : Bytes) : Bytes :=
  if prefix_.isEmpty then [0x00, 0xff] else pack_brass_postlist_key prefix_

/-- The keys and terms that the calls of `next` are to stop at, for the keys
after the cursor: the keys with nothing after the term whose term starts with
the prefix, up to the first such key whose term does not. -/
def expectedStops (unpack_string_preserving_sort : Bytes → Option (Bytes × Bytes))
    (prefix_ : Bytes) : List Bytes → List (Bytes × Bytes)
  | [] => []
  | key :: following =>
    match unpack_string_preserving_sort key with
    | none => []
    | some (term, p) =>
      if p.isEmpty then
        if startswith term prefix_ then
          (key, term) :: expectedStops unpack_string_preserving_sort prefix_ following
        else []
      else expectedStops unpack_string_preserving_sort prefix_ following

/-- The list as a call of `next` leaves it, by recursion on the keys after the
cursor, for keys that `unpack_string_preserving_sort` reads. -/
def nextState (unpack_string_preserving_sort : Bytes → Option (Bytes × Bytes))
    (prefix_ : Bytes) (current_key : Bytes) : List Bytes → BrassAllTermsList
  | [] => ⟨⟨current_key, [], true⟩, [], prefix_, 0⟩
  | key :: following =>
    match unpack_string_preserving_sort key with
    | none => ⟨⟨current_key, [], true⟩, [], prefix_, 0⟩
    | some (term, p) =>
      if p.isEmpty then
        if startswith term prefix_ then ⟨⟨key, following, false⟩, term, prefix_, 0⟩
        else ⟨⟨key, following, true⟩, [], prefix_, 0⟩
      else nextState unpack_string_preserving_sort prefix_ key following

/-- What a table of postlists is taken to be, for a prefix: the keys are in
ascending order; the keys from `\x00\xff` on are those of the chunks of the
terms, and `unpack_string_preserving_sort` reads a term from each; the terms
are in the order of their keys; a key is before the key of the prefix exactly
when its term is before the prefix; the key of a non-empty prefix is not
before `\x00\xff`; and the key of the first chunk of a term (nothing follows
the term in it) is before the keys of its other chunks. -/
structure PostlistKeys (unpack_string_preserving_sort : Bytes → Option (Bytes × Bytes))
    (pack_brass_postlist_key : Bytes → Bytes) (keys : List Bytes) (prefix_ : Bytes) : Prop where
  sorted : keys.Pairwise (fun a b => strLess a b = true)
  readable : ∀ k ∈ keys, strLess k [0x00, 0xff] = false →
    (unpack_string_preserving_sort k).isSome = true
  ordered : ∀ k1 ∈ keys, ∀ k2 ∈ keys, strLess k1 [0x00, 0xff] = false → strLess k1 k2 = true →
    ∀ r1 ∈ unpack_string_preserving_sort k1, ∀ r2 ∈ unpack_string_preserving_sort k2,
      strLess r2.1 r1.1 = false
  seek : prefix_ ≠ [] → ∀ k ∈ keys, strLess k [0x00, 0xff] = false →
    ∀ r ∈ unpack_string_preserving_sort k,
      strLess k (pack_brass_postlist_key prefix_) = strLess r.1 prefix_
  seek_term : prefix_ ≠ [] → strLess (pack_brass_postlist_key prefix_) [0x00, 0xff] = false
  first_chunk : ∀ k1 ∈ keys, ∀ k2 ∈ keys, strLess k1 [0x00, 0xff] = false →
    strLess k2 [0x00, 0xff] = false →
    ∀ r1 ∈ unpack_string_preserving_sort k1, ∀ r2 ∈ unpack_string_preserving_sort k2,
      r1.2 = [] → r1.1 = r2.1 → k1 = k2 ∨ strLess k1 k2 = true

/-- Keys of a postlist table for the examples: the metainfo key, a key of
user metadata, and after them the chunks of the terms `a`, `ab` (two chunks),
`abc` (no first chunk) and `b`. -/
def exampleKeys : List Bytes :=
  [[0], [0, 0xc0, 97], packStringPreservingSort [97], packStringPreservingSort [97, 98],
    packStringPreservingSort [97, 98] ++ packUintPreservingSort 5,
    packStringPreservingSort [97, 98, 99] ++ packUintPreservingSort 7,
    packStringPreservingSort [98]]

end Brass

namespace Brass

open Compact

/-- Modelled from the spec: `find_entry_ge(key)` positions the cursor at the
smallest key of the table that is not less than `key`, and returns whether
that key is `key` itself; when the table has no such key the cursor is left
after the end. -/
def find_entry_ge (table : List Bytes) (key : Bytes) : Bool × BrassCursor :=
  match table.dropWhile (fun k => strLess k key) with
  | [] => (false, ⟨[], [], true⟩)
  | k :: following => (decide (k = key), ⟨k, following, false⟩)

/-- `BrassAllTermsList::skip_to`, on the keys of the postlist table in key
order (`FlintAllTermsList::skip_to` is the same code over
`F_pack_string_preserving_sort` and `F_unpack_string_preserving_sort`). -/
def BrassAllTermsList.skip_to (pack_brass_postlist_key : Bytes → Bytes)
    (unpack_string_preserving_sort : Bytes → Option (Bytes × Bytes))
    (postlist_table : List Bytes) (tl : BrassAllTermsList) (term : Bytes) :
    Except AllTermsStop BrassAllTermsList :=
  -- Set termfreq to 0 to indicate no termfreq/collfreq have been read for
  -- the current term.
  let tl := { tl with termfreq := 0 }
  let key := pack_brass_postlist_key term
  let r := find_entry_ge postlist_table key
  let tl := { tl with cursor := r.2 }
  let positioned : Except AllTermsStop (Bool × BrassAllTermsList) :=
    if r.1 then
      -- The exact term we asked for is there, so just copy it rather than
      -- wasting effort unpacking it from the key.
      Except.ok (true, { tl with current_term := term })
    else if tl.cursor.after_end then Except.ok (false, { tl with current_term := [] })
    else
      match unpack_string_preserving_sort tl.cursor.current_key with
      | none => Except.error (AllTermsStop.corrupt "PostList table key has unexpected format")
      | some (t, _) => Except.ok (true, { tl with current_term := t })
  match positioned with
  | Except.error e => Except.error e
  | Except.ok (false, tl) => Except.ok tl
  | Except.ok (true, tl) =>
    if !startswith tl.current_term tl.prefix_ then
      -- We've reached the end of the prefixed terms.
      Except.ok { tl with cursor := tl.cursor.to_end, current_term := [] }
    else Except.ok tl

/-- The keys of a postlist table with the terms `a` and `b1`, after the
metainfo key. -/
def skipKeys : List Bytes :=
  [[0], packStringPreservingSort [97], packStringPreservingSort [98, 49]]

/-- The list of the terms of `skipKeys` that start with `b`, after its first
`next()`: it stands on `b1`. -/
def skipList : Except AllTermsStop BrassAllTermsList :=
  (BrassAllTermsList.create packStringPreservingSort skipKeys [98]).next
    unpackStringPreservingSort 8

end Brass

namespace Chert

open Compact

/-! ### `chert_alldocspostlist.cc`, `chert_record.cc`: the chert backend -/

/-- The exceptions that the functions of `chert_alldocspostlist.cc` and
`chert_record.cc` throw, with their messages. -/
inductive ChertError where
  | InvalidOperationError (msg : String)
  | DocNotFoundError (msg : String)
  deriving DecidableEq, Repr

/-- The base class `ChertPostList` (of `chert_postlist.h`, which is not among
the sources) as far as `ChertAllDocsPostList` reads it: the posting the list
stands on, with the number stored in its wdf field. -/
structure ChertPostList where
  did : Nat
  wdf : Nat
  is_at_end : Bool
  deriving DecidableEq, Repr

/-- Modelled from the spec: `ChertPostList::get_wdf`, which returns the number
in the wdf field of the current posting; in the all-docs list the chunks hold
"`(docid, doc_length)` tuples using the same chunk format with wdf
reinterpreted as length". -/
def ChertPostList.get_wdf (pl : ChertPostList) : Nat := pl.wdf

/-- `class ChertAllDocsPostList : public ChertPostList`, with its member
`doccount`. -/
structure ChertAllDocsPostList extends ChertPostList where
  doccount : Nat
  deriving DecidableEq, Repr

namespace ChertAllDocsPostList

/-- The constructor: `base` is the `ChertPostList(db_, string(), true)` that it
builds on. -/
def create (base : ChertPostList) (doccount_ : Nat) : ChertAllDocsPostList :=
  { base with doccount := doccount_ }

/-- `ChertAllDocsPostList::get_termfreq`. -/
def get_termfreq (pl : ChertAllDocsPostList) : Nat := pl.doccount

/-- `ChertAllDocsPostList::get_doclength`. -/
def get_doclength (pl : ChertAllDocsPostList) : Nat := pl.toChertPostList.get_wdf

/-- `ChertAllDocsPostList::get_wdf`. -/
def get_wdf (_pl : ChertAllDocsPostList) : Nat := 1

/-- `ChertAllDocsPostList::read_position_list`; `P` stands for
`PositionList *`. -/
def read_position_list (P : Type) (_pl : ChertAllDocsPostList) : Except ChertError P :=
  Except.error (ChertError.InvalidOperationError
    "ChertAllDocsPostList::read_position_list() not meaningful")

/-- `ChertAllDocsPostList::open_position_list`. -/
def open_position_list (P : Type) (_pl : ChertAllDocsPostList) : Except ChertError P :=
  Except.error (ChertError.InvalidOperationError
    "ChertAllDocsPostList::open_position_list() not meaningful")

end ChertAllDocsPostList

/-- The member functions of `ChertTable` (of `chert_table.h`, which is not
among the sources) that `ChertRecordTable` calls, on a table state `T`:
`get_exact_entry(key, tag)`, which gives the tag when it returns true,
`add(key, tag)`, and `del(key)` with the value it returns. -/
structure TableOps (T : Type) where
  get_exact_entry : T → Bytes → Option Bytes
  add : T → Bytes → Bytes → T
  del : T → Bytes → Bool × T

/-- What the spec says of a table, "an ordered map from byte-string key to
byte-string value": `get_exact(key)` "returns the value or signals absence",
`add(key, value)` is "insert/overwrite", and `del(key)` "returns whether
something was removed". -/
structure IsTable {T : Type} (ops : TableOps T) : Prop where
  get_add : ∀ t key tag, ops.get_exact_entry (ops.add t key tag) key = some tag
  get_add_other : ∀ t key tag k, k ≠ key →
    ops.get_exact_entry (ops.add t key tag) k = ops.get_exact_entry t k
  del_found : ∀ t key, (ops.del t key).1 = (ops.get_exact_entry t key).isSome
  del_absent : ∀ t key, ops.get_exact_entry t key = none → (ops.del t key).2 = t
  get_del : ∀ t key, ops.get_exact_entry (ops.del t key).2 key = none
  get_del_other : ∀ t key k, k ≠ key →
    ops.get_exact_entry (ops.del t key).2 k = ops.get_exact_entry t k

/-- `make_key` of `chert_record.cc`. `pack_uint_preserving_sort` is a
function of `pack.h`, which is not among the sources: it gives the bytes that
it appends. -/
def make_key (pack_uint_preserving_sort : Nat → Bytes) (did : Nat) : Bytes :=
  let key : Bytes := []
  key ++ pack_uint_preserving_sort did

/-- The decimal digits of `om_tostring(did)`. -/
def om_tostring (did : Nat) : String := toString did

namespace ChertRecordTable

/-- `ChertRecordTable::get_record`. -/
def get_record {T : Type} (ops : TableOps T) (pack_uint_preserving_sort : Nat → Bytes)
    (t : T) (did : Nat) : Except ChertError Bytes :=
  match ops.get_exact_entry t (make_key pack_uint_preserving_sort did) with
  | none =>
    Except.error (ChertError.DocNotFoundError ("Document " ++ om_tostring did ++ " not found."))
  | some tag => Except.ok tag

/-- `ChertRecordTable::replace_record`: the table after the call. -/
def replace_record {T : Type} (ops : TableOps T) (pack_uint_preserving_sort : Nat → Bytes)
    (t : T) (data : Bytes) (did : Nat) : T :=
  -- First make key, then add
  ops.add t (make_key pack_uint_preserving_sort did) data

/-- `ChertRecordTable::delete_record`: the exception thrown, if any, and the
table after the call. -/
def delete_record {T : Type} (ops : TableOps T) (pack_uint_preserving_sort : Nat → Bytes)
    (t : T) (did : Nat) : Option ChertError × T :=
  let r := ops.del t (make_key pack_uint_preserving_sort did)
  if !r.1 then
    (some (ChertError.DocNotFoundError
      ("Can't delete non-existent document #" ++ om_tostring did)), r.2)
  else (none, r.2)

end ChertRecordTable

/-- The record table as a partial map from docid to record data: the record
of each docid below `2 ^ 32`, if it has one. -/
def RecordMap := Nat → Option Bytes

namespace RecordMap

/-- The partial map that a table holds. -/
def ofTable {T : Type} (ops : TableOps T) (pack_uint_preserving_sort : Nat → Bytes) (t : T) :
    RecordMap :=
  fun did => ops.get_exact_entry t (make_key pack_uint_preserving_sort did)

/-- Looking a docid up in the partial map: `DocNotFoundError` exactly when the
map has no entry for it. -/
def get_record (m : RecordMap) (did : Nat) : Except ChertError Bytes :=
  match m did with
  | none =>
    Except.error (ChertError.DocNotFoundError ("Document " ++ om_tostring did ++ " not found."))
  | some data => Except.ok data

/-- Setting the record of `did` to `data`: the other docids keep theirs. -/
def replace_record (m : RecordMap) (data : Bytes) (did : Nat) : RecordMap :=
  fun d => if d = did then some data else m d

/-- Deleting the record of `did`: `DocNotFoundError` and the same map exactly
when the map has no entry for it, otherwise the map without that entry. -/
def delete_record (m : RecordMap) (did : Nat) : Option ChertError × RecordMap :=
  match m did with
  | none =>
    (some (ChertError.DocNotFoundError
      ("Can't delete non-existent document #" ++ om_tostring did)), m)
  | some _ => (none, fun d => if d = did then none else m d)

end RecordMap

/-- Modelled from the spec: `del(key)` on a table held as the list of its
entries, "returns whether something was removed". -/
def tableDel (table : List (Bytes × Bytes)) (key : Bytes) : Bool × List (Bytes × Bytes) :=
  (table.any (fun e => decide (e.1 = key)), table.filter (fun e => !decide (e.1 = key)))

/-- The table operations on the list of the entries in key order. -/
def listTable : TableOps (List (Bytes × Bytes)) :=
  ⟨Flint.get_exact_entry, tableAdd, tableDel⟩

/-- A record table with the records of the docids 1 and 2. -/
def exampleRecords : List (Bytes × Bytes) :=
  [(packUintPreservingSort 1, [10]), (packUintPreservingSort 2, [11])]

end Chert

/-! ## Theorems: the OR posting list -/

namespace Matcher

theorem sortedUnion_nil_right (l : List Nat) : sortedUnion l [] = l := by
  cases l <;> simp [sortedUnion]

theorem mem_sortedUnion (d : Nat) : ∀ (l r : List Nat), d ∈ sortedUnion l r ↔ d ∈ l ∨ d ∈ r
  | [], r => by simp [sortedUnion]
  | a :: l, [] => by simp [sortedUnion]
  | a :: l, b :: r => by
    have h1 := mem_sortedUnion d l (b :: r)
    have h2 := mem_sortedUnion d (a :: l) r
    have h3 := mem_sortedUnion d l r
    rw [sortedUnion]
    split_ifs with hab hba
    · rw [List.mem_cons, h1, List.mem_cons (a := d) (b := a), or_assoc]
    · rw [List.mem_cons, h2, List.mem_cons (a := d) (b := b) (l := r), or_left_comm]
    · have hab : a = b := by omega
      subst hab
      rw [List.mem_cons, h3, List.mem_cons, List.mem_cons]
      constructor
      · rintro (h | h | h)
        · exact Or.inl (Or.inl h)
        · exact Or.inl (Or.inr h)
        · exact Or.inr (Or.inr h)
      · rintro ((h | h) | h | h)
        · exact Or.inl h
        · exact Or.inr (Or.inl h)
        · exact Or.inl h
        · exact Or.inr (Or.inr h)
termination_by l r => l.length + r.length

theorem sortedUnion_lb (m : Nat) : ∀ (l r : List Nat), (∀ x ∈ l, m < x) → (∀ x ∈ r, m < x) →
    ∀ x ∈ sortedUnion l r, m < x := by
  intro l r hl hr x hx
  rcases (mem_sortedUnion x l r).1 hx with h | h
  · exact hl x h
  · exact hr x h

theorem sorted_sortedUnion : ∀ (l r : List Nat), l.Sorted (· < ·) → r.Sorted (· < ·) →
    (sortedUnion l r).Sorted (· < ·)
  | [], r => by intro _ hr; simpa [sortedUnion] using hr
  | a :: l, [] => by intro hl _; simpa [sortedUnion] using hl
  | a :: l, b :: r => by
    intro hl hr
    have hl' := List.sorted_cons.1 hl
    have hr' := List.sorted_cons.1 hr
    rw [sortedUnion]
    split_ifs with hab hba
    · refine List.sorted_cons.2 ⟨?_, sorted_sortedUnion l (b :: r) hl'.2 hr⟩
      apply sortedUnion_lb a l (b :: r) hl'.1
      intro x hx
      rcases List.mem_cons.1 hx with h | h
      · omega
      · have := hr'.1 x h; omega
    · refine List.sorted_cons.2 ⟨?_, sorted_sortedUnion (a :: l) r hl hr'.2⟩
      apply sortedUnion_lb b (a :: l) r _ hr'.1
      intro x hx
      rcases List.mem_cons.1 hx with h | h
      · omega
      · have := hl'.1 x h; omega
    · have : a = b := by omega
      subst this
      exact List.sorted_cons.2 ⟨sortedUnion_lb a l r hl'.1 hr'.1, sorted_sortedUnion l r hl'.2 hr'.2⟩
termination_by l r => l.length + r.length

theorem drainChild_started (wmin : Nat → Weight) (m : Weight) :
    ∀ (fuel i a : Nat) (rest : List Nat), rest.length < fuel →
      drainChild fuel wmin i ⟨true, a :: rest, m⟩ = rest := by
  intro fuel
  induction fuel with
  | zero => intro i a rest h; omega
  | succ n ih =>
    intro i a rest h
    cases rest with
    | nil => simp [drainChild, ChildPL.next, ChildPL.at_end]
    | cons b rest =>
      simp only [List.length_cons] at h
      simp [drainChild, ChildPL.next, ChildPL.at_end, ChildPL.get_docid]
      exact ih (i + 1) b rest (by omega)

theorem sortedUnion_cons_cons (a b : Nat) (l r : List Nat) :
    sortedUnion (a :: l) (b :: r) = min a b :: (sortedUnion (a :: l) (b :: r)).tail := by
  rw [sortedUnion]
  split_ifs with hab hba
  · simp [Nat.min_eq_left (Nat.le_of_lt hab)]
  · simp [Nat.min_eq_right (Nat.le_of_lt hba)]
  · have : a = b := by omega
    simp [this]

theorem drain_inplace (wmin : Nat → Weight) (ml mr lmax rmax minmax : Weight) (dbsize : Nat)
    (hw : ∀ j, wmin j ≤ minmax) :
    ∀ (fuel i a b : Nat) (L R : List Nat), L.length + R.length + 1 < fuel →
      drain fuel wmin i
        { l := ⟨true, a :: L, ml⟩, r := ⟨true, b :: R, mr⟩, lhead := a, rhead := b,
          lmax := lmax, rmax := rmax, minmax := minmax, dbsize := dbsize }
        = some (sortedUnion (a :: L) (b :: R)).tail := by
  intro fuel
  induction fuel with
  | zero => intro i a b L R h; omega
  | succ n ih =>
    intro i a b L R h
    have hwi : ¬ wmin i > minmax := not_lt.2 (hw i)
    rcases Nat.lt_trichotomy a b with hab | hab | hab
    · -- only the left child moves
      have e1 : (sortedUnion (a :: L) (b :: R)).tail = sortedUnion L (b :: R) := by
        rw [sortedUnion, if_pos hab, List.tail_cons]
      rw [e1]
      cases L with
      | nil =>
        have hd := drainChild_started wmin mr n (i + 1) b R (by simp at h; omega)
        simp [drain, OrPostList.next, OrPostList.finish, hwi, Nat.le_of_lt hab, Nat.ne_of_lt hab,
          ChildPL.next, ChildPL.at_end, ChildPL.get_docid, sortedUnion, hd]
      | cons a1 L1 =>
        simp only [List.length_cons] at h
        have hi := ih (i + 1) a1 b L1 R (by omega)
        rw [sortedUnion_cons_cons a1 b L1 R]
        generalize (sortedUnion (a1 :: L1) (b :: R)).tail = T at hi ⊢
        simp [drain, OrPostList.next, OrPostList.finish, hwi, Nat.le_of_lt hab, Nat.ne_of_lt hab,
          ChildPL.next, ChildPL.at_end, ChildPL.get_docid, hi, OrPostList.get_docid]
    · -- both children move
      subst hab
      have e1 : (sortedUnion (a :: L) (a :: R)).tail = sortedUnion L R := by
        rw [sortedUnion, if_neg (lt_irrefl a), if_neg (lt_irrefl a), List.tail_cons]
      rw [e1]
      cases R with
      | nil =>
        cases L with
        | nil =>
          simp [drain, OrPostList.next, OrPostList.finish, hwi, ChildPL.next, ChildPL.at_end,
            sortedUnion]
        | cons a1 L1 =>
          have hd := drainChild_started wmin ml n (i + 1) a1 L1 (by simp at h; omega)
          simp [drain, OrPostList.next, OrPostList.finish, hwi, ChildPL.next, ChildPL.at_end,
            ChildPL.get_docid, sortedUnion, hd]
      | cons b1 R1 =>
        cases L with
        | nil =>
          have hd := drainChild_started wmin mr n (i + 1) b1 R1 (by simp at h; omega)
          simp [drain, OrPostList.next, OrPostList.finish, hwi, ChildPL.next, ChildPL.at_end,
            ChildPL.get_docid, sortedUnion, hd]
        | cons a1 L1 =>
          simp only [List.length_cons] at h
          have hi := ih (i + 1) a1 b1 L1 R1 (by omega)
          rw [sortedUnion_cons_cons a1 b1 L1 R1]
          generalize (sortedUnion (a1 :: L1) (b1 :: R1)).tail = T at hi ⊢
          simp [drain, OrPostList.next, OrPostList.finish, hwi, ChildPL.next, ChildPL.at_end,
            ChildPL.get_docid, hi, OrPostList.get_docid]
    · -- only the right child moves
      have e1 : (sortedUnion (a :: L) (b :: R)).tail = sortedUnion (a :: L) R := by
        rw [sortedUnion, if_neg (Nat.lt_asymm hab), if_pos hab, List.tail_cons]
      rw [e1]
      cases R with
      | nil =>
        have hd := drainChild_started wmin ml n (i + 1) a L (by simp at h; omega)
        simp [drain, OrPostList.next, OrPostList.finish, hwi, Nat.not_le.2 hab,
          ChildPL.next, ChildPL.at_end, ChildPL.get_docid, sortedUnion, hd]
      | cons b1 R1 =>
        simp only [List.length_cons] at h
        have hi := ih (i + 1) a b1 L R1 (by omega)
        rw [sortedUnion_cons_cons a b1 L R1]
        generalize (sortedUnion (a :: L) (b1 :: R1)).tail = T at hi ⊢
        simp [drain, OrPostList.next, OrPostList.finish, hwi, Nat.not_le.2 hab,
          ChildPL.next, ChildPL.at_end, ChildPL.get_docid, hi, OrPostList.get_docid]

theorem drain_fresh (wmin : Nat → Weight) (ml mr lmax rmax minmax : Weight) (dbsize : Nat)
    (hw : ∀ j, wmin j ≤ minmax) (fuel : Nat) (L R : List Nat) (h : L.length + R.length < fuel) :
    drain fuel wmin 0
        { l := ⟨false, L, ml⟩, r := ⟨false, R, mr⟩, lhead := 0, rhead := 0,
          lmax := lmax, rmax := rmax, minmax := minmax, dbsize := dbsize }
        = some (sortedUnion L R) := by
  have hwi : ¬ wmin 0 > minmax := not_lt.2 (hw 0)
  cases fuel with
  | zero => omega
  | succ n =>
    cases R with
    | nil =>
      cases L with
      | nil =>
        simp [drain, OrPostList.next, OrPostList.finish, hwi, ChildPL.next, ChildPL.at_end,
          sortedUnion]
      | cons a1 L1 =>
        have hd := drainChild_started wmin ml n 1 a1 L1 (by simp at h; omega)
        simp [drain, OrPostList.next, OrPostList.finish, hwi, ChildPL.next, ChildPL.at_end,
          ChildPL.get_docid, sortedUnion, hd]
    | cons b1 R1 =>
      cases L with
      | nil =>
        have hd := drainChild_started wmin mr n 1 b1 R1 (by simp at h; omega)
        simp [drain, OrPostList.next, OrPostList.finish, hwi, ChildPL.next, ChildPL.at_end,
          ChildPL.get_docid, sortedUnion, hd]
      | cons a1 L1 =>
        simp only [List.length_cons] at h
        have hi := drain_inplace wmin ml mr lmax rmax minmax dbsize hw n 1 a1 b1 L1 R1 (by omega)
        rw [sortedUnion_cons_cons a1 b1 L1 R1]
        generalize (sortedUnion (a1 :: L1) (b1 :: R1)).tail = T at hi ⊢
        simp [drain, OrPostList.next, OrPostList.finish, hwi, ChildPL.next, ChildPL.at_end,
          ChildPL.get_docid, hi, OrPostList.get_docid]

theorem finish_cases (s : OrPostList) (l1 r1 : ChildPL) (ldry rmoved : Bool)
    (hl : l1.docs <:+ s.l.docs) (hlm : l1.maxw = s.l.maxw)
    (hr : r1.docs <:+ s.r.docs) (hrm : r1.maxw = s.r.maxw)
    (hdry : ldry = true → l1.at_end = true) :
    (∃ s1, OrPostList.finish s l1 r1 ldry rmoved = Ret.null s1) ∨
      IsSurvivor s (OrPostList.finish s l1 r1 ldry rmoved) := by
  unfold OrPostList.finish
  by_cases h1 : (rmoved && r1.at_end) = true
  · rw [if_pos h1]
    right
    refine ⟨l1, r1, hl, hlm, hr, hrm, Or.inl ⟨rfl, ?_⟩⟩
    simp only [Bool.and_eq_true] at h1
    exact h1.2
  · rw [if_neg h1]
    cases ldry with
    | false => left; exact ⟨_, rfl⟩
    | true =>
      right
      exact ⟨l1, r1, hl, hlm, hr, hrm, Or.inr ⟨by simp, hdry rfl⟩⟩

theorem ChildPL.next_docs_suffix (c : ChildPL) (w : Weight) : (c.next w).docs <:+ c.docs := by
  unfold ChildPL.next
  split
  · exact List.tail_suffix _
  · exact List.suffix_refl _

theorem ChildPL.skip_to_docs_suffix (c : ChildPL) (d : Nat) (w : Weight) :
    (c.skip_to d w).docs <:+ c.docs := by
  unfold ChildPL.skip_to
  exact List.dropWhile_suffix _

theorem ChildPL.next_maxw (c : ChildPL) (w : Weight) : (c.next w).maxw = c.maxw := by
  unfold ChildPL.next
  split <;> rfl

theorem next_no_rewrite (s : OrPostList) (w : Weight) (h : ¬ w > s.minmax) :
    (∃ s1, s.next w = Ret.null s1) ∨ IsSurvivor s (s.next w) := by
  unfold OrPostList.next
  rw [if_neg h]
  by_cases h1 : s.lhead ≤ s.rhead
  · rw [if_pos h1]
    dsimp only
    by_cases h2 : decide (s.lhead = s.rhead) = true
    · rw [if_pos h2]
      exact finish_cases s _ _ _ _ (ChildPL.next_docs_suffix _ _) (ChildPL.next_maxw _ _)
        (ChildPL.next_docs_suffix _ _) (ChildPL.next_maxw _ _) (fun h => h)
    · rw [if_neg h2]
      exact finish_cases s _ _ _ _ (ChildPL.next_docs_suffix _ _) (ChildPL.next_maxw _ _)
        (List.suffix_refl _) rfl (fun h => h)
  · rw [if_neg h1]
    exact finish_cases s _ _ _ _ (List.suffix_refl _) rfl
      (ChildPL.next_docs_suffix _ _) (ChildPL.next_maxw _ _) (fun h => by simp at h)

theorem skip_to_no_rewrite (s : OrPostList) (did : Nat) (w : Weight) (h : ¬ w > s.minmax) :
    (∃ s1, s.skip_to did w = Ret.null s1) ∨ IsSurvivor s (s.skip_to did w) := by
  unfold OrPostList.skip_to
  rw [if_neg h]
  dsimp only
  by_cases hl : s.lhead < did
  · simp only [hl, decide_True, if_true]
    by_cases h2 : s.rhead < did
    · rw [if_pos h2]
      exact finish_cases s _ _ _ _ (ChildPL.skip_to_docs_suffix _ _ _) rfl
        (ChildPL.skip_to_docs_suffix _ _ _) rfl (fun h => h)
    · rw [if_neg h2]
      exact finish_cases s _ _ _ _ (ChildPL.skip_to_docs_suffix _ _ _) rfl
        (List.suffix_refl _) rfl (fun h => h)
  · simp only [hl, decide_False, if_false]
    by_cases h2 : s.rhead < did
    · rw [if_pos h2]
      exact finish_cases s _ _ _ _ (List.suffix_refl _) rfl
        (ChildPL.skip_to_docs_suffix _ _ _) rfl (fun h => by simp at h)
    · rw [if_neg h2]
      exact finish_cases s _ _ _ _ (List.suffix_refl _) rfl
        (List.suffix_refl _) rfl (fun h => by simp at h)

theorem IsSurvivor.not_rewrite {s : OrPostList} {ret : Ret} (h : IsSurvivor s ret) (n : NewNode)
    (f : FollowUp) : ret ≠ Ret.rewrite n f := by
  rcases h with ⟨l1, r1, _, _, _, _, h | h⟩ <;> rw [h.1] <;> simp

theorem or_shape (s : OrPostList) (did : Nat) (w : Weight)
    (hinv : s.minmax = min s.lmax s.rmax) (ret : Ret)
    (hret : ret = s.next w ∨ ret = s.skip_to did w) :
    (s.lmax < w ∧ s.rmax < w ∧
        ∃ f, ret = Ret.rewrite (NewNode.multiAnd s.l s.r s.lmax s.rmax s.dbsize) f) ∨
    (s.lmax < w ∧ w ≤ s.rmax ∧
        ∃ f, ret = Ret.rewrite (NewNode.andMaybe s.r s.l s.dbsize s.rhead s.lhead) f) ∨
    (s.rmax < w ∧ w ≤ s.lmax ∧
        ∃ f, ret = Ret.rewrite (NewNode.andMaybe s.l s.r s.dbsize s.lhead s.rhead) f) ∨
    (w ≤ s.lmax ∧ w ≤ s.rmax ∧ ((∃ s1, ret = Ret.null s1) ∨ IsSurvivor s ret)) := by
  by_cases hl : s.lmax < w
  · have hm : w > s.minmax := by rw [hinv]; exact lt_of_le_of_lt (min_le_left _ _) hl
    by_cases hr : s.rmax < w
    · left
      refine ⟨hl, hr, ?_⟩
      rcases hret with h | h
      · exact ⟨_, by rw [h]; unfold OrPostList.next; rw [if_pos hm, if_pos hl, if_pos hr]⟩
      · exact ⟨_, by rw [h]; unfold OrPostList.skip_to; rw [if_pos hm, if_pos hl, if_pos hr]⟩
    · right; left
      refine ⟨hl, not_lt.1 hr, ?_⟩
      rcases hret with h | h
      · exact ⟨_, by rw [h]; unfold OrPostList.next; rw [if_pos hm, if_pos hl, if_neg hr]⟩
      · exact ⟨_, by rw [h]; unfold OrPostList.skip_to; rw [if_pos hm, if_pos hl, if_neg hr]⟩
  · by_cases hr : s.rmax < w
    · have hm : w > s.minmax := by rw [hinv]; exact lt_of_le_of_lt (min_le_right _ _) hr
      right; right; left
      refine ⟨hr, not_lt.1 hl, ?_⟩
      rcases hret with h | h
      · exact ⟨_, by rw [h]; unfold OrPostList.next; rw [if_pos hm, if_neg hl]⟩
      · exact ⟨_, by rw [h]; unfold OrPostList.skip_to; rw [if_pos hm, if_neg hl]⟩
    · have hm : ¬ w > s.minmax := by
        rw [hinv]; exact not_lt.2 (le_min (not_lt.1 hl) (not_lt.1 hr))
      right; right; right
      refine ⟨not_lt.1 hl, not_lt.1 hr, ?_⟩
      rcases hret with h | h
      · rw [h]; exact next_no_rewrite s w hm
      · rw [h]; exact skip_to_no_rewrite s did w hm

/-- C2: for an OR whose `minmax` is the minimum of `lmax` and `rmax` (the class
invariant kept by the constructor and `recalc_maxweight`) and whose two children
are distinct, what `next(w_min)` and `skip_to(did, w_min)` hand back is: the AND
of both children iff `w_min > lmax` and `w_min > rmax`; the AND_MAYBE with `r`
required and `l` optional iff `w_min > lmax` and `w_min <= rmax`; the AND_MAYBE
with `l` required and `r` optional iff `w_min > rmax` and `w_min <= lmax`; an
operator rewrite happens iff `w_min > min(lmax, rmax)`, and when
`w_min <= min(lmax, rmax)` the OR stays in place or hands back the surviving
child, the other child being at its end. -/
theorem or_rewrite_choice (s : OrPostList) (did : Nat) (w_min : Weight)
    (hinv : s.minmax = min s.lmax s.rmax) (hne : s.l ≠ s.r) (ret : Ret)
    (hret : ret = s.next w_min ∨ ret = s.skip_to did w_min) :
    ((∃ f, ret = Ret.rewrite (NewNode.multiAnd s.l s.r s.lmax s.rmax s.dbsize) f) ↔
        (w_min > s.lmax ∧ w_min > s.rmax)) ∧
    ((∃ f, ret = Ret.rewrite (NewNode.andMaybe s.r s.l s.dbsize s.rhead s.lhead) f) ↔
        (w_min > s.lmax ∧ w_min ≤ s.rmax)) ∧
    ((∃ f, ret = Ret.rewrite (NewNode.andMaybe s.l s.r s.dbsize s.lhead s.rhead) f) ↔
        (w_min > s.rmax ∧ w_min ≤ s.lmax)) ∧
    ((∃ n f, ret = Ret.rewrite n f) ↔ w_min > min s.lmax s.rmax) ∧
    (w_min ≤ min s.lmax s.rmax → (∃ s1, ret = Ret.null s1) ∨ IsSurvivor s ret) := by
  have hne' : s.r ≠ s.l := fun h => hne h.symm
  rcases or_shape s did w_min hinv ret hret with ⟨h1, h2, f, hf⟩ | ⟨h1, h2, f, hf⟩ |
      ⟨h1, h2, f, hf⟩ | ⟨h1, h2, hf⟩
  · subst hf
    refine ⟨⟨fun _ => ⟨h1, h2⟩, fun _ => ⟨f, rfl⟩⟩, ⟨?_, ?_⟩, ⟨?_, ?_⟩, ⟨fun _ => ?_, fun _ => ⟨_, _, rfl⟩⟩, ?_⟩
    · rintro ⟨f', hf'⟩; simp at hf'
    · rintro ⟨_, h⟩; exact absurd h2 (not_lt.2 h)
    · rintro ⟨f', hf'⟩; simp at hf'
    · rintro ⟨_, h⟩; exact absurd h1 (not_lt.2 h)
    · exact lt_of_le_of_lt (min_le_left _ _) h1
    · intro h; exact absurd h1 (not_lt.2 (le_trans h (min_le_left _ _)))
  · subst hf
    refine ⟨⟨?_, ?_⟩, ⟨fun _ => ⟨h1, h2⟩, fun _ => ⟨f, rfl⟩⟩, ⟨?_, ?_⟩, ⟨fun _ => ?_, fun _ => ⟨_, _, rfl⟩⟩, ?_⟩
    · rintro ⟨f', hf'⟩; simp at hf'
    · rintro ⟨_, h⟩; exact absurd h (not_lt.2 h2)
    · rintro ⟨f', hf'⟩
      simp only [Ret.rewrite.injEq, NewNode.andMaybe.injEq] at hf'
      exact absurd hf'.1.1 hne'
    · rintro ⟨_, h⟩; exact absurd h1 (not_lt.2 h)
    · exact lt_of_le_of_lt (min_le_left _ _) h1
    · intro h; exact absurd h1 (not_lt.2 (le_trans h (min_le_left _ _)))
  · subst hf
    refine ⟨⟨?_, ?_⟩, ⟨?_, ?_⟩, ⟨fun _ => ⟨h1, h2⟩, fun _ => ⟨f, rfl⟩⟩, ⟨fun _ => ?_, fun _ => ⟨_, _, rfl⟩⟩, ?_⟩
    · rintro ⟨f', hf'⟩; simp at hf'
    · rintro ⟨h, _⟩; exact absurd h (not_lt.2 h2)
    · rintro ⟨f', hf'⟩
      simp only [Ret.rewrite.injEq, NewNode.andMaybe.injEq] at hf'
      exact absurd hf'.1.1 hne
    · rintro ⟨h, _⟩; exact absurd h (not_lt.2 h2)
    · exact lt_of_le_of_lt (min_le_right _ _) h1
    · intro h; exact absurd h1 (not_lt.2 (le_trans h (min_le_right _ _)))
  · have hnr : ∀ n f, ret ≠ Ret.rewrite n f := by
      intro n f
      rcases hf with ⟨s1, hs1⟩ | hs
      · rw [hs1]; simp
      · exact hs.not_rewrite n f
    refine ⟨⟨?_, ?_⟩, ⟨?_, ?_⟩, ⟨?_, ?_⟩, ⟨?_, ?_⟩, fun _ => hf⟩
    · rintro ⟨f', hf'⟩; exact absurd hf' (hnr _ _)
    · rintro ⟨h, _⟩; exact absurd h (not_lt.2 h1)
    · rintro ⟨f', hf'⟩; exact absurd hf' (hnr _ _)
    · rintro ⟨h, _⟩; exact absurd h (not_lt.2 h1)
    · rintro ⟨f', hf'⟩; exact absurd hf' (hnr _ _)
    · rintro ⟨h, _⟩; exact absurd h (not_lt.2 h2)
    · rintro ⟨n, f', hf'⟩; exact absurd hf' (hnr _ _)
    · intro h; exact absurd h (not_lt.2 (le_min h1 h2))

/-- Witness for C2: an OR over `[3, 7]` and `[4]` with `lmax = 5`, `rmax = 2`,
asked with `w_min = 3`. -/
theorem or_rewrite_choice_witness :
    (exampleOr.minmax = min exampleOr.lmax exampleOr.rmax ∧ exampleOr.l ≠ exampleOr.r ∧
      (exampleOr.next 3 = exampleOr.next 3 ∨ exampleOr.next 3 = exampleOr.skip_to 6 3)) ∧
    (((∃ f, exampleOr.next 3 = Ret.rewrite (NewNode.multiAnd exampleOr.l exampleOr.r
          exampleOr.lmax exampleOr.rmax exampleOr.dbsize) f) ↔
        ((3 : Weight) > exampleOr.lmax ∧ (3 : Weight) > exampleOr.rmax)) ∧
    ((∃ f, exampleOr.next 3 = Ret.rewrite (NewNode.andMaybe exampleOr.r exampleOr.l
          exampleOr.dbsize exampleOr.rhead exampleOr.lhead) f) ↔
        ((3 : Weight) > exampleOr.lmax ∧ (3 : Weight) ≤ exampleOr.rmax)) ∧
    ((∃ f, exampleOr.next 3 = Ret.rewrite (NewNode.andMaybe exampleOr.l exampleOr.r
          exampleOr.dbsize exampleOr.lhead exampleOr.rhead) f) ↔
        ((3 : Weight) > exampleOr.rmax ∧ (3 : Weight) ≤ exampleOr.lmax)) ∧
    ((∃ n f, exampleOr.next 3 = Ret.rewrite n f) ↔
        (3 : Weight) > min exampleOr.lmax exampleOr.rmax) ∧
    ((3 : Weight) ≤ min exampleOr.lmax exampleOr.rmax →
        (∃ s1, exampleOr.next 3 = Ret.null s1) ∨ IsSurvivor exampleOr (exampleOr.next 3))) :=
  ⟨⟨by decide, by decide, Or.inl rfl⟩,
    or_rewrite_choice exampleOr 6 3 (by decide) (by decide) (exampleOr.next 3) (Or.inl rfl)⟩

/-- C1: for children over strictly increasing docid sequences `L` and `R` and
`w_min` never above `min(lmax, rmax)`, calling `next` until the end (following
the surviving child once it replaces the OR) and reading `get_docid()` after
each call yields a strictly increasing list whose members are exactly the
docids of `L` and of `R`; and `get_docid()` of an OR is `min(lhead, rhead)`. -/
theorem or_next_enumerates_union (L R : List Nat) (ml mr : Weight) (dbsize fuel : Nat)
    (wmin : Nat → Weight)
    (hL : L.Sorted (· < ·)) (hR : R.Sorted (· < ·))
    (hw : ∀ i, wmin i ≤ min ml mr)
    (hfuel : L.length + R.length < fuel) :
    (∃ out, drain fuel wmin 0
          (OrPostList.mk0 (ChildPL.fresh L ml) (ChildPL.fresh R mr) dbsize).recalc_maxweight
        = some out ∧ out.Sorted (· < ·) ∧ ∀ d, d ∈ out ↔ d ∈ L ∨ d ∈ R) ∧
    ∀ s : OrPostList, s.get_docid = min s.lhead s.rhead := by
  refine ⟨⟨sortedUnion L R, ?_, sorted_sortedUnion L R hL hR, fun d => mem_sortedUnion d L R⟩,
    fun s => rfl⟩
  exact drain_fresh wmin ml mr ml mr (min ml mr) dbsize hw fuel L R hfuel

/-- Witness for C1: `L = [1, 3, 5]`, `R = [2, 3, 9]`. -/
theorem or_next_enumerates_union_witness :
    (([1, 3, 5] : List Nat).Sorted (· < ·) ∧ ([2, 3, 9] : List Nat).Sorted (· < ·) ∧
      (∀ i : Nat, (fun _ => (1 : Weight)) i ≤ min (2 : Weight) 1) ∧
      ([1, 3, 5] : List Nat).length + ([2, 3, 9] : List Nat).length < 7) ∧
    ((∃ out, drain 7 (fun _ => 1) 0
          (OrPostList.mk0 (ChildPL.fresh [1, 3, 5] 2) (ChildPL.fresh [2, 3, 9] 1) 20).recalc_maxweight
        = some out ∧ out.Sorted (· < ·) ∧ ∀ d, d ∈ out ↔ d ∈ [1, 3, 5] ∨ d ∈ [2, 3, 9]) ∧
    ∀ s : OrPostList, s.get_docid = min s.lhead s.rhead) :=
  ⟨⟨by decide, by decide, fun _ => (by decide : (1 : Weight) ≤ min 2 1), by decide⟩,
    or_next_enumerates_union [1, 3, 5] [2, 3, 9] 2 1 20 7 (fun _ => 1) (by decide) (by decide)
      (fun _ => (by decide : (1 : Weight) ≤ min 2 1)) (by decide)⟩

end Matcher

/-! ## Theorems: accessors and in-place states of `OrPostList` -/

namespace Matcher

open OrPostList

theorem finish_null_children (s s1 : OrPostList) (l1 r1 : ChildPL) (ldry rmoved : Bool)
    (hdry : ldry = false → l1.at_end = false) (hr : rmoved = false → r1.at_end = false)
    (h : OrPostList.finish s l1 r1 ldry rmoved = Ret.null s1) :
    s1.l.at_end = false ∧ s1.r.at_end = false := by
  unfold OrPostList.finish at h
  by_cases h1 : (rmoved && r1.at_end) = true
  · rw [if_pos h1] at h
    cases h
  · rw [if_neg h1] at h
    cases ldry with
    | true => simp at h
    | false =>
      simp only [Bool.not_false, if_true, Ret.null.injEq] at h
      subst h
      refine ⟨hdry rfl, ?_⟩
      cases rmoved with
      | false => exact hr rfl
      | true => simpa using h1

theorem next_null_children (s s1 : OrPostList) (w : Weight) (hl : s.l.at_end = false)
    (hr : s.r.at_end = false) (h : s.next w = Ret.null s1) :
    s1.l.at_end = false ∧ s1.r.at_end = false := by
  unfold OrPostList.next at h
  by_cases hm : w > s.minmax
  · rw [if_pos hm] at h
    split at h <;> try split at h
    all_goals cases h
  · rw [if_neg hm] at h
    by_cases h1 : s.lhead ≤ s.rhead
    · rw [if_pos h1] at h
      dsimp only at h
      by_cases h2 : decide (s.lhead = s.rhead) = true
      · rw [if_pos h2] at h
        exact finish_null_children s s1 _ _ _ _ (fun h => h) (fun h => by cases h) h
      · rw [if_neg h2] at h
        exact finish_null_children s s1 _ _ _ _ (fun h => h) (fun _ => hr) h
    · rw [if_neg h1] at h
      exact finish_null_children s s1 _ _ _ _ (fun _ => hl) (fun h => by cases h) h

theorem skip_to_null_children (s s1 : OrPostList) (did : Nat) (w : Weight)
    (hl : s.l.at_end = false) (hr : s.r.at_end = false) (h : s.skip_to did w = Ret.null s1) :
    s1.l.at_end = false ∧ s1.r.at_end = false := by
  unfold OrPostList.skip_to at h
  by_cases hm : w > s.minmax
  · rw [if_pos hm] at h
    split at h <;> try split at h
    all_goals cases h
  · rw [if_neg hm] at h
    dsimp only at h
    by_cases h1 : s.lhead < did
    · simp only [h1, decide_True, if_true] at h
      by_cases h2 : s.rhead < did
      · rw [if_pos h2] at h
        exact finish_null_children s s1 _ _ _ _ (fun h => h) (fun h => by cases h) h
      · rw [if_neg h2] at h
        exact finish_null_children s s1 _ _ _ _ (fun h => h) (fun _ => hr) h
    · simp only [h1, decide_False, if_false] at h
      by_cases h2 : s.rhead < did
      · rw [if_pos h2] at h
        exact finish_null_children s s1 _ _ _ _ (fun _ => hl) (fun h => by cases h) h
      · rw [if_neg h2] at h
        exact finish_null_children s s1 _ _ _ _ (fun _ => hl) (fun _ => hr) h

theorem inPlace_children (s : OrPostList) (h : InPlace s) :
    s.l.at_end = false ∧ s.r.at_end = false := by
  induction h with
  | ctor left right dbsize hl hr => exact ⟨hl, hr⟩
  | recalc _ ih => exact ih
  | next w _ hret ih => exact next_null_children _ _ w ih.1 ih.2 hret
  | skip_to did w _ hret ih => exact skip_to_null_children _ _ did w ih.1 ih.2 hret

/-- What `finish` returns, by the ends of the children it is given, when the
flags say which children were moved and the unmoved ones are not at their end. -/
theorem finish_by_ends (s : OrPostList) (l1 r1 : ChildPL) (ldry rmoved : Bool)
    (hdry : ldry = l1.at_end) (hr : rmoved = false → r1.at_end = false) :
    (r1.at_end = true → OrPostList.finish s l1 r1 ldry rmoved = Ret.child l1) ∧
    (r1.at_end = false → l1.at_end = true →
      OrPostList.finish s l1 r1 ldry rmoved = Ret.child r1) ∧
    (r1.at_end = false → l1.at_end = false →
      ∃ s1, OrPostList.finish s l1 r1 ldry rmoved = Ret.null s1 ∧ s1.l = l1 ∧ s1.r = r1 ∧
        s1.lhead = l1.get_docid ∧ s1.rhead = (if rmoved then r1.get_docid else s.rhead)) := by
  subst hdry
  unfold OrPostList.finish
  refine ⟨fun h => ?_, fun h h2 => ?_, fun h h2 => ?_⟩
  · cases rmoved with
    | false => rw [hr rfl] at h; cases h
    | true => simp [h]
  · simp [h, h2]
  · simp [h, h2]

end Matcher

namespace Matcher

open OrPostList

/-- C24: `get_weight()` of an OR is the weight of the left child when
`lhead < rhead`, of the right child when `lhead > rhead`, and the sum of both
when the heads are equal; in each case these are exactly the children whose
head is `get_docid()`. `get_wdf()` and `count_matching_subqs()` follow the
same rule, their sum being one of 32-bit counts (the plain sum when that is
below `2 ^ 32`). -/
theorem or_get_weight_rule {W : Type} [Add W] (child_weight : ChildPL → W)
    (child_wdf child_count : ChildPL → Nat) (s : OrPostList) :
    (s.lhead < s.rhead →
      s.lhead = s.get_docid ∧ s.rhead ≠ s.get_docid ∧
      s.get_weight child_weight = child_weight s.l ∧
      s.get_wdf child_wdf = child_wdf s.l ∧
      s.count_matching_subqs child_count = child_count s.l) ∧
    (s.lhead > s.rhead →
      s.rhead = s.get_docid ∧ s.lhead ≠ s.get_docid ∧
      s.get_weight child_weight = child_weight s.r ∧
      s.get_wdf child_wdf = child_wdf s.r ∧
      s.count_matching_subqs child_count = child_count s.r) ∧
    (s.lhead = s.rhead →
      s.lhead = s.get_docid ∧ s.rhead = s.get_docid ∧
      s.get_weight child_weight = child_weight s.l + child_weight s.r ∧
      s.get_wdf child_wdf = (child_wdf s.l + child_wdf s.r) % 2 ^ 32 ∧
      s.count_matching_subqs child_count = (child_count s.l + child_count s.r) % 2 ^ 32 ∧
      (child_wdf s.l + child_wdf s.r < 2 ^ 32 →
        s.get_wdf child_wdf = child_wdf s.l + child_wdf s.r) ∧
      (child_count s.l + child_count s.r < 2 ^ 32 →
        s.count_matching_subqs child_count = child_count s.l + child_count s.r)) := by
  unfold OrPostList.get_weight OrPostList.get_wdf OrPostList.count_matching_subqs
    OrPostList.get_docid
  refine ⟨fun h => ?_, fun h => ?_, fun h => ?_⟩
  · have h2 : ¬ s.rhead < s.lhead := by omega
    simp only [h, if_true]
    refine ⟨?_, ?_, trivial, trivial, trivial⟩
    · rw [Nat.min_def]; split <;> omega
    · rw [Nat.min_def]; split <;> omega
  · have h2 : ¬ s.lhead < s.rhead := by omega
    simp only [h2, h, if_false, if_true, gt_iff_lt]
    refine ⟨?_, ?_, trivial, trivial, trivial⟩
    · rw [Nat.min_def]; split <;> omega
    · rw [Nat.min_def]; split <;> omega
  · have h1 : ¬ s.lhead < s.rhead := by omega
    have h2 : ¬ s.lhead > s.rhead := by omega
    simp only [h1, h2, if_false]
    refine ⟨?_, ?_, trivial, trivial, trivial, fun hlt => Nat.mod_eq_of_lt hlt,
      fun hlt => Nat.mod_eq_of_lt hlt⟩
    · rw [Nat.min_def]; split <;> omega
    · rw [Nat.min_def]; split <;> omega

/-- The rule of C24 on the OR of the examples, whose heads are 3 and 4, and on
the same OR with both heads at 4. -/
theorem or_get_weight_rule_witness :
    exampleOr.get_docid = 3 ∧
    exampleOr.get_weight (fun c => (c.maxw : Int)) = 5 ∧
    exampleOr.get_wdf (fun c => c.docs.length) = 2 ∧
    ({ exampleOr with lhead := 4 } : OrPostList).get_weight (fun c => (c.maxw : Int)) = 5 + 2 ∧
    ({ exampleOr with lhead := 4 } : OrPostList).get_wdf (fun _ => 2 ^ 31) = 0 ∧
    (exampleOr.lhead = exampleOr.get_docid ∧ exampleOr.rhead ≠ exampleOr.get_docid ∧
      exampleOr.get_weight (fun c => (c.maxw : Int)) = exampleOr.l.maxw ∧
      exampleOr.get_wdf (fun c => c.docs.length) = exampleOr.l.docs.length ∧
      exampleOr.count_matching_subqs (fun _ => 1) = 1) :=
  ⟨by decide, by decide, by decide, by decide, by decide,
    (or_get_weight_rule (fun c => (c.maxw : Int)) (fun c => c.docs.length) (fun _ => 1)
      exampleOr).1 (by decide)⟩

/-- C30: in every state of an OR that is in place (constructed over children
not at their end, then left by calls that returned NULL) neither child is at
its end, so `at_end()`, which is always false, is right. When the OR does
not rewrite itself, `next` and `skip_to` return the left child if the right
child is at its end after the moves, the right child if only the left child
is, and NULL only if neither is, the OR then holding the moved children. -/
theorem or_inplace_children_not_at_end (s : OrPostList) (h : InPlace s) (did : Nat)
    (w_min : Weight) :
    (s.l.at_end = false ∧ s.r.at_end = false ∧ s.at_end = (s.l.at_end && s.r.at_end)) ∧
    (∀ s1, s.next w_min = Ret.null s1 ∨ s.skip_to did w_min = Ret.null s1 →
      s1.l.at_end = false ∧ s1.r.at_end = false ∧ s1.at_end = (s1.l.at_end && s1.r.at_end)) ∧
    (¬ w_min > s.minmax →
      ((s.nextRight w_min).at_end = true → s.next w_min = Ret.child (s.nextLeft w_min)) ∧
      ((s.nextRight w_min).at_end = false → (s.nextLeft w_min).at_end = true →
        s.next w_min = Ret.child (s.nextRight w_min)) ∧
      ((s.nextRight w_min).at_end = false → (s.nextLeft w_min).at_end = false →
        ∃ s1, s.next w_min = Ret.null s1 ∧ s1.l = s.nextLeft w_min ∧
          s1.r = s.nextRight w_min) ∧
      ((s.skipRight did w_min).at_end = true →
        s.skip_to did w_min = Ret.child (s.skipLeft did w_min)) ∧
      ((s.skipRight did w_min).at_end = false → (s.skipLeft did w_min).at_end = true →
        s.skip_to did w_min = Ret.child (s.skipRight did w_min)) ∧
      ((s.skipRight did w_min).at_end = false → (s.skipLeft did w_min).at_end = false →
        ∃ s1, s.skip_to did w_min = Ret.null s1 ∧ s1.l = s.skipLeft did w_min ∧
          s1.r = s.skipRight did w_min)) := by
  have hc := inPlace_children s h
  refine ⟨⟨hc.1, hc.2, by simp [OrPostList.at_end, hc.1]⟩, ?_, ?_⟩
  · intro s1 hs1
    have h1 : s1.l.at_end = false ∧ s1.r.at_end = false := by
      rcases hs1 with hs1 | hs1
      · exact next_null_children s s1 w_min hc.1 hc.2 hs1
      · exact skip_to_null_children s s1 did w_min hc.1 hc.2 hs1
    exact ⟨h1.1, h1.2, by simp [OrPostList.at_end, h1.1]⟩
  · intro hm
    have hnext : ∃ ldry rmoved, s.next w_min =
        OrPostList.finish s (s.nextLeft w_min) (s.nextRight w_min) ldry rmoved ∧
        ldry = (s.nextLeft w_min).at_end ∧
        (rmoved = false → (s.nextRight w_min).at_end = false) := by
      unfold OrPostList.next OrPostList.nextLeft OrPostList.nextRight
      rw [if_neg hm]
      by_cases h1 : s.lhead ≤ s.rhead
      · rw [if_pos h1, if_pos h1]
        dsimp only
        by_cases h2 : s.lhead = s.rhead
        · have h3 : s.rhead ≤ s.lhead := by omega
          simp only [h2, decide_True, if_true, le_refl]
          exact ⟨_, _, rfl, rfl, fun h => by cases h⟩
        · have h3 : ¬ s.rhead ≤ s.lhead := by omega
          simp only [h2, decide_False, if_false, h3, Bool.false_eq_true]
          exact ⟨_, _, rfl, rfl, fun _ => hc.2⟩
      · have h3 : s.rhead ≤ s.lhead := by omega
        rw [if_neg h1, if_neg h1, if_pos h3]
        exact ⟨_, _, rfl, hc.1.symm, fun h => by cases h⟩
    have hskip : ∃ ldry rmoved, s.skip_to did w_min =
        OrPostList.finish s (s.skipLeft did w_min) (s.skipRight did w_min) ldry rmoved ∧
        ldry = (s.skipLeft did w_min).at_end ∧
        (rmoved = false → (s.skipRight did w_min).at_end = false) := by
      unfold OrPostList.skip_to OrPostList.skipLeft OrPostList.skipRight
      rw [if_neg hm]
      dsimp only
      by_cases h1 : s.lhead < did
      · simp only [h1, decide_True, if_true]
        by_cases h2 : s.rhead < did
        · simp only [h2, if_true]
          exact ⟨_, _, rfl, rfl, fun h => by cases h⟩
        · simp only [h2, if_false]
          exact ⟨_, _, rfl, rfl, fun _ => hc.2⟩
      · simp only [h1, decide_False, if_false, Bool.false_eq_true]
        by_cases h2 : s.rhead < did
        · simp only [h2, if_true]
          exact ⟨_, _, rfl, hc.1.symm, fun h => by cases h⟩
        · simp only [h2, if_false]
          exact ⟨_, _, rfl, hc.1.symm, fun _ => hc.2⟩
    obtain ⟨ldry, rmoved, e1, e2, e3⟩ := hnext
    obtain ⟨ldry2, rmoved2, f1, f2, f3⟩ := hskip
    have A := finish_by_ends s _ _ ldry rmoved e2 e3
    have B := finish_by_ends s _ _ ldry2 rmoved2 f2 f3
    rw [e1, f1]
    refine ⟨A.1, A.2.1, fun a b => ?_, B.1, B.2.1, fun a b => ?_⟩
    · obtain ⟨s1, hs, hl, hr, _⟩ := A.2.2 a b
      exact ⟨s1, hs, hl, hr⟩
    · obtain ⟨s1, hs, hl, hr, _⟩ := B.2.2 a b
      exact ⟨s1, hs, hl, hr⟩

/-- The OR of the examples is in place after a first `next` on fresh children
over `[3, 7]` and `[4]`; its next `next(0)` moves the left child only and
returns NULL, and a `skip_to(9, 0)` exhausts both children and returns the
left one. -/
theorem or_inplace_children_not_at_end_witness :
    InPlace { exampleOr with lmax := 0, rmax := 0, minmax := 0 } ∧
    ({ exampleOr with lmax := 0, rmax := 0, minmax := 0 } : OrPostList).next 0 =
      Ret.null { exampleOr with lmax := 0, rmax := 0, minmax := 0, l := ⟨true, [7], 5⟩,
                                lhead := 7 } ∧
    ({ exampleOr with lmax := 0, rmax := 0, minmax := 0 } : OrPostList).skip_to 9 0 =
      Ret.child ⟨true, [], 5⟩ ∧
    (({ exampleOr with lmax := 0, rmax := 0, minmax := 0 } : OrPostList).l.at_end = false ∧
     ({ exampleOr with lmax := 0, rmax := 0, minmax := 0 } : OrPostList).r.at_end = false ∧
     ({ exampleOr with lmax := 0, rmax := 0, minmax := 0 } : OrPostList).at_end =
       (({ exampleOr with lmax := 0, rmax := 0, minmax := 0 } : OrPostList).l.at_end &&
        ({ exampleOr with lmax := 0, rmax := 0, minmax := 0 } : OrPostList).r.at_end)) :=
  have hin : InPlace { exampleOr with lmax := 0, rmax := 0, minmax := 0 } :=
    InPlace.next 0 (InPlace.ctor (ChildPL.fresh [3, 7] 5) (ChildPL.fresh [4] 2) 10 rfl rfl)
      (by decide)
  ⟨hin, by decide, by decide, (or_inplace_children_not_at_end _ hin 9 0).1⟩

end Matcher

namespace Matcher

/-- C33, on the code: the OR over `[3, 4]` and `[4]` stands on docid 3 after
its first `next(0)`, the right child on docid 4. The next `next(2)`, with both
maximum weights 1, rewrites the OR into an AND and calls `skip_to(5, 2)` on
it, that is `max(lhead, rhead) + 1`: the AND is at its end, although docid 4
is after the current docid 3 and in both children. A `skip_to(4, 2)` would
have put the AND on docid 4. -/
theorem or_to_and_skips_common_docid :
    ((OrPostList.mk0 (ChildPL.fresh [3, 4] 1) (ChildPL.fresh [4] 1) 10).recalc_maxweight.next 0
      = Ret.null decayOr) ∧
    decayOr.get_docid = 3 ∧
    decayOr.next 2 = Ret.rewrite (NewNode.multiAnd ⟨true, [3, 4], 1⟩ ⟨true, [4], 1⟩ 1 1 10)
      (FollowUp.skipTo 5 2) ∧
    (decayOr.next 2).andDocs = some [] ∧
    (decayOr.get_docid < 4 ∧ 4 ∈ decayOr.l.docs ∧ 4 ∈ decayOr.r.docs) ∧
    multiAndSkipTo decayOr.l decayOr.r 4 2 = [4] :=
  ⟨by decide, by decide, by decide, by decide, by decide, by decide⟩

/-- C37, on the code: in a database of `3 * 2 ^ 30` documents, for two
children whose `get_termfreq_min()`, `get_termfreq_est()` and
`get_termfreq_max()` are all `2 ^ 31`, the sum of the maxima wraps to 0 in 32
bits: `get_termfreq_max()` of the OR is 0 and `get_termfreq_min()` is
`2 ^ 31`, so no estimate lies between them. -/
theorem or_termfreq_max_wraps :
    ((2 : Nat) ^ 31 ≤ largeOr.dbsize ∧ largeOr.dbsize < 2 ^ 32) ∧
    largeOr.get_termfreq_max (fun _ => 2 ^ 31) = 0 ∧
    largeOr.get_termfreq_min (fun _ => 2 ^ 31) = 2 ^ 31 ∧
    ¬ ∃ est : Nat, largeOr.get_termfreq_min (fun _ => 2 ^ 31) ≤ est ∧
      est ≤ largeOr.get_termfreq_max (fun _ => 2 ^ 31) := by
  refine ⟨by decide, by decide, by decide, ?_⟩
  rintro ⟨est, h1, h2⟩
  have e1 : largeOr.get_termfreq_max (fun _ => 2 ^ 31) = 0 := by decide
  have e2 : largeOr.get_termfreq_min (fun _ => 2 ^ 31) = 2 ^ 31 := by decide
  rw [e2] at h1
  rw [e1] at h2
  omega

end Matcher

/-! ## Theorems: the query parser -/

namespace QueryParser

set_option maxRecDepth 100000

/-- The parse of `site:example.com quick -brown`. -/
theorem site_query_value :
    resultOf (parse_query siteParser 100 "site:example.com quick -brown" FLAG_LOVEHATE "") =
      some (Query.pair Op.OP_AND_NOT
        (Query.pair Op.OP_FILTER (Query.term "quick" 1 1) (Query.term "Hexample.com" 1 0))
        (Query.term "brown" 1 2), none) := by
  rfl

/-- C3, as stated, fails: the parse of `site:example.com quick -brown` is not
`AND_NOT(AND_MAYBE(SCALE_WEIGHT(f, 0), q), b)` for any subqueries `f`, `q`, `b`. -/
theorem site_query_not_and_maybe :
    ¬ ∃ f q b : Query,
      resultOf (parse_query siteParser 100 "site:example.com quick -brown" FLAG_LOVEHATE "") =
        some (Query.pair Op.OP_AND_NOT
          (Query.pair Op.OP_AND_MAYBE (Query.scale Op.OP_SCALE_WEIGHT f 0) q) b, none) := by
  rintro ⟨f, q, b, h⟩
  rw [site_query_value] at h
  simp at h

/-- C3, amended: with the field `site` a boolean filter mapped to `H`,
`FLAG_LOVEHATE` and `default_op` OR, `site:example.com quick -brown` parses
without error to `AND_NOT(FILTER(quick, Hexample.com), brown)`: the filter is
applied to the probabilistic part with `OP_FILTER`. -/
theorem site_query_is_filter :
    resultOf (parse_query siteParser 100 "site:example.com quick -brown" FLAG_LOVEHATE "") =
      some (Query.pair Op.OP_AND_NOT
        (Query.pair Op.OP_FILTER (Query.term "quick" 1 1) (Query.term "Hexample.com" 1 0))
        (Query.term "brown" 1 2), none) :=
  site_query_value

/-- The parse of `hello..world`. -/
theorem range_query_value :
    resultOf (parse_query rangeParser 100 "hello..world" FLAG_DEFAULT "") =
      some (Query.scale Op.OP_SCALE_WEIGHT
        (Query.range Op.OP_VALUE_RANGE 0 "hello" "world") 0, none) := by
  rfl

/-- C7: with one value range processor that accepts every range for slot 0,
`hello..world` parses without error. The parser builds
`Query(OP_VALUE_RANGE, 0, "hello", "world")`, takes it as the filter and,
finding no probabilistic part, applies `Query(OP_SCALE_WEIGHT, ·, 0.0)` to it;
the query that call builds, with the constructor of the class `Query` as it is
modelled from the spec (`Query.built`), is `VALUE_RANGE(0, "hello", "world")`. -/
theorem range_query_value_range :
    resultOf (parse_query rangeParser 100 "hello..world" FLAG_DEFAULT "") =
      some (Query.scale Op.OP_SCALE_WEIGHT
        (Query.range Op.OP_VALUE_RANGE 0 "hello" "world") 0, none) ∧
    (resultOf (parse_query rangeParser 100 "hello..world" FLAG_DEFAULT "")).map
        (fun r => (r.1.built, r.2)) =
      some (Query.range Op.OP_VALUE_RANGE 0 "hello" "world", none) :=
  ⟨rfl, rfl⟩

theorem value_range_go_accept (st : State) (a b : Term) (p : ValueRangeProcessor) :
    ∀ (pre post : List ValueRangeProcessor),
      (∀ x ∈ pre, (x a.name b.name).1 = BAD_VALUENO) →
      (p a.name b.name).1 ≠ BAD_VALUENO →
      State.value_range.go st a b (pre ++ p :: post) =
        ((p a.name b.name).1,
          Query.range Op.OP_VALUE_RANGE (p a.name b.name).1 (p a.name b.name).2.1
            (p a.name b.name).2.2, st) := by
  intro pre
  induction pre with
  | nil =>
    intro post _ hp
    simp [State.value_range.go, hp]
  | cons x pre ih =>
    intro post hpre hp
    have hx : (x a.name b.name).1 = BAD_VALUENO := hpre x (List.mem_cons_self _ _)
    have := ih post (fun y hy => hpre y (List.mem_cons_of_mem _ hy)) hp
    simp [State.value_range.go, hx, this]

theorem value_range_go_reject (st : State) (a b : Term) :
    ∀ (procs : List ValueRangeProcessor),
      (∀ x ∈ procs, (x a.name b.name).1 = BAD_VALUENO) →
      State.value_range.go st a b procs =
        (BAD_VALUENO, Query.empty, { st with error := some "Unknown range operation" }) := by
  intro procs
  induction procs with
  | nil => intro _; rfl
  | cons x procs ih =>
    intro h
    have hx : (x a.name b.name).1 = BAD_VALUENO := h x (List.mem_cons_self _ _)
    have := ih (fun y hy => h y (List.mem_cons_of_mem _ hy))
    simp [State.value_range.go, hx, this]

/-- C8: `State::value_range` applies the processors in registration order,
each to the unchanged `RANGE_START` and `RANGE_END` strings; the first one whose
result is not `BAD_VALUENO` decides the slot and the (possibly rewritten) ends
of the `VALUE_RANGE` query, whatever the later processors are, and the state is
left alone.  If every processor returns `BAD_VALUENO` (or there is none) the
result is `BAD_VALUENO` with `state.error` set to "Unknown range operation",
and both range rules then fail the parse: the stack is emptied and the message
kept. -/
theorem value_range_first_acceptor (qpi : Internal) (st : State) (a b : Term) :
    (∀ (pre post : List ValueRangeProcessor) (p : ValueRangeProcessor),
        qpi.valrangeprocs = pre ++ p :: post →
        (∀ x ∈ pre, (x a.name b.name).1 = BAD_VALUENO) →
        (p a.name b.name).1 ≠ BAD_VALUENO →
        State.value_range qpi st a b =
          ((p a.name b.name).1,
            Query.range Op.OP_VALUE_RANGE (p a.name b.name).1 (p a.name b.name).2.1
              (p a.name b.name).2.2, st)) ∧
    ((∀ x ∈ qpi.valrangeprocs, (x a.name b.name).1 = BAD_VALUENO) →
        (State.value_range qpi st a b).1 = BAD_VALUENO ∧
        (State.value_range qpi st a b).2.2 = { st with error := some "Unknown range operation" } ∧
        ∀ (parser : yyParser) (s0 s1 : Nat) (below : List yyStackEntry),
          parser.yystack =
            ⟨s0, RANGE_END, Minor.token (some b)⟩ :: ⟨s1, RANGE_START, Minor.token (some a)⟩ ::
              below →
          yy_reduce qpi parser st 13 =
            Except.ok ({ parser with yystack := [] },
              { st with error := some "Unknown range operation" }) ∧
          ∀ (s2 m2 : Nat) (p2 : ProbQuery) (rest : List yyStackEntry),
            below = ⟨s2, m2, Minor.prob p2⟩ :: rest →
            yy_reduce qpi parser st 14 =
              Except.ok ({ parser with yystack := [] },
                { st with error := some "Unknown range operation" })) := by
  refine ⟨?_, ?_⟩
  · intro pre post p hprocs hpre hp
    unfold State.value_range
    rw [hprocs]
    exact value_range_go_accept st a b p pre post hpre hp
  · intro h
    have hv : State.value_range qpi st a b =
        (BAD_VALUENO, Query.empty, { st with error := some "Unknown range operation" }) := by
      unfold State.value_range
      exact value_range_go_reject st a b _ h
    refine ⟨by rw [hv], by rw [hv], ?_⟩
    intro parser s0 s1 below hstack
    refine ⟨?_, ?_⟩
    · simp [yy_reduce, ruleAction, msp, hstack, Minor.yy0, rangeAction, derefTerm, hv,
        yy_parse_failed, bind, Except.bind, pure, Except.pure]
    · intro s2 m2 p2 rest hbelow
      simp [yy_reduce, ruleAction, msp, hstack, hbelow, Minor.yy0, Minor.yy12, rangeAction,
        derefTerm, hv, yy_parse_failed, bind, Except.bind, pure, Except.pure]

/-- Witness for C8: a processor that rejects every range registered before one
that accepts every range for slot 0, and the rejecting processor alone. -/
theorem value_range_first_acceptor_witness :
    State.value_range (plainParser [] [rejectAll, acceptSlot0]) (State.new FLAG_DEFAULT)
        (Term.ofName "hello") (Term.ofName "world") =
      (0, Query.range Op.OP_VALUE_RANGE 0 "hello" "world", State.new FLAG_DEFAULT) ∧
    (State.value_range (plainParser [] [rejectAll]) (State.new FLAG_DEFAULT)
        (Term.ofName "hello") (Term.ofName "world")).1 = BAD_VALUENO :=
  ⟨(value_range_first_acceptor (plainParser [] [rejectAll, acceptSlot0]) (State.new FLAG_DEFAULT)
      (Term.ofName "hello") (Term.ofName "world")).1 [rejectAll] [] acceptSlot0 rfl
      (by intro x hx; rw [List.mem_singleton.1 hx]; rfl) (by decide),
    ((value_range_first_acceptor (plainParser [] [rejectAll]) (State.new FLAG_DEFAULT)
      (Term.ofName "hello") (Term.ofName "world")).2
      (by intro x hx; rw [List.mem_singleton.1 hx]; rfl)).1⟩

/-! ### The order of the filter groups -/

theorem StrictTotal.asymm {α : Type} {lt : α → α → Bool} (h : StrictTotal lt) (a b : α)
    (hab : lt a b = true) : lt b a = false := by
  cases hba : lt b a with
  | false => rfl
  | true =>
    have := h.trans a b a hab hba
    rw [h.irrefl a] at this
    exact absurd this (by simp)

theorem lexLt_strictTotal {α : Type} {lt : α → α → Bool} (h : StrictTotal lt) :
    StrictTotal (lexLt lt) := by
  refine ⟨?_, ?_, ?_⟩
  · intro a
    induction a with
    | nil => rfl
    | cons x xs ih => simp [lexLt, h.irrefl x, ih]
  · intro a
    induction a with
    | nil =>
      intro b c hab hbc
      cases b with
      | nil => simp [lexLt] at hab
      | cons y ys =>
        cases c with
        | nil => simp [lexLt] at hbc
        | cons z zs => simp [lexLt]
    | cons x xs ih =>
      intro b c hab hbc
      cases b with
      | nil => simp [lexLt] at hab
      | cons y ys =>
        cases c with
        | nil => simp [lexLt] at hbc
        | cons z zs =>
          simp only [lexLt] at hab hbc ⊢
          by_cases hxy : lt x y = true
          · by_cases hyz : lt y z = true
            · simp [h.trans x y z hxy hyz]
            · simp only [hyz, if_false, Bool.false_eq_true] at hbc
              by_cases hzy : lt z y = true
              · simp [hzy] at hbc
              · have : y = z := h.total y z (by simpa using hyz) (by simpa using hzy)
                subst this
                simp [hxy]
          · simp only [hxy, if_false, Bool.false_eq_true] at hab
            by_cases hyx : lt y x = true
            · simp [hyx] at hab
            · have hxy' : x = y := h.total x y (by simpa using hxy) (by simpa using hyx)
              subst hxy'
              simp only [hyx, if_false, Bool.false_eq_true] at hab
              by_cases hyz : lt x z = true
              · simp [hyz]
              · simp only [hyz, if_false, Bool.false_eq_true] at hbc ⊢
                by_cases hzy : lt z x = true
                · simp [hzy] at hbc
                · simp only [hzy, if_false, Bool.false_eq_true] at hbc ⊢
                  exact ih ys zs hab hbc
  · intro a
    induction a with
    | nil =>
      intro b hab _
      cases b with
      | nil => rfl
      | cons y ys => simp [lexLt] at hab
    | cons x xs ih =>
      intro b hab hba
      cases b with
      | nil => simp [lexLt] at hba
      | cons y ys =>
        simp only [lexLt] at hab hba
        by_cases hxy : lt x y = true
        · simp [hxy] at hab
        · by_cases hyx : lt y x = true
          · simp [hyx] at hba
          · simp only [hxy, hyx, if_false, Bool.false_eq_true] at hab hba
            have e1 : x = y := h.total x y (by simpa using hxy) (by simpa using hyx)
            have e2 := ih ys hab hba
            rw [e1, e2]

theorem charLt_strictTotal :
    StrictTotal (fun x y : Char => decide (x.toNat < y.toNat)) := by
  refine ⟨?_, ?_, ?_⟩
  · intro a; simp
  · intro a b c hab hbc
    simp only [decide_eq_true_eq] at hab hbc ⊢
    omega
  · intro a b hab hba
    simp only [decide_eq_false_iff_not] at hab hba
    have : a.toNat = b.toNat := by omega
    apply Char.ext
    apply UInt32.ext
    exact this

theorem strLt_strictTotal : StrictTotal strLt := lexLt_strictTotal charLt_strictTotal

theorem strOnData_strictTotal :
    StrictTotal (fun x y : String => strLt x.data y.data) := by
  refine ⟨?_, ?_, ?_⟩
  · intro a; exact strLt_strictTotal.irrefl _
  · intro a b c; exact strLt_strictTotal.trans _ _ _
  · intro a b hab hba
    have := strLt_strictTotal.total _ _ hab hba
    exact String.ext this

theorem strListLt_strictTotal : StrictTotal strListLt := lexLt_strictTotal strOnData_strictTotal

theorem filter_group_id_lt_strictTotal : StrictTotal filter_group_id.lt := by
  refine ⟨?_, ?_, ?_⟩
  · intro a; simp [filter_group_id.lt]
  · intro a b c hab hbc
    unfold filter_group_id.lt at hab hbc ⊢
    by_cases h1 : a.prefixes = b.prefixes
    · by_cases h2 : b.prefixes = c.prefixes
      · have h3 : a.prefixes = c.prefixes := h1.trans h2
        simp only [h1, h2, h3, bne_self_eq_false, if_false, Bool.false_eq_true,
          decide_eq_true_eq] at hab hbc ⊢
        omega
      · have h3 : a.prefixes ≠ c.prefixes := fun h => h2 (h1 ▸ h)
        simp only [h1, bne_self_eq_false, Bool.false_eq_true, if_false] at hab
        simp only [bne_iff_ne, ne_eq, h2, not_false_eq_true, if_true] at hbc
        simp only [bne_iff_ne, ne_eq, h3, not_false_eq_true, if_true]
        rw [h1]; exact hbc
    · simp only [bne_iff_ne, ne_eq, h1, not_false_eq_true, if_true] at hab
      by_cases h2 : b.prefixes = c.prefixes
      · have h3 : a.prefixes ≠ c.prefixes := fun h => h1 (h.trans h2.symm)
        simp only [bne_iff_ne, ne_eq, h3, not_false_eq_true, if_true]
        rw [← h2]; exact hab
      · simp only [bne_iff_ne, ne_eq, h2, not_false_eq_true, if_true] at hbc
        have hac := strListLt_strictTotal.trans _ _ _ hab hbc
        have h3 : a.prefixes ≠ c.prefixes := by
          intro h
          rw [h, strListLt_strictTotal.irrefl] at hac
          exact absurd hac (by simp)
        simp only [bne_iff_ne, ne_eq, h3, not_false_eq_true, if_true]
        exact hac
  · intro a b hab hba
    unfold filter_group_id.lt at hab hba
    by_cases h1 : a.prefixes = b.prefixes
    · have h1' : b.prefixes = a.prefixes := h1.symm
      simp only [h1, bne_self_eq_false, Bool.false_eq_true, if_false,
        decide_eq_false_iff_not] at hab
      simp only [h1', bne_self_eq_false, Bool.false_eq_true, if_false,
        decide_eq_false_iff_not] at hba
      have : a.valno = b.valno := by omega
      cases a; cases b
      simp_all
    · have h1' : b.prefixes ≠ a.prefixes := fun h => h1 h.symm
      simp only [bne_iff_ne, ne_eq, h1, not_false_eq_true, if_true] at hab
      simp only [bne_iff_ne, ne_eq, h1', not_false_eq_true, if_true] at hba
      exact absurd (strListLt_strictTotal.total _ _ hab hba) h1

/-! ### The rules for `prob` -/

theorem filterUpdate_keys (f : Query → Query) (g : filter_group_id) :
    ∀ (m : List (filter_group_id × Query)) (e : filter_group_id × Query),
      e ∈ filterUpdate m g f → e.1 = g ∨ e ∈ m := by
  intro m
  induction m with
  | nil =>
    intro e he
    simp [filterUpdate] at he
    left; rw [he]
  | cons kv rest ih =>
    intro e he
    obtain ⟨k1, v1⟩ := kv
    unfold filterUpdate at he
    by_cases h1 : k1.lt g = true
    · rw [if_pos h1] at he
      rcases List.mem_cons.1 he with h | h
      · right; rw [h]; exact List.mem_cons_self _ _
      · rcases ih e h with h' | h'
        · left; exact h'
        · right; exact List.mem_cons_of_mem _ h'
    · rw [if_neg h1] at he
      by_cases h2 : g.lt k1 = true
      · rw [if_pos h2] at he
        rcases List.mem_cons.1 he with h | h
        · left; rw [h]
        · right; exact h
      · rw [if_neg h2] at he
        have hk : k1 = g := filter_group_id_lt_strictTotal.total k1 g (by simpa using h1)
          (by simpa using h2)
        rcases List.mem_cons.1 he with h | h
        · left; rw [h]; exact hk
        · right; exact List.mem_cons_of_mem _ h

theorem filterUpdate_sorted (f : Query → Query) (g : filter_group_id) :
    ∀ (m : List (filter_group_id × Query)), SortedKeys m → SortedKeys (filterUpdate m g f) := by
  intro m
  induction m with
  | nil => intro _; simp [filterUpdate, SortedKeys]
  | cons kv rest ih =>
    intro hs
    obtain ⟨k1, v1⟩ := kv
    have hs' := List.pairwise_cons.1 hs
    unfold filterUpdate
    by_cases h1 : k1.lt g = true
    · rw [if_pos h1]
      refine List.pairwise_cons.2 ⟨?_, ih hs'.2⟩
      intro e he
      rcases filterUpdate_keys f g rest e he with h | h
      · rw [h]; exact h1
      · exact hs'.1 e h
    · rw [if_neg h1]
      by_cases h2 : g.lt k1 = true
      · rw [if_pos h2]
        refine List.pairwise_cons.2 ⟨?_, hs⟩
        intro e he
        rcases List.mem_cons.1 he with h | h
        · rw [h]; exact h2
        · exact filter_group_id_lt_strictTotal.trans _ _ _ h2 (hs'.1 e h)
      · rw [if_neg h2]
        have hk : k1 = g := filter_group_id_lt_strictTotal.total k1 g (by simpa using h1)
          (by simpa using h2)
        exact List.pairwise_cons.2 ⟨fun e he => hs'.1 e he, hs'.2⟩

theorem filterFind_none_of_lt (g : filter_group_id) :
    ∀ (m : List (filter_group_id × Query)), (∀ e ∈ m, g.lt e.1 = true) → filterFind m g = none := by
  intro m
  induction m with
  | nil => intro _; rfl
  | cons kv rest ih =>
    intro h
    obtain ⟨k1, v1⟩ := kv
    have h1 : g.lt k1 = true := h (k1, v1) (List.mem_cons_self _ _)
    have hne : k1 ≠ g := by
      intro e
      rw [e, filter_group_id_lt_strictTotal.irrefl] at h1
      exact absurd h1 (by simp)
    simp only [filterFind, hne, if_false]
    exact ih (fun e he => h e (List.mem_cons_of_mem _ he))

theorem filterFind_update_same (f : Query → Query) (g : filter_group_id) :
    ∀ (m : List (filter_group_id × Query)), SortedKeys m →
      filterFind (filterUpdate m g f) g = some (f ((filterFind m g).getD Query.empty)) := by
  intro m
  induction m with
  | nil => intro _; simp [filterUpdate, filterFind]
  | cons kv rest ih =>
    intro hs
    obtain ⟨k1, v1⟩ := kv
    have hs' := List.pairwise_cons.1 hs
    unfold filterUpdate
    by_cases h1 : k1.lt g = true
    · rw [if_pos h1]
      have hne : k1 ≠ g := by
        intro e
        rw [e, filter_group_id_lt_strictTotal.irrefl] at h1
        exact absurd h1 (by simp)
      simp only [filterFind, hne, if_false]
      exact ih hs'.2
    · rw [if_neg h1]
      by_cases h2 : g.lt k1 = true
      · rw [if_pos h2]
        have hnone : filterFind ((k1, v1) :: rest) g = none := by
          apply filterFind_none_of_lt
          intro e he
          rcases List.mem_cons.1 he with h | h
          · rw [h]; exact h2
          · exact filter_group_id_lt_strictTotal.trans _ _ _ h2 (hs'.1 e h)
        rw [hnone]
        simp [filterFind]
      · rw [if_neg h2]
        have hk : k1 = g := filter_group_id_lt_strictTotal.total k1 g (by simpa using h1)
          (by simpa using h2)
        simp [filterFind, hk]

theorem filterFind_update_other (f : Query → Query) (g g1 : filter_group_id) (hne : g1 ≠ g) :
    ∀ (m : List (filter_group_id × Query)),
      filterFind (filterUpdate m g f) g1 = filterFind m g1 := by
  intro m
  have hne' : g ≠ g1 := fun h => hne h.symm
  induction m with
  | nil => simp [filterUpdate, filterFind, hne']
  | cons kv rest ih =>
    obtain ⟨k1, v1⟩ := kv
    unfold filterUpdate
    by_cases h1 : k1.lt g = true
    · rw [if_pos h1]
      simp only [filterFind, ih]
    · rw [if_neg h1]
      by_cases h2 : g.lt k1 = true
      · rw [if_pos h2]
        simp [filterFind, hne']
      · rw [if_neg h2]
        have hk : k1 = g := filter_group_id_lt_strictTotal.total k1 g (by simpa using h1)
          (by simpa using h2)
        simp [filterFind, hk, hne']

theorem add_to_query_some (o : Option Query) (op : Op) (q : Query) :
    add_to_query o op (some q) = Except.ok (add_to_query_ref o op q) := by
  cases o <;> rfl

theorem add_to_query_none_ok (o r : Option Query) (op : Op)
    (h : add_to_query o op none = Except.ok r) : r = o := by
  cases o with
  | none => simp [add_to_query] at h; exact h.symm
  | some q => simp [add_to_query] at h

theorem groupQueries_cons (g : filter_group_id) (x : ProbItem) (rest : List ProbItem) :
    groupQueries g (x :: rest) = groupQueries g [x] ++ groupQueries g rest := by
  cases x <;> simp [groupQueries] <;> split <;> simp

theorem lovedQueries_cons (x : ProbItem) (rest : List ProbItem) :
    lovedQueries (x :: rest) = lovedQueries [x] ++ lovedQueries rest := by
  cases x with
  | love q => cases q <;> simp [lovedQueries]
  | _ => simp [lovedQueries]

theorem hatedQueries_cons (x : ProbItem) (rest : List ProbItem) :
    hatedQueries (x :: rest) = hatedQueries [x] ++ hatedQueries rest := by
  cases x with
  | hate q => cases q <;> simp [hatedQueries]
  | _ => simp [hatedQueries]

theorem plainQueries_cons (x : ProbItem) (rest : List ProbItem) :
    plainQueries (x :: rest) = plainQueries [x] ++ plainQueries rest := by
  cases x with
  | plain q => cases q <;> simp [plainQueries]
  | _ => simp [plainQueries]

/-- What one further component does to each part of a `ProbQuery`. -/
theorem next_fields (op : Op) (p p1 : ProbQuery) (x : ProbItem)
    (h : x.next op p = Except.ok p1) :
    (SortedKeys p.filter →
      SortedKeys p1.filter ∧
      ∀ g, filterFind p1.filter g = orInto (filterFind p.filter g) (groupQueries g [x])) ∧
    (op ≠ Op.OP_AND → p1.love = extend Op.OP_AND p.love (lovedQueries [x])) ∧
    p1.hate = extend Op.OP_OR p.hate (hatedQueries [x]) ∧
    (op ≠ Op.OP_AND → p1.query = extend op p.query (plainQueries [x])) := by
  cases x with
  | plain q =>
    cases q with
    | none =>
      simp [ProbItem.next, prob_term_next, pure, Except.pure] at h
      subst h
      simp [groupQueries, orInto, lovedQueries, hatedQueries, plainQueries, extend]
    | some q =>
      simp [ProbItem.next, prob_term_next, add_to_query_some, pure, Except.pure, bind,
        Except.bind] at h
      subst h
      simp [groupQueries, orInto, lovedQueries, hatedQueries, plainQueries, extend]
  | love q =>
    by_cases hop : op = Op.OP_AND
    · subst hop
      cases q with
      | none =>
        simp only [ProbItem.next, prob_love_next, beq_self_eq_true, if_true, bind, Except.bind,
          pure, Except.pure] at h
        cases hq : add_to_query p.query Op.OP_AND none with
        | error e => rw [hq] at h; simp at h
        | ok r =>
          rw [hq] at h
          simp only [Except.ok.injEq] at h
          subst h
          simp [groupQueries, orInto, lovedQueries, hatedQueries, plainQueries, extend]
      | some q =>
        simp [ProbItem.next, prob_love_next, add_to_query_some, pure, Except.pure, bind,
          Except.bind] at h
        subst h
        simp [groupQueries, orInto, lovedQueries, hatedQueries, plainQueries, extend]
    · have hop' : (op == Op.OP_AND) = false := by simpa using hop
      cases q with
      | none =>
        simp only [ProbItem.next, prob_love_next, hop', Bool.false_eq_true, if_false, bind,
          Except.bind, pure, Except.pure] at h
        cases hq : add_to_query p.love Op.OP_AND none with
        | error e => rw [hq] at h; simp at h
        | ok r =>
          rw [hq] at h
          simp only [Except.ok.injEq] at h
          subst h
          have := add_to_query_none_ok _ _ _ hq
          simp [groupQueries, orInto, lovedQueries, hatedQueries, plainQueries, extend, this]
      | some q =>
        simp [ProbItem.next, prob_love_next, hop', add_to_query_some, pure, Except.pure, bind,
          Except.bind] at h
        subst h
        simp [groupQueries, orInto, lovedQueries, hatedQueries, plainQueries, extend]
  | hate q =>
    cases q with
    | none =>
      simp only [ProbItem.next, prob_hate_next, bind, Except.bind, pure, Except.pure] at h
      cases hq : add_to_query p.hate Op.OP_OR none with
      | error e => rw [hq] at h; simp at h
      | ok r =>
        rw [hq] at h
        simp only [Except.ok.injEq] at h
        subst h
        have := add_to_query_none_ok _ _ _ hq
        simp [groupQueries, orInto, lovedQueries, hatedQueries, plainQueries, extend, this]
    | some q =>
      simp [ProbItem.next, prob_hate_next, add_to_query_some, pure, Except.pure, bind,
        Except.bind] at h
      subst h
      simp [groupQueries, orInto, lovedQueries, hatedQueries, plainQueries, extend]
  | hateFilter q =>
    simp [ProbItem.next, prob_hate_filter_next] at h
    subst h
    simp [groupQueries, orInto, lovedQueries, hatedQueries, plainQueries, extend]
  | filter g1 q =>
    simp only [ProbItem.next, prob_filter_next, Except.ok.injEq] at h
    subst h
    refine ⟨fun hs => ⟨filterUpdate_sorted _ _ _ hs, fun g => ?_⟩, ?_, ?_, ?_⟩
    · by_cases hg : g1 = g
      · subst hg
        simp [groupQueries, orInto, filterFind_update_same _ _ _ hs]
      · have hg' : g ≠ g1 := fun e => hg e.symm
        simp [groupQueries, orInto, hg, filterFind_update_other _ _ _ hg']
    · intro _; simp [lovedQueries, extend]
    · simp [hatedQueries, extend]
    · intro _; simp [plainQueries, extend]
  | range valno q =>
    simp only [ProbItem.next, prob_range_next, Except.ok.injEq] at h
    subst h
    refine ⟨fun hs => ⟨filterUpdate_sorted _ _ _ hs, fun g => ?_⟩, ?_, ?_, ?_⟩
    · by_cases hg : filter_group_id.ofValno valno = g
      · subst hg
        simp [groupQueries, orInto, filterFind_update_same _ _ _ hs]
      · have hg' : g ≠ filter_group_id.ofValno valno := fun e => hg e.symm
        simp [groupQueries, orInto, hg, filterFind_update_other _ _ _ hg']
    · intro _; simp [lovedQueries, extend]
    · simp [hatedQueries, extend]
    · intro _; simp [plainQueries, extend]

/-- What the further components do to each part of a `ProbQuery`. -/
theorem probFold_fields (op : Op) :
    ∀ (rest : List ProbItem) (p0 p : ProbQuery), probFold op p0 rest = Except.ok p →
      (SortedKeys p0.filter →
        SortedKeys p.filter ∧
        ∀ g, filterFind p.filter g = orInto (filterFind p0.filter g) (groupQueries g rest)) ∧
      (op ≠ Op.OP_AND → p.love = extend Op.OP_AND p0.love (lovedQueries rest)) ∧
      p.hate = extend Op.OP_OR p0.hate (hatedQueries rest) ∧
      (op ≠ Op.OP_AND → p.query = extend op p0.query (plainQueries rest)) := by
  intro rest
  induction rest with
  | nil =>
    intro p0 p h
    simp only [probFold, Except.ok.injEq] at h
    subst h
    simp [groupQueries, orInto, lovedQueries, hatedQueries, plainQueries, extend]
  | cons x rest ih =>
    intro p0 p h
    simp only [probFold] at h
    cases hx : x.next op p0 with
    | error e => rw [hx] at h; simp at h
    | ok p1 =>
      rw [hx] at h
      simp only at h
      obtain ⟨f1, l1, h1, q1⟩ := next_fields op p0 p1 x hx
      obtain ⟨f2, l2, h2, q2⟩ := ih p1 p h
      refine ⟨fun hs => ?_, fun hop => ?_, ?_, fun hop => ?_⟩
      · obtain ⟨s1, e1⟩ := f1 hs
        obtain ⟨s2, e2⟩ := f2 s1
        refine ⟨s2, fun g => ?_⟩
        rw [e2 g, e1 g, groupQueries_cons g x rest]
        simp [orInto, List.foldl_append]
      · rw [l2 hop, l1 hop, lovedQueries_cons x rest]
        simp [extend, List.foldl_append]
      · rw [h2, h1, hatedQueries_cons x rest]
        simp [extend, List.foldl_append]
      · rw [q2 hop, q1 hop, plainQueries_cons x rest]
        simp [extend, List.foldl_append]

theorem prob_terms_first_ok (op : Op) (a b : Option Query) :
    ∃ q, prob_terms_first op a b = Except.ok { ProbQuery.new with query := q } ∧
      q = (match a, b with
        | some t1, some t2 =>
          if op == Op.OP_NEAR then some (Query.multi op [t1, t2] 11)
          else some (Query.pair op t1 t2)
        | none, some t2 => some t2
        | a, none => a) := by
  cases b with
  | none => cases a <;> exact ⟨_, rfl, rfl⟩
  | some t2 =>
    cases a with
    | none => exact ⟨_, rfl, rfl⟩
    | some t1 =>
      by_cases hop : (op == Op.OP_NEAR) = true
      · refine ⟨some (Query.multi op [t1, t2] 11), ?_, by simp [hop]⟩
        simp [prob_terms_first, hop, pure, Except.pure]
      · refine ⟨some (Query.pair op t1 t2), ?_, by simp [hop]⟩
        simp [prob_terms_first, hop, add_to_query, pure, Except.pure, bind, Except.bind]

theorem sortedKeys_nil : SortedKeys [] := List.Pairwise.nil

theorem sortedKeys_single (g : filter_group_id) (q : Query) : SortedKeys [(g, q)] :=
  List.pairwise_singleton _ _

theorem extend_none_cons (op : Op) (q : Query) (qs : List Query) :
    extend op none (q :: qs) = extend op (some q) qs := rfl

/-- The parts of the `ProbQuery` of a whole `prob` expression. -/
theorem buildProb_fields (op : Op) (items : List ProbItem) (p : ProbQuery)
    (h : buildProb op items = Except.ok p) :
    (SortedKeys p.filter ∧ ∀ g, filterFind p.filter g = expectedFilter g items) ∧
    (op ≠ Op.OP_AND → p.love = combine Op.OP_AND (lovedQueries items)) ∧
    p.hate = combine Op.OP_OR (hatedQueries items) ∧
    (op ≠ Op.OP_AND → p.query = plainSide op items) := by
  cases items with
  | nil =>
    simp only [buildProb, Except.ok.injEq] at h
    subst h
    exact ⟨⟨sortedKeys_nil, fun g => rfl⟩, fun _ => rfl, rfl, fun _ => rfl⟩
  | cons x rest =>
    cases x with
    | plain a =>
      cases rest with
      | nil =>
        simp only [buildProb, probFold, Except.ok.injEq] at h
        subst h
        refine ⟨⟨sortedKeys_nil, fun g => rfl⟩, fun _ => rfl, rfl, fun _ => ?_⟩
        cases a <;> rfl
      | cons y rest =>
        cases y with
        | plain b =>
          obtain ⟨q, hq, hqv⟩ := prob_terms_first_ok op a b
          simp only [buildProb, hq] at h
          obtain ⟨f, l, hh, qq⟩ := probFold_fields op rest _ p h
          obtain ⟨fs, ff⟩ := f sortedKeys_nil
          refine ⟨⟨fs, fun g => ?_⟩, fun hop => ?_, ?_, fun hop => ?_⟩
          · rw [ff g]; simp [expectedFilter, groupQueries, ProbQuery.new, filterFind]
          · rw [l hop]; simp [lovedQueries, combine, ProbQuery.new]
          · rw [hh]; simp [hatedQueries, combine, ProbQuery.new]
          · rw [qq hop]
            simp only [hqv]
            cases a with
            | none =>
              cases b with
              | none => simp [plainSide, plainQueries, combine]
              | some t2 => simp [plainSide, plainQueries, combine, extend_none_cons]
            | some t1 =>
              cases b with
              | none => simp [plainSide, plainQueries, combine, extend_none_cons]
              | some t2 =>
                by_cases hn : (op == Op.OP_NEAR) = true
                · simp [plainSide, hn]
                · simp [plainSide, hn, combine, extend, add_to_query_ref]
        | _ =>
          simp only [buildProb] at h
          obtain ⟨f, l, hh, qq⟩ := probFold_fields op _ _ p h
          obtain ⟨fs, ff⟩ := f sortedKeys_nil
          refine ⟨⟨fs, fun g => ?_⟩, fun hop => ?_, ?_, fun hop => ?_⟩
          · rw [ff g]; simp [expectedFilter, groupQueries, ProbItem.first, stop_prob_of_term, ProbQuery.new, filterFind]
          · rw [l hop]; simp [lovedQueries, combine, ProbItem.first, stop_prob_of_term, ProbQuery.new]
          · rw [hh]; simp [hatedQueries, combine, ProbItem.first, stop_prob_of_term, ProbQuery.new]
          · rw [qq hop]
            cases a <;> simp [plainSide, plainQueries, combine, ProbItem.first, stop_prob_of_term, ProbQuery.new, extend_none_cons]
    | love a =>
      simp only [buildProb] at h
      obtain ⟨f, l, hh, qq⟩ := probFold_fields op _ _ p h
      by_cases hop : op = Op.OP_AND
      · obtain ⟨fs, ff⟩ := f (by simp [ProbItem.first, prob_love_first, hop, ProbQuery.new, sortedKeys_nil])
        refine ⟨⟨fs, fun g => ?_⟩, fun h' => absurd hop h', ?_, fun h' => absurd hop h'⟩
        · rw [ff g]; simp [expectedFilter, groupQueries, ProbItem.first, prob_love_first, hop, ProbQuery.new, filterFind]
        · rw [hh]; simp [hatedQueries, combine, ProbItem.first, prob_love_first, hop, ProbQuery.new]
      · have hop' : (op == Op.OP_AND) = false := by simpa using hop
        obtain ⟨fs, ff⟩ := f (by simp [ProbItem.first, prob_love_first, hop', ProbQuery.new, sortedKeys_nil])
        refine ⟨⟨fs, fun g => ?_⟩, fun _ => ?_, ?_, fun _ => ?_⟩
        · rw [ff g]; simp [expectedFilter, groupQueries, ProbItem.first, prob_love_first, hop', ProbQuery.new, filterFind]
        · rw [l hop]
          cases a <;> simp [lovedQueries, combine, ProbItem.first, prob_love_first, hop', ProbQuery.new, extend_none_cons]
        · rw [hh]; simp [hatedQueries, combine, ProbItem.first, prob_love_first, hop', ProbQuery.new]
        · rw [qq hop]; simp [plainSide, plainQueries, combine, ProbItem.first, prob_love_first, hop', ProbQuery.new]
    | hate a =>
      simp only [buildProb] at h
      obtain ⟨f, l, hh, qq⟩ := probFold_fields op _ _ p h
      obtain ⟨fs, ff⟩ := f sortedKeys_nil
      refine ⟨⟨fs, fun g => ?_⟩, fun hop => ?_, ?_, fun hop => ?_⟩
      · rw [ff g]; simp [expectedFilter, groupQueries, ProbItem.first, prob_hate_first, ProbQuery.new, filterFind]
      · rw [l hop]; simp [lovedQueries, combine, ProbItem.first, prob_hate_first, ProbQuery.new]
      · rw [hh]
        cases a <;> simp [hatedQueries, combine, ProbItem.first, prob_hate_first, ProbQuery.new, extend_none_cons]
      · rw [qq hop]; simp [plainSide, plainQueries, combine, ProbItem.first, prob_hate_first, ProbQuery.new]
    | hateFilter a =>
      simp only [buildProb] at h
      obtain ⟨f, l, hh, qq⟩ := probFold_fields op _ _ p h
      obtain ⟨fs, ff⟩ := f sortedKeys_nil
      refine ⟨⟨fs, fun g => ?_⟩, fun hop => ?_, ?_, fun hop => ?_⟩
      · rw [ff g]; simp [expectedFilter, groupQueries, ProbItem.first, prob_hate_filter_first, ProbQuery.new, filterFind]
      · rw [l hop]; simp [lovedQueries, combine, ProbItem.first, prob_hate_filter_first, ProbQuery.new]
      · rw [hh]; simp [hatedQueries, combine, ProbItem.first, prob_hate_filter_first, ProbQuery.new, extend_none_cons]
      · rw [qq hop]; simp [plainSide, plainQueries, combine, ProbItem.first, prob_hate_filter_first, ProbQuery.new]
    | filter g1 a =>
      simp only [buildProb] at h
      obtain ⟨f, l, hh, qq⟩ := probFold_fields op _ _ p h
      obtain ⟨fs, ff⟩ := f (sortedKeys_single g1 a)
      refine ⟨⟨fs, fun g => ?_⟩, fun hop => ?_, ?_, fun hop => ?_⟩
      · rw [ff g]; simp [expectedFilter, ProbItem.first, prob_filter_first, ProbQuery.new, filterFind, filterUpdate]
      · rw [l hop]; simp [lovedQueries, combine, ProbItem.first, prob_filter_first, ProbQuery.new]
      · rw [hh]; simp [hatedQueries, combine, ProbItem.first, prob_filter_first, ProbQuery.new]
      · rw [qq hop]; simp [plainSide, plainQueries, combine, ProbItem.first, prob_filter_first, ProbQuery.new]
    | range v a =>
      simp only [buildProb] at h
      obtain ⟨f, l, hh, qq⟩ := probFold_fields op _ _ p h
      obtain ⟨fs, ff⟩ := f (sortedKeys_single (filter_group_id.ofValno v) a)
      refine ⟨⟨fs, fun g => ?_⟩, fun hop => ?_, ?_, fun hop => ?_⟩
      · rw [ff g]; simp [expectedFilter, ProbItem.first, prob_range_first, ProbQuery.new, filterFind, filterUpdate]
      · rw [l hop]; simp [lovedQueries, combine, ProbItem.first, prob_range_first, ProbQuery.new]
      · rw [hh]; simp [hatedQueries, combine, ProbItem.first, prob_range_first, ProbQuery.new]
      · rw [qq hop]; simp [plainSide, plainQueries, combine, ProbItem.first, prob_range_first, ProbQuery.new]

theorem extend_some (op : Op) (qs : List Query) :
    ∀ q, extend op (some q) qs = some (qs.foldl (fun acc x => Query.pair op acc x) q) := by
  induction qs with
  | nil => intro q; rfl
  | cons x qs ih => intro q; simp only [extend, List.foldl_cons, add_to_query_ref] at ih ⊢; exact ih _

theorem merge_filters_combine (p : ProbQuery) (h : p.filter ≠ []) :
    combine Op.OP_AND (p.filter.map Prod.snd) = some p.merge_filters := by
  cases hf : p.filter with
  | nil => exact absurd hf h
  | cons kv rest =>
    obtain ⟨k, v⟩ := kv
    simp only [List.map_cons, combine, extend_none_cons, extend_some, ProbQuery.merge_filters, hf,
      List.foldl_map]

theorem probPositive_filtered (p : ProbQuery) (h : p.filter ≠ []) :
    probPositive p = some (match probLoved p with
      | some q => Query.pair Op.OP_FILTER q p.merge_filters
      | none => Query.scale Op.OP_SCALE_WEIGHT p.merge_filters 0) := by
  have hne : p.filter.isEmpty = false := by
    cases hf : p.filter with
    | nil => exact absurd hf h
    | cons _ _ => rfl
  unfold probPositive
  simp only [hne, Bool.not_false, if_true]
  cases probLoved p <;> rfl

theorem next_unlove (p : ProbQuery) (x : ProbItem) (h : lovedAllSet [x] = true) :
    (unlove x).next Op.OP_AND p = x.next Op.OP_AND p := by
  cases x with
  | love q =>
    cases q with
    | none => simp [lovedAllSet] at h
    | some q =>
      simp [unlove, ProbItem.next, prob_love_next, prob_term_next, add_to_query_some, pure,
        Except.pure, bind, Except.bind]
  | _ => rfl

theorem lovedAllSet_cons (x : ProbItem) (rest : List ProbItem) :
    lovedAllSet (x :: rest) = (lovedAllSet [x] && lovedAllSet rest) := by
  cases x with
  | love q => cases q <;> simp [lovedAllSet]
  | _ => simp [lovedAllSet]

theorem probFold_unlove :
    ∀ (rest : List ProbItem) (p : ProbQuery), lovedAllSet rest = true →
      probFold Op.OP_AND p (rest.map unlove) = probFold Op.OP_AND p rest := by
  intro rest
  induction rest with
  | nil => intro p _; rfl
  | cons x rest ih =>
    intro p h
    rw [lovedAllSet_cons, Bool.and_eq_true] at h
    simp only [List.map_cons, probFold, next_unlove p x h.1]
    cases x.next Op.OP_AND p with
    | error e => rfl
    | ok p1 => exact ih p1 h.2

theorem buildProb_unlove (items : List ProbItem) (h : lovedAllSet items = true) :
    buildProb Op.OP_AND (items.map unlove) = buildProb Op.OP_AND items := by
  cases items with
  | nil => rfl
  | cons x rest =>
    rw [lovedAllSet_cons, Bool.and_eq_true] at h
    cases rest with
    | nil =>
      cases x with
      | love q =>
        cases q with
        | none => simp [lovedAllSet] at h
        | some q => rfl
      | _ => rfl
    | cons y rest =>
      have h2 := h.2
      rw [lovedAllSet_cons, Bool.and_eq_true] at h2
      have hfold := fun p => probFold_unlove rest p h2.2
      cases x with
      | plain a =>
        cases y with
        | plain b => simp only [List.map_cons, unlove, buildProb, hfold]
        | love b =>
          cases b with
          | none => simp [lovedAllSet] at h2
          | some b =>
            simp only [List.map_cons, unlove, buildProb, probFold, ProbItem.next, ProbItem.first]
            cases a with
            | none =>
              simp [prob_terms_first, prob_love_next, stop_prob_of_term, add_to_query, pure,
                Except.pure, bind, Except.bind, hfold]
            | some a =>
              simp [prob_terms_first, prob_love_next, stop_prob_of_term, add_to_query, pure,
                Except.pure, bind, Except.bind, hfold]
        | hate b => simp only [List.map_cons, unlove, buildProb, probFold, hfold]
        | hateFilter b => simp only [List.map_cons, unlove, buildProb, probFold, hfold]
        | filter g b => simp only [List.map_cons, unlove, buildProb, probFold, hfold]
        | range v b => simp only [List.map_cons, unlove, buildProb, probFold, hfold]
      | love a =>
        cases a with
        | none => simp [lovedAllSet] at h
        | some a =>
          cases y with
          | plain b =>
            simp only [List.map_cons, unlove, buildProb, probFold, ProbItem.next, ProbItem.first]
            cases b with
            | none =>
              simp [prob_terms_first, prob_love_first, prob_term_next, add_to_query, pure,
                Except.pure, bind, Except.bind, hfold, ProbQuery.new]
            | some b =>
              simp [prob_terms_first, prob_love_first, prob_term_next, add_to_query, pure,
                Except.pure, bind, Except.bind, hfold, ProbQuery.new]
          | love b =>
            cases b with
            | none => simp [lovedAllSet] at h2
            | some b =>
              simp only [List.map_cons, unlove, buildProb, probFold, ProbItem.next,
                ProbItem.first]
              simp [prob_terms_first, prob_love_first, prob_love_next, add_to_query, pure,
                Except.pure, bind, Except.bind, hfold, ProbQuery.new]
          | hate b =>
            simp only [List.map_cons, unlove, buildProb, probFold, hfold]
            rfl
          | hateFilter b =>
            simp only [List.map_cons, unlove, buildProb, probFold, hfold]
            rfl
          | filter g b =>
            simp only [List.map_cons, unlove, buildProb, probFold, hfold]
            rfl
          | range v b =>
            simp only [List.map_cons, unlove, buildProb, probFold, hfold]
            rfl
      | hate a =>
        have key : ∀ l, buildProb Op.OP_AND (ProbItem.hate a :: l) =
            probFold Op.OP_AND (ProbItem.first Op.OP_AND (ProbItem.hate a)) l :=
          fun l => by simp only [buildProb]
        have e1 : List.map unlove (ProbItem.hate a :: y :: rest) =
            ProbItem.hate a :: unlove y :: rest.map unlove := rfl
        rw [e1, key, key]
        simp only [probFold, next_unlove _ y h2.1]
        cases y.next Op.OP_AND _ with
        | error e => rfl
        | ok p1 => exact hfold p1
      | hateFilter a =>
        have key : ∀ l, buildProb Op.OP_AND (ProbItem.hateFilter a :: l) =
            probFold Op.OP_AND (ProbItem.first Op.OP_AND (ProbItem.hateFilter a)) l :=
          fun l => by simp only [buildProb]
        have e1 : List.map unlove (ProbItem.hateFilter a :: y :: rest) =
            ProbItem.hateFilter a :: unlove y :: rest.map unlove := rfl
        rw [e1, key, key]
        simp only [probFold, next_unlove _ y h2.1]
        cases y.next Op.OP_AND _ with
        | error e => rfl
        | ok p1 => exact hfold p1
      | filter g a =>
        have key : ∀ l, buildProb Op.OP_AND (ProbItem.filter g a :: l) =
            probFold Op.OP_AND (ProbItem.first Op.OP_AND (ProbItem.filter g a)) l :=
          fun l => by simp only [buildProb]
        have e1 : List.map unlove (ProbItem.filter g a :: y :: rest) =
            ProbItem.filter g a :: unlove y :: rest.map unlove := rfl
        rw [e1, key, key]
        simp only [probFold, next_unlove _ y h2.1]
        cases y.next Op.OP_AND _ with
        | error e => rfl
        | ok p1 => exact hfold p1
      | range v a =>
        have key : ∀ l, buildProb Op.OP_AND (ProbItem.range v a :: l) =
            probFold Op.OP_AND (ProbItem.first Op.OP_AND (ProbItem.range v a)) l :=
          fun l => by simp only [buildProb]
        have e1 : List.map unlove (ProbItem.range v a :: y :: rest) =
            ProbItem.range v a :: unlove y :: rest.map unlove := rfl
        rw [e1, key, key]
        simp only [probFold, next_unlove _ y h2.1]
        cases y.next Op.OP_AND _ with
        | error e => rfl
        | ok p1 => exact hfold p1

/-- The rules for `prob` build `exampleProb` for `exampleItems`. -/
theorem exampleProb_built : buildProb Op.OP_OR exampleItems = Except.ok exampleProb := by
  rfl

/-- C4: in the `ProbQuery` built for any `prob` expression, the entry of each
filter group holds the queries of the (not hated) boolean filters and value
ranges of that group OR-ed together in order, one entry per group id, the
entries kept in key order; `merge_filters` is the AND of the entries in that
order; and `prob_expr ::= prob` applies the merged filter `F` as
`Query(OP_FILTER, q, F)` when the plain and loved parts gave a query `q`, and
as `Query(OP_SCALE_WEIGHT, F, 0.0)` when they gave none. -/
theorem prob_filters_grouped_and_applied (default_op : Op) (items : List ProbItem)
    (p : ProbQuery) (h : buildProb default_op items = Except.ok p) :
    (∀ g, filterFind p.filter g = expectedFilter g items) ∧
    SortedKeys p.filter ∧
    (p.filter ≠ [] →
      combine Op.OP_AND (p.filter.map Prod.snd) = some p.merge_filters ∧
      probPositive p = some (match probLoved p with
        | some q => Query.pair Op.OP_FILTER q p.merge_filters
        | none => Query.scale Op.OP_SCALE_WEIGHT p.merge_filters 0)) := by
  obtain ⟨⟨hs, hf⟩, _, _, _⟩ := buildProb_fields default_op items p h
  exact ⟨hf, hs, fun hne => ⟨merge_filters_combine p hne, probPositive_filtered p hne⟩⟩

/-- Witness for C4: the expression `exampleItems`. -/
theorem prob_filters_grouped_and_applied_witness :
    buildProb Op.OP_OR exampleItems = Except.ok exampleProb ∧
    filterFind exampleProb.filter groupH =
      some (Query.pair Op.OP_OR (Query.term "Ha" 1 0) (Query.term "Hb" 1 0)) ∧
    probPositive exampleProb = some (Query.pair Op.OP_FILTER
      (Query.pair Op.OP_AND_MAYBE (Query.term "fox" 1 2) (Query.term "quick" 1 1))
      (Query.pair Op.OP_AND
        (Query.pair Op.OP_OR Query.empty (Query.range Op.OP_VALUE_RANGE 0 "x" "y"))
        (Query.pair Op.OP_OR (Query.term "Ha" 1 0) (Query.term "Hb" 1 0)))) :=
  ⟨exampleProb_built,
    (prob_filters_grouped_and_applied Op.OP_OR exampleItems exampleProb exampleProb_built).1 groupH,
    ((prob_filters_grouped_and_applied Op.OP_OR exampleItems exampleProb exampleProb_built).2.2
      (by simp [exampleProb])).2⟩

/-- The parse of `+foo* bar` with wildcards on and no terms in the database. -/
theorem loved_wildcard_value :
    resultOf (parse_query (plainParser [] []) 100 "+foo* bar" (FLAG_DEFAULT ||| FLAG_WILDCARD) "") =
      some (Query.multi Op.OP_SYNONYM [] 0, none) := by
  rfl

/-- C5, as stated, fails: with `FLAG_WILDCARD` and no term to expand `foo*` to,
`+foo* bar` does not parse to an `AND_MAYBE` of the loved and the plain part
(the result is the empty love query alone). -/
theorem loved_empty_drops_plain :
    ¬ ∃ love rest : Query,
      resultOf (parse_query (plainParser [] []) 100 "+foo* bar" (FLAG_DEFAULT ||| FLAG_WILDCARD) "")
        = some (Query.pair Op.OP_AND_MAYBE love rest, none) := by
  rintro ⟨love, rest, h⟩
  rw [loved_wildcard_value] at h
  simp at h

/-- C5, amended: for any `prob` expression, when `default_op` is not `OP_AND`
the loved terms are joined with `OP_AND` into `love`, and the query before
filters and hated terms are applied is `AND_MAYBE(love, rest)` with `rest` the
combination of the plain terms, just `love` when there is no plain part, and
the empty `love` alone (the plain part dropped) when `love` is an empty query;
when `default_op` is `OP_AND` and every loved term has a query, the expression
builds what it builds with each loved term taken as a plain term. -/
theorem loved_terms_and_maybe (default_op : Op) (items : List ProbItem) (p : ProbQuery)
    (h : buildProb default_op items = Except.ok p) :
    (default_op ≠ Op.OP_AND →
      p.love = combine Op.OP_AND (lovedQueries items) ∧
      p.query = plainSide default_op items ∧
      probLoved p =
        (match combine Op.OP_AND (lovedQueries items) with
          | none => plainSide default_op items
          | some love =>
            if love.isEmpty then some love
            else
              match plainSide default_op items with
              | some rest => some (Query.pair Op.OP_AND_MAYBE love rest)
              | none => some love)) ∧
    (default_op = Op.OP_AND → lovedAllSet items = true →
      buildProb Op.OP_AND (items.map unlove) = Except.ok p) := by
  obtain ⟨_, hl, _, hq⟩ := buildProb_fields default_op items p h
  refine ⟨fun hop => ⟨hl hop, hq hop, ?_⟩, fun hop hall => ?_⟩
  · rw [← hl hop, ← hq hop]
    unfold probLoved
    cases p.love <;> rfl
  · subst hop
    rw [buildProb_unlove items hall, h]

/-- Witness for C5: the expression `exampleItems` under `default_op` OR. -/
theorem loved_terms_and_maybe_witness :
    buildProb Op.OP_OR exampleItems = Except.ok exampleProb ∧
    probLoved exampleProb =
      some (Query.pair Op.OP_AND_MAYBE (Query.term "fox" 1 2) (Query.term "quick" 1 1)) :=
  ⟨exampleProb_built,
    ((loved_terms_and_maybe Op.OP_OR exampleItems exampleProb exampleProb_built).1
      (by decide)).2.2⟩

/-- The parse of `the -foo` with `the` a stop word. -/
theorem hated_stopword_value :
    resultOf (parse_query stopParser 100 "the -foo" FLAG_DEFAULT "") =
      some (Query.empty, some "parse error") := by
  rfl

/-- The parse of `bar -foo*` with wildcards on and no terms in the database. -/
theorem hated_wildcard_value :
    resultOf (parse_query (plainParser [] []) 100 "bar -foo*" (FLAG_DEFAULT ||| FLAG_WILDCARD) "") =
      some (Query.term "bar" 1 1, none) := by
  rfl

/-- C6, as stated, fails: `the -foo` with `the` a stop word, and `bar -foo*`
with no term to expand `foo*` to, both have a plain and a hated component, and
neither parses to an `AND_NOT` query (the first fails, the second gives `bar`). -/
theorem hated_not_always_and_not :
    (¬ ∃ q hate : Query,
      resultOf (parse_query stopParser 100 "the -foo" FLAG_DEFAULT "") =
        some (Query.pair Op.OP_AND_NOT q hate, none)) ∧
    (¬ ∃ q hate : Query,
      resultOf (parse_query (plainParser [] []) 100 "bar -foo*" (FLAG_DEFAULT ||| FLAG_WILDCARD) "")
        = some (Query.pair Op.OP_AND_NOT q hate, none)) := by
  refine ⟨?_, ?_⟩
  · rintro ⟨q, hate, h⟩
    rw [hated_stopword_value] at h
    simp at h
  · rintro ⟨q, hate, h⟩
    rw [hated_wildcard_value] at h
    simp at h

/-- C6, amended: for any `prob` expression the hated terms and hated boolean
filters are joined with `OP_OR` into `hate`; with `q` the query built from the
other components after love and filters were applied, `prob_expr ::= prob`
yields `AND_NOT(q, hate)` when `hate` is not empty and `q` exists, yields `q`
unchanged when there is no hated part or `hate` is an empty query, and fails
the parse when `hate` is not empty and there is no `q`. -/
theorem hated_terms_and_not (default_op : Op) (items : List ProbItem) (p : ProbQuery)
    (st : State) (h : buildProb default_op items = Except.ok p) :
    p.hate = combine Op.OP_OR (hatedQueries items) ∧
    probExprAction st p =
      (match combine Op.OP_OR (hatedQueries items) with
        | none => ActionResult.value (Minor.query (probPositive p)) st
        | some hate =>
          if hate.isEmpty then ActionResult.value (Minor.query (probPositive p)) st
          else
            match probPositive p with
            | some q => ActionResult.value (Minor.query (some (Query.pair Op.OP_AND_NOT q hate))) st
            | none => ActionResult.failed st) := by
  obtain ⟨_, _, hh, _⟩ := buildProb_fields default_op items p h
  refine ⟨hh, ?_⟩
  rw [← hh]
  unfold probExprAction
  cases p.hate with
  | none => rfl
  | some hate =>
    cases he : hate.isEmpty <;> cases hq : probPositive p <;> simp [he]

/-- Witness for C6: the expression `exampleItems`. -/
theorem hated_terms_and_not_witness :
    buildProb Op.OP_OR exampleItems = Except.ok exampleProb ∧
    probExprAction (State.new FLAG_DEFAULT) exampleProb =
      ActionResult.value (Minor.query (some (Query.pair Op.OP_AND_NOT
        (Query.pair Op.OP_FILTER
          (Query.pair Op.OP_AND_MAYBE (Query.term "fox" 1 2) (Query.term "quick" 1 1))
          (Query.pair Op.OP_AND
            (Query.pair Op.OP_OR Query.empty (Query.range Op.OP_VALUE_RANGE 0 "x" "y"))
            (Query.pair Op.OP_OR (Query.term "Ha" 1 0) (Query.term "Hb" 1 0))))
        (Query.term "dog" 1 3)))) (State.new FLAG_DEFAULT) :=
  ⟨exampleProb_built,
    (hated_terms_and_not Op.OP_OR exampleItems exampleProb (State.new FLAG_DEFAULT)
      exampleProb_built).2⟩

end QueryParser

/-! ## Theorems: boolean rules, suffixes, windows and spelling -/

namespace QueryParser

set_option maxRecDepth 100000

theorem msp_query_cases {stk : List yyStackEntry} {k : Nat} {a : Option Query}
    (h : msp stk k = Except.ok (Minor.query a)) :
    (do let m ← msp stk k; m.yy73 : Except Fault (Option Query)) = Except.ok a := by
  rw [h]; rfl

/-- The code of each rule of `boolRules` is `BOOL_OP_TO_QUERY` on the two
operands. -/
theorem ruleAction_bool (qpi : Internal) (st : State) (stk : List yyStackEntry)
    (rule k : Nat) (op : Op) (txt : String) (hr : (rule, k, op, txt) ∈ boolRules)
    (a b : Option Query) (ha : msp stk k = Except.ok (Minor.query a))
    (hb : msp stk 0 = Except.ok (Minor.query b)) :
    ruleAction qpi st stk rule =
      Except.ok (BOOL_OP_TO_QUERY st (leftOperand st rule a) op b txt) := by
  simp only [boolRules, List.mem_cons, Prod.mk.injEq, List.mem_singleton, List.not_mem_nil,
    or_false] at hr
  rcases hr with ⟨rfl, rfl, rfl, rfl⟩ | ⟨rfl, rfl, rfl, rfl⟩ | ⟨rfl, rfl, rfl, rfl⟩ |
    ⟨rfl, rfl, rfl, rfl⟩ | ⟨rfl, rfl, rfl, rfl⟩ | ⟨rfl, rfl, rfl, rfl⟩
  · simp only [ruleAction, ha, hb, leftOperand]
    simp [Minor.yy73, bind, Except.bind, pure, Except.pure]
  · simp only [ruleAction, ha, hb, leftOperand]
    cases a <;> cases hf : hasFlag st.flags FLAG_PURE_NOT <;>
      simp [Minor.yy73, bind, Except.bind, pure, Except.pure, hf]
  · simp only [ruleAction, ha, hb, leftOperand]
    simp [Minor.yy73, bind, Except.bind, pure, Except.pure]
  · simp only [ruleAction, ha, hb, leftOperand]
    simp [Minor.yy73, bind, Except.bind, pure, Except.pure]
  · simp only [ruleAction, ha, hb, leftOperand]
    simp [Minor.yy73, bind, Except.bind, pure, Except.pure]
  · simp only [ruleAction, ha, hb, leftOperand]
    simp [Minor.yy73, bind, Except.bind, pure, Except.pure]

end QueryParser

namespace QueryParser

set_option maxRecDepth 100000

/-- C26: for each rule `expr ::= bool_arg OP bool_arg` (AND, NOT, AND NOT, AND
before a hated term, OR, XOR), with `left` the left operand (for NOT under
`FLAG_PURE_NOT`, an absent one replaced by `Query("", 1, 0)`): the rule fails
the parse exactly when `left` or the right operand is absent; it then sets
`state.error` to `Syntax: <expression> OP <expression>` with the text of the
operator, empties the stack and leaves `state.query` alone; and when both are
present its value is `Query(op, left, right)` with the operator of the rule. -/
theorem bool_rule_syntax_error (qpi : Internal) (p : yyParser) (st : State)
    (rule k : Nat) (op : Op) (txt : String) (hr : (rule, k, op, txt) ∈ boolRules)
    (a b : Option Query) (ha : msp p.yystack k = Except.ok (Minor.query a))
    (hb : msp p.yystack 0 = Except.ok (Minor.query b)) :
    ((∃ st1, ruleAction qpi st p.yystack rule = Except.ok (ActionResult.failed st1)) ↔
      (leftOperand st rule a = none ∨ b = none)) ∧
    ((leftOperand st rule a = none ∨ b = none) →
      ruleAction qpi st p.yystack rule = Except.ok (ActionResult.failed
        { st with error := some ("Syntax: <expression> " ++ txt ++ " <expression>") }) ∧
      yy_reduce qpi p st rule = Except.ok ({ p with yystack := [] },
        { st with error := some ("Syntax: <expression> " ++ txt ++ " <expression>") })) ∧
    (∀ left right, leftOperand st rule a = some left → b = some right →
      ruleAction qpi st p.yystack rule =
        Except.ok (ActionResult.value (Minor.query (some (Query.pair op left right))) st)) ∧
    (rule = 4 → a = none → hasFlag st.flags FLAG_PURE_NOT = true → ∀ right, b = some right →
      ruleAction qpi st p.yystack rule = Except.ok (ActionResult.value
        (Minor.query (some (Query.pair Op.OP_AND_NOT (Query.term "" 1 0) right))) st)) ∧
    (op = Op.OP_AND ∨ op = Op.OP_OR ∨ op = Op.OP_XOR ∨ op = Op.OP_AND_NOT) := by
  have hact := ruleAction_bool qpi st p.yystack rule k op txt hr a b ha hb
  have hfail : (leftOperand st rule a = none ∨ b = none) →
      BOOL_OP_TO_QUERY st (leftOperand st rule a) op b txt = ActionResult.failed
        { st with error := some ("Syntax: <expression> " ++ txt ++ " <expression>") } := by
    intro h
    rcases h with h | h
    · rw [h]; rfl
    · rw [h]; cases leftOperand st rule a <;> rfl
  have hok : ∀ left right, leftOperand st rule a = some left → b = some right →
      BOOL_OP_TO_QUERY st (leftOperand st rule a) op b txt =
        ActionResult.value (Minor.query (some (Query.pair op left right))) st := by
    intro left right h1 h2
    rw [h1, h2]; rfl
  refine ⟨⟨?_, ?_⟩, ?_, ?_, ?_, ?_⟩
  · rintro ⟨st1, h⟩
    rw [hact] at h
    cases h1 : leftOperand st rule a with
    | none => exact Or.inl rfl
    | some left =>
      cases h2 : b with
      | none => exact Or.inr rfl
      | some right =>
        rw [hok left right h1 h2] at h
        cases h
  · intro h
    exact ⟨_, by rw [hact, hfail h]⟩
  · intro h
    refine ⟨by rw [hact, hfail h], ?_⟩
    unfold yy_reduce
    rw [hact, hfail h]
    rfl
  · intro left right h1 h2
    rw [hact, hok left right h1 h2]
  · intro h4 hnone hflag right hb2
    subst h4
    subst hnone
    have hop : op = Op.OP_AND_NOT := by
      simp only [boolRules, List.mem_cons, Prod.mk.injEq, List.mem_singleton, List.not_mem_nil,
        or_false] at hr
      rcases hr with ⟨h, _⟩ | ⟨_, _, h, _⟩ | ⟨h, _⟩ | ⟨h, _⟩ | ⟨h, _⟩ | ⟨h, _⟩
      all_goals first | exact h | (exact absurd h (by decide))
    subst hop
    rw [hact, hok (Query.term "" 1 0) right (by simp [leftOperand, hflag]) hb2]
  · simp only [boolRules, List.mem_cons, Prod.mk.injEq, List.mem_singleton, List.not_mem_nil,
      or_false] at hr
    rcases hr with ⟨_, _, rfl, _⟩ | ⟨_, _, rfl, _⟩ | ⟨_, _, rfl, _⟩ |
      ⟨_, _, rfl, _⟩ | ⟨_, _, rfl, _⟩ | ⟨_, _, rfl, _⟩ <;> simp

/-- C26 on whole queries: `a AND b`, `AND b`, `a OR`, `NOT b` without and with
`FLAG_PURE_NOT`, `AND NOT b` and `a AND -b`; and the rule for AND on a stack
that holds `a`, the operator and an absent right operand. -/
theorem bool_rule_syntax_error_witness :
    resultOf (parse_query (plainParser [] []) 100 "a AND b" FLAG_DEFAULT "") =
      some (Query.pair Op.OP_AND (Query.term "a" 1 1) (Query.term "b" 1 2), none) ∧
    resultOf (parse_query (plainParser [] []) 100 "AND b" FLAG_DEFAULT "") =
      some (Query.empty, some "Syntax: <expression> AND <expression>") ∧
    resultOf (parse_query (plainParser [] []) 100 "a OR" FLAG_DEFAULT "") =
      some (Query.empty, some "Syntax: <expression> OR <expression>") ∧
    resultOf (parse_query (plainParser [] []) 100 "NOT b" FLAG_DEFAULT "") =
      some (Query.empty, some "Syntax: <expression> NOT <expression>") ∧
    resultOf (parse_query (plainParser [] []) 100 "NOT b" (FLAG_DEFAULT ||| FLAG_PURE_NOT) "") =
      some (Query.pair Op.OP_AND_NOT (Query.term "" 1 0) (Query.term "b" 1 1), none) ∧
    resultOf (parse_query (plainParser [] []) 100 "AND NOT b" FLAG_DEFAULT "") =
      some (Query.empty, some "Syntax: <expression> AND NOT <expression>") ∧
    resultOf (parse_query (plainParser [] []) 100 "a AND -b" FLAG_DEFAULT "") =
      some (Query.pair Op.OP_AND_NOT (Query.term "a" 1 1) (Query.term "b" 1 2), none) ∧
    ((∃ st1, ruleAction (plainParser [] []) (State.new FLAG_DEFAULT)
        [⟨0, 0, Minor.query none⟩, ⟨0, AND, Minor.token none⟩,
          ⟨0, 0, Minor.query (some (Query.term "a" 1 1))⟩] 3 =
        Except.ok (ActionResult.failed st1)) ↔
      (leftOperand (State.new FLAG_DEFAULT) 3 (some (Query.term "a" 1 1)) = none ∨
        (none : Option Query) = none)) :=
  ⟨rfl, rfl, rfl, rfl, rfl, rfl, rfl,
    (bool_rule_syntax_error (plainParser [] [])
      ⟨0, [⟨0, 0, Minor.query none⟩, ⟨0, AND, Minor.token none⟩,
        ⟨0, 0, Minor.query (some (Query.term "a" 1 1))⟩]⟩
      (State.new FLAG_DEFAULT) 3 2 Op.OP_AND "AND" (by simp [boolRules])
      (some (Query.term "a" 1 1)) none rfl rfl).1⟩

end QueryParser

namespace QueryParser

theorem strSize_push (s : String) (c : Char) : strSize (s.push c) = strSize s + c.utf8Size := by
  unfold strSize
  simp [String.push, List.map_append, List.sum_append]

theorem is_suffix_utf8Size (c : Char) (h : is_suffix c.toNat = true) : c.utf8Size = 1 := by
  have hc : c.toNat = 43 ∨ c.toNat = 35 := by
    simpa [is_suffix] using h
  have hv : c.val.toNat ≤ 127 := by
    have : c.val.toNat = c.toNat := rfl
    omega
  unfold Char.utf8Size
  have h1 : c.val ≤ 127 := by
    rw [UInt32.le_def]
    exact hv
  simp [h1]

theorem deref_cons (c : Char) (p : List Char) : deref (c :: p) = c.toNat := rfl

/-- The suffix loop over a run of suffix characters that is followed by
something else: it takes up to three of them, and gives up at a fourth. -/
theorem suffixLoop_run (term : String) (tail : List Char)
    (htail : is_suffix (deref tail) = false) :
    ∀ (run : List Char) (suff_term : String), run ≠ [] →
      (∀ c ∈ run, is_suffix c.toNat = true) → strSize term ≤ strSize suff_term →
      strSize suff_term - strSize term ≤ 3 →
      suffixLoop term (run ++ tail) suff_term =
        if strSize suff_term - strSize term + run.length ≤ 3 then
          ((⟨suff_term.data ++ run⟩ : String), tail)
        else ("", run.drop (3 - (strSize suff_term - strSize term)) ++ tail)
  | [], _, h, _, _, _ => absurd rfl h
  | c :: run, suff_term, _, hrun, hle, hd3 => by
    have hc : is_suffix c.toNat = true := hrun c (by simp)
    have hsz : strSize (suff_term.push c) = strSize suff_term + 1 := by
      rw [strSize_push, is_suffix_utf8Size c hc]
    show suffixLoop term (c :: (run ++ tail)) suff_term = _
    unfold suffixLoop
    by_cases h3 : strSize suff_term - strSize term = 3
    · have : (strSize suff_term - strSize term == 3) = true := by simp [h3]
      rw [if_pos this, if_neg (by simp [h3])]
      simp [h3]
    · have : ¬ (strSize suff_term - strSize term == 3) = true := by simp [h3]
      rw [if_neg this]
      dsimp only
      cases run with
      | nil =>
        simp only [List.nil_append, htail, Bool.false_eq_true, if_false, List.length_singleton]
        rw [if_pos (by omega)]
        rfl
      | cons d run =>
        have hd : is_suffix d.toNat = true := hrun d (by simp)
        simp only [List.cons_append, deref_cons, hd, if_true]
        have ih := suffixLoop_run term tail htail (d :: run) (suff_term.push c) (by simp)
          (fun x hx => hrun x (List.mem_cons_of_mem _ hx)) (by omega) (by omega)
        simp only [List.cons_append] at ih
        rw [ih, hsz]
        have e1 : strSize suff_term + 1 - strSize term = strSize suff_term - strSize term + 1 := by
          omega
        rw [e1]
        by_cases h5 : strSize suff_term - strSize term + 1 + (d :: run).length ≤ 3
        · rw [if_pos h5, if_pos (by simp only [List.length_cons] at h5 ⊢; omega)]
          simp [String.push]
        · rw [if_neg h5, if_neg (by simp only [List.length_cons] at h5 ⊢; omega)]
          have e2 : 3 - (strSize suff_term - strSize term) =
              (3 - (strSize suff_term - strSize term + 1)) + 1 := by omega
          rw [e2, List.drop_succ_cons]

end QueryParser

namespace QueryParser

/-- `parse_term` on a term that is not an acronym: the word, then the suffix. -/
theorem parse_term_not_acronym (qpi : Internal) (it : List Char)
    (h : (parse_term qpi it).2.2 = false) :
    parse_term qpi it =
      (let w := wordLoop qpi.uni it (deref it) ("".push (Char.ofNat (deref it)))
       if (!w.2.isEmpty && is_suffix (deref w.2)) = true then
         let s := suffixLoop w.1 w.2 w.1
         if (s.1 != "" && (s.2.isEmpty || !qpi.uni.is_wordchar (deref s.2))) = true then
           if (if qpi.db.term_exists (qpi.uni.tolower s.1) = true then true
               else !qpi.db.term_exists (qpi.uni.tolower w.1)) = true then (s.1, s.2, false)
           else (w.1, w.2, false)
         else (w.1, w.2, false)
       else (w.1, w.2, false)) := by
  unfold parse_term at h ⊢
  generalize (if U_isupper (deref it) = true then
      let r := acronymLoop it ""
      if (decide (strSize r.1 > 1) && (r.2.isEmpty || !qpi.uni.is_wordchar (deref r.2))) = true
      then (r.1, r.2) else ("", it)
    else ("", it)) = a at h ⊢
  dsimp only at h ⊢
  by_cases ha : (a.1 == "") = true
  · have hb : (a.1 != "") = false := by simp [bne, ha]
    rw [if_pos ha]
    rw [hb]
  · rw [if_neg ha] at h
    dsimp only at h
    have hb : (a.1 != "") = true := by
      simp only [bne, Bool.not_eq_true', beq_eq_false_iff_ne, ne_eq]
      simpa using ha
    rw [hb] at h
    cases h

end QueryParser

namespace QueryParser

set_option maxRecDepth 100000

/-- C28: in `parse_term`, for a term that is not an acronym, let the word read
be `term` and let it be followed by the run `run` of `+` and `#` characters
(`tail`, what follows, does not start with one). A run of 1 to 3 characters
followed by the end or by a character that is not a word character is kept
when the lower-cased `term ++ run` is a term of the database or the
lower-cased `term` is not, and dropped when only the latter is one. A run of
4 or more is dropped, and so is a run followed by a word character. -/
theorem parse_term_suffix_rule (qpi : Internal) (it : List Char) (term : String)
    (run tail : List Char) (hacr : (parse_term qpi it).2.2 = false)
    (hword : wordLoop qpi.uni it (deref it) ("".push (Char.ofNat (deref it))) =
      (term, run ++ tail))
    (hne : run ≠ []) (hrun : ∀ c ∈ run, is_suffix c.toNat = true)
    (htail : is_suffix (deref tail) = false) :
    (run.length ≤ 3 → (tail = [] ∨ qpi.uni.is_wordchar (deref tail) = false) →
      ((qpi.db.term_exists (qpi.uni.tolower ⟨term.data ++ run⟩) = true ∨
          qpi.db.term_exists (qpi.uni.tolower term) = false) →
        parse_term qpi it = (⟨term.data ++ run⟩, tail, false)) ∧
      (qpi.db.term_exists (qpi.uni.tolower ⟨term.data ++ run⟩) = false →
          qpi.db.term_exists (qpi.uni.tolower term) = true →
        parse_term qpi it = (term, run ++ tail, false))) ∧
    (4 ≤ run.length → parse_term qpi it = (term, run ++ tail, false)) ∧
    (tail ≠ [] → qpi.uni.is_wordchar (deref tail) = true →
      parse_term qpi it = (term, run ++ tail, false)) := by
  have hloop := suffixLoop_run term tail htail run term hne hrun (le_refl _) (by omega)
  simp only [Nat.sub_self, Nat.zero_add, Nat.sub_zero] at hloop
  have hstart : (!(run ++ tail).isEmpty && is_suffix (deref (run ++ tail))) = true := by
    cases run with
    | nil => exact absurd rfl hne
    | cons c run =>
      have hc : is_suffix c.toNat = true := hrun c (by simp)
      simp [deref_cons, hc]
  have hnonempty : ((⟨term.data ++ run⟩ : String) != "") = true := by
    cases run with
    | nil => exact absurd rfl hne
    | cons c run =>
      simp only [bne, Bool.not_eq_true', beq_eq_false_iff_ne, ne_eq]
      intro h
      have := congrArg String.data h
      simp at this
  rw [parse_term_not_acronym qpi it hacr]
  dsimp only
  rw [hword]
  dsimp only
  rw [if_pos hstart, hloop]
  refine ⟨fun h3 hend => ⟨fun hex => ?_, fun h1 h2 => ?_⟩, fun h4 => ?_, fun ht hw => ?_⟩
  · rw [if_pos h3]
    dsimp only
    have hc : (tail.isEmpty || !qpi.uni.is_wordchar (deref tail)) = true := by
      rcases hend with h | h
      · simp [h]
      · simp [h]
    rw [hnonempty, hc]
    simp only [Bool.and_self, if_true]
    rcases hex with h | h
    · simp [h]
    · by_cases h2 : qpi.db.term_exists (qpi.uni.tolower ⟨term.data ++ run⟩) = true
      · simp [h2]
      · simp [h2, h]
  · rw [if_pos h3]
    dsimp only
    simp [h1, h2]
  · have h3 : ¬ run.length ≤ 3 := by omega
    rw [if_neg h3]
    simp
  · by_cases h3 : run.length ≤ 3
    · rw [if_pos h3]
      dsimp only
      have hc : (tail.isEmpty || !qpi.uni.is_wordchar (deref tail)) = false := by
        cases tail with
        | nil => exact absurd rfl ht
        | cons d tail => simp [hw]
      rw [hc]
      simp
    · rw [if_neg h3]
      simp

/-- C28 with the database of the examples, which has `c` and `d++` but none of
`c++`, `d`, `e`, `e#`: `c++` loses its suffix, `d++`, `e#` and `e###` keep
theirs, and `e####` loses it. -/
theorem parse_term_suffix_rule_witness :
    parse_term (spellingParser []) "c++ x".data = ("c", "++ x".data, false) ∧
    parse_term (spellingParser []) "d++".data = ("d++", [], false) ∧
    parse_term (spellingParser []) "e###".data = ("e###", [], false) ∧
    parse_term (spellingParser []) "e####".data = ("e", "####".data, false) ∧
    parse_term (spellingParser []) "C#".data = ("C", "#".data, false) ∧
    parse_term (spellingParser []) "e#)".data = ("e#", ")".data, false) :=
  ⟨((parse_term_suffix_rule (spellingParser []) "c++ x".data "c" "++".data " x".data
      (by decide) (by decide) (by decide) (by decide) (by decide)).1 (by decide)
      (Or.inr (by decide))).2 (by decide) (by decide),
    by decide, by decide, by decide, by decide, by decide⟩

end QueryParser

namespace QueryParser

/-- One step of `windowChain`. -/
theorem windowChain_snoc (first : Term) (rest : List (Option Term × Term))
    (e : Option Term × Term) :
    windowChain first (rest ++ [e]) =
      match e.1 with
      | some w => ((windowChain first rest).add_positional_term e.2).adjust_window w.pos
      | none => (windowChain first rest).add_positional_term e.2 := by
  unfold windowChain
  rw [List.foldl_append]
  rfl

theorem add_positional_term_terms (l : TermList) (t : Term) :
    (l.add_positional_term t).terms = l.terms ++ [t.need_positions] := by
  unfold TermList.add_positional_term
  dsimp only
  split
  · rfl
  · split <;> rfl

theorem add_positional_term_window (l : TermList) (t : Term) :
    (l.add_positional_term t).window = l.window := by
  unfold TermList.add_positional_term
  dsimp only
  split
  · rfl
  · split <;> rfl

theorem add_positional_term_prefixes (l : TermList) (t : Term) (h : l.terms ≠ [])
    (hu : (l.add_positional_term t).uniform_prefixes = true) :
    (l.add_positional_term t).prefixes = l.prefixes ∧ l.uniform_prefixes = true := by
  have hne : l.terms.isEmpty = false := by
    cases hl : l.terms with
    | nil => exact absurd hl h
    | cons a b => rfl
  unfold TermList.add_positional_term at hu ⊢
  simp only [hne, Bool.false_eq_true, if_false] at hu ⊢
  split at hu
  · simp at hu
  · rename_i hc
    rw [if_neg hc]
    exact ⟨rfl, hu⟩

theorem adjust_window_fields (l : TermList) (w : Nat) :
    (l.adjust_window w).terms = l.terms ∧ (l.adjust_window w).window = max l.window w ∧
    (l.adjust_window w).prefixes = l.prefixes ∧
    (l.adjust_window w).uniform_prefixes = l.uniform_prefixes := by
  unfold TermList.adjust_window
  split
  · rename_i h
    refine ⟨rfl, ?_, rfl, rfl⟩
    show w = max l.window w
    omega
  · rename_i h
    refine ⟨rfl, ?_, rfl, rfl⟩
    omega

theorem chainWidth_snoc (rest : List (Option Term × Term)) (e : Option Term × Term) :
    chainWidth (rest ++ [e]) =
      match e.1 with
      | some w => max (chainWidth rest) w.pos
      | none => chainWidth rest := by
  unfold chainWidth
  rw [List.foldl_append]
  rfl

/-- The fields of the list built for a chain. -/
theorem windowChain_fields (first : Term) (rest : List (Option Term × Term)) :
    (windowChain first rest).terms.length = rest.length + 1 ∧
    (windowChain first rest).window = chainWidth rest ∧
    ((windowChain first rest).uniform_prefixes = true →
      (windowChain first rest).prefixes = first.prefixes) := by
  induction rest using List.reverseRecOn with
  | nil =>
    refine ⟨?_, ?_, fun _ => ?_⟩
    · simp [windowChain, add_positional_term_terms, TermList.new]
    · simp [windowChain, add_positional_term_window, TermList.new, chainWidth]
    · simp [windowChain, TermList.add_positional_term, TermList.new]
  | append_singleton rest e ih =>
    obtain ⟨ih1, ih2, ih3⟩ := ih
    have hne : (windowChain first rest).terms ≠ [] := by
      intro h
      rw [h] at ih1
      simp at ih1
    rw [windowChain_snoc, chainWidth_snoc]
    cases he : e.1 with
    | none =>
      dsimp only
      refine ⟨?_, ?_, fun hu => ?_⟩
      · rw [add_positional_term_terms]; simp [ih1]
      · rw [add_positional_term_window, ih2]
      · have := add_positional_term_prefixes _ _ hne hu
        rw [this.1, ih3 this.2]
    | some w =>
      dsimp only
      have ha := adjust_window_fields ((windowChain first rest).add_positional_term e.2) w.pos
      refine ⟨?_, ?_, fun hu => ?_⟩
      · rw [ha.1, add_positional_term_terms]; simp [ih1]
      · rw [ha.2.1, add_positional_term_window, ih2]
      · rw [ha.2.2.2] at hu
        have := add_positional_term_prefixes _ _ hne hu
        rw [ha.2.2.1, this.1, ih3 this.2]

theorem chainWidth_zero_iff (rest : List (Option Term × Term))
    (hpos : ∀ e ∈ rest, ∀ w ∈ e.1, 0 < w.pos) :
    chainWidth rest = 0 ↔ rest.all (fun e => e.1.isNone) = true := by
  induction rest using List.reverseRecOn with
  | nil => simp [chainWidth]
  | append_singleton rest e ih =>
    have ih := ih (fun x hx w hw => hpos x (List.mem_append_left _ hx) w hw)
    rw [chainWidth_snoc, List.all_append, Bool.and_eq_true, ← ih]
    cases he : e.1 with
    | none => simp [he]
    | some w =>
      have hw := hpos e (by simp) w (by simp [he])
      simp only [List.all_cons, he, Option.isNone_some, List.all_nil, Bool.and_true,
        Bool.false_eq_true, and_false, iff_false]
      have hle : w.pos ≤ max (chainWidth rest) w.pos := le_max_right _ _
      intro h0
      rw [h0] at hle
      omega

theorem phraseList_eq_windowChain (first : Term) (terms : List Term) :
    phraseList (first :: terms) = windowChain first (terms.map (fun t => (none, t))) := by
  unfold phraseList windowChain
  rw [List.foldl_cons, List.foldl_map]

/-- The result of `as_opwindow_query` is a window query of width
`w_delta + terms.size()`, when the list has a prefix to build it for. -/
theorem as_opwindow_query_window (qpi : Internal) (tl : TermList) (op : Op) (w_delta : Nat)
    (st : State) (hp : tl.uniform_prefixes = true → tl.prefixes ≠ []) :
    ∃ q, (tl.as_opwindow_query qpi op w_delta st).1 = some q ∧
      isWindowQuery op ((w_delta + tl.terms.length) % 2 ^ 32) q = true := by
  unfold TermList.as_opwindow_query
  dsimp only
  by_cases hu : tl.uniform_prefixes = true
  · rw [if_pos hu]
    have hne := hp hu
    generalize hF : (fun (acc : Option Query × State) (piter : String) =>
        let r := tl.terms.foldl
          (fun (a : List Query × State) t =>
            let m := t.make_term qpi piter a.2
            (a.1 ++ [Query.term m.1 1 t.pos], m.2))
          ([], acc.2)
        (add_to_query_ref acc.1 Op.OP_OR
          (Query.multi op r.1 ((w_delta + tl.terms.length) % 2 ^ 32)), r.2)) = F
    have key : ∀ (ps : List String) (acc : Option Query × State),
        (∀ q, acc.1 = some q →
          isWindowQuery op ((w_delta + tl.terms.length) % 2 ^ 32) q = true) →
        (ps ≠ [] ∨ acc.1 ≠ none) →
        ∃ q, (ps.foldl F acc).1 = some q ∧
          isWindowQuery op ((w_delta + tl.terms.length) % 2 ^ 32) q = true := by
      intro ps
      induction ps with
      | nil =>
        intro acc hacc hor
        rcases hor with h | h
        · exact absurd rfl h
        · cases ha : acc.1 with
          | none => exact absurd ha h
          | some q => exact ⟨q, ha, hacc q ha⟩
      | cons p ps ih =>
        intro acc hacc _
        rw [List.foldl_cons]
        apply ih
        · intro q hq
          rw [← hF] at hq
          dsimp only at hq
          cases ha : acc.1 with
          | none =>
            rw [ha] at hq
            simp only [add_to_query_ref, Option.some.injEq] at hq
            subst hq
            simp [isWindowQuery]
          | some q0 =>
            rw [ha] at hq
            simp only [add_to_query_ref, Option.some.injEq] at hq
            subst hq
            simp only [isWindowQuery, hacc q0 ha]
            simp
        · right
          rw [← hF]
          dsimp only
          cases acc.1 <;> simp [add_to_query_ref]
    exact key tl.prefixes (none, st) (fun q h => by cases h) (Or.inl hne)
  · rw [if_neg hu]
    exact ⟨_, rfl, by simp [isWindowQuery]⟩

end QueryParser

namespace QueryParser

set_option maxRecDepth 100000

/-- The rules of `near_expr` and `adj_expr` build `windowChain`, and the rules
of `compound_term` turn the list into the query. -/
theorem window_rules (qpi : Internal) (st : State) (stk : List yyStackEntry)
    (e0 e1 e2 : Nat × Nat) (op : Option Term) (t0 t2 first : Term)
    (rest : List (Option Term × Term)) (l : TermList) :
    (∀ rule, rule = 48 ∨ rule = 50 →
      ruleAction qpi st (⟨e0.1, e0.2, Minor.token (some t0)⟩ :: ⟨e1.1, e1.2, Minor.token op⟩ ::
        ⟨e2.1, e2.2, Minor.token (some t2)⟩ :: stk) rule =
        Except.ok (ActionResult.value (Minor.terms (windowChain t2 [(op, t0)])) st)) ∧
    (∀ rule, rule = 49 ∨ rule = 51 →
      ruleAction qpi st (⟨e0.1, e0.2, Minor.token (some t0)⟩ :: ⟨e1.1, e1.2, Minor.token op⟩ ::
        ⟨e2.1, e2.2, Minor.terms (windowChain first rest)⟩ :: stk) rule =
        Except.ok (ActionResult.value
          (Minor.terms (windowChain first (rest ++ [(op, t0)]))) st)) ∧
    ruleAction qpi st (⟨e0.1, e0.2, Minor.terms l⟩ :: stk) 38 =
      Except.ok (ActionResult.value (Minor.query (l.as_near_query qpi st).1)
        (l.as_near_query qpi st).2) ∧
    ruleAction qpi st (⟨e0.1, e0.2, Minor.terms l⟩ :: stk) 39 =
      Except.ok (ActionResult.value (Minor.query (l.as_adj_query qpi st).1)
        (l.as_adj_query qpi st).2) ∧
    ruleAction qpi st (⟨e0.1, e0.2, Minor.terms l⟩ :: stk) 36 =
      Except.ok (ActionResult.value (Minor.query (l.as_phrase_query qpi st).1)
        (l.as_phrase_query qpi st).2) ∧
    ruleAction qpi st (⟨e0.1, e0.2, Minor.token none⟩ :: ⟨e1.1, e1.2, Minor.terms l⟩ ::
        ⟨e2.1, e2.2, Minor.token none⟩ :: stk) 35 =
      Except.ok (ActionResult.value (Minor.query (l.as_phrase_query qpi st).1)
        (l.as_phrase_query qpi st).2) := by
  refine ⟨?_, ?_, rfl, rfl, rfl, rfl⟩
  · intro rule hr
    rcases hr with rfl | rfl <;> cases op <;> rfl
  · intro rule hr
    rw [windowChain_snoc]
    rcases hr with rfl | rfl <;> cases op <;> rfl

theorem chainWidth_chainOf (rest : List (Option Nat × Term)) :
    chainWidth (chainOf rest) = cutWidth rest := by
  induction rest using List.reverseRecOn with
  | nil => rfl
  | append_singleton rest e ih =>
    unfold chainOf at ih ⊢
    rw [List.map_append, List.map_singleton, chainWidth_snoc, ih]
    obtain ⟨w, t⟩ := e
    cases w with
    | none => simp [cutWidth, List.filterMap_append]
    | some n =>
      simp [cutWidth, List.filterMap_append, List.foldl_append, Term.ofPos]

/-- C29, as stated, fails: `a NEAR/4294967297 b` has the window 2 and
`a NEAR/4294967296 b` the window 11, where `W - 1 + k` is 4294967298 and
4294967297. -/
theorem near_width_cut_to_32_bits :
    resultOf (parse_query (plainParser [] []) 100 "a NEAR/4294967297 b" FLAG_DEFAULT "") =
      some (Query.multi Op.OP_NEAR [Query.term "a" 1 1, Query.term "b" 1 2] 2, none) ∧
    resultOf (parse_query (plainParser [] []) 100 "a NEAR/4294967296 b" FLAG_DEFAULT "") =
      some (Query.multi Op.OP_NEAR [Query.term "a" 1 1, Query.term "b" 1 2] 11, none) ∧
    resultOf (parse_query (plainParser [] []) 100 "a ADJ/4294967297 b" FLAG_DEFAULT "") =
      some (Query.multi Op.OP_PHRASE [Query.term "a" 1 1, Query.term "b" 1 2] 2, none) :=
  ⟨rfl, rfl, rfl⟩

/-- C29, amended: for a chain of `k` terms (`first` and the `k - 1` of `rest`)
joined by NEAR (by ADJ), as the rules of `near_expr` (`adj_expr`) build it from
the widths the lexer hands over, the query is an `OP_NEAR` (`OP_PHRASE`) query
with window `(W - 1 + k) mod 2 ^ 32`, where `W` is the largest of the widths
written on the operators, each taken modulo `2 ^ 32`, or 10 when that is 0 (no
operator carries a width, or every width is a multiple of `2 ^ 32`); and a
phrase of the `k` terms has window `k mod 2 ^ 32`. The first term has at least
one prefix. -/
theorem near_chain_window (qpi : Internal) (st : State) (first : Term)
    (rest : List (Option Nat × Term)) (hpfx : first.prefixes ≠ []) :
    (∃ q, ((windowChain first (chainOf rest)).as_near_query qpi st).1 = some q ∧
      isWindowQuery Op.OP_NEAR
        (((if cutWidth rest = 0 then 10 else cutWidth rest) - 1 + (rest.length + 1)) % 2 ^ 32)
        q = true) ∧
    (∃ q, ((windowChain first (chainOf rest)).as_adj_query qpi st).1 = some q ∧
      isWindowQuery Op.OP_PHRASE
        (((if cutWidth rest = 0 then 10 else cutWidth rest) - 1 + (rest.length + 1)) % 2 ^ 32)
        q = true) ∧
    (∃ q, ((phraseList (first :: rest.map Prod.snd)).as_phrase_query qpi st).1 = some q ∧
      isWindowQuery Op.OP_PHRASE ((rest.length + 1) % 2 ^ 32) q = true) ∧
    (∀ (stk : List yyStackEntry) (e0 e1 e2 : Nat × Nat) (op : Option Term) (t0 t2 : Term)
      (chain : List (Option Term × Term)),
      (∀ rule, rule = 48 ∨ rule = 50 →
        ruleAction qpi st (⟨e0.1, e0.2, Minor.token (some t0)⟩ ::
          ⟨e1.1, e1.2, Minor.token op⟩ :: ⟨e2.1, e2.2, Minor.token (some t2)⟩ :: stk) rule =
          Except.ok (ActionResult.value (Minor.terms (windowChain t2 [(op, t0)])) st)) ∧
      (∀ rule, rule = 49 ∨ rule = 51 →
        ruleAction qpi st (⟨e0.1, e0.2, Minor.token (some t0)⟩ ::
          ⟨e1.1, e1.2, Minor.token op⟩ ::
          ⟨e2.1, e2.2, Minor.terms (windowChain first chain)⟩ :: stk) rule =
          Except.ok (ActionResult.value
            (Minor.terms (windowChain first (chain ++ [(op, t0)]))) st)) ∧
      ruleAction qpi st (⟨e0.1, e0.2, Minor.terms (windowChain first chain)⟩ :: stk) 38 =
        Except.ok (ActionResult.value
          (Minor.query ((windowChain first chain).as_near_query qpi st).1)
          ((windowChain first chain).as_near_query qpi st).2) ∧
      ruleAction qpi st (⟨e0.1, e0.2, Minor.terms (windowChain first chain)⟩ :: stk) 39 =
        Except.ok (ActionResult.value
          (Minor.query ((windowChain first chain).as_adj_query qpi st).1)
          ((windowChain first chain).as_adj_query qpi st).2)) := by
  obtain ⟨hlen, hwin, hpre⟩ := windowChain_fields first (chainOf rest)
  have hclen : (chainOf rest).length = rest.length := by simp [chainOf]
  rw [chainWidth_chainOf] at hwin
  have hp : (windowChain first (chainOf rest)).uniform_prefixes = true →
      (windowChain first (chainOf rest)).prefixes ≠ [] := fun hu => by rw [hpre hu]; exact hpfx
  have hw : (if ((windowChain first (chainOf rest)).window == 0) = true then 10
      else (windowChain first (chainOf rest)).window) =
      (if cutWidth rest = 0 then 10 else cutWidth rest) := by
    rw [hwin]
    by_cases h0 : cutWidth rest = 0
    · simp [h0]
    · simp [h0]
  have hmod : ∀ W : Nat, ((W - 1) % 2 ^ 32 + (windowChain first (chainOf rest)).terms.length) %
      2 ^ 32 = (W - 1 + (rest.length + 1)) % 2 ^ 32 := by
    intro W
    rw [hlen, hclen, Nat.mod_add_mod]
  refine ⟨?_, ?_, ?_, ?_⟩
  · obtain ⟨q, h1, h2⟩ := as_opwindow_query_window qpi (windowChain first (chainOf rest))
      Op.OP_NEAR (((if cutWidth rest = 0 then 10 else cutWidth rest) - 1) % 2 ^ 32) st hp
    refine ⟨q, ?_, ?_⟩
    · unfold TermList.as_near_query
      dsimp only
      rw [hw]
      exact h1
    · rw [← hmod]; exact h2
  · obtain ⟨q, h1, h2⟩ := as_opwindow_query_window qpi (windowChain first (chainOf rest))
      Op.OP_PHRASE (((if cutWidth rest = 0 then 10 else cutWidth rest) - 1) % 2 ^ 32) st hp
    refine ⟨q, ?_, ?_⟩
    · unfold TermList.as_adj_query
      dsimp only
      rw [hw]
      exact h1
    · rw [← hmod]; exact h2
  · rw [phraseList_eq_windowChain]
    obtain ⟨hlen2, _, hpre2⟩ := windowChain_fields first
      ((rest.map Prod.snd).map (fun t => ((none : Option Term), t)))
    obtain ⟨q, h1, h2⟩ := as_opwindow_query_window qpi
      (windowChain first ((rest.map Prod.snd).map (fun t => ((none : Option Term), t))))
      Op.OP_PHRASE 0 st (fun hu => by rw [hpre2 hu]; exact hpfx)
    refine ⟨q, h1, ?_⟩
    rw [hlen2] at h2
    simp only [List.length_map, Nat.zero_add] at h2
    exact h2
  · intro stk e0 e1 e2 op t0 t2 chain
    have h := window_rules qpi st stk e0 e1 e2 op t0 t2 first chain (windowChain first chain)
    exact ⟨h.1, h.2.1, h.2.2.1, h.2.2.2.1⟩

/-- C29 on whole queries: `a NEAR b` has window 11, `a NEAR/3 b NEAR c` window
5, `a NEAR b NEAR/30 c NEAR/4 d` window 33, `a ADJ/2 b ADJ c` window 4, and
the phrases `"a b c"` and `a-b` windows 3 and 2; and the chains of
`a NEAR/3 b NEAR c` and of `a NEAR/4294967297 b` as the rules build them. -/
theorem near_chain_window_witness :
    resultOf (parse_query (plainParser [] []) 100 "a NEAR b" FLAG_DEFAULT "") =
      some (Query.multi Op.OP_NEAR [Query.term "a" 1 1, Query.term "b" 1 2] 11, none) ∧
    resultOf (parse_query (plainParser [] []) 100 "a NEAR/3 b NEAR c" FLAG_DEFAULT "") =
      some (Query.multi Op.OP_NEAR
        [Query.term "a" 1 1, Query.term "b" 1 2, Query.term "c" 1 3] 5, none) ∧
    resultOf (parse_query (plainParser [] []) 100 "a NEAR b NEAR/30 c NEAR/4 d" FLAG_DEFAULT "") =
      some (Query.multi Op.OP_NEAR
        [Query.term "a" 1 1, Query.term "b" 1 2, Query.term "c" 1 3, Query.term "d" 1 4] 33,
        none) ∧
    resultOf (parse_query (plainParser [] []) 100 "a ADJ/2 b ADJ c" FLAG_DEFAULT "") =
      some (Query.multi Op.OP_PHRASE
        [Query.term "a" 1 1, Query.term "b" 1 2, Query.term "c" 1 3] 4, none) ∧
    resultOf (parse_query (plainParser [] []) 100 "\"a b c\"" FLAG_DEFAULT "") =
      some (Query.multi Op.OP_PHRASE
        [Query.term "a" 1 1, Query.term "b" 1 2, Query.term "c" 1 3] 3, none) ∧
    resultOf (parse_query (plainParser [] []) 100 "a-b" FLAG_DEFAULT "") =
      some (Query.multi Op.OP_PHRASE [Query.term "a" 1 1, Query.term "b" 1 2] 2, none) ∧
    (∃ q, ((windowChain ⟨"a", [""], "a", stem_strategy.STEM_NONE, 1⟩
        (chainOf [(some 3, ⟨"b", [""], "b", stem_strategy.STEM_NONE, 2⟩),
          (none, ⟨"c", [""], "c", stem_strategy.STEM_NONE, 3⟩)])).as_near_query
        (plainParser [] []) (State.new FLAG_DEFAULT)).1 = some q ∧
      isWindowQuery Op.OP_NEAR 5 q = true) ∧
    (∃ q, ((windowChain ⟨"a", [""], "a", stem_strategy.STEM_NONE, 1⟩
        (chainOf [(some 4294967297, ⟨"b", [""], "b", stem_strategy.STEM_NONE, 2⟩)])).as_near_query
        (plainParser [] []) (State.new FLAG_DEFAULT)).1 = some q ∧
      isWindowQuery Op.OP_NEAR 2 q = true) :=
  ⟨rfl, rfl, rfl, rfl, rfl, rfl,
    (near_chain_window (plainParser [] []) (State.new FLAG_DEFAULT)
      ⟨"a", [""], "a", stem_strategy.STEM_NONE, 1⟩
      [(some 3, ⟨"b", [""], "b", stem_strategy.STEM_NONE, 2⟩),
        (none, ⟨"c", [""], "c", stem_strategy.STEM_NONE, 3⟩)] (by simp)).1,
    (near_chain_window (plainParser [] []) (State.new FLAG_DEFAULT)
      ⟨"a", [""], "a", stem_strategy.STEM_NONE, 1⟩
      [(some 4294967297, ⟨"b", [""], "b", stem_strategy.STEM_NONE, 2⟩)] (by simp)).1⟩

end QueryParser

namespace QueryParser

set_option maxRecDepth 100000

/-- C27, on the code: with `FLAG_SPELLING_CORRECTION` and a database that
lacks `helo`, `wrld` and `wold` and suggests `hello`, `world` and `world` for
them, the corrected query string of `hello world` is empty, that of
`helo wrld` is `hello world` and that of `wold, helo (wrld)` is
`world, hello (world)`. For a field `t` whose prefixes include the empty
one, the correction of `t:helo` replaces the field name and the colon as well:
the string is `hello`, not `t:hello`, and that of `wold t:helo x` is
`world hello x`. -/
theorem corrected_query_drops_field_name :
    correctedOf (parse_query (spellingParser []) 100 "hello world"
      (FLAG_DEFAULT ||| FLAG_SPELLING_CORRECTION) "") = some "" ∧
    correctedOf (parse_query (spellingParser []) 100 "helo wrld"
      (FLAG_DEFAULT ||| FLAG_SPELLING_CORRECTION) "") = some "hello world" ∧
    correctedOf (parse_query (spellingParser []) 100 "wold, helo (wrld)"
      (FLAG_DEFAULT ||| FLAG_SPELLING_CORRECTION) "") = some "world, hello (world)" ∧
    correctedOf (parse_query (spellingParser [("t", ⟨false, [""]⟩)]) 100 "t:helo"
      (FLAG_DEFAULT ||| FLAG_SPELLING_CORRECTION) "") = some "hello" ∧
    correctedOf (parse_query (spellingParser [("t", ⟨false, ["", "S"]⟩)]) 100 "wold t:helo x"
      (FLAG_DEFAULT ||| FLAG_SPELLING_CORRECTION) "") = some "world hello x" ∧
    resultOf (parse_query (spellingParser [("t", ⟨false, ["", "S"]⟩)]) 100 "wold t:helo x"
      (FLAG_DEFAULT ||| FLAG_SPELLING_CORRECTION) "") =
      some (Query.multi Op.OP_OR [Query.term "wold" 1 1,
        Query.pair Op.OP_OR (Query.term "helo" 1 2) (Query.term "Shelo" 1 2),
        Query.term "x" 1 3] 0, none) :=
  ⟨rfl, rfl, rfl, rfl, rfl, rfl⟩

end QueryParser

namespace QueryParser

set_option maxRecDepth 100000

/-- C31, on the code: rule 15 tests `op == OP_NEAR || op == OP_NEAR`. With
`default_op` `OP_NEAR` two terms that are not stopwords give
`Query(OP_NEAR, subqs, subqs + 2, 11)`; with `OP_PHRASE` they go through
`add_to_query` and give `Query(OP_PHRASE, a, b)`, without the window 11. The
query strings `a, b` show both. -/
theorem phrase_default_op_gets_no_window (a b : Query) :
    (prob_terms_first Op.OP_NEAR (some a) (some b)).map (fun p => p.query) =
      Except.ok (some (Query.multi Op.OP_NEAR [a, b] 11)) ∧
    (prob_terms_first Op.OP_PHRASE (some a) (some b)).map (fun p => p.query) =
      Except.ok (some (Query.pair Op.OP_PHRASE a b)) ∧
    resultOf (parse_query { plainParser [] [] with default_op := Op.OP_NEAR } 100 "a, b"
      FLAG_DEFAULT "") =
      some (Query.multi Op.OP_NEAR [Query.term "a" 1 1, Query.term "b" 1 2] 11, none) ∧
    resultOf (parse_query { plainParser [] [] with default_op := Op.OP_PHRASE } 100 "a, b"
      FLAG_DEFAULT "") =
      some (Query.pair Op.OP_PHRASE (Query.term "a" 1 1) (Query.term "b" 1 2), none) :=
  ⟨rfl, rfl, rfl, rfl⟩

/-- C32: the rule `prob_expr ::= prob` on a `ProbQuery` with a hate part that
is not empty and without plain part, loved part and filters fails the parse:
the stack is emptied, `state.error`, not set before, becomes `parse error`,
and `state.query` is left alone. -/
theorem hate_only_fails_parse (qpi : Internal) (p : yyParser) (st : State) (pq : ProbQuery)
    (hate : Query) (hstk : msp p.yystack 0 = Except.ok (Minor.prob pq))
    (hh : pq.hate = some hate) (hne : hate.isEmpty = false) (hq : pq.query = none)
    (hl : pq.love = none) (hf : pq.filter = []) (herr : st.error = none) :
    ruleAction qpi st p.yystack 11 = Except.ok (ActionResult.failed st) ∧
    yy_reduce qpi p st 11 =
      Except.ok ({ p with yystack := [] }, { st with error := some "parse error" }) := by
  have hpos : probPositive pq = none := by
    simp [probPositive, probLoved, hq, hl, hf]
  have hact : ruleAction qpi st p.yystack 11 = Except.ok (ActionResult.failed st) := by
    simp only [ruleAction, hstk]
    simp [Minor.yy12, bind, Except.bind, pure, Except.pure, probExprAction, hh, hne, hpos]
  refine ⟨hact, ?_⟩
  unfold yy_reduce
  rw [hact]
  simp [bind, Except.bind, pure, Except.pure, yy_parse_failed, herr]

/-- C32 on the query strings `-foo` and `-foo -bar`, which fail with
`parse error` under `FLAG_LOVEHATE`, and on the stack that holds the
`ProbQuery` of `-foo`. -/
theorem hate_only_fails_parse_witness :
    resultOf (parse_query (plainParser [] []) 100 "-foo" FLAG_LOVEHATE "") =
      some (Query.empty, some "parse error") ∧
    resultOf (parse_query (plainParser [] []) 100 "-foo -bar" FLAG_DEFAULT "") =
      some (Query.empty, some "parse error") ∧
    resultOf (parse_query (plainParser [] []) 100 "a -foo" FLAG_DEFAULT "") =
      some (Query.pair Op.OP_AND_NOT (Query.term "a" 1 1) (Query.term "foo" 1 2), none) ∧
    yy_reduce (plainParser [] [])
        ⟨0, [⟨0, 0, Minor.prob { ProbQuery.new with hate := some (Query.term "foo" 1 1) }⟩]⟩
        (State.new FLAG_LOVEHATE) 11 =
      Except.ok (({ yyerrcnt := 0, yystack := [] } : yyParser),
        { State.new FLAG_LOVEHATE with error := some "parse error" }) :=
  ⟨rfl, rfl, rfl,
    (hate_only_fails_parse (plainParser [] [])
      ⟨0, [⟨0, 0, Minor.prob { ProbQuery.new with hate := some (Query.term "foo" 1 1) }⟩]⟩
      (State.new FLAG_LOVEHATE) { ProbQuery.new with hate := some (Query.term "foo" 1 1) }
      (Query.term "foo" 1 1) rfl rfl rfl rfl rfl rfl rfl).2⟩

/-! ### `parse_query`: the stack of prefixes -/

theorem ensures_ok {α : Type} {a : α} {P : α → Prop} (h : P a) :
    Ensures (Except.ok a : Except Fault α) P := by
  intro b hb
  cases hb
  exact h

theorem ensures_pure {α : Type} {a : α} {P : α → Prop} (h : P a) :
    Ensures (pure a : Except Fault α) P := ensures_ok h

theorem ensures_error {α : Type} {f : Fault} {P : α → Prop} :
    Ensures (Except.error f : Except Fault α) P := by
  intro b hb
  cases hb

theorem ensures_bind {α β : Type} {x : Except Fault α} {f : α → Except Fault β}
    {Q : α → Prop} {P : β → Prop} (hx : Ensures x Q) (hf : ∀ a, Q a → Ensures (f a) P) :
    Ensures (x >>= f) P := by
  intro b hb
  cases x with
  | error e => cases hb
  | ok a => exact hf a (hx a rfl) b hb

theorem ensures_ite {α : Type} {c : Prop} [Decidable c] {x y : Except Fault α} {P : α → Prop}
    (hx : c → Ensures x P) (hy : ¬ c → Ensures y P) : Ensures (if c then x else y) P := by
  by_cases hc : c
  · rw [if_pos hc]; exact hx hc
  · rw [if_neg hc]; exact hy hc

theorem ensures_parse (qpi : Internal) (fuel : Nat) (ls : LexState) (token : Nat)
    (minor : Option Term) :
    Ensures (ls.parse qpi fuel token minor)
      (fun ls1 => ls1.prefix_stack = ls.prefix_stack ∧ ls1.mode = ls.mode) := by
  intro ls1 h
  unfold LexState.parse at h
  simp only [bind, Except.bind, pure, Except.pure] at h
  split at h
  · cases h
  · cases h; exact ⟨rfl, rfl⟩

theorem StackOk.of_eq {a b : LexState} (h : StackOk a) (hs : b.prefix_stack = a.prefix_stack)
    (hm : b.mode = a.mode) : StackOk b := by
  unfold StackOk
  rw [hs, hm]
  exact h

theorem StackOk.of_mode {a b : LexState} (h : StackOk a) (hs : b.prefix_stack = a.prefix_stack)
    (hm : b.mode ≠ Mode.IN_PREFIXED_QUOTES) : StackOk b := by
  unfold StackOk
  rw [hs]
  exact ⟨h.1, fun hq => absurd hq hm⟩

theorem StackOk.push {a b : LexState} (h : StackOk a) (p : PrefixInfo)
    (hs : b.prefix_stack = p :: a.prefix_stack) : StackOk b := by
  unfold StackOk
  rw [hs]
  refine ⟨by simp, fun _ => ?_⟩
  have := List.length_pos.2 h.1
  simp only [List.length_cons]
  omega

theorem StackOk.of_nonempty {b : LexState} (hs : b.prefix_stack ≠ [])
    (hm : b.mode ≠ Mode.IN_PREFIXED_QUOTES) : StackOk b :=
  ⟨hs, fun hq => absurd hq hm⟩

theorem ensures_pop (ls : LexState) (h : 2 ≤ ls.prefix_stack.length) :
    Ensures ls.prefix_pop (fun y => y.prefix_stack ≠ [] ∧ y.mode = ls.mode) := by
  intro y hy
  unfold LexState.prefix_pop at hy
  split at hy
  · rename_i p rest hst
    cases hy
    rw [hst] at h
    refine ⟨?_, rfl⟩
    intro hnil
    dsimp only at hnil
    rw [hnil] at h
    simp at h
  · cases hy

theorem ensures_back (ls : LexState) :
    Ensures ls.prefix_back (fun _ => True) := fun _ _ => trivial

theorem mode_ne_of_beq {m k : Mode} (h : (m == k) = true) (hk : k ≠ Mode.IN_PREFIXED_QUOTES) :
    m ≠ Mode.IN_PREFIXED_QUOTES := by
  have : m = k := by simpa using h
  rw [this]
  exact hk

theorem lexPunct_stack (qpi : Internal) (fuel flags : Nat) (ls : LexState) (lwo : Bool)
    (hok : StackOk ls) :
    Ensures (lexPunct qpi fuel flags ls lwo) (fun r => StackOk r.1) := by
  unfold lexPunct
  split
  · exact ensures_pure hok
  · rename_i c it hit
    lift_lets
    intro prev ch ls_1 ls_2 skipped ls_3 jp token ls_4 jp1
    have h1 : StackOk ls_1 := hok.of_eq rfl rfl
    have h2 : StackOk ls_2 := by
      by_cases hg : (ls_1.mode == Mode.IN_GROUP) = true
      · exact h1.of_mode (by simp only [ls_2, if_pos hg]) (by simp only [ls_2, if_pos hg]; decide)
      · simp only [ls_2, if_neg hg]; exact h1
    have h3 : StackOk ls_3 := h2.of_eq rfl rfl
    have h4 : StackOk ls_4 := h2.of_eq rfl rfl
    refine ensures_ite (fun _ => ?_) (fun _ => ?_)
    · -- Quoted phrase.
      refine ensures_ite (fun _ => ensures_pure h3) (fun _ => ?_)
      refine ensures_ite (fun _ => ensures_pure (h3.of_eq rfl rfl)) (fun _ => ?_)
      refine ensures_ite (fun _ => ?_) (fun _ => ensures_pure h3)
      refine ensures_bind (ensures_parse _ _ _ _ _) (fun v hv => ?_)
      have hv3 : StackOk v := h3.of_eq hv.1 hv.2
      refine ensures_ite (fun _ => ensures_pure (hv3.of_mode rfl (by simp))) (fun _ => ?_)
      refine ensures_ite (fun hq => ?_) (fun _ => ?_)
      · have hq2 : v.mode = Mode.IN_PREFIXED_QUOTES := by simpa using hq
        refine ensures_bind (ensures_pop v (hv3.2 hq2)) (fun y hy => ?_)
        exact ensures_pure (StackOk.of_nonempty hy.1 (by simp))
      · refine ensures_bind (ensures_pure hv3) (fun y hy => ?_)
        exact ensures_pure (hy.of_mode rfl (by simp))
    · refine ensures_ite (fun _ => ?_) (fun _ => ?_)
      · -- Loved or hated term/phrase/subexpression.
        refine ensures_ite (fun _ => ensures_pure h2) (fun _ => ?_)
        refine ensures_ite (fun _ => ensures_pure h2) (fun _ => ?_)
        refine ensures_ite (fun _ => ensures_pure (h2.of_eq rfl rfl)) (fun _ => ?_)
        refine ensures_ite (fun _ => ?_) (fun _ => ensures_pure h2)
        refine ensures_bind (ensures_parse _ _ _ _ _) (fun v hv => ?_)
        exact ensures_pure (h2.of_eq hv.1 hv.2)
      · refine ensures_ite (fun _ => ?_) (fun _ => ?_)
        · -- Bracketed subexpression.
          refine ensures_ite (fun _ => ensures_pure h4) (fun _ => ?_)
          refine ensures_ite (fun _ => ensures_pure h4) (fun _ => ?_)
          refine ensures_ite (fun _ => ensures_pure (h4.of_eq rfl rfl)) (fun _ => ?_)
          refine ensures_ite (fun _ => ?_) (fun _ => ensures_pure h4)
          refine ensures_bind (ensures_back _) (fun top _ => ?_)
          refine ensures_bind (ensures_parse _ _ _ _ _) (fun v hv => ?_)
          exact ensures_pure (h4.push top hv.1)
        · refine ensures_ite (fun _ => ?_) (fun _ => ?_)
          · -- End of bracketed subexpression.
            refine ensures_ite (fun hd => ?_) (fun _ => ensures_pure h2)
            have hmode : ls_2.mode ≠ Mode.IN_PREFIXED_QUOTES := by
              simp only [Bool.and_eq_true, beq_iff_eq] at hd
              rw [hd.1]; decide
            refine ensures_ite (fun hlen => ?_) (fun _ => ?_)
            · refine ensures_bind (ensures_pop ls_2 hlen) (fun y hy => ?_)
              refine ensures_bind (ensures_parse _ _ _ _ _) (fun v hv => ?_)
              refine ensures_pure (StackOk.of_nonempty ?_ ?_)
              · show v.prefix_stack ≠ []
                rw [hv.1]; exact hy.1
              · show v.mode ≠ Mode.IN_PREFIXED_QUOTES
                rw [hv.2, hy.2]; exact hmode
            · refine ensures_bind (ensures_pure h2) (fun y hy => ?_)
              refine ensures_bind (ensures_parse _ _ _ _ _) (fun v hv => ?_)
              exact ensures_pure (hy.of_eq hv.1 hv.2)
          · refine ensures_ite (fun _ => ?_) (fun _ => ensures_pure h2)
            -- Synonym expansion.
            refine ensures_ite (fun _ => ensures_pure h2) (fun _ => ?_)
            refine ensures_ite (fun _ => ?_) (fun _ => ensures_pure h2)
            refine ensures_ite (fun _ => ensures_pure h2) (fun _ => ?_)
            refine ensures_ite (fun _ => ensures_pure h2) (fun _ => ?_)
            refine ensures_bind (ensures_parse _ _ _ _ _) (fun v hv => ?_)
            exact ensures_pure ((h2.of_eq hv.1 hv.2).of_mode rfl (by simp))

/-- What `lexField` hands on keeps the stack in order. -/
theorem lexField_stack (qpi : Internal) (fuel flags : Nat) (ls : LexState) (hok : StackOk ls) :
    Ensures (lexField qpi fuel flags ls)
      (fun r => StackOk (r.elim (fun x => x.1) (fun x => x.1))) := by
  unfold lexField
  lift_lets
  intro p field p_1 ch ls_1 s r ls_2 field_1 ls_3 ls_4
  clear_value p
  have h1 : StackOk ls_1 := by
    by_cases hg : (ls.mode == Mode.IN_GROUP) = true
    · exact hok.of_mode (by simp only [ls_1, if_pos hg]) (by simp only [ls_1, if_pos hg]; simp)
    · simp only [ls_1, if_neg hg]; exact hok
  have h2 : StackOk ls_2 := h1.of_eq rfl rfl
  refine ensures_ite (fun _ => ?_) (fun _ => ensures_pure hok)
  split
  · refine ensures_ite (fun _ => ?_) (fun _ => ensures_pure hok)
    split
    · rename_i prefixinfo _
      lift_lets
      intro token
      refine ensures_ite (fun _ => ?_) (fun _ => ?_)
      · refine ensures_bind (ensures_parse _ _ _ _ _) (fun v hv => ?_)
        exact ensures_pure (h2.of_eq hv.1 hv.2)
      · refine ensures_ite (fun _ => ?_) (fun _ => ?_)
        · -- Prefixed phrase
          refine ensures_bind (ensures_parse _ _ _ _ _) (fun v hv => ?_)
          exact ensures_pure (hok.push prefixinfo
            (by
              show prefixinfo :: v.prefix_stack = prefixinfo :: ls.prefix_stack
              rw [hv.1]))
        · refine ensures_ite (fun _ => ?_) (fun _ => ?_)
          · -- Prefixed subexpression
            refine ensures_bind (ensures_parse _ _ _ _ _) (fun v hv => ?_)
            exact ensures_pure (hok.push prefixinfo
              (by
              show prefixinfo :: v.prefix_stack = prefixinfo :: ls.prefix_stack
              rw [hv.1]))
          · refine ensures_ite (fun _ => ensures_pure (hok.of_eq rfl rfl))
              (fun _ => ensures_pure hok)
    · exact ensures_pure hok
  · exact ensures_pure hok

theorem lexSpelling_stack (qpi : Internal) (flags : Nat) (qs : String) (ls : LexState)
    (prefixinfo : PrefixInfo) (term : String) (was_acronym : Bool) (tsi : Nat) :
    (lexSpelling qpi flags qs ls prefixinfo term was_acronym tsi).prefix_stack = ls.prefix_stack ∧
      (lexSpelling qpi flags qs ls prefixinfo term was_acronym tsi).mode = ls.mode := by
  unfold lexSpelling
  lift_lets
  intro suggestion
  split_ifs <;> exact ⟨rfl, rfl⟩

theorem ensures_pure_bind {α β : Type} {a : α} {f : α → Except Fault β} {P : β → Prop}
    (h : Ensures (f a) P) : Ensures (pure a >>= f) P := h

/-- From the label `phrased_term` on the stack stays in order. -/
theorem lexTerm_stack (qpi : Internal) (fuel flags : Nat) (qs : String) (ls : LexState)
    (prefixinfo : Option PrefixInfo) (lwo : Bool) (tsi : Nat) (hok : StackOk ls) :
    Ensures (lexTerm qpi fuel flags qs ls prefixinfo lwo tsi) (fun r => StackOk r.1) := by
  unfold lexTerm
  lift_lets
  intro pt term was_acronym ls0 unstemmed_term term_1 stem_term ls_1 isWild isPartial jp
  have h0 : StackOk ls0 := hok.of_eq rfl rfl
  have h1 : StackOk ls_1 := h0.of_eq rfl rfl
  have hjp : ∀ pi, Ensures (jp pi) (fun r => StackOk r.1) := by
    intro pi
    unfold jp
    lift_lets
    intro term_obj lsS jp2 p ls_2
    have hS : StackOk lsS :=
      h1.of_eq (lexSpelling_stack qpi flags qs ls_1 pi term_1 was_acronym tsi).1
        (lexSpelling_stack qpi flags qs ls_1 pi term_1 was_acronym tsi).2
    have hjp2 : ∀ r : LexState × Bool, StackOk r.1 → Ensures (jp2 r) (fun r => StackOk r.1) := by
      intro r hr
      unfold jp2
      lift_lets
      intro lsr it lsr2 lsr3 it_1 lsr4
      have hr2 : StackOk lsr2 := hr.of_eq rfl rfl
      have hr3 : StackOk lsr3 := hr.of_mode rfl (by simp [lsr3])
      have hr4 : StackOk lsr4 := hr3.of_eq rfl rfl
      refine ensures_ite (fun _ => ensures_pure hr) (fun _ => ?_)
      refine ensures_ite (fun _ => ensures_pure hr) (fun _ => ?_)
      refine ensures_ite (fun _ => ?_) (fun _ => ?_)
      · exact ensures_ite (fun _ => ensures_pure (hr2.of_mode rfl (by simp)))
          (fun _ => ensures_pure hr2)
      · refine ensures_ite (fun _ => ?_) (fun _ => ensures_pure hr)
        refine ensures_ite (fun _ => ?_) (fun _ => ensures_pure hr3)
        exact ensures_ite (fun _ => ensures_pure (hr4.of_mode rfl (by simp)))
          (fun _ => ensures_pure hr4)
    have h2 : StackOk ls_2 := by
      unfold ls_2
      split
      · split
        · exact hS.of_mode rfl (by simp)
        · exact hS
      · exact hS
    refine ensures_ite (fun _ => ?_) (fun _ => ?_)
    · -- Wildcard at end of term.
      refine ensures_bind (ensures_parse _ _ _ _ _) (fun v hv => ?_)
      exact ensures_pure (h1.of_eq hv.1 hv.2)
    · refine ensures_ite (fun _ => ?_) (fun _ => ?_)
      · refine ensures_bind (ensures_parse _ _ _ _ _) (fun v hv => ?_)
        exact ensures_pure (h1.of_eq hv.1 hv.2)
      · refine ensures_ite (fun _ => ?_) (fun _ => ?_)
        · refine ensures_bind (ensures_parse _ _ _ _ _) (fun v hv => ?_)
          refine ensures_bind (ensures_pure (hS.of_eq hv.1 hv.2)) (fun y hy => hjp2 y hy)
        · refine ensures_bind (ensures_parse _ _ _ _ _) (fun v hv => ?_)
          refine ensures_bind (ensures_pure (h2.of_eq hv.1 hv.2)) (fun y hy => hjp2 y hy)
  split
  · -- Boolean operators.
    refine ensures_bind (ensures_parse _ _ _ _ _) (fun v hv => ?_)
    exact ensures_pure (h0.of_eq hv.1 hv.2)
  · split
    · exact ensures_pure_bind (hjp _)
    · exact ensures_bind (ensures_back _) (fun y _ => hjp y)

/-- The loop body keeps the stack in order. -/
theorem lexBody_stack (qpi : Internal) (fuel flags : Nat) (qs : String) (value_ranges : Bool)
    (ls : LexState) (lwo : Bool) (hok : StackOk ls) :
    Ensures (lexBody qpi fuel flags qs value_ranges ls lwo) (fun r => StackOk r.1) := by
  unfold lexBody
  lift_lets
  intro lsa lsb scan term_start_index ls_1 jp
  have ha : StackOk lsa := by
    unfold lsa
    split
    · exact hok.of_mode rfl (by simp)
    · exact hok
  have hb : StackOk lsb := by
    unfold lsb
    split
    · exact ha.of_eq rfl rfl
    · exact ha
  have h1 : StackOk ls_1 := hb.of_eq rfl rfl
  refine ensures_ite (fun _ => ensures_pure hb) (fun _ => ?_)
  refine ensures_pure_bind ?_
  unfold jp
  clear_value scan
  split
  · lift_lets
    intro r
    refine ensures_bind (ensures_parse _ _ _ _ _) (fun v hv => ?_)
    have hv1 : StackOk v := hb.of_eq hv.1 hv.2
    refine ensures_bind (ensures_parse _ _ _ _ _) (fun w hw => ?_)
    exact ensures_pure (hv1.of_eq hw.1 hw.2)
  · refine ensures_ite (fun _ => lexPunct_stack qpi fuel flags lsb lwo hb) (fun _ => ?_)
    refine ensures_bind (lexField_stack qpi fuel flags ls_1 h1) (fun f hf => ?_)
    split
    · exact ensures_pure hf
    · exact lexTerm_stack qpi fuel flags qs _ _ lwo term_start_index hf

/-- One move of the lexer keeps the stack in order. -/
theorem lexStep_stack (qpi : Internal) (fuel flags : Nat) (qs : String) (value_ranges : Bool)
    (ls : LexState) (e : Entry) (hok : StackOk ls) :
    Ensures (lexStep qpi fuel flags qs value_ranges ls e) (fun r => StackOk r.1) := by
  cases e with
  | done => exact ensures_ok hok
  | main_lex_loop => exact ensures_ok (hok.of_mode rfl (by simp))
  | loop_test =>
    unfold lexStep
    refine ensures_ite (fun _ => ensures_ok hok) (fun _ => ?_)
    lift_lets
    intro ls1
    refine lexBody_stack qpi fuel flags qs value_ranges ls1 false ?_
    unfold ls1
    split
    · exact hok.of_mode rfl (by simp)
    · exact hok
  | just_had_operator =>
    unfold lexStep
    refine ensures_ite (fun _ => ensures_ok hok) (fun _ => ?_)
    exact lexBody_stack qpi fuel flags qs value_ranges _ true (hok.of_mode rfl (by simp))
  | just_had_synonym_operator => exact lexBody_stack qpi fuel flags qs value_ranges ls true hok
  | phrased_term prefixinfo lwo tsi => exact lexTerm_stack qpi fuel flags qs ls prefixinfo lwo tsi hok

/-- The lexer loop of `parse_query` starts from `lexStart`. -/
theorem parse_query_start (qpi : Internal) (fuel : Nat) (qs : String) (flags : Nat)
    (default_prefix_ : String) :
    parse_query qpi fuel qs flags default_prefix_ =
      (lexRun qpi fuel flags qs (!qpi.valrangeprocs.isEmpty && hasDotDot qs.data) fuel
          (lexStart qpi qs flags default_prefix_) Entry.main_lex_loop >>= fun ls =>
        if ls.state.error.isNone then
          if ls.mode == Mode.IN_QUOTES || ls.mode == Mode.IN_PREFIXED_QUOTES then
            ls.parse qpi fuel QUOTE none >>= fun y => y.parse qpi fuel 0 none
          else pure ls >>= fun y => y.parse qpi fuel 0 none
        else pure ls) := rfl

theorem lexStart_stack (qpi : Internal) (qs : String) (flags : Nat) (default_prefix_ : String) :
    StackOk (lexStart qpi qs flags default_prefix_) :=
  StackOk.of_nonempty (by simp [lexStart]) (by simp [lexStart])

/-- Every state the lexer reaches from a state with the stack in order has the
stack in order. -/
theorem lexTrace_stack (qpi : Internal) (fuel flags : Nat) (qs : String) (value_ranges : Bool) :
    ∀ (n : Nat) (ls : LexState) (e : Entry), StackOk ls →
      Ensures (lexTrace qpi fuel flags qs value_ranges n ls e) (fun r => StackOk r.1) := by
  intro n
  induction n with
  | zero => intro ls e hok; exact ensures_ok hok
  | succ n ih =>
    intro ls e hok r hr
    unfold lexTrace at hr
    cases hstep : lexStep qpi fuel flags qs value_ranges ls e with
    | error f => rw [hstep] at hr; cases hr
    | ok r1 =>
      rw [hstep] at hr
      exact ih r1.1 r1.2 (lexStep_stack qpi fuel flags qs value_ranges ls e hok r1 hstep) r hr

/-- The state the lexer loop ends in has the stack in order. -/
theorem lexRun_stack (qpi : Internal) (fuel flags : Nat) (qs : String) (value_ranges : Bool) :
    ∀ (n : Nat) (ls : LexState) (e : Entry), StackOk ls →
      Ensures (lexRun qpi fuel flags qs value_ranges n ls e) StackOk := by
  intro n
  induction n with
  | zero =>
    intro ls e hok r hr
    cases e <;> first
      | (cases hr; exact hok)
      | cases hr
  | succ n ih =>
    intro ls e hok r hr
    by_cases hd : e = Entry.done
    · subst hd
      cases hr
      exact hok
    · have hrun : lexRun qpi fuel flags qs value_ranges (n + 1) ls e =
          match lexStep qpi fuel flags qs value_ranges ls e with
          | Except.error f => Except.error f
          | Except.ok (ls1, e1) => lexRun qpi fuel flags qs value_ranges n ls1 e1 := by
        cases e <;> first
          | exact absurd rfl hd
          | rfl
      rw [hrun] at hr
      cases hstep : lexStep qpi fuel flags qs value_ranges ls e with
      | error f => rw [hstep] at hr; cases hr
      | ok r1 =>
        rw [hstep] at hr
        exact ih r1.1 r1.2 (lexStep_stack qpi fuel flags qs value_ranges ls e hok r1 hstep) r hr

theorem prefix_back_ok (ls : LexState) (h : StackOk ls) : ∃ p, ls.prefix_back = Except.ok p := by
  unfold LexState.prefix_back
  cases hs : ls.prefix_stack with
  | nil => exact absurd hs h.1
  | cons p rest => exact ⟨p, rfl⟩

theorem prefix_pop_ok (ls : LexState) (h : 2 ≤ ls.prefix_stack.length) :
    ∃ ls1, ls.prefix_pop = Except.ok ls1 ∧ ls1.prefix_stack ≠ [] := by
  unfold LexState.prefix_pop
  cases hs : ls.prefix_stack with
  | nil => rw [hs] at h; simp at h
  | cons p rest =>
    refine ⟨_, rfl, ?_⟩
    intro hnil
    dsimp only at hnil
    rw [hs, hnil] at h
    simp at h

/-- C40: in every state that the lexer loop of `parse_query` reaches, for
every query string, flags and default prefix, `prefix_stack` is not empty, so
`prefix_stack.back()` is defined; it has an entry above the first one while a
prefixed phrase is open, so that `pop_back()` at the closing quote, and at a
`)` under the test `size() > 1`, succeeds and leaves the stack not empty; and
the state `parse_query` returns has a stack that is not empty. -/
theorem prefix_stack_never_empty (qpi : Internal) (fuel flags : Nat)
    (qs default_prefix_ : String) (n : Nat) (ls : LexState) (e : Entry)
    (h : lexTrace qpi fuel flags qs (!qpi.valrangeprocs.isEmpty && hasDotDot qs.data) n
      (lexStart qpi qs flags default_prefix_) Entry.main_lex_loop = Except.ok (ls, e)) :
    ls.prefix_stack ≠ [] ∧
      (∃ p, ls.prefix_back = Except.ok p) ∧
      (ls.mode = Mode.IN_PREFIXED_QUOTES ∨ ls.prefix_stack.length > 1 →
        ∃ ls1, ls.prefix_pop = Except.ok ls1 ∧ ls1.prefix_stack ≠ []) ∧
      ∀ last, parse_query qpi fuel qs flags default_prefix_ = Except.ok last →
        last.prefix_stack ≠ [] := by
  have hok : StackOk ls :=
    lexTrace_stack qpi fuel flags qs _ n _ _ (lexStart_stack qpi qs flags default_prefix_) _ h
  refine ⟨hok.1, prefix_back_ok ls hok, ?_, ?_⟩
  · intro hm
    apply prefix_pop_ok
    rcases hm with hm | hm
    · exact hok.2 hm
    · omega
  · intro last hlast
    rw [parse_query_start] at hlast
    have hens : Ensures
        (lexRun qpi fuel flags qs (!qpi.valrangeprocs.isEmpty && hasDotDot qs.data) fuel
            (lexStart qpi qs flags default_prefix_) Entry.main_lex_loop >>= fun ls =>
          if ls.state.error.isNone then
            if ls.mode == Mode.IN_QUOTES || ls.mode == Mode.IN_PREFIXED_QUOTES then
              ls.parse qpi fuel QUOTE none >>= fun y => y.parse qpi fuel 0 none
            else pure ls >>= fun y => y.parse qpi fuel 0 none
          else pure ls) StackOk := by
      refine ensures_bind
        (lexRun_stack qpi fuel flags qs _ fuel _ _ (lexStart_stack qpi qs flags default_prefix_))
        (fun v hv => ?_)
      refine ensures_ite (fun _ => ?_) (fun _ => ensures_pure hv)
      refine ensures_ite (fun _ => ?_) (fun _ => ?_)
      · refine ensures_bind (ensures_parse _ _ _ _ _) (fun w hw => ?_)
        have hw1 : StackOk w := hv.of_eq hw.1 hw.2
        exact fun u hu => hw1.of_eq (ensures_parse _ _ _ _ _ u hu).1 (ensures_parse _ _ _ _ _ u hu).2
      · refine ensures_pure_bind ?_
        exact fun u hu => hv.of_eq (ensures_parse _ _ _ _ _ u hu).1 (ensures_parse _ _ _ _ _ u hu).2
    exact (hens last hlast).1

/-- C40 on the query `(a) )` with the default flags, after the second `)`,
which finds one entry on the stack and leaves it there; and on a query that
starts with U+2200 and `(a`, after the `(`: `strchr` finds the low byte 0 of
U+2200 in its string, so the bracket is opened and the stack holds two
entries. -/
theorem prefix_stack_never_empty_witness :
    (∃ ls e, lexTrace (plainParser [] []) 100 FLAG_DEFAULT "(a) )"
        (!(plainParser [] []).valrangeprocs.isEmpty && hasDotDot "(a) )".data) 5
        (lexStart (plainParser [] []) "(a) )" FLAG_DEFAULT "") Entry.main_lex_loop =
          Except.ok (ls, e) ∧
      ls.prefix_stack.length = 1 ∧
      ls.prefix_stack ≠ [] ∧
      (∃ p, ls.prefix_back = Except.ok p) ∧
      (ls.mode = Mode.IN_PREFIXED_QUOTES ∨ ls.prefix_stack.length > 1 →
        ∃ ls1, ls.prefix_pop = Except.ok ls1 ∧ ls1.prefix_stack ≠ []) ∧
      ∀ last, parse_query (plainParser [] []) 100 "(a) )" FLAG_DEFAULT "" = Except.ok last →
        last.prefix_stack ≠ []) ∧
    (∃ ls e, lexTrace (plainParser [] []) 100 FLAG_DEFAULT ⟨[Char.ofNat 0x2200, '(', 'a']⟩
        (!(plainParser [] []).valrangeprocs.isEmpty &&
          hasDotDot [Char.ofNat 0x2200, '(', 'a']) 3
        (lexStart (plainParser [] []) ⟨[Char.ofNat 0x2200, '(', 'a']⟩ FLAG_DEFAULT "")
        Entry.main_lex_loop = Except.ok (ls, e) ∧
      ls.prefix_stack.length = 2 ∧
      ls.prefix_stack ≠ [] ∧
      (∃ p, ls.prefix_back = Except.ok p) ∧
      (ls.mode = Mode.IN_PREFIXED_QUOTES ∨ ls.prefix_stack.length > 1 →
        ∃ ls1, ls.prefix_pop = Except.ok ls1 ∧ ls1.prefix_stack ≠ []) ∧
      ∀ last, parse_query (plainParser [] []) 100 ⟨[Char.ofNat 0x2200, '(', 'a']⟩
          FLAG_DEFAULT "" = Except.ok last → last.prefix_stack ≠ []) :=
  ⟨⟨_, _, rfl, rfl,
      prefix_stack_never_empty (plainParser [] []) 100 FLAG_DEFAULT "(a) )" "" 5 _ _ rfl⟩,
    ⟨_, _, rfl, rfl,
      prefix_stack_never_empty (plainParser [] []) 100 FLAG_DEFAULT
        ⟨[Char.ofNat 0x2200, '(', 'a']⟩ "" 3 _ _ rfl⟩⟩

end QueryParser

/-! ## Theorems: the compaction tool -/

namespace Compact

/-- A range is `(0, 0)` exactly when the source's test for an empty database holds. -/
theorem empty_test (p : Nat × Nat) : (p.1 == 0 && p.2 == 0) = true ↔ p = (0, 0) := by
  obtain ⟨a, b⟩ := p
  simp

theorem reorderLoop_error_code (ur : List (Nat × Nat)) :
    ∀ (order : List Nat) (j : Nat) (s : ReorderState) (code : Nat),
      reorderLoop ur order j s = Except.error code → code = 1 := by
  intro order
  induction order with
  | nil => intro j s code h; simp [reorderLoop] at h
  | cons n order ih =>
    intro j s code h
    simp only [reorderLoop] at h
    split_ifs at h with h1 h2
    · exact ih _ _ _ h
    · simp at h; exact h.symm
    · exact ih _ _ _ h

theorem reorderLoop_ranges (ur : List (Nat × Nat)) :
    ∀ (order : List Nat) (j : Nat) (s s1 : ReorderState),
      reorderLoop ur order j s = Except.ok s1 →
      s1.used_ranges_ = s.used_ranges_ ++ order.map (fun n => ur.getD n (0, 0)) := by
  intro order
  induction order with
  | nil =>
    intro j s s1 h
    simp only [reorderLoop, Except.ok.injEq] at h
    subst h; simp
  | cons n order ih =>
    intro j s s1 h
    simp only [reorderLoop] at h
    split_ifs at h with h1 h2
    · rw [ih _ _ _ h]; simp
    · rw [ih _ _ _ h]; simp

theorem take_succ_set {α : Type} (a : α) :
    ∀ (l : List α) (j : Nat), j < l.length → (l.set j a).take (j + 1) = l.take j ++ [a] := by
  intro l
  induction l with
  | nil => intro j h; simp at h
  | cons x l ih =>
    intro j h
    cases j with
    | zero => simp
    | succ j =>
      simp only [List.length_cons, Nat.add_lt_add_iff_right] at h
      simp [ih j h]

theorem reorderLoop_sources (ur : List (Nat × Nat)) :
    ∀ (order : List Nat) (j : Nat) (s s1 : ReorderState),
      reorderLoop ur order j s = Except.ok s1 →
      order.Nodup → j + order.length = s.sources_.length →
      s1.sources_ = s.sources_.take j ++ order.map (fun n => s.sources.getD n "") := by
  intro order
  induction order with
  | nil =>
    intro j s s1 h _ hj
    simp only [reorderLoop, Except.ok.injEq] at h
    subst h
    simp only [List.length_nil, Nat.add_zero] at hj
    simp [hj]
  | cons n order ih =>
    intro j s s1 h hnd hj
    have hnd' := List.nodup_cons.1 hnd
    simp only [List.length_cons] at hj
    have hjlt : j < s.sources_.length := by omega
    have key : ∀ s2 : ReorderState,
        s2.sources_ = s.sources_.set j (s.sources.getD n "") →
        s2.sources = s.sources.set n (s.sources_.getD j "") →
        reorderLoop ur order (j + 1) s2 = Except.ok s1 →
        s1.sources_ = s.sources_.take j ++ (n :: order).map (fun m => s.sources.getD m "") := by
      intro s2 e1 e2 h2
      have := ih (j + 1) s2 s1 h2 hnd'.2 (by rw [e1, List.length_set]; omega)
      rw [this, e1, e2]
      have t1 : (s.sources_.set j (s.sources.getD n "")).take (j + 1) =
          s.sources_.take j ++ [s.sources.getD n ""] := take_succ_set _ _ _ hjlt
      rw [t1]
      have t2 : order.map (fun m => (s.sources.set n (s.sources_.getD j "")).getD m "") =
          order.map (fun m => s.sources.getD m "") := by
        apply List.map_congr_left
        intro m hm
        have hne : n ≠ m := fun e => hnd'.1 (e ▸ hm)
        simp [List.getD_eq_getElem?_getD, List.getElem?_set_ne hne]
      rw [t2]
      simp
    simp only [reorderLoop] at h
    split_ifs at h with h1 h2
    · exact key _ rfl rfl h
    · exact key _ rfl rfl h

theorem reorderLoop_ok_iff (ur : List (Nat × Nat)) :
    ∀ (order : List Nat) (j : Nat) (s : ReorderState),
      (∀ n ∈ order, WellFormedRange (ur.getD n (0, 0))) →
      ((∃ s1, reorderLoop ur order j s = Except.ok s1) ↔
        PassesFrom s.last_end (order.map (fun n => ur.getD n (0, 0)))) := by
  intro order
  induction order with
  | nil =>
    intro j s _
    simp [reorderLoop, PassesFrom]
  | cons n order ih =>
    intro j s hwf
    have hwf' : ∀ m ∈ order, WellFormedRange (ur.getD m (0, 0)) :=
      fun m hm => hwf m (List.mem_cons_of_mem _ hm)
    have hn := hwf n (List.mem_cons_self _ _)
    simp only [reorderLoop, List.map_cons]
    by_cases h1 : (ur.getD n (0, 0)) = (0, 0)
    · have h1' := (empty_test _).2 h1
      rw [if_pos h1', ih _ _ hwf']
      simp only [PassesFrom, List.mem_cons, List.pairwise_cons]
      constructor
      · rintro ⟨a, b⟩
        refine ⟨fun r hr hne => ?_, fun r _ hne => absurd h1 hne, b⟩
        rcases hr with hr | hr
        · exact absurd (hr ▸ h1) hne
        · exact a r hr hne
      · rintro ⟨a, _, b⟩
        exact ⟨fun r hr hne => a r (Or.inr hr) hne, b⟩
    · have h1' : ¬ ((ur.getD n (0, 0)).1 == 0 && (ur.getD n (0, 0)).2 == 0) = true :=
        fun h => h1 ((empty_test _).1 h)
      rw [if_neg h1']
      rcases hn with hn | ⟨hn1, hn2⟩
      · exact absurd hn h1
      by_cases h2 : (ur.getD n (0, 0)).1 ≤ s.last_end
      · rw [if_pos h2]
        simp only [PassesFrom, List.mem_cons]
        constructor
        · rintro ⟨s1, hs1⟩; simp at hs1
        · rintro ⟨a, _⟩
          have := a _ (Or.inl rfl) h1
          omega
      · rw [if_neg h2, ih _ _ hwf']
        simp only [PassesFrom, List.mem_cons, List.pairwise_cons]
        constructor
        · rintro ⟨a, b⟩
          refine ⟨fun r hr hne => ?_, fun r hr _ hne => a r hr hne, b⟩
          rcases hr with hr | hr
          · rw [hr]; omega
          · have := a r hr hne
            simp only at this
            omega
        · rintro ⟨_, a, b⟩
          exact ⟨fun r hr hne => a r hr h1 hne, b⟩

theorem map_getD_range {α : Type} (d : α) (l : List α) :
    (List.range l.length).map (fun n => l.getD n d) = l := by
  apply List.ext_getElem
  · simp
  · intro i h1 h2
    simp at h1
    simp [List.getD_eq_getElem?_getD, h1]

theorem disjointUsed_symm (a b : Nat × Nat) (h : DisjointUsed a b) : DisjointUsed b a :=
  fun hb ha => (h ha hb).symm

theorem sorted_disjoint_iff :
    ∀ (rs : List (Nat × Nat)), (∀ r ∈ rs, WellFormedRange r) →
      rs.Pairwise (fun a b => a.1 ≤ b.1) →
      (rs.Pairwise DisjointUsed ↔ rs.Pairwise (fun a b => a ≠ (0, 0) → b ≠ (0, 0) → a.2 < b.1)) := by
  intro rs
  induction rs with
  | nil => intro _ _; simp
  | cons r rs ih =>
    intro hwf hs
    have hs' := List.pairwise_cons.1 hs
    have hwf' : ∀ x ∈ rs, WellFormedRange x := fun x hx => hwf x (List.mem_cons_of_mem _ hx)
    simp only [List.pairwise_cons, ih hwf' hs'.2]
    constructor
    · rintro ⟨a, b⟩
      refine ⟨fun x hx hr hxne => ?_, b⟩
      rcases a x hx hr hxne with h | h
      · exact h
      · have h1 := hs'.1 x hx
        rcases hwf x (List.mem_cons_of_mem _ hx) with hx0 | ⟨_, hx2⟩
        · exact absurd hx0 hxne
        · omega
    · rintro ⟨a, b⟩
      exact ⟨fun x hx hr hxne => Or.inl (a x hx hr hxne), b⟩

/-- Pairing the entries of two lists of equal length index by index gives their zip. -/
theorem zip_getD_range (sources : List String) (used_ranges : List (Nat × Nat))
    (hlen : sources.length = used_ranges.length) :
    (List.range used_ranges.length).map (fun n => (sources.getD n "", used_ranges.getD n (0, 0))) =
      sources.zip used_ranges := by
  apply List.ext_getElem
  · simp [hlen]
  · intro i h1 h2
    simp at h1
    have h3 : i < sources.length := by omega
    simp [List.getD_eq_getElem?_getD, h1, h3]

/-- C10: with `--no-renumber` and more than one source, for any result `order`
of the sort and ranges as `main` records them (`(0, 0)` for an empty source,
else `1 ≤ first ≤ last`), the block gets past the range check exactly when the
used ranges are pairwise disjoint (empty sources apart); the only exit status
it produces is 1; and when it proceeds, the new `sources` and `used_ranges` are
the old ones taken in the sorted order, source by source, with the first used
docids ascending. -/
theorem no_renumber_range_check (order : List Nat) (sources : List String)
    (used_ranges : List (Nat × Nat))
    (hlen : sources.length = used_ranges.length) (hmore : 1 < sources.length)
    (hwf : ∀ r ∈ used_ranges, WellFormedRange r)
    (hsort : IsSortedOrder used_ranges order) :
    ((∃ out, noRenumberReorder false order sources used_ranges = Except.ok out) ↔
        used_ranges.Pairwise DisjointUsed) ∧
    (∀ code, noRenumberReorder false order sources used_ranges = Except.error code → code = 1) ∧
    (∀ s1 u1, noRenumberReorder false order sources used_ranges = Except.ok (s1, u1) →
        u1 = order.map (fun n => used_ranges.getD n (0, 0)) ∧
        s1 = order.map (fun n => sources.getD n "") ∧
        u1.Pairwise (fun a b => a.1 ≤ b.1) ∧
        (s1.zip u1).Perm (sources.zip used_ranges)) := by
  obtain ⟨hperm, hsorted⟩ := hsort
  have hcond : (!false && decide (sources.length > 1)) = true := by simp [hmore]
  have hmem : ∀ n ∈ order, n < used_ranges.length := by
    intro n hn
    have := hperm.mem_iff.1 hn
    simpa using this
  have hwfo : ∀ n ∈ order, WellFormedRange (used_ranges.getD n (0, 0)) := by
    intro n hn
    have hlt := hmem n hn
    apply hwf
    simp [List.getD_eq_getElem?_getD, hlt]
  have hrs_perm : (order.map (fun n => used_ranges.getD n (0, 0))).Perm used_ranges := by
    have := hperm.map (fun n => used_ranges.getD n (0, 0))
    rwa [map_getD_range] at this
  have hrs_sorted : (order.map (fun n => used_ranges.getD n (0, 0))).Pairwise
      (fun a b => a.1 ≤ b.1) := by
    rw [List.pairwise_map]
    refine hsorted.imp ?_
    intro a b hab
    simp only [CmpByFirstUsed, decide_eq_false_iff_not, Nat.not_lt] at hab
    exact hab
  have hrs_wf : ∀ r ∈ order.map (fun n => used_ranges.getD n (0, 0)), WellFormedRange r := by
    intro r hr
    exact hwf r (hrs_perm.mem_iff.1 hr)
  have hnodup : order.Nodup := hperm.nodup_iff.2 (List.nodup_range _)
  refine ⟨?_, ?_, ?_⟩
  · have h1 : (∃ out, noRenumberReorder false order sources used_ranges = Except.ok out) ↔
        ∃ s1, reorderLoop used_ranges order 0
          ⟨sources, List.replicate sources.length "", [], 0, 0⟩ = Except.ok s1 := by
      unfold noRenumberReorder
      rw [if_pos hcond]
      cases reorderLoop used_ranges order 0 ⟨sources, List.replicate sources.length "", [], 0, 0⟩ with
      | error e => simp
      | ok s1 => simp
    rw [h1, reorderLoop_ok_iff used_ranges order 0 _ hwfo]
    have h2 : PassesFrom 0 (order.map (fun n => used_ranges.getD n (0, 0))) ↔
        (order.map (fun n => used_ranges.getD n (0, 0))).Pairwise
          (fun a b => a ≠ (0, 0) → b ≠ (0, 0) → a.2 < b.1) := by
      unfold PassesFrom
      constructor
      · exact fun h => h.2
      · intro h
        refine ⟨fun r hr hne => ?_, h⟩
        rcases hrs_wf r hr with h0 | ⟨h1, _⟩
        · exact absurd h0 hne
        · omega
    rw [h2, ← sorted_disjoint_iff _ hrs_wf hrs_sorted]
    exact hrs_perm.pairwise_iff (fun {a b} h => disjointUsed_symm a b h)
  · intro code h
    unfold noRenumberReorder at h
    rw [if_pos hcond] at h
    cases hr : reorderLoop used_ranges order 0
        ⟨sources, List.replicate sources.length "", [], 0, 0⟩ with
    | error e =>
      rw [hr] at h
      simp only [Except.error.injEq] at h
      subst h
      exact reorderLoop_error_code _ _ _ _ _ hr
    | ok s1 => rw [hr] at h; simp at h
  · intro s1 u1 h
    unfold noRenumberReorder at h
    rw [if_pos hcond] at h
    cases hr : reorderLoop used_ranges order 0
        ⟨sources, List.replicate sources.length "", [], 0, 0⟩ with
    | error e => rw [hr] at h; simp at h
    | ok st =>
      rw [hr] at h
      simp only [Except.ok.injEq, Prod.mk.injEq] at h
      have hu := reorderLoop_ranges _ _ _ _ _ hr
      have hs := reorderLoop_sources _ _ _ _ _ hr hnodup (by
        have := hperm.length_eq
        simp at this
        simp [this, hlen])
      simp only [List.nil_append] at hu
      simp only [List.take_zero, List.nil_append] at hs
      rw [← h.1, ← h.2, hu, hs]
      refine ⟨rfl, rfl, hrs_sorted, ?_⟩
      rw [List.zip_map']
      have := hperm.map (fun n => (sources.getD n "", used_ranges.getD n (0, 0)))
      rwa [zip_getD_range sources used_ranges hlen] at this

/-- Three sources with ranges 11-20, 1-10 and 21-30 pass and come out in the order 1-10, 11-20, 21-30. -/
theorem no_renumber_range_check_witness :
    ((["a", "b", "c"] : List String).length = [((11 : Nat), (20 : Nat)), (1, 10), (21, 30)].length ∧
      1 < (["a", "b", "c"] : List String).length ∧
      (∀ r ∈ [((11 : Nat), (20 : Nat)), (1, 10), (21, 30)], WellFormedRange r) ∧
      IsSortedOrder [(11, 20), (1, 10), (21, 30)] [1, 0, 2]) ∧
    noRenumberReorder false [1, 0, 2] ["a", "b", "c"] [(11, 20), (1, 10), (21, 30)] =
      Except.ok (["b", "a", "c"], [(1, 10), (11, 20), (21, 30)]) ∧
    ([((11 : Nat), (20 : Nat)), (1, 10), (21, 30)]).Pairwise DisjointUsed := by
  have hw : ∀ r ∈ [((11 : Nat), (20 : Nat)), (1, 10), (21, 30)], WellFormedRange r := by
    intro r hr
    simp only [List.mem_cons, List.mem_singleton, List.not_mem_nil, or_false] at hr
    rcases hr with h | h | h <;> subst h <;> exact Or.inr (by decide)
  have hs : IsSortedOrder [(11, 20), (1, 10), (21, 30)] [1, 0, 2] :=
    ⟨by decide, by decide⟩
  have hval : noRenumberReorder false [1, 0, 2] ["a", "b", "c"] [(11, 20), (1, 10), (21, 30)] =
      Except.ok (["b", "a", "c"], [(1, 10), (11, 20), (21, 30)]) := rfl
  exact ⟨⟨rfl, by decide, hw, hs⟩, hval,
    (no_renumber_range_check [1, 0, 2] ["a", "b", "c"] [(11, 20), (1, 10), (21, 30)] rfl
      (by decide) hw hs).1.1 ⟨_, hval⟩⟩

end Compact

/-! ## Theorems: merging the postlist tables -/

namespace Compact

set_option maxRecDepth 100000

theorem natLt_strictTotal : QueryParser.StrictTotal (fun x y : Nat => decide (x < y)) := by
  refine ⟨?_, ?_, ?_⟩
  · intro a; simp
  · intro a b c h1 h2
    simp only [decide_eq_true_eq] at h1 h2 ⊢
    omega
  · intro a b h1 h2
    simp only [decide_eq_false_iff_not] at h1 h2
    omega

theorem strLess_strictTotal : QueryParser.StrictTotal strLess :=
  QueryParser.lexLt_strictTotal natLt_strictTotal

theorem cursorLe_iff (a b : PostlistCursor) :
    CursorLe a b ↔ strLess b.key a.key = false ∧ (a.key = b.key → a.firstdid ≤ b.firstdid) := by
  unfold CursorLe PostlistCursorGt
  by_cases h1 : strLess b.key a.key = true
  · simp [h1]
  · simp only [Bool.not_eq_true] at h1
    by_cases h2 : a.key = b.key
    · simp [h1, h2]
    · simp [h1, h2]

theorem cursorLe_trans {a b c : PostlistCursor} (hab : CursorLe a b) (hbc : CursorLe b c) :
    CursorLe a c := by
  rw [cursorLe_iff] at hab hbc ⊢
  obtain ⟨h1, h2⟩ := hab
  obtain ⟨h3, h4⟩ := hbc
  have st := strLess_strictTotal
  by_cases hab : a.key = b.key
  · by_cases hbc : b.key = c.key
    · refine ⟨by rw [hab]; exact h3, fun _ => le_trans (h2 hab) (h4 hbc)⟩
    · refine ⟨by rw [hab]; exact h3, fun hac => absurd (hab.symm.trans hac) hbc⟩
  · have hlt : strLess a.key b.key = true := by
      cases h : strLess a.key b.key
      · exact absurd (st.total _ _ h h1) hab
      · rfl
    by_cases hbc : b.key = c.key
    · rw [← hbc]
      refine ⟨h1, fun hac => absurd hac hab⟩
    · have hlt2 : strLess b.key c.key = true := by
        cases h : strLess b.key c.key
        · exact absurd (st.total _ _ h h3) hbc
        · rfl
      have hac := st.trans _ _ _ hlt hlt2
      constructor
      · cases h : strLess c.key a.key
        · rfl
        · have := st.trans _ _ _ hac h
          rw [st.irrefl] at this
          exact absurd this (by simp)
      · intro e
        rw [e, st.irrefl] at hac
        exact absurd hac (by simp)

/-- Two cursors in queue order with different keys: the key of the first is the less. -/
theorem cursorLe_key_lt {a b : PostlistCursor} (hab : CursorLe a b) (hne : a.key ≠ b.key) :
    strLess a.key b.key = true := by
  rw [cursorLe_iff] at hab
  cases h : strLess a.key b.key
  · exact absurd (strLess_strictTotal.total _ _ h hab.1) hne
  · rfl

/-- A cursor in queue order after one with a larger key has another key. -/
theorem cursorLe_key_ne {a b : PostlistCursor} {key : Bytes} (hab : CursorLe a b)
    (hlt : strLess key a.key = true) : b.key ≠ key := by
  intro e
  rw [cursorLe_iff] at hab
  have st := strLess_strictTotal
  rw [e] at hab
  rw [hab.1] at hlt
  exact absurd hlt (by simp)

theorem read_rest (cd : Codec) (c c1 : PostlistCursor) (k t : Bytes) (r : List (Bytes × Bytes))
    (h : c.read cd k t r = Except.ok c1) : c1.rest = r ∧ c1.offset = c.offset := by
  unfold PostlistCursor.read at h
  dsimp only at h
  split at h
  · cases h; exact ⟨rfl, rfl⟩
  · split at h
    · cases h; exact ⟨rfl, rfl⟩
    · split at h
      · cases h
      · split at h
        · split at h
          · cases h
          · split at h
            · cases h
            · split at h
              · cases h
              · cases h; exact ⟨rfl, rfl⟩
        · split at h
          · cases h; exact ⟨rfl, rfl⟩
          · cases h

/-- The term loop does to the cursors, in the order they leave the queue, what
`feed` does. -/
theorem termLoop_eq_feed (cd : Codec)
    (top : List PostlistCursor → Option (PostlistCursor × List PostlistCursor)) :
    ∀ (fuel : Nat) (pq : List PostlistCursor) (s : TermState) (cs : List PostlistCursor),
      popAll cd top fuel pq = Except.ok cs → termLoop cd top fuel pq s = feed cd cs s := by
  intro fuel
  induction fuel with
  | zero => intro pq s cs h; simp [popAll] at h
  | succ n ih =>
    intro pq s cs h
    unfold popAll at h
    unfold termLoop
    cases ht : top pq with
    | none =>
      rw [ht] at h
      simp only [Except.ok.injEq] at h
      subst h
      rfl
    | some p =>
      obtain ⟨cur, others⟩ := p
      rw [ht] at h
      dsimp only at h ⊢
      cases hn : cur.next cd with
      | error e => rw [hn] at h; simp at h
      | ok o =>
        rw [hn] at h
        cases o with
        | none =>
          dsimp only at h
          cases hp : popAll cd top n others with
          | error e => rw [hp] at h; simp at h
          | ok cs1 =>
            rw [hp] at h
            simp only [Except.ok.injEq] at h
            subst h
            simp only [feed]
            cases hturn : s.turn cd cur with
            | error e => rfl
            | ok s1 => exact ih others _ cs1 hp
        | some c1 =>
          dsimp only at h
          cases hp : popAll cd top n (others ++ [c1]) with
          | error e => rw [hp] at h; simp at h
          | ok cs1 =>
            rw [hp] at h
            simp only [Except.ok.injEq] at h
            subst h
            simp only [feed]
            cases hturn : s.turn cd cur with
            | error e => rfl
            | ok s1 => exact ih _ _ cs1 hp

theorem stream_cons (cd : Codec) (c : PostlistCursor) :
    c.stream cd = c :: (following cd c.rest c).getD [] := rfl

/-- Taking the cursors off a queue whose cursors each run through their table
in queue order gives all their states, in queue order. -/
theorem popAll_sorted (cd : Codec)
    (top : List PostlistCursor → Option (PostlistCursor × List PostlistCursor))
    (htop : IsPriorityQueue top) :
    ∀ (fuel : Nat) (pq : List PostlistCursor),
      (pq.map (fun c => c.rest.length + 1)).sum < fuel →
      (∀ c ∈ pq, ∃ l, following cd c.rest c = some l ∧ (c :: l).Pairwise CursorLe) →
      ∃ cs, popAll cd top fuel pq = Except.ok cs ∧
        cs.Perm (pq.flatMap (fun c => c.stream cd)) ∧ cs.Pairwise CursorLe := by
  intro fuel
  induction fuel with
  | zero => intro pq h; omega
  | succ n ih =>
    intro pq hsize hpq
    unfold popAll
    by_cases hnil : pq = []
    · subst hnil
      rw [htop.1]
      exact ⟨[], rfl, by simp, List.Pairwise.nil⟩
    · obtain ⟨c, others, ht, hperm, hmin⟩ := htop.2 pq hnil
      rw [ht]
      dsimp only
      have hc : c ∈ pq := hperm.mem_iff.1 (List.mem_cons_self _ _)
      have hothers : ∀ d ∈ others, d ∈ pq := fun d hd => hperm.mem_iff.1 (List.mem_cons_of_mem _ hd)
      obtain ⟨l, hl, hsorted⟩ := hpq c hc
      have hsz : (pq.map (fun c => c.rest.length + 1)).sum =
          (c.rest.length + 1) + (others.map (fun c => c.rest.length + 1)).sum := by
        rw [← (hperm.map _).sum_eq]
        simp
      have hflat : (pq.flatMap (fun c => c.stream cd)).Perm
          (c.stream cd ++ others.flatMap (fun c => c.stream cd)) := by
        have := (hperm.flatMap_right (fun c => c.stream cd)).symm
        simpa using this
      cases hr : c.rest with
      | nil =>
        have hnext : c.next cd = Except.ok none := by
          unfold PostlistCursor.next; rw [hr]
        rw [hnext]
        dsimp only
        obtain ⟨cs, hcs, hp, hs⟩ := ih others (by omega) (fun d hd => hpq d (hothers d hd))
        rw [hcs]
        refine ⟨c :: cs, rfl, ?_, ?_⟩
        · refine List.Perm.trans ?_ hflat.symm
          rw [stream_cons, hr]
          simp only [following, Option.getD_some, List.singleton_append]
          exact List.Perm.cons _ hp
        · refine List.Pairwise.cons ?_ hs
          intro x hx
          have hx := hp.mem_iff.1 hx
          rw [List.mem_flatMap] at hx
          obtain ⟨d, hd, hxd⟩ := hx
          obtain ⟨ld, hld, hsd⟩ := hpq d (hothers d hd)
          rw [stream_cons, hld, Option.getD_some, List.mem_cons] at hxd
          rcases hxd with rfl | hxl
          · exact hmin _ hd
          · exact cursorLe_trans (hmin d hd) ((List.pairwise_cons.1 hsd).1 x hxl)
      | cons e r =>
        obtain ⟨k, t⟩ := e
        rw [hr] at hl
        simp only [following] at hl
        cases hread : c.read cd k t r with
        | error e => rw [hread] at hl; simp at hl
        | ok c1 =>
          rw [hread] at hl
          dsimp only at hl
          cases hf : following cd r c1 with
          | none => rw [hf] at hl; simp at hl
          | some l1 =>
            rw [hf] at hl
            simp only [Option.some.injEq] at hl
            subst hl
            have hc1 : c1.rest = r := (read_rest cd c c1 k t r hread).1
            have hnext : c.next cd = Except.ok (some c1) := by
              unfold PostlistCursor.next; rw [hr]; dsimp only; rw [hread]
            rw [hnext]
            dsimp only
            obtain ⟨cs, hcs, hp, hs⟩ := ih (others ++ [c1])
              (by
                rw [hr] at hsz
                simp only [List.map_append, List.sum_append, List.map_cons, List.map_nil,
                  List.sum_cons, List.sum_nil, hc1]
                simp only [List.length_cons] at hsz
                omega)
              (by
                intro d hd
                rw [List.mem_append, List.mem_singleton] at hd
                rcases hd with hd | rfl
                · exact hpq d (hothers d hd)
                · exact ⟨l1, by rw [hc1]; exact hf, (List.pairwise_cons.1 hsorted).2⟩)
            rw [hcs]
            have hstream : c.stream cd = c :: c1.stream cd := by
              rw [stream_cons, stream_cons, hr, hc1, hf]
              simp only [following, hread, hf, Option.getD_some]
            refine ⟨c :: cs, rfl, ?_, ?_⟩
            · refine List.Perm.trans ?_ hflat.symm
              rw [hstream, List.cons_append]
              refine List.Perm.cons _ (hp.trans ?_)
              rw [List.flatMap_append]
              simp only [List.flatMap_cons, List.flatMap_nil, List.append_nil]
              exact List.perm_append_comm
            · refine List.Pairwise.cons ?_ hs
              intro x hx
              have hx := hp.mem_iff.1 hx
              rw [List.mem_flatMap] at hx
              obtain ⟨d, hd, hxd⟩ := hx
              rw [List.mem_append, List.mem_singleton] at hd
              rcases hd with hd | rfl
              · obtain ⟨ld, hld, hsd⟩ := hpq d (hothers d hd)
                rw [stream_cons, hld, Option.getD_some, List.mem_cons] at hxd
                rcases hxd with rfl | hxl
                · exact hmin _ hd
                · exact cursorLe_trans (hmin d hd) ((List.pairwise_cons.1 hsd).1 x hxl)
              · rw [stream_cons, hc1, hf, Option.getD_some] at hxd
                exact (List.pairwise_cons.1 hsorted).1 x hxd

theorem setFlag_cons (t : Bytes) (last : Bool) (h : t ≠ []) :
    setFlag t last = Except.ok ((if last then 0x31 else 0x30) :: t.tail) := by
  cases t with
  | nil => exact absurd rfl h
  | cons b body => rfl

/-- The loop over the later tags writes the entries of the later chunks. -/
theorem flushRest_eq (cd : Codec) (key : Bytes) (group : List PostlistCursor) :
    ∀ (more : List PostlistCursor) (j : Nat) (out : List (Bytes × Bytes)),
      1 ≤ j → group.length = j + more.length → (∀ c ∈ more, c.tag ≠ []) →
      flushRest cd key (more.map (fun c => (c.firstdid, c.tag))) out =
        Except.ok (out ++ (more.enumFrom j).map (fun ic => expectedEntry cd key group ic.1 ic.2)) := by
  intro more
  induction more with
  | nil => intro j out _ _ _; simp [flushRest]
  | cons c more ih =>
    intro j out hj hlen htag
    simp only [List.map_cons, flushRest]
    rw [setFlag_cons _ _ (htag c (List.mem_cons_self _ _))]
    dsimp only
    rw [ih (j + 1) _ (by omega) (by simp only [List.length_cons] at hlen; omega)
      (fun d hd => htag d (List.mem_cons_of_mem _ hd))]
    simp only [List.enumFrom_cons, List.map_cons, List.append_assoc, List.singleton_append]
    congr 2
    have hj0 : j ≠ 0 := by omega
    simp only [expectedEntry, hj0, if_false]
    simp only [List.length_cons] at hlen
    congr 2
    by_cases hm : more = []
    · subst hm
      have : j + 1 = group.length := by simp at hlen; omega
      simp [this]
    · have hpos : 0 < more.length := List.length_pos.2 hm
      have : j + 1 ≠ group.length := by omega
      simp [this, hm]

theorem foldr_min_eq (d : Nat) (l : List Nat) (h : ∀ x ∈ l, d ≤ x) : l.foldr min d = d := by
  induction l with
  | nil => rfl
  | cons x l ih =>
    simp only [List.foldr_cons]
    rw [ih (fun y hy => h y (List.mem_cons_of_mem _ hy))]
    exact Nat.min_eq_right (h x (List.mem_cons_self _ _))

/-- The block that writes the collected tags writes the entries of the group. -/
theorem flushTags_eq (cd : Codec) (key : Bytes) (c : PostlistCursor) (more : List PostlistCursor)
    (out : List (Bytes × Bytes))
    (htag : ∀ d ∈ c :: more, d.tag ≠ [])
    (hmin : ∀ d ∈ more, c.firstdid ≤ d.firstdid) :
    flushTags cd key (((c :: more).map (fun g => g.tf)).sum % 2 ^ 32)
        (((c :: more).map (fun g => g.cf)).sum % 2 ^ 32)
        ((c :: more).map (fun c => (c.firstdid, c.tag))) out =
      Except.ok (out ++ expectedGroup cd key (c :: more)) := by
  simp only [List.map_cons, flushTags]
  rw [setFlag_cons _ _ (htag c (List.mem_cons_self _ _))]
  dsimp only
  rw [flushRest_eq cd key (c :: more) more 1 _ (le_refl _) (by simp; omega)
    (fun d hd => htag d (List.mem_cons_of_mem _ hd))]
  simp only [expectedGroup, List.enum, List.enumFrom_cons, List.map_cons, List.append_assoc,
    List.singleton_append, zero_add]
  congr 2
  simp only [expectedEntry, if_true, List.map_cons, List.foldr_cons, List.length_cons]
  have hmin2 : (more.map (fun g => g.firstdid)).foldr min c.firstdid = c.firstdid :=
    foldr_min_eq _ _ (by
      intro x hx
      rw [List.mem_map] at hx
      obtain ⟨d, hd, rfl⟩ := hx
      exact hmin d hd)
  rw [hmin2, Nat.min_self]
  congr 2
  by_cases hm : more = []
  · subst hm; simp
  · have hpos : 0 < more.length := List.length_pos.2 hm
    have : ¬ (0 + 1 = more.length + 1) := by omega
    simp [hm, this]

theorem dedup_group (key : Bytes) (r : List PostlistCursor) (hr : ∀ x ∈ r, x.key ≠ key) :
    ∀ g : List PostlistCursor, g ≠ [] → (∀ c ∈ g, c.key = key) →
      ((g ++ r).map (fun c => c.key)).dedup = key :: (r.map (fun c => c.key)).dedup := by
  intro g
  induction g with
  | nil => intro h; exact absurd rfl h
  | cons c g ih =>
    intro _ hk
    have hc : c.key = key := hk c (List.mem_cons_self _ _)
    by_cases hg : g = []
    · subst hg
      simp only [List.nil_append, List.cons_append, List.map_cons, hc]
      apply List.dedup_cons_of_not_mem
      intro hmem
      rw [List.mem_map] at hmem
      obtain ⟨x, hx, hxk⟩ := hmem
      exact hr x hx hxk
    · simp only [List.cons_append, List.map_cons, hc]
      rw [List.dedup_cons_of_mem]
      · exact ih hg (fun d hd => hk d (List.mem_cons_of_mem _ hd))
      · cases g with
        | nil => exact absurd rfl hg
        | cons d g1 =>
          simp only [List.cons_append, List.map_cons, List.mem_cons]
          exact Or.inl (hk d (by simp)).symm

/-- The entries for a list that starts with all the chunks of one key. -/
theorem expectedTerms_group (cd : Codec) (key : Bytes) (g r : List PostlistCursor)
    (hg : g ≠ []) (hk : ∀ c ∈ g, c.key = key) (hr : ∀ x ∈ r, x.key ≠ key) :
    expectedTerms cd (g ++ r) = expectedGroup cd key g ++ expectedTerms cd r := by
  unfold expectedTerms
  rw [dedup_group key r hr g hg hk, List.flatMap_cons]
  have e1 : (g ++ r).filter (fun c => c.key == key) = g := by
    rw [List.filter_append]
    have : r.filter (fun c => c.key == key) = [] := by
      rw [List.filter_eq_nil_iff]
      intro x hx
      simpa using hr x hx
    rw [this, List.append_nil, List.filter_eq_self]
    intro x hx
    simpa using hk x hx
  rw [e1]
  congr 1
  simp only [List.flatMap]
  congr 1
  apply List.map_congr_left
  intro k hkmem
  have hkmem := List.mem_dedup.1 hkmem
  rw [List.mem_map] at hkmem
  obtain ⟨x, hx, hxk⟩ := hkmem
  have hne : key ≠ k := by
    intro e
    exact hr x hx (hxk.trans e.symm)
  rw [List.filter_append]
  have : g.filter (fun c => c.key == k) = [] := by
    rw [List.filter_eq_nil_iff]
    intro y hy
    rw [hk y hy]
    simpa using hne
  rw [this, List.nil_append]

theorem turn_same (cd : Codec) (s : TermState) (c : PostlistCursor) (h : c.key = s.last_key) :
    s.turn cd c = Except.ok s := by
  unfold TermState.turn
  rw [if_neg (by simpa using h)]

/-- Run on chunks in queue order, after the chunks `g` of the key `key` have
been collected, the term loop writes the entries of all of them. -/
theorem feed_eq (cd : Codec) :
    ∀ (cs g : List PostlistCursor) (key : Bytes) (out : List (Bytes × Bytes)),
      (g ++ cs).Pairwise CursorLe → (∀ c ∈ g, c.key = key) → (∀ c ∈ g ++ cs, c.tag ≠ []) →
      feed cd cs ⟨key, (g.map (fun c => c.tf)).sum % 2 ^ 32, (g.map (fun c => c.cf)).sum % 2 ^ 32,
          g.map (fun c => (c.firstdid, c.tag)), out⟩ =
        Except.ok (out ++ expectedTerms cd (g ++ cs)) := by
  intro cs
  induction cs with
  | nil =>
    intro g key out hs hk hm
    simp only [feed, List.append_nil] at hs hm ⊢
    cases g with
    | nil => simp [flushTags, expectedTerms]
    | cons c more =>
      rw [flushTags_eq cd key c more out hm]
      · have := expectedTerms_group cd key (c :: more) [] (by simp) hk (by simp)
        rw [List.append_nil] at this
        rw [this]
        simp [expectedTerms]
      · intro d hd
        have hle := (List.pairwise_cons.1 hs).1 d hd
        rw [cursorLe_iff] at hle
        exact hle.2 ((hk c (List.mem_cons_self _ _)).trans
          (hk d (List.mem_cons_of_mem _ hd)).symm)
  | cons c cs ih =>
    intro g key out hs hk hm
    simp only [feed]
    by_cases hkey : c.key = key
    · rw [turn_same cd _ c hkey]
      dsimp only
      have e := ih (g ++ [c]) key out (by simpa using hs)
        (by
          intro d hd
          rw [List.mem_append, List.mem_singleton] at hd
          rcases hd with hd | rfl
          · exact hk d hd
          · exact hkey)
        (by simpa using hm)
      simp only [List.map_append, List.sum_append, List.map_cons, List.map_nil, List.sum_cons,
        List.sum_nil, add_zero, List.append_assoc, List.singleton_append] at e
      simp only [TermState.collect, Nat.mod_add_mod]
      exact e
    · have hsuf : ∀ d ∈ [c] ++ cs, d.tag ≠ [] :=
        fun d hd => hm d (List.mem_append_right _ hd)
      have hs2 : (c :: cs).Pairwise CursorLe := (List.pairwise_append.1 hs).2.1
      have e := ih [c] c.key
      simp only [List.map_cons, List.map_nil, List.sum_cons, List.sum_nil, add_zero,
        List.singleton_append] at e
      cases g with
      | nil =>
        simp only [TermState.turn]
        rw [if_pos hkey]
        simp only [List.map_nil, List.sum_nil, flushTags, TermState.collect,
          List.nil_append, zero_add, Nat.zero_mod]
        exact e out hs2 (by simp) hsuf
      | cons c0 more =>
        have hmin : ∀ d ∈ more, c0.firstdid ≤ d.firstdid := by
          intro d hd
          have hle := (List.pairwise_cons.1 (List.pairwise_append.1 hs).1).1 d hd
          rw [cursorLe_iff] at hle
          exact hle.2 ((hk c0 (List.mem_cons_self _ _)).trans
            (hk d (List.mem_cons_of_mem _ hd)).symm)
        have hfl := flushTags_eq cd key c0 more out
          (fun d hd => hm d (List.mem_append_left _ hd)) hmin
        simp only [TermState.turn]
        rw [if_pos hkey]
        rw [hfl]
        simp only [TermState.collect, List.nil_append, zero_add]
        rw [e _ hs2 (by simp) hsuf]
        have hlt : strLess key c.key = true := by
          have hle : CursorLe c0 c :=
            (List.pairwise_append.1 hs).2.2 c0 (List.mem_cons_self _ _) c (List.mem_cons_self _ _)
          have := cursorLe_key_lt hle (by
            rw [hk c0 (List.mem_cons_self _ _)]
            exact fun e => hkey e.symm)
          rwa [hk c0 (List.mem_cons_self _ _)] at this
        rw [expectedTerms_group cd key (c0 :: more) (c :: cs) (by simp) hk (by
          intro x hx
          rw [List.mem_cons] at hx
          rcases hx with rfl | hx
          · exact hkey
          · exact cursorLe_key_ne ((List.pairwise_cons.1 hs2).1 x hx) hlt)]
        rw [List.append_assoc]

/-- What `next` does to a cursor whose later states are `l`. -/
theorem next_of_following (cd : Codec) (c : PostlistCursor) (l : List PostlistCursor)
    (h : following cd c.rest c = some l) :
    (l = [] ∧ c.rest = [] ∧ c.next cd = Except.ok none) ∨
      ∃ c1 l1, l = c1 :: l1 ∧ c.next cd = Except.ok (some c1) ∧
        following cd c1.rest c1 = some l1 ∧ c1.rest.length + 1 = c.rest.length := by
  cases hr : c.rest with
  | nil =>
    rw [hr] at h
    simp only [following, Option.some.injEq] at h
    refine Or.inl ⟨h.symm, rfl, ?_⟩
    unfold PostlistCursor.next
    rw [hr]
  | cons e r =>
    obtain ⟨k, t⟩ := e
    rw [hr] at h
    simp only [following] at h
    cases hread : c.read cd k t r with
    | error e => rw [hread] at h; simp at h
    | ok c1 =>
      rw [hread] at h
      dsimp only at h
      cases hf : following cd r c1 with
      | none => rw [hf] at h; simp at h
      | some l1 =>
        rw [hf] at h
        simp only [Option.some.injEq] at h
        have hc1 : c1.rest = r := (read_rest cd c c1 k t r hread).1
        refine Or.inr ⟨c1, l1, h.symm, ?_, by rw [hc1]; exact hf, by rw [hc1]; rfl⟩
        unfold PostlistCursor.next
        rw [hr]
        dsimp only
        rw [hread]

theorem isTermKey_not_meta {key : Bytes} (h : isTermKey key = true) :
    is_user_metadata_key key = false ∧ is_metainfo_key key = false := by
  unfold isTermKey at h
  simp only [Bool.and_eq_true, Bool.not_eq_true'] at h
  exact ⟨h.2, h.1⟩

theorem stream_of_following (cd : Codec) (c : PostlistCursor) (l : List PostlistCursor)
    (h : following cd c.rest c = some l) : c.stream cd = c :: l := by
  rw [stream_cons, h]; rfl

/-- A readable cursor at a posting-list chunk has only such chunks left, in
queue order. -/
theorem Readable.at_term {cd : Codec} {c : PostlistCursor} (h : Readable cd c)
    (hk : is_user_metadata_key c.key = false) :
    ∃ l, following cd c.rest c = some l ∧ (c :: l).Pairwise CursorLe ∧
      ∀ x ∈ c :: l, isTermKey x.key = true := by
  obtain ⟨l, us, ts, hl, hsplit, hus, hts, hsorted⟩ := h
  cases us with
  | nil =>
    rw [List.nil_append] at hsplit
    exact ⟨l, hl, hsplit ▸ hsorted, hsplit ▸ hts⟩
  | cons u us1 =>
    simp only [List.cons_append, List.cons.injEq] at hsplit
    have := hus u (List.mem_cons_self _ _)
    rw [← hsplit.1, hk] at this
    exact absurd this (by simp)

/-- A readable cursor at a user-metadata entry stays readable after `next`. -/
theorem Readable.after_meta {cd : Codec} {c : PostlistCursor} (h : Readable cd c)
    (hk : is_user_metadata_key c.key = true) :
    ∃ l, following cd c.rest c = some l ∧
      ∀ c1 l1, l = c1 :: l1 → following cd c1.rest c1 = some l1 → Readable cd c1 := by
  obtain ⟨l, us, ts, hl, hsplit, hus, hts, hsorted⟩ := h
  refine ⟨l, hl, ?_⟩
  intro c1 l1 e hf
  cases us with
  | nil =>
    rw [List.nil_append] at hsplit
    have := (isTermKey_not_meta (hts c (hsplit ▸ List.mem_cons_self _ _))).1
    rw [hk] at this
    exact absurd this (by simp)
  | cons u us1 =>
    simp only [List.cons_append, List.cons.injEq] at hsplit
    exact ⟨l1, us1, ts, hf, by rw [← e]; exact hsplit.2,
      fun x hx => hus x (List.mem_cons_of_mem _ hx), hts, hsorted⟩

theorem queueSize_perm {a b : List PostlistCursor} (h : a.Perm b) : queueSize a = queueSize b :=
  (h.map _).sum_eq

/-- The user-metadata loop ends with every cursor of the queue at a
posting-list chunk, none of which it has passed, and has written only
user-metadata entries. -/
theorem metaLoop_spec (cd : Codec)
    (top : List PostlistCursor → Option (PostlistCursor × List PostlistCursor))
    (htop : IsPriorityQueue top) :
    ∀ (fuel : Nat) (pq : List PostlistCursor) (last_key last_tag : Bytes)
      (out : List (Bytes × Bytes)),
      queueSize pq < fuel → (∀ c ∈ pq, Readable cd c) →
      (∀ u ∈ pq.flatMap (fun c => c.stream cd), is_user_metadata_key u.key = true →
        ∀ t ∈ pq.flatMap (fun c => c.stream cd), isTermKey t.key = true →
          strLess u.key t.key = true) →
      ∃ pq1 last_key1 added,
        metaLoop cd top fuel pq last_key last_tag out = Except.ok (pq1, last_key1, out ++ added) ∧
        (∀ e ∈ added, is_user_metadata_key e.1 = true) ∧
        queueSize pq1 ≤ queueSize pq ∧
        (∀ c ∈ pq1, ∃ l, following cd c.rest c = some l ∧ (c :: l).Pairwise CursorLe) ∧
        (pq1.flatMap (fun c => c.stream cd)).Perm
          ((pq.flatMap (fun c => c.stream cd)).filter (fun c => isTermKey c.key)) := by
  intro fuel
  induction fuel with
  | zero => intro pq _ _ _ h; omega
  | succ n ih =>
    intro pq last_key last_tag out hsize hread hmeta
    unfold metaLoop
    by_cases hnil : pq = []
    · subst hnil
      rw [htop.1]
      exact ⟨[], last_key, [], by simp, by simp, le_refl _, by simp, by simp⟩
    · obtain ⟨c, others, ht, hperm, hmin⟩ := htop.2 pq hnil
      rw [ht]
      dsimp only
      have hc : c ∈ pq := hperm.mem_iff.1 (List.mem_cons_self _ _)
      have hothers : ∀ d ∈ others, d ∈ pq := fun d hd => hperm.mem_iff.1 (List.mem_cons_of_mem _ hd)
      have hsz : queueSize pq = (c.rest.length + 1) + queueSize others := by
        rw [← queueSize_perm hperm]
        simp [queueSize]
      have hflat : (pq.flatMap (fun c => c.stream cd)).Perm
          (c.stream cd ++ others.flatMap (fun c => c.stream cd)) := by
        have := (hperm.flatMap_right (fun c => c.stream cd)).symm
        simpa using this
      cases hk : is_user_metadata_key c.key with
      | false =>
        simp only [Bool.not_false, if_true]
        -- every cursor is at a posting-list chunk
        have hall : ∀ d ∈ pq, ∃ l, following cd d.rest d = some l ∧ (d :: l).Pairwise CursorLe ∧
            ∀ x ∈ d :: l, isTermKey x.key = true := by
          intro d hd
          apply (hread d hd).at_term
          cases hdk : is_user_metadata_key d.key with
          | false => rfl
          | true =>
            exfalso
            obtain ⟨lc, hlc, _, hct⟩ := (hread c hc).at_term hk
            have hcterm := hct c (List.mem_cons_self _ _)
            have hdo : d ∈ others := by
              have := hperm.mem_iff.2 hd
              rw [List.mem_cons] at this
              rcases this with rfl | h
              · rw [hk] at hdk; exact absurd hdk (by simp)
              · exact h
            have h1 := hmeta d (List.mem_flatMap.2 ⟨d, hd, by rw [stream_cons]; simp⟩) hdk
              c (List.mem_flatMap.2 ⟨c, hc, by rw [stream_cons]; simp⟩) hcterm
            have h2 : CursorLe c d := hmin d hdo
            rw [cursorLe_iff] at h2
            rw [h2.1] at h1
            exact absurd h1 (by simp)
        refine ⟨pq, last_key, [], by simp, by simp, le_refl _, ?_, ?_⟩
        · intro d hd
          obtain ⟨l, hl, hs, _⟩ := hall d hd
          exact ⟨l, hl, hs⟩
        · rw [List.filter_eq_self.2]
          intro x hx
          rw [List.mem_flatMap] at hx
          obtain ⟨d, hd, hxd⟩ := hx
          obtain ⟨l, hl, _, ht⟩ := hall d hd
          rw [stream_of_following cd d l hl] at hxd
          exact ht x hxd
      | true =>
        simp only [Bool.not_true, Bool.false_eq_true, if_false]
        obtain ⟨l, hl, hnextok⟩ := (hread c hc).after_meta hk
        have hcnot : isTermKey c.key = false := by
          unfold isTermKey; rw [hk]; simp
        have hstream := stream_of_following cd c l hl
        rcases next_of_following cd c l hl with ⟨hlnil, hrnil, hnext⟩ | ⟨c1, l1, hlc, hnext, hf1, hlen⟩
        · rw [hnext]
          dsimp only
          obtain ⟨pq1, lk1, added, he, hadd, hsz1, hr1, hp1⟩ :=
            ih others (if (!(c.key == last_key)) = true then c.key else last_key)
              (if (!(c.key == last_key)) = true then c.tag else last_tag)
              (if (!(c.key == last_key)) = true then out ++ [(c.key, c.tag)] else out)
              (by omega) (fun d hd => hread d (hothers d hd))
              (by
                intro u hu huk t ht htk
                exact hmeta u (hflat.mem_iff.2 (List.mem_append_right _ hu)) huk
                  t (hflat.mem_iff.2 (List.mem_append_right _ ht)) htk)
          rw [he]
          refine ⟨pq1, lk1, (if (!(c.key == last_key)) = true then [(c.key, c.tag)] else []) ++ added,
            ?_, ?_, by omega, hr1, ?_⟩
          · by_cases hb : (!(c.key == last_key)) = true
            · simp [hb]
            · simp [hb]
          · intro e he
            rw [List.mem_append] at he
            rcases he with he | he
            · by_cases hb : (!(c.key == last_key)) = true
              · rw [if_pos hb, List.mem_singleton] at he
                rw [he]; exact hk
              · rw [if_neg hb] at he
                exact absurd he (List.not_mem_nil _)
            · exact hadd e he
          · refine hp1.trans ?_
            refine List.Perm.trans ?_ (hflat.filter _).symm
            rw [List.filter_append, hstream, hlnil]
            simp [hcnot]
        · rw [hnext]
          dsimp only
          have hr1 : Readable cd c1 := hnextok c1 l1 hlc hf1
          have hstream1 := stream_of_following cd c1 l1 hf1
          obtain ⟨pq1, lk1, added, he, hadd, hsz1, hrd1, hp1⟩ :=
            ih (others ++ [c1]) (if (!(c.key == last_key)) = true then c.key else last_key)
              (if (!(c.key == last_key)) = true then c.tag else last_tag)
              (if (!(c.key == last_key)) = true then out ++ [(c.key, c.tag)] else out)
              (by
                have : queueSize (others ++ [c1]) = queueSize others + (c1.rest.length + 1) := by
                  simp [queueSize]
                omega)
              (by
                intro d hd
                rw [List.mem_append, List.mem_singleton] at hd
                rcases hd with hd | rfl
                · exact hread d (hothers d hd)
                · exact hr1)
              (by
                have hsub : ∀ x ∈ (others ++ [c1]).flatMap (fun c => c.stream cd),
                    x ∈ pq.flatMap (fun c => c.stream cd) := by
                  intro x hx
                  rw [List.flatMap_append, List.mem_append] at hx
                  apply hflat.mem_iff.2
                  rcases hx with hx | hx
                  · exact List.mem_append_right _ hx
                  · simp only [List.flatMap_cons, List.flatMap_nil, List.append_nil] at hx
                    rw [hstream, hlc, ← hstream1]
                    exact List.mem_append_left _ (List.mem_cons_of_mem _ hx)
                intro u hu huk t ht htk
                exact hmeta u (hsub u hu) huk t (hsub t ht) htk)
          rw [he]
          refine ⟨pq1, lk1, (if (!(c.key == last_key)) = true then [(c.key, c.tag)] else []) ++ added,
            ?_, ?_, ?_, hrd1, ?_⟩
          · by_cases hb : (!(c.key == last_key)) = true
            · simp [hb]
            · simp [hb]
          · intro e he
            rw [List.mem_append] at he
            rcases he with he | he
            · by_cases hb : (!(c.key == last_key)) = true
              · rw [if_pos hb, List.mem_singleton] at he
                rw [he]; exact hk
              · rw [if_neg hb] at he
                exact absurd he (List.not_mem_nil _)
            · exact hadd e he
          · have : queueSize (others ++ [c1]) = queueSize others + (c1.rest.length + 1) := by
              simp [queueSize]
            omega
          · refine hp1.trans ?_
            refine List.Perm.trans ?_ (hflat.filter _).symm
            rw [List.filter_append, hstream, hlc, ← hstream1, List.flatMap_append,
              List.filter_append]
            simp only [List.flatMap_cons, List.flatMap_nil, List.append_nil, List.filter_cons,
              hcnot, Bool.false_eq_true, if_false]
            exact List.perm_append_comm

theorem read_firstdid (cd : Codec) (c c1 : PostlistCursor) (k t : Bytes) (r : List (Bytes × Bytes))
    (h : c.read cd k t r = Except.ok c1) (hk : isTermKey c1.key = true) :
    c1.firstdid < 2 ^ 32 := by
  have hpos : 0 < 2 ^ 32 := by norm_num
  have hm := isTermKey_not_meta hk
  unfold PostlistCursor.read at h
  dsimp only at h
  split at h
  · rename_i h1
    cases h
    rw [hm.2] at h1
    exact absurd h1 (by simp)
  · split at h
    · rename_i h1
      cases h
      rw [hm.1] at h1
      exact absurd h1 (by simp)
    · split at h
      · cases h
      · split at h
        · split at h
          · cases h
          · split at h
            · cases h
            · split at h
              · cases h
              · cases h; exact Nat.mod_lt _ hpos
        · split at h
          · cases h; exact Nat.mod_lt _ hpos
          · cases h

theorem following_firstdid (cd : Codec) :
    ∀ (es : List (Bytes × Bytes)) (c : PostlistCursor) (l : List PostlistCursor),
      following cd es c = some l → ∀ x ∈ l, isTermKey x.key = true → x.firstdid < 2 ^ 32 := by
  intro es
  induction es with
  | nil =>
    intro c l h x hx
    simp only [following, Option.some.injEq] at h
    subst h
    exact absurd hx (List.not_mem_nil _)
  | cons e r ih =>
    intro c l h x hx hk
    obtain ⟨k, t⟩ := e
    simp only [following] at h
    cases hread : c.read cd k t r with
    | error e => rw [hread] at h; simp at h
    | ok c1 =>
      rw [hread] at h
      dsimp only at h
      cases hf : following cd r c1 with
      | none => rw [hf] at h; simp at h
      | some l1 =>
        rw [hf] at h
        simp only [Option.some.injEq] at h
        subst h
        rw [List.mem_cons] at hx
        rcases hx with rfl | hx
        · exact read_firstdid cd c _ k t r hread hk
        · exact ih c1 l1 hf x hx hk

/-- The chunks of a well-formed source that is not empty. -/
theorem termChunks_eq (cd : Codec) (src : List (Bytes × Bytes) × Nat)
    (m : PostlistCursor) (us ts : List PostlistCursor)
    (h : chunksOf cd src = some (m :: (us ++ ts))) (hm : is_metainfo_key m.key = true)
    (hus : ∀ u ∈ us, is_user_metadata_key u.key = true)
    (hts : ∀ c ∈ ts, isTermKey c.key = true) :
    termChunks cd src = ts ∧ (us ++ ts).filter (fun c => isTermKey c.key) = ts := by
  have h2 : (us ++ ts).filter (fun c => isTermKey c.key) = ts := by
    rw [List.filter_append, List.filter_eq_nil_iff.2, List.nil_append, List.filter_eq_self.2]
    · exact hts
    · intro u hu
      have := hus u hu
      simp [isTermKey, this]
  refine ⟨?_, h2⟩
  unfold termChunks
  rw [h, Option.getD_some, List.filter_cons, h2]
  simp [isTermKey, hm]

/-- The loop that opens the sources puts on the queue a readable cursor for
each source with more than its metainfo entry. -/
theorem openLoop_spec (cd : Codec) :
    ∀ (sources : List (List (Bytes × Bytes) × Nat)) (tot0 : Nat) (pq0 : List PostlistCursor),
      (∀ s ∈ sources, WellFormedSource cd s) →
      tot0 + (sources.map (totlenOf cd)).sum < 2 ^ cd.totlen_bits →
      ∃ tot new, openLoop cd sources tot0 pq0 = Except.ok (tot, pq0 ++ new) ∧
        (∀ c ∈ new, Readable cd c) ∧
        queueSize new ≤ (sources.map (fun s => s.1.length)).sum ∧
        (new.flatMap (fun c => c.stream cd)).filter (fun c => isTermKey c.key) =
          sources.flatMap (termChunks cd) ∧
        ∀ x ∈ new.flatMap (fun c => c.stream cd),
          x ∈ sources.flatMap (fun s => (chunksOf cd s).getD []) := by
  intro sources
  induction sources with
  | nil =>
    intro tot0 pq0 _ _
    exact ⟨tot0, [], by simp [openLoop], by simp, by simp [queueSize], by simp, by simp⟩
  | cons src more ih =>
    intro tot0 pq0 hwf htot
    obtain ⟨table, offset⟩ := src
    have hwf1 := hwf (table, offset) (List.mem_cons_self _ _)
    have hwf2 : ∀ s ∈ more, WellFormedSource cd s := fun s hs => hwf s (List.mem_cons_of_mem _ hs)
    simp only [List.map_cons, List.sum_cons] at htot
    unfold openLoop
    by_cases hempty : table = []
    · subst hempty
      simp only [List.isEmpty_nil, if_true]
      obtain ⟨tot, new, he, hr, hsz, hterm, hall⟩ := ih tot0 pq0 hwf2 (by omega)
      refine ⟨tot, new, he, hr, by simp only [List.map_cons, List.sum_cons]; omega, ?_, ?_⟩
      · rw [hterm, List.flatMap_cons]
        simp [termChunks, chunksOf, following]
      · intro x hx
        rw [List.flatMap_cons]
        exact List.mem_append_right _ (hall x hx)
    · have hne : table.isEmpty = false := by
        cases table with
        | nil => exact absurd rfl hempty
        | cons _ _ => rfl
      rw [hne]
      simp only [Bool.false_eq_true, if_false]
      rcases hwf1 with h0 | ⟨m, us, ts, hch, hm, ⟨v, data, totlen, hv, hlast⟩, hus, hts, hsorted⟩
      · exact absurd h0 hempty
      · have htl : totlenOf cd (table, offset) = totlen := by
          unfold totlenOf
          rw [hch]
          dsimp only
          rw [hv]
          dsimp only
          rw [hlast]
          rfl
        rw [htl] at htot
        have hch2 := hch
        unfold chunksOf at hch2
        dsimp only at hch2
        rcases next_of_following cd ⟨table, offset, [], [], 0, 0, 0⟩ _ hch2 with
          ⟨hl, _, _⟩ | ⟨c1, l1, hl, hnext, hf, hlen⟩
        · exact absurd hl (by simp)
        · simp only [List.cons.injEq] at hl
          obtain ⟨hmc, hl1⟩ := hl
          subst hmc
          have hcreate : PostlistCursor.create cd table offset = Except.ok m := by
            unfold PostlistCursor.create
            dsimp only
            rw [hnext]
          rw [hcreate]
          dsimp only
          rw [if_pos hm, hv]
          dsimp only
          rw [hlast]
          dsimp only
          have hmod : (tot0 + totlen) % 2 ^ cd.totlen_bits = tot0 + totlen :=
            Nat.mod_eq_of_lt (by omega)
          rw [hmod, if_neg (by omega)]
          dsimp only
          have hkeys := termChunks_eq cd (table, offset) m us ts hch hm hus
            (fun c hc => (hts c hc).1)
          dsimp only at hlen
          rcases next_of_following cd m l1 hf with ⟨hnil, _, hn⟩ | ⟨c2, l2, hl2, hn, hf2, hlen2⟩
          · rw [hn]
            dsimp only
            obtain ⟨tot, new, he, hr, hsz, hterm, hall⟩ := ih (tot0 + totlen) pq0 hwf2 (by omega)
            refine ⟨tot, new, he, hr, by simp only [List.map_cons, List.sum_cons]; omega, ?_, ?_⟩
            · rw [hterm, List.flatMap_cons, hkeys.1]
              have : ts = [] := (List.append_eq_nil.1 (hl1.trans hnil)).2
              rw [this, List.nil_append]
            · intro x hx
              rw [List.flatMap_cons]
              exact List.mem_append_right _ (hall x hx)
          · rw [hn]
            dsimp only
            obtain ⟨tot, new, he, hr, hsz, hterm, hall⟩ :=
              ih (tot0 + totlen) (pq0 ++ [c2]) hwf2 (by omega)
            have hrd : Readable cd c2 :=
              ⟨l2, us, ts, hf2, by rw [← hl2, hl1], hus, fun c hc => (hts c hc).1, hsorted⟩
            have hstream : c2.stream cd = us ++ ts := by
              rw [stream_of_following cd c2 l2 hf2, ← hl2, hl1]
            refine ⟨tot, c2 :: new, by rw [he]; simp, ?_, ?_, ?_, ?_⟩
            · intro c hc
              rw [List.mem_cons] at hc
              rcases hc with rfl | hc
              · exact hrd
              · exact hr c hc
            · simp only [queueSize, List.map_cons, List.sum_cons] at hsz ⊢
              omega
            · rw [List.flatMap_cons, List.filter_append, hterm, List.flatMap_cons, hkeys.1,
                hstream, hkeys.2]
            · intro x hx
              rw [List.flatMap_cons, List.mem_append] at hx
              rw [List.flatMap_cons, List.mem_append]
              rcases hx with hx | hx
              · left
                rw [hch, Option.getD_some, ← hstream]
                exact List.mem_cons_of_mem _ hx
              · exact Or.inr (hall x hx)

/-- The chunks of well-formed sources have a flag byte. -/
theorem termChunks_bounds (cd : Codec) (src : List (Bytes × Bytes) × Nat)
    (hwf : WellFormedSource cd src) :
    ∀ c ∈ termChunks cd src, c.tag ≠ [] := by
  intro c hc
  rcases hwf with h0 | ⟨m, us, ts, hch, hm, _, hus, hts, _⟩
  · exfalso
    obtain ⟨table, offset⟩ := src
    dsimp only at h0
    subst h0
    simp [termChunks, chunksOf, following] at hc
  · have hkeys := termChunks_eq cd src m us ts hch hm hus (fun c hc => (hts c hc).1)
    rw [hkeys.1] at hc
    exact (hts c hc).2

/-- On well-formed sources `merge_postlists` returns on any priority queue, and
after the metainfo and user-metadata entries `pre` it writes the entries of
the cursor states `cs` of the chunks of all sources, taken in queue order. -/
theorem merge_postlists_feed (cd : Codec)
    (top : List PostlistCursor → Option (PostlistCursor × List PostlistCursor))
    (sources : List (List (Bytes × Bytes) × Nat)) (tot_off fuel : Nat)
    (htop : IsPriorityQueue top)
    (hwf : ∀ s ∈ sources, WellFormedSource cd s)
    (hmeta : ∀ u ∈ sources.flatMap (fun s => (chunksOf cd s).getD []),
      is_user_metadata_key u.key = true →
        ∀ t ∈ sources.flatMap (termChunks cd), strLess u.key t.key = true)
    (htotlen : (sources.map (totlenOf cd)).sum < 2 ^ cd.totlen_bits)
    (hfuel : (sources.map (fun s => s.1.length)).sum < fuel) :
    ∃ tot pq added cs, openLoop cd sources 0 [] = Except.ok (tot, pq) ∧
      merge_postlists cd top fuel sources tot_off =
        Except.ok (([([0], cd.F_pack_uint tot_off ++ cd.F_pack_uint_last tot)] ++ added) ++
          expectedTerms cd cs) ∧
      cs.Perm (sources.flatMap (termChunks cd)) ∧
      cs.Pairwise (fun a b => PostlistCursorGt a b = false) ∧
      ∀ e ∈ added, is_user_metadata_key e.1 = true := by
  obtain ⟨tot, new, hopen, hread, hsz, hterm, hall⟩ :=
    openLoop_spec cd sources 0 [] hwf (by omega)
  rw [List.nil_append] at hopen
  obtain ⟨pq1, lk1, added, hml, hadded, hsz1, hsorted1, hperm1⟩ :=
    metaLoop_spec cd top htop fuel new [] []
      [([0], cd.F_pack_uint tot_off ++ cd.F_pack_uint_last tot)]
      (by omega) hread
      (by
        intro u hu huk t ht htk
        apply hmeta u (hall u hu) huk
        rw [← hterm]
        exact List.mem_filter.2 ⟨ht, htk⟩)
  obtain ⟨cs, hpop, hperm, hsorted⟩ :=
    popAll_sorted cd top htop fuel pq1 (by unfold queueSize at hsz1 hsz; omega) hsorted1
  have hpermT : cs.Perm (sources.flatMap (termChunks cd)) := by
    rw [← hterm]
    exact hperm.trans hperm1
  have hmerge : ∀ c ∈ cs, c.tag ≠ [] := by
    intro c hc
    have hcT := hpermT.mem_iff.1 hc
    rw [List.mem_flatMap] at hcT
    obtain ⟨s, hs, hcs⟩ := hcT
    exact termChunks_bounds cd s (hwf s hs) c hcs
  have hfeed := feed_eq cd cs [] lk1
    ([([0], cd.F_pack_uint tot_off ++ cd.F_pack_uint_last tot)] ++ added)
    (by simpa using hsorted) (by simp) (by simpa using hmerge)
  simp only [List.map_nil, List.sum_nil, List.nil_append, Nat.zero_mod] at hfeed
  refine ⟨tot, new, added, cs, hopen, ?_, hpermT, hsorted, hadded⟩
  unfold merge_postlists
  rw [hopen]
  dsimp only
  rw [hml]
  dsimp only
  rw [termLoop_eq_feed cd top fuel pq1 _ cs hpop]
  exact hfeed

theorem cursorLe_total {a b : PostlistCursor} (h : PostlistCursorGt a b = true) : CursorLe b a := by
  have st := strLess_strictTotal
  rw [cursorLe_iff]
  unfold PostlistCursorGt at h
  by_cases h1 : strLess b.key a.key = true
  · constructor
    · cases h2 : strLess a.key b.key
      · rfl
      · have := st.trans _ _ _ h1 h2
        rw [st.irrefl] at this
        exact absurd this (by simp)
    · intro e
      rw [e, st.irrefl] at h1
      exact absurd h1 (by simp)
  · rw [if_neg h1] at h
    by_cases h2 : a.key = b.key
    · rw [if_neg (by simpa using h2)] at h
      simp only [gt_iff_lt, decide_eq_true_eq] at h
      refine ⟨by rw [h2]; exact st.irrefl _, fun _ => by omega⟩
    · rw [if_pos h2] at h
      exact absurd h (by simp)

theorem popMin_none (pq : List PostlistCursor) (h : popMin pq = none) : pq = [] := by
  cases pq with
  | nil => rfl
  | cons c cs =>
    unfold popMin at h
    cases hp : popMin cs with
    | none => rw [hp] at h; simp at h
    | some p =>
      rw [hp] at h
      dsimp only at h
      split at h <;> simp at h

/-- The scanning queue is a priority queue. -/
theorem popMin_isPriorityQueue : IsPriorityQueue popMin := by
  refine ⟨rfl, ?_⟩
  intro pq
  induction pq with
  | nil => intro h; exact absurd rfl h
  | cons c cs ih =>
    intro _
    unfold popMin
    cases hp : popMin cs with
    | none =>
      have := popMin_none cs hp
      subst this
      exact ⟨c, [], rfl, List.Perm.refl _, by simp⟩
    | some p =>
      obtain ⟨m, rest⟩ := p
      have hcs : cs ≠ [] := by
        intro e
        subst e
        simp [popMin] at hp
      obtain ⟨m1, rest1, e, hperm, hmin⟩ := ih hcs
      rw [hp] at e
      simp only [Option.some.injEq, Prod.mk.injEq] at e
      obtain ⟨rfl, rfl⟩ := e
      dsimp only
      by_cases hgt : PostlistCursorGt c m = true
      · rw [if_pos hgt]
        refine ⟨m, c :: rest, rfl, ?_, ?_⟩
        · exact (List.Perm.swap c m rest).trans (List.Perm.cons c hperm)
        · intro d hd
          rw [List.mem_cons] at hd
          rcases hd with rfl | hd
          · exact cursorLe_total hgt
          · exact hmin d hd
      · rw [if_neg hgt]
        refine ⟨c, cs, rfl, List.Perm.refl _, ?_⟩
        intro d hd
        have hcm : CursorLe c m := by simpa [CursorLe] using hgt
        have hd2 := hperm.mem_iff.2 hd
        rw [List.mem_cons] at hd2
        rcases hd2 with rfl | hd2
        · exact hcm
        · exact cursorLe_trans hcm (hmin d hd2)

theorem filter_sum_le {α : Type} (p : α → Bool) (f : α → Nat) (l : List α) :
    ((l.filter p).map f).sum ≤ (l.map f).sum := by
  induction l with
  | nil => simp
  | cons a l ih =>
    by_cases h : p a = true
    · simp only [List.filter_cons, h, if_true, List.map_cons, List.sum_cons]
      omega
    · simp only [List.filter_cons, h, Bool.false_eq_true, if_false, List.map_cons, List.sum_cons]
      omega

theorem exampleSources_wellFormed : ∀ s ∈ exampleSources, WellFormedSource flintCodec s := by
  intro s hs
  simp only [exampleSources, List.mem_cons, List.mem_singleton, List.not_mem_nil, or_false] at hs
  rcases hs with rfl | rfl
  · refine Or.inr ⟨((chunksOf flintCodec (exampleTableA, 0)).getD []).headD ⟨[], 0, [], [], 0, 0, 0⟩,
      [], ((chunksOf flintCodec (exampleTableA, 0)).getD []).tail, by decide, by decide,
      ⟨3, [7], 7, by decide, by decide⟩, by decide, by decide, by decide⟩
  · refine Or.inr ⟨((chunksOf flintCodec (exampleTableB, 10)).getD []).headD ⟨[], 0, [], [], 0, 0, 0⟩,
      (((chunksOf flintCodec (exampleTableB, 10)).getD []).tail).take 1,
      (((chunksOf flintCodec (exampleTableB, 10)).getD []).tail).drop 1, by decide, by decide,
      ⟨6, [9], 9, by decide, by decide⟩, by decide, by decide, by decide⟩

end Compact

/-! ## Theorems: offsets, tables keyed by docid, the metainfo entry, several passes -/

namespace Compact

set_option maxRecDepth 100000

theorem dropWhile_head_not {α : Type} (p : α → Bool) :
    ∀ (l : List α) (d : α) (t : List α), l.dropWhile p = d :: t → p d = false := by
  intro l
  induction l with
  | nil => intro d t h; simp at h
  | cons a l ih =>
    intro d t h
    rw [List.dropWhile_cons] at h
    by_cases ha : p a = true
    · rw [if_pos ha] at h
      exact ih d t h
    · rw [if_neg ha] at h
      simp only [List.cons.injEq] at h
      rw [← h.1]
      simpa using ha

/-- The binary chop ends, within as many steps as the gap has bits, on the last
docid in use. -/
theorem lastUsedLoop_spec (db : SourceDb) (m : Nat) (hm : m ∈ db.docids)
    (hmax : ∀ d ∈ db.docids, d ≤ m) :
    ∀ (fuel : Nat) (it : List Nat) (lb last : Nat),
      last - lb < 2 ^ fuel → lb ≤ m → m ≤ last →
      (∃ pre, db.docids = pre ++ it ∧ ∀ d ∈ pre, d ≤ lb) →
      lastUsedLoop db fuel it lb last = Except.ok m := by
  intro fuel
  induction fuel with
  | zero =>
    intro it lb last hgap h1 h2 _
    simp only [pow_zero, Nat.lt_one_iff] at hgap
    unfold lastUsedLoop
    rw [if_neg (by omega)]
    congr 1
    omega
  | succ f ih =>
    intro it lb last hgap h1 h2 hpre
    have hpow : 2 ^ (f + 1) = 2 * 2 ^ f := by rw [pow_succ]; omega
    rw [hpow] at hgap
    unfold lastUsedLoop
    by_cases hlt : lb < last
    · rw [if_pos hlt]
      dsimp only
      obtain ⟨pre, hsplit, hpre⟩ := hpre
      have hsplit2 := List.takeWhile_append_dropWhile
        (fun d => decide (d < lb + (last - lb + 1) / 2)) it
      cases hdw : List.dropWhile (fun d => decide (d < lb + (last - lb + 1) / 2)) it with
      | nil =>
        dsimp only
        rw [hdw, List.append_nil] at hsplit2
        have hsmall : m < lb + (last - lb + 1) / 2 := by
          rw [hsplit, List.mem_append] at hm
          rcases hm with hm | hm
          · have := hpre m hm
            omega
          · rw [← hsplit2] at hm
            have := List.mem_takeWhile_imp hm
            simpa using this
        apply ih
        · generalize 2 ^ f = P at hgap ⊢
          omega
        · exact h1
        · omega
        · exact ⟨[], rfl, by simp⟩
      | cons d rest =>
        dsimp only
        have hd : ¬ d < lb + (last - lb + 1) / 2 := by
          have := dropWhile_head_not _ it d rest hdw
          simpa using this
        have hdmem : d ∈ db.docids := by
          rw [hsplit, ← hsplit2, hdw]
          simp
        apply ih
        · generalize 2 ^ f = P at hgap ⊢
          omega
        · exact hmax d hdmem
        · exact h2
        · refine ⟨pre ++ List.takeWhile (fun d => decide (d < lb + (last - lb + 1) / 2)) it, ?_, ?_⟩
          · rw [List.append_assoc, ← hdw, hsplit2]
            exact hsplit
          · intro x hx
            rw [List.mem_append] at hx
            rcases hx with hx | hx
            · have := hpre x hx
              omega
            · have := List.mem_takeWhile_imp hx
              simp only [decide_eq_true_eq] at this
              omega
    · rw [if_neg hlt]
      congr 1
      omega

/-- Docids that ascend strictly reach at least the first plus their number
less one. -/
theorem ascending_last_ge :
    ∀ (l : List Nat) (a : Nat), (a :: l).Pairwise (fun x y => x < y) →
      a + l.length ≤ (a :: l).getLastD 0 ∧ (a :: l).getLastD 0 ∈ a :: l ∧
        ∀ d ∈ a :: l, d ≤ (a :: l).getLastD 0 := by
  intro l
  induction l with
  | nil => intro a _; simp
  | cons b t ih =>
    intro a h
    rw [List.pairwise_cons] at h
    obtain ⟨h1, h2, h3⟩ := ih b h.2
    have hab : a < b := h.1 b (List.mem_cons_self _ _)
    have hl : (a :: b :: t).getLastD 0 = (b :: t).getLastD 0 := by simp [List.getLastD]
    rw [hl]
    refine ⟨by simp only [List.length_cons]; omega, List.mem_cons_of_mem _ h2, ?_⟩
    intro d hd
    rw [List.mem_cons] at hd
    rcases hd with rfl | hd
    · have := h3 b (List.mem_cons_self _ _)
      omega
    · exact h3 d hd

theorem offset_arith (M t first last : Nat) (h1 : 1 ≤ first) (h2 : first ≤ last) (h3 : last < M) :
    ((t + M - (first - 1)) % M + first) % M = (t + 1) % M ∧
      ((t + M - (first - 1)) % M + last) % M = (t + (last - first + 1)) % M := by
  constructor
  · rw [Nat.mod_add_mod]
    have : t + M - (first - 1) + first = t + 1 + M := by omega
    rw [this, Nat.add_mod_right]
  · rw [Nat.mod_add_mod]
    have : t + M - (first - 1) + last = t + (last - first + 1) + M := by omega
    rw [this, Nat.add_mod_right]

theorem usedRange_nil (db : SourceDb) (h : db.docids = []) :
    db.usedRange = (0, 0) ∧ rangeSize db.usedRange = 0 := by
  simp [SourceDb.usedRange, h, rangeSize]

theorem rangeSize_of_pos (first last : Nat) (h : 1 ≤ first) :
    rangeSize (first, last) = last - first + 1 := by
  unfold rangeSize
  rw [if_neg]
  intro e
  simp only [Prod.mk.injEq] at e
  omega

/-- One source with renumbering: its used range is recorded, its offset takes
its first docid to `tot_off + 1`, and `tot_off` grows by the size of the range,
all modulo `2 ^ 32`. -/
theorem sourceStep_spec (fuel : Nat) (db : SourceDb) (s : OffsetState)
    (hwf : db.WellFormed) (hfuel : 32 ≤ fuel) :
    ∃ off, sourceStep true fuel db s =
        Except.ok ⟨s.offset ++ [off], s.used_ranges ++ [db.usedRange],
          (s.tot_off + rangeSize db.usedRange) % 2 ^ 32⟩ ∧
      (db.usedRange ≠ (0, 0) →
        1 ≤ db.usedRange.1 ∧ db.usedRange.1 ≤ db.usedRange.2 ∧ db.usedRange.2 < 2 ^ 32 ∧
        (off + db.usedRange.1) % 2 ^ 32 = (s.tot_off + 1) % 2 ^ 32 ∧
        (off + db.usedRange.2) % 2 ^ 32 = (s.tot_off + rangeSize db.usedRange) % 2 ^ 32) := by
  obtain ⟨hcount, hasc, hbound, hlast⟩ := hwf
  unfold sourceStep
  dsimp only
  cases hd : db.docids with
  | nil =>
    have h0 : db.doccount = 0 := by rw [hcount, hd]; rfl
    have hr := usedRange_nil db hd
    rw [h0, hr.1]
    refine ⟨s.tot_off, ?_, fun h => absurd rfl h⟩
    simp only [bne_self_eq_false, Bool.false_eq_true, if_false, true_and, rangeSize, if_true,
      Nat.add_zero]
  | cons first rest =>
    rw [hd] at hasc hbound
    obtain ⟨hge, hmem, hmax⟩ := ascending_last_ge rest first hasc
    have hur : db.usedRange = (first, (first :: rest).getLastD 0) := by
      simp [SourceDb.usedRange, hd]
    have hcnt : db.doccount = rest.length + 1 := by rw [hcount, hd]; rfl
    have h1 : 1 ≤ first := (hbound first (List.mem_cons_self _ _)).1
    have hml : (first :: rest).getLastD 0 ≤ db.lastdocid := (hbound _ hmem).2
    have hfl : first ≤ (first :: rest).getLastD 0 := hmax first (List.mem_cons_self _ _)
    have hlb : (first + db.doccount - 1) % 2 ^ 32 = first + rest.length := by
      rw [hcnt]
      have : first + (rest.length + 1) - 1 = first + rest.length := by omega
      rw [this]
      exact Nat.mod_eq_of_lt (by omega)
    have hpow : 2 ^ 32 ≤ 2 ^ fuel := Nat.pow_le_pow_right (by decide) hfuel
    have hloop := lastUsedLoop_spec db ((first :: rest).getLastD 0) (by rw [hd]; exact hmem)
      (by rw [hd]; exact hmax) fuel db.docids (first + rest.length) db.lastdocid
      (by omega) hge hml ⟨[], rfl, by simp⟩
    have hne : (db.doccount != 0) = true := by rw [hcnt]; simp
    have hf0 : (first != 0) = true := by
      simp only [bne_iff_ne, ne_eq]
      omega
    rw [hd] at hloop
    rw [hne, if_pos rfl]
    dsimp only
    rw [hlb, hloop, hur]
    dsimp only
    have har := offset_arith (2 ^ 32) s.tot_off first ((first :: rest).getLastD 0) h1 hfl (by omega)
    refine ⟨(s.tot_off + 2 ^ 32 - (first - 1)) % 2 ^ 32, ?_, ?_⟩
    · simp only [hf0, Bool.true_and, if_true, rangeSize_of_pos _ _ h1]
      rw [har.2]
    · intro _
      rw [rangeSize_of_pos _ _ h1]
      exact ⟨h1, hfl, by omega, har.1, har.2⟩

/-- The loop over the sources with renumbering: the used ranges are recorded,
each offset takes the first docid of its source to one more than the sizes of
the ranges before it, counted from `tot_off`, and `tot_off` grows by the sizes of
all ranges, all modulo `2 ^ 32`. -/
theorem offsetLoop_spec (fuel : Nat) (hfuel : 32 ≤ fuel) :
    ∀ (dbs : List SourceDb) (s : OffsetState), (∀ db ∈ dbs, db.WellFormed) →
      s.tot_off < 2 ^ 32 →
      ∃ offs, offsetLoop true fuel dbs s =
          Except.ok ⟨s.offset ++ offs, s.used_ranges ++ dbs.map SourceDb.usedRange,
            (s.tot_off + ((dbs.map SourceDb.usedRange).map rangeSize).sum) % 2 ^ 32⟩ ∧
        offs.length = dbs.length ∧
        ∀ i, i < dbs.length → (dbs.map SourceDb.usedRange).getD i (0, 0) ≠ (0, 0) →
          (offs.getD i 0 + ((dbs.map SourceDb.usedRange).getD i (0, 0)).1) % 2 ^ 32 =
            (s.tot_off + (((dbs.map SourceDb.usedRange).take i).map rangeSize).sum + 1) % 2 ^ 32 ∧
          (offs.getD i 0 + ((dbs.map SourceDb.usedRange).getD i (0, 0)).2) % 2 ^ 32 =
            (s.tot_off + (((dbs.map SourceDb.usedRange).take (i + 1)).map rangeSize).sum) % 2 ^ 32 := by
  intro dbs
  induction dbs with
  | nil =>
    intro s _ hs
    refine ⟨[], ?_, rfl, fun i hi => absurd hi (by simp)⟩
    simp only [offsetLoop, List.append_nil, List.map_nil, List.sum_nil, Nat.add_zero]
    rw [Nat.mod_eq_of_lt hs]
  | cons db dbs ih =>
    intro s hwf hs
    obtain ⟨off, hstep, hoff⟩ := sourceStep_spec fuel db s (hwf db (List.mem_cons_self _ _)) hfuel
    obtain ⟨offs, hloop, hlen, hidx⟩ := ih ⟨s.offset ++ [off], s.used_ranges ++ [db.usedRange],
      (s.tot_off + rangeSize db.usedRange) % 2 ^ 32⟩ (fun d hd => hwf d (List.mem_cons_of_mem _ hd))
      (Nat.mod_lt _ (by norm_num))
    refine ⟨off :: offs, ?_, by simp [hlen], ?_⟩
    · unfold offsetLoop
      rw [hstep]
      dsimp only
      rw [hloop]
      simp only [List.append_assoc, List.singleton_append, List.map_cons, List.sum_cons,
        Nat.mod_add_mod, Nat.add_assoc]
    · intro i hi hne
      cases i with
      | zero =>
        simp only [List.map_cons, List.getD_cons_zero, List.take_zero, List.map_nil, List.sum_nil,
          Nat.add_zero, List.take_succ_cons, List.sum_cons] at hne ⊢
        obtain ⟨_, _, _, h1, h2⟩ := hoff hne
        exact ⟨h1, h2⟩
      | succ j =>
        simp only [List.length_cons, Nat.add_lt_add_iff_right] at hi
        simp only [List.map_cons, List.getD_cons_succ] at hne ⊢
        obtain ⟨h1, h2⟩ := hidx j hi hne
        dsimp only at h1 h2
        simp only [List.take_succ_cons, List.map_cons, List.sum_cons]
        rw [h1, h2]
        simp only [Nat.mod_add_mod, Nat.add_assoc]
        exact ⟨trivial, trivial⟩

theorem sum_take_le (f : Nat × Nat → Nat) (l : List (Nat × Nat)) (k : Nat) :
    ((l.take k).map f).sum ≤ (l.map f).sum := by
  have h := List.take_append_drop k l
  have : (l.map f).sum = ((l.take k).map f).sum + ((l.drop k).map f).sum := by
    rw [← List.sum_append, ← List.map_append, h]
  omega

theorem sum_take_succ (f : Nat × Nat → Nat) :
    ∀ (l : List (Nat × Nat)) (i : Nat), i < l.length →
      ((l.take (i + 1)).map f).sum = ((l.take i).map f).sum + f (l.getD i (0, 0)) := by
  intro l
  induction l with
  | nil => intro i hi; simp at hi
  | cons a l ih =>
    intro i hi
    cases i with
    | zero => simp
    | succ j =>
      simp only [List.length_cons, Nat.add_lt_add_iff_right] at hi
      simp only [List.take_succ_cons, List.map_cons, List.sum_cons, List.getD_cons_succ]
      rw [ih j hi]
      omega

theorem rangeSize_pos (r : Nat × Nat) (h : r ≠ (0, 0)) : 1 ≤ rangeSize r := by
  unfold rangeSize
  rw [if_neg h]
  omega

/-- C11: with renumbering, for well-formed source databases taken in order,
`main` records the used range `(first, last)` of each source (`(0, 0)` for an
empty one) and gives each non-empty source an offset that takes `first` to one
more than the sum of the sizes `last - first + 1` of the ranges before it, and
`last` to that sum with its own size added, and it ends with `tot_off` the sum
of all sizes, all modulo `2 ^ 32`. When the sum of all sizes is less than
`2 ^ 32` this holds without the modulus, so that the renumbered ranges start at
docid 1, each begins right after the one before it ends, and they are
disjoint. -/
theorem renumber_offsets (dbs : List SourceDb) (fuel : Nat)
    (hwf : ∀ db ∈ dbs, db.WellFormed) (hfuel : 32 ≤ fuel) :
    ∃ offset tot_off,
      offsetLoop true fuel dbs ⟨[], [], 0⟩ =
        Except.ok ⟨offset, dbs.map SourceDb.usedRange, tot_off⟩ ∧
      offset.length = dbs.length ∧
      tot_off = ((dbs.map SourceDb.usedRange).map rangeSize).sum % 2 ^ 32 ∧
      (∀ i, i < dbs.length → (dbs.map SourceDb.usedRange).getD i (0, 0) ≠ (0, 0) →
        (offset.getD i 0 + ((dbs.map SourceDb.usedRange).getD i (0, 0)).1) % 2 ^ 32 =
          (1 + (((dbs.map SourceDb.usedRange).take i).map rangeSize).sum) % 2 ^ 32 ∧
        (offset.getD i 0 + ((dbs.map SourceDb.usedRange).getD i (0, 0)).2) % 2 ^ 32 =
          (((dbs.map SourceDb.usedRange).take (i + 1)).map rangeSize).sum % 2 ^ 32) ∧
      (((dbs.map SourceDb.usedRange).map rangeSize).sum < 2 ^ 32 →
        tot_off = ((dbs.map SourceDb.usedRange).map rangeSize).sum ∧
        ∀ i, i < dbs.length → (dbs.map SourceDb.usedRange).getD i (0, 0) ≠ (0, 0) →
          (offset.getD i 0 + ((dbs.map SourceDb.usedRange).getD i (0, 0)).1) % 2 ^ 32 =
            1 + (((dbs.map SourceDb.usedRange).take i).map rangeSize).sum ∧
          (offset.getD i 0 + ((dbs.map SourceDb.usedRange).getD i (0, 0)).2) % 2 ^ 32 =
            (((dbs.map SourceDb.usedRange).take i).map rangeSize).sum +
              rangeSize ((dbs.map SourceDb.usedRange).getD i (0, 0))) := by
  obtain ⟨offs, hloop, hlen, hidx⟩ := offsetLoop_spec fuel hfuel dbs ⟨[], [], 0⟩ hwf (by norm_num)
  simp only [List.nil_append, Nat.zero_add] at hloop hidx
  have hmod : ∀ i, i < dbs.length → (dbs.map SourceDb.usedRange).getD i (0, 0) ≠ (0, 0) →
      (offs.getD i 0 + ((dbs.map SourceDb.usedRange).getD i (0, 0)).1) % 2 ^ 32 =
        (1 + (((dbs.map SourceDb.usedRange).take i).map rangeSize).sum) % 2 ^ 32 ∧
      (offs.getD i 0 + ((dbs.map SourceDb.usedRange).getD i (0, 0)).2) % 2 ^ 32 =
        (((dbs.map SourceDb.usedRange).take (i + 1)).map rangeSize).sum % 2 ^ 32 := by
    intro i hi hne
    obtain ⟨h1, h2⟩ := hidx i hi hne
    exact ⟨by rw [h1, Nat.add_comm], h2⟩
  refine ⟨offs, _, hloop, hlen, rfl, hmod, ?_⟩
  intro hsum
  refine ⟨Nat.mod_eq_of_lt hsum, ?_⟩
  intro i hi hne
  obtain ⟨h1, h2⟩ := hmod i hi hne
  have hle := sum_take_le rangeSize (dbs.map SourceDb.usedRange) (i + 1)
  have hsucc := sum_take_succ rangeSize (dbs.map SourceDb.usedRange) i (by simpa using hi)
  have hpos := rangeSize_pos _ hne
  rw [h1, h2, hsucc]
  exact ⟨Nat.mod_eq_of_lt (by omega), Nat.mod_eq_of_lt (by omega)⟩

/-- The three example sources get the offsets `-2`, 5 and 4 modulo `2 ^ 32`,
which take docids 3 to 7 to 1 to 5 and docids 2, 3 to 6, 7. -/
theorem renumber_offsets_witness :
    (∀ db ∈ exampleDbs, db.WellFormed) ∧
    offsetLoop true 33 exampleDbs ⟨[], [], 0⟩ =
      Except.ok ⟨[4294967294, 5, 4], [(3, 7), (0, 0), (2, 3)], 7⟩ ∧
    ∃ offset tot_off,
      offsetLoop true 33 exampleDbs ⟨[], [], 0⟩ =
        Except.ok ⟨offset, exampleDbs.map SourceDb.usedRange, tot_off⟩ ∧
      offset.length = exampleDbs.length ∧
      tot_off = ((exampleDbs.map SourceDb.usedRange).map rangeSize).sum % 2 ^ 32 :=
  have hwf : ∀ db ∈ exampleDbs, db.WellFormed := by
    intro db hdb
    simp only [exampleDbs, List.mem_cons, List.mem_singleton, List.not_mem_nil, or_false] at hdb
    rcases hdb with rfl | rfl | rfl <;>
      exact ⟨rfl, by decide, by decide, by norm_num⟩
  ⟨hwf, rfl,
    (renumber_offsets exampleDbs 33 hwf (by decide)).imp fun _ h =>
      h.imp fun _ h2 => ⟨h2.1, h2.2.1, h2.2.2.1⟩⟩

theorem docidKeyedCopy_ok (cd : Codec) (name : String) (off : Nat) :
    ∀ (table out : List RawEntry), Rekeyable cd off table →
      docidKeyedCopy cd name off table out = Except.ok (out ++ table.map (rekeyed cd off)) := by
  intro table
  induction table with
  | nil => intro out _; simp [docidKeyedCopy]
  | cons e rest ih =>
    intro out h
    obtain ⟨k, t, c⟩ := e
    have hrest : Rekeyable cd off rest := by
      rcases h with h | h
      · exact Or.inl h
      · exact Or.inr (fun e he => h e (List.mem_cons_of_mem _ he))
    unfold docidKeyedCopy
    by_cases h0 : off = 0
    · subst h0
      simp only [bne_self_eq_false, Bool.false_eq_true, if_false]
      rw [ih _ hrest]
      simp [rekeyed]
    · have hb : (off != 0) = true := by simpa using h0
      rw [hb, if_pos rfl]
      rcases h with h | h
      · exact absurd h h0
      · have hk := h (k, t, c) (List.mem_cons_self _ _)
        cases hu : cd.F_unpack_uint_preserving_sort k with
        | none => exact absurd hu hk
        | some p =>
          obtain ⟨did, d⟩ := p
          dsimp only
          rw [ih _ hrest]
          simp [rekeyed, h0, hu]

theorem docidKeyedCopy_bad (cd : Codec) (name : String) (off : Nat) :
    ∀ (table out : List RawEntry), ¬ Rekeyable cd off table →
      docidKeyedCopy cd name off table out =
        Except.error (KeyedStop.corrupt ("Bad key in " ++ name)) := by
  intro table
  induction table with
  | nil => intro out h; exact absurd (Or.inr (by simp)) h
  | cons e rest ih =>
    intro out h
    obtain ⟨k, t, c⟩ := e
    have h0 : off ≠ 0 := fun e => h (Or.inl e)
    have hb : (off != 0) = true := by simpa using h0
    unfold docidKeyedCopy
    rw [hb, if_pos rfl]
    cases hu : cd.F_unpack_uint_preserving_sort k with
    | none => rfl
    | some p =>
      obtain ⟨did, d⟩ := p
      dsimp only
      apply ih
      intro hr
      apply h
      rcases hr with hr | hr
      · exact Or.inl hr
      · right
        intro e he
        rw [List.mem_cons] at he
        rcases he with rfl | he
        · dsimp only; rw [hu]; simp
        · exact hr e he

/-- The inputs are copied one after the other, each with its offset, up to the
first input with a key that does not decode. -/
theorem merge_docid_keyed_spec (cd : Codec) :
    ∀ (inputs : List (String × List RawEntry)) (offset : List Nat) (out : List RawEntry),
      inputs.length = offset.length →
      ((∀ p ∈ inputs.zip offset, Rekeyable cd p.2 p.1.2) →
        merge_docid_keyed cd inputs offset out =
          Except.ok (out ++ (inputs.zip offset).flatMap (fun p => p.1.2.map (rekeyed cd p.2)))) ∧
      ((¬ ∀ p ∈ inputs.zip offset, Rekeyable cd p.2 p.1.2) →
        ∃ name, merge_docid_keyed cd inputs offset out =
          Except.error (KeyedStop.corrupt ("Bad key in " ++ name))) := by
  intro inputs
  induction inputs with
  | nil =>
    intro offset out _
    exact ⟨fun _ => by simp [merge_docid_keyed], fun h => absurd (by simp) h⟩
  | cons input inputs ih =>
    intro offset out hlen
    obtain ⟨name, table⟩ := input
    cases offset with
    | nil => simp at hlen
    | cons off offset =>
      simp only [List.length_cons, Nat.add_right_cancel_iff] at hlen
      have hempty : table.isEmpty = true → table = [] := by
        intro h
        cases table with
        | nil => rfl
        | cons _ _ => simp at h
      constructor
      · intro hall
        have h1 : Rekeyable cd off table := hall ((name, table), off) (by simp)
        have h2 : ∀ p ∈ inputs.zip offset, Rekeyable cd p.2 p.1.2 :=
          fun p hp => hall p (by simp [hp])
        unfold merge_docid_keyed
        by_cases he : table.isEmpty = true
        · rw [if_pos he, (ih offset out hlen).1 h2]
          simp [hempty he]
        · rw [if_neg he, docidKeyedCopy_ok cd name off table out h1]
          dsimp only
          rw [(ih offset _ hlen).1 h2]
          simp
      · intro hnot
        unfold merge_docid_keyed
        by_cases h1 : Rekeyable cd off table
        · have h2 : ¬ ∀ p ∈ inputs.zip offset, Rekeyable cd p.2 p.1.2 := by
            intro h2
            apply hnot
            intro p hp
            simp only [List.zip_cons_cons, List.mem_cons] at hp
            rcases hp with rfl | hp
            · exact h1
            · exact h2 p hp
          by_cases he : table.isEmpty = true
          · rw [if_pos he]
            exact (ih offset out hlen).2 h2
          · rw [if_neg he, docidKeyedCopy_ok cd name off table out h1]
            dsimp only
            exact (ih offset _ hlen).2 h2
        · have he : ¬ table.isEmpty = true := by
            intro he
            apply h1
            rw [hempty he]
            exact Or.inr (by simp)
          rw [if_neg he, docidKeyedCopy_bad cd name off table out h1]
          exact ⟨name, rfl⟩

/-- C12: `merge_docid_keyed` writes, for the entries of its inputs in order, the
entry `rekeyed cd off e`: the entry itself when the offset of its input is 0,
and else the entry with the docid at the front of its key replaced by the docid
plus the offset (modulo `2 ^ 32`), the rest of the key, the tag and the
compressed flag unchanged; so a key `UintPreservingSort(did) · term` becomes
`UintPreservingSort(did + off) · term` for a codec that reads back what it
packs. When an input with a non-zero offset has a key that does not start with
a docid that decodes, the function throws `DatabaseCorruptError` instead. -/
theorem merge_docid_keyed_rekeys (cd : Codec) (inputs : List (String × List RawEntry))
    (offset : List Nat) (hlen : inputs.length = offset.length) :
    ((∀ p ∈ inputs.zip offset, Rekeyable cd p.2 p.1.2) →
      merge_docid_keyed cd inputs offset [] =
        Except.ok ((inputs.zip offset).flatMap (fun p => p.1.2.map (rekeyed cd p.2)))) ∧
    ((¬ ∀ p ∈ inputs.zip offset, Rekeyable cd p.2 p.1.2) →
      ∃ name, merge_docid_keyed cd inputs offset [] =
        Except.error (KeyedStop.corrupt ("Bad key in " ++ name))) ∧
    (∀ (e : RawEntry), rekeyed cd 0 e = e) ∧
    ((∀ did rest, cd.F_unpack_uint_preserving_sort (cd.F_pack_uint_preserving_sort did ++ rest) =
        some (did, rest)) →
      ∀ off did term tag compressed, off ≠ 0 →
        rekeyed cd off (cd.F_pack_uint_preserving_sort did ++ term, tag, compressed) =
          (cd.F_pack_uint_preserving_sort ((did + off) % 2 ^ 32) ++ term, tag, compressed)) := by
  have h := merge_docid_keyed_spec cd inputs offset [] hlen
  refine ⟨?_, h.2, fun e => by simp [rekeyed], ?_⟩
  · intro hall
    have := h.1 hall
    simpa using this
  · intro hrt off did term tag compressed hoff
    simp [rekeyed, hoff, hrt]

/-- Two record tables with the offsets 0 and 2: the keys of the first are
copied, the docid 1 of the second becomes 3. -/
theorem merge_docid_keyed_rekeys_witness :
    exampleKeyed.length = [0, 2].length ∧
    merge_docid_keyed flintCodec exampleKeyed [0, 2] [] =
      Except.ok [([1, 1], [10], false), ([1, 2], [11], true), ([1, 3, 97], [12], true)] ∧
    merge_docid_keyed flintCodec [("x/", [([], [1], false)])] [1] [] =
      Except.error (KeyedStop.corrupt "Bad key in x/") ∧
    ((∀ p ∈ exampleKeyed.zip [0, 2], Rekeyable flintCodec p.2 p.1.2) →
      merge_docid_keyed flintCodec exampleKeyed [0, 2] [] =
        Except.ok ((exampleKeyed.zip [0, 2]).flatMap
          (fun p => p.1.2.map (rekeyed flintCodec p.2)))) :=
  ⟨rfl, rfl, rfl, (merge_docid_keyed_rekeys flintCodec exampleKeyed [0, 2] rfl).1⟩

/-- The loop that opens well-formed sources adds up their total document
lengths exactly, and throws when the sum does not fit `totlen_t`. -/
theorem openLoop_total (cd : Codec) :
    ∀ (sources : List (List (Bytes × Bytes) × Nat)) (tot0 : Nat) (pq0 : List PostlistCursor),
      (∀ s ∈ sources, WellFormedSource cd s) →
      (∀ s ∈ sources, totlenOf cd s < 2 ^ cd.totlen_bits) →
      tot0 < 2 ^ cd.totlen_bits →
      (tot0 + (sources.map (totlenOf cd)).sum < 2 ^ cd.totlen_bits →
        ∃ pq, openLoop cd sources tot0 pq0 =
          Except.ok (tot0 + (sources.map (totlenOf cd)).sum, pq)) ∧
      (2 ^ cd.totlen_bits ≤ tot0 + (sources.map (totlenOf cd)).sum →
        openLoop cd sources tot0 pq0 = Except.error MergeError.totlenWrapped) := by
  intro sources
  induction sources with
  | nil =>
    intro tot0 pq0 _ _ h0
    exact ⟨fun _ => ⟨pq0, by simp [openLoop]⟩, fun h => by simp at h; omega⟩
  | cons src more ih =>
    intro tot0 pq0 hwf hfit h0
    obtain ⟨table, offset⟩ := src
    have hwf1 := hwf (table, offset) (List.mem_cons_self _ _)
    have hwf2 : ∀ s ∈ more, WellFormedSource cd s := fun s hs => hwf s (List.mem_cons_of_mem _ hs)
    have hfit1 := hfit (table, offset) (List.mem_cons_self _ _)
    have hfit2 : ∀ s ∈ more, totlenOf cd s < 2 ^ cd.totlen_bits :=
      fun s hs => hfit s (List.mem_cons_of_mem _ hs)
    simp only [List.map_cons, List.sum_cons]
    unfold openLoop
    by_cases hempty : table = []
    · subst hempty
      have h00 : totlenOf cd ([], offset) = 0 := by simp [totlenOf, chunksOf, following]
      simp only [List.isEmpty_nil, if_true, h00, Nat.zero_add]
      exact ih tot0 pq0 hwf2 hfit2 h0
    · have hne : table.isEmpty = false := by
        cases table with
        | nil => exact absurd rfl hempty
        | cons _ _ => rfl
      rw [hne]
      simp only [Bool.false_eq_true, if_false]
      rcases hwf1 with h00 | ⟨m, us, ts, hch, hm, ⟨v, data, totlen, hv, hlast⟩, hus, hts, hsorted⟩
      · exact absurd h00 hempty
      · have htl : totlenOf cd (table, offset) = totlen := by
          unfold totlenOf
          rw [hch]
          dsimp only
          rw [hv]
          dsimp only
          rw [hlast]
          rfl
        rw [htl] at hfit1 ⊢
        have hch2 := hch
        unfold chunksOf at hch2
        dsimp only at hch2
        rcases next_of_following cd ⟨table, offset, [], [], 0, 0, 0⟩ _ hch2 with
          ⟨hl, _, _⟩ | ⟨c1, l1, hl, hnext, hf, hlen⟩
        · exact absurd hl (by simp)
        · simp only [List.cons.injEq] at hl
          obtain ⟨hmc, hl1⟩ := hl
          subst hmc
          have hcreate : PostlistCursor.create cd table offset = Except.ok m := by
            unfold PostlistCursor.create
            dsimp only
            rw [hnext]
          rw [hcreate]
          dsimp only
          rw [if_pos hm, hv]
          dsimp only
          rw [hlast]
          dsimp only
          by_cases hover : tot0 + totlen < 2 ^ cd.totlen_bits
          · have hmod : (tot0 + totlen) % 2 ^ cd.totlen_bits = tot0 + totlen :=
              Nat.mod_eq_of_lt hover
            rw [hmod, if_neg (by omega)]
            dsimp only
            rw [← Nat.add_assoc]
            rcases next_of_following cd m l1 hf with ⟨_, _, hn⟩ | ⟨c2, l2, _, hn, _, _⟩
            · rw [hn]
              exact ih (tot0 + totlen) pq0 hwf2 hfit2 hover
            · rw [hn]
              exact ih (tot0 + totlen) (pq0 ++ [c2]) hwf2 hfit2 hover
          · have hwrap : (tot0 + totlen) % 2 ^ cd.totlen_bits < totlen := by
              have h1 : (tot0 + totlen) % 2 ^ cd.totlen_bits =
                  tot0 + totlen - 2 ^ cd.totlen_bits := by
                rw [Nat.mod_eq_sub_mod (by omega)]
                exact Nat.mod_eq_of_lt (by omega)
              omega
            rw [if_pos hwrap]
            exact ⟨fun h => by omega, fun _ => rfl⟩

/-- On well-formed sources `merge_postlists` returns, having written the
metainfo entry with the total of the opening loop first. -/
theorem merge_postlists_run (cd : Codec)
    (top : List PostlistCursor → Option (PostlistCursor × List PostlistCursor))
    (sources : List (List (Bytes × Bytes) × Nat)) (tot_off fuel : Nat)
    (htop : IsPriorityQueue top)
    (hwf : ∀ s ∈ sources, WellFormedSource cd s)
    (hmeta : ∀ u ∈ sources.flatMap (fun s => (chunksOf cd s).getD []),
      is_user_metadata_key u.key = true →
        ∀ t ∈ sources.flatMap (termChunks cd), strLess u.key t.key = true)
    (htotlen : (sources.map (totlenOf cd)).sum < 2 ^ cd.totlen_bits)
    (hfuel : (sources.map (fun s => s.1.length)).sum < fuel) :
    ∃ tot pq rest, openLoop cd sources 0 [] = Except.ok (tot, pq) ∧
      merge_postlists cd top fuel sources tot_off =
        Except.ok (([0], cd.F_pack_uint tot_off ++ cd.F_pack_uint_last tot) :: rest) := by
  obtain ⟨tot, pq, added, cs, hopen, hrun, _, _, _⟩ :=
    merge_postlists_feed cd top sources tot_off fuel htop hwf hmeta htotlen hfuel
  refine ⟨tot, pq, added ++ expectedTerms cd cs, hopen, ?_⟩
  rw [hrun]
  simp

/-- C15: on well-formed sources whose total document lengths each fit
`totlen_t`, `merge_postlists` returns with, as the first entry it writes, the
key `"\0"` with the tag `Uint(tot_off) · UintLast(T)`, `T` being the sum of the
total document lengths the sources record under their metainfo keys, when `T`
fits `totlen_t`; and it throws `"totlen wrapped!"` when `T` does not fit. So a
total of `2 ^ 32` or more is kept exactly as long as `totlen_t` has room for
it. -/
theorem merge_postlists_metainfo (cd : Codec)
    (top : List PostlistCursor → Option (PostlistCursor × List PostlistCursor))
    (sources : List (List (Bytes × Bytes) × Nat)) (tot_off fuel : Nat)
    (htop : IsPriorityQueue top)
    (hwf : ∀ s ∈ sources, WellFormedSource cd s)
    (hfit : ∀ s ∈ sources, totlenOf cd s < 2 ^ cd.totlen_bits)
    (hmeta : ∀ u ∈ sources.flatMap (fun s => (chunksOf cd s).getD []),
      is_user_metadata_key u.key = true →
        ∀ t ∈ sources.flatMap (termChunks cd), strLess u.key t.key = true)
    (hfuel : (sources.map (fun s => s.1.length)).sum < fuel) :
    ((sources.map (totlenOf cd)).sum < 2 ^ cd.totlen_bits →
      ∃ rest, merge_postlists cd top fuel sources tot_off =
        Except.ok (([0], cd.F_pack_uint tot_off ++
          cd.F_pack_uint_last (sources.map (totlenOf cd)).sum) :: rest)) ∧
    (2 ^ cd.totlen_bits ≤ (sources.map (totlenOf cd)).sum →
      merge_postlists cd top fuel sources tot_off = Except.error MergeError.totlenWrapped) := by
  have hpos : 0 < 2 ^ cd.totlen_bits := Nat.pos_pow_of_pos _ (by decide)
  have htotal := openLoop_total cd sources 0 [] hwf hfit hpos
  simp only [Nat.zero_add] at htotal
  constructor
  · intro hsum
    obtain ⟨tot, pq, rest, hopen, hrun⟩ :=
      merge_postlists_run cd top sources tot_off fuel htop hwf hmeta hsum hfuel
    obtain ⟨pq2, hopen2⟩ := htotal.1 hsum
    rw [hopen2] at hopen
    simp only [Except.ok.injEq, Prod.mk.injEq] at hopen
    rw [hopen.1]
    exact ⟨rest, hrun⟩
  · intro hover
    unfold merge_postlists
    rw [htotal.2 hover]

theorem exampleLongSources_wellFormed (cd : Codec)
    (h1 : cd.F_unpack_uint = unpackUint) (h2 : cd.F_unpack_uint_last = unpackUintLast) :
    ∀ s ∈ exampleLongSources, WellFormedSource cd s := by
  intro s hs
  simp only [exampleLongSources, List.mem_cons, List.mem_singleton, List.not_mem_nil,
    or_false] at hs
  rcases hs with rfl | rfl
  · refine Or.inr ⟨⟨[], 0, [0], packUint 2 ++ packUintLast 3000000000, 0, 0, 0⟩, [], [], rfl, rfl,
      ⟨2, packUintLast 3000000000, 3000000000, by rw [h1]; rfl, by rw [h2]; rfl⟩,
      by simp, by simp, by simp⟩
  · refine Or.inr ⟨⟨[], 2, [0], packUint 1 ++ packUintLast 2000000000, 0, 0, 0⟩, [], [], rfl, rfl,
      ⟨1, packUintLast 2000000000, 2000000000, by rw [h1]; rfl, by rw [h2]; rfl⟩,
      by simp, by simp, by simp⟩

/-- Two sources with total lengths of 3000000000 and 2000000000 give the total
5000000000 with a `totlen_t` of 64 bits, and `"totlen wrapped!"` with one of 32
bits. -/
theorem merge_postlists_metainfo_witness :
    (IsPriorityQueue popMin ∧ ∀ s ∈ exampleLongSources, WellFormedSource flintCodec s) ∧
    merge_postlists flintCodec popMin 5 exampleLongSources 3 =
      Except.ok [([0], packUint 3 ++ packUintLast 5000000000)] ∧
    merge_postlists narrowCodec popMin 5 exampleLongSources 3 =
      Except.error MergeError.totlenWrapped ∧
    ∃ rest, merge_postlists flintCodec popMin 5 exampleLongSources 3 =
      Except.ok (([0], flintCodec.F_pack_uint 3 ++
        flintCodec.F_pack_uint_last (exampleLongSources.map (totlenOf flintCodec)).sum) :: rest) :=
  ⟨⟨popMin_isPriorityQueue, exampleLongSources_wellFormed flintCodec rfl rfl⟩, rfl, rfl,
    (merge_postlists_metainfo flintCodec popMin exampleLongSources 3 5 popMin_isPriorityQueue
      (exampleLongSources_wellFormed flintCodec rfl rfl)
      (by decide) (by decide) (by decide)).1 (by decide)⟩

/-- The groups of a pass are consecutive: put end to end they give the inputs
back; there are half as many groups as inputs; every group but the last is a
pair, and the last is a pair or, for an odd number of inputs, a triple. -/
theorem pairUp_spec {α : Type} :
    ∀ (n : Nat) (l : List α), l.length = n → 2 ≤ n →
      (pairUp l).flatten = l ∧ (pairUp l).length = n / 2 ∧
      (∀ g ∈ (pairUp l).dropLast, g.length = 2) ∧
      (pairUp l).getLast?.map List.length = some (2 + n % 2) := by
  intro n
  induction n using Nat.strong_induction_on with
  | _ n ih =>
    intro l hl hn
    match l, hl with
    | [], hl => simp at hl; omega
    | [a], hl => simp at hl; omega
    | [a, b], hl => simp at hl; subst hl; simp [pairUp]
    | [a, b, c], hl => simp at hl; subst hl; simp [pairUp]
    | a :: b :: c :: d :: rest, hl =>
      simp only [List.length_cons] at hl
      obtain ⟨h1, h2, h3, h4⟩ := ih (n - 2) (by omega) (c :: d :: rest)
        (by simp only [List.length_cons]; omega) (by omega)
      have hne : pairUp (c :: d :: rest) ≠ [] := by
        intro e
        rw [e] at h2
        simp only [List.length_nil] at h2
        omega
      simp only [pairUp]
      refine ⟨by simp [h1], by simp only [List.length_cons, h2]; omega, ?_, ?_⟩
      · intro g hg
        rw [List.dropLast_cons_of_ne_nil hne, List.mem_cons] at hg
        rcases hg with rfl | hg
        · rfl
        · exact h3 g hg
      · cases hp : pairUp (c :: d :: rest) with
        | nil => exact absurd hp hne
        | cons x xs =>
          rw [hp] at h4
          rw [List.getLast?_cons_cons, h4]
          congr 2
          omega

theorem drop_two_eq {α : Type} (l : List α) (i : Nat) (a b : α) (rest : List α)
    (h : l.drop i = a :: b :: rest) : l.drop (i + 2) = rest := by
  have := List.drop_drop 2 i l
  rw [h] at this
  exact this.symm

theorem drop_three_eq {α : Type} (l : List α) (i : Nat) (a b c : α) (rest : List α)
    (h : l.drop i = a :: b :: c :: rest) : l.drop (i + 3) = rest := by
  have := List.drop_drop 3 i l
  rw [h] at this
  exact this.symm

/-- A pass merges the groups of the inputs from `i` on, one temporary table for
each group. -/
theorem passLoop_eq (cd : Codec)
    (top : List PostlistCursor → Option (PostlistCursor × List PostlistCursor)) (fuel : Nat)
    (tmp : List (List (Bytes × Bytes))) (off : List Nat) (hlen : off.length = tmp.length) :
    ∀ (steps i : Nat) (tmpout : List (List (Bytes × Bytes))),
      (tmp.length - i) / 2 < steps → i ≤ tmp.length → tmp.length - i ≠ 1 →
      passLoop cd top fuel tmp off steps i tmpout =
        some (match mergeGroups cd top fuel (pairUp ((tmp.drop i).zip (off.drop i))) with
          | Except.error e => Except.error e
          | Except.ok tables => Except.ok (tmpout ++ tables)) := by
  intro steps
  induction steps with
  | zero => intro i tmpout h; omega
  | succ steps ih =>
    intro i tmpout hsteps hi hr
    have hlt : (tmp.drop i).length = tmp.length - i := List.length_drop _ _
    have hlo : (off.drop i).length = tmp.length - i := by rw [List.length_drop, hlen]
    unfold passLoop
    by_cases hlast : i < tmp.length
    · rw [if_pos hlast]
      dsimp only
      match hL : tmp.drop i, hO : off.drop i with
      | [], _ =>
        have h1 := hlt
        have h2 := hlo
        try simp only [hL, hO, List.length_cons, List.length_nil] at h1
        try simp only [hL, hO, List.length_cons, List.length_nil] at h2
        omega
      | [_], _ =>
        have h1 := hlt
        have h2 := hlo
        try simp only [hL, hO, List.length_cons, List.length_nil] at h1
        try simp only [hL, hO, List.length_cons, List.length_nil] at h2
        omega
      | _ :: _ :: _, [] =>
        have h1 := hlt
        have h2 := hlo
        try simp only [hL, hO, List.length_cons, List.length_nil] at h1
        try simp only [hL, hO, List.length_cons, List.length_nil] at h2
        omega
      | _ :: _ :: _, [_] =>
        have h1 := hlt
        have h2 := hlo
        try simp only [hL, hO, List.length_cons, List.length_nil] at h1
        try simp only [hL, hO, List.length_cons, List.length_nil] at h2
        omega
      | [a, b], [x, y] =>
        try simp only [hL, List.length_cons, List.length_nil] at hlt
        have hj : ¬ (i + 2 == tmp.length - 1) = true := by
          simp only [beq_iff_eq]; omega
        rw [if_neg hj]
        have hji : i + 2 - i = 2 := by omega
        rw [hji]
        simp only [List.take, List.zip_cons_cons, List.zip_nil_right, pairUp, mergeGroups]
        cases merge_postlists cd top fuel [(a, x), (b, y)] 0 with
        | error e => rfl
        | ok adds =>
          dsimp only
          cases steps with
          | zero => omega
          | succ s =>
            unfold passLoop
            rw [if_neg (by omega)]
      | [a, b], x :: y :: _ :: _ =>
        have h1 := hlt
        have h2 := hlo
        try simp only [hL, hO, List.length_cons, List.length_nil] at h1
        try simp only [hL, hO, List.length_cons, List.length_nil] at h2
        omega
      | [a, b, c], [x, y] =>
        have h1 := hlt
        have h2 := hlo
        try simp only [hL, hO, List.length_cons, List.length_nil] at h1
        try simp only [hL, hO, List.length_cons, List.length_nil] at h2
        omega
      | _ :: _ :: _ :: _ :: _, [x, y] =>
        have h1 := hlt
        have h2 := hlo
        try simp only [hL, hO, List.length_cons, List.length_nil] at h1
        try simp only [hL, hO, List.length_cons, List.length_nil] at h2
        omega
      | [a, b, c], [x, y, z] =>
        try simp only [hL, List.length_cons, List.length_nil] at hlt
        have hj : (i + 2 == tmp.length - 1) = true := by
          simp only [beq_iff_eq]; omega
        rw [if_pos hj]
        have hji : i + 2 + 1 - i = 3 := by omega
        rw [hji]
        simp only [List.take, List.zip_cons_cons, List.zip_nil_right, pairUp, mergeGroups]
        cases merge_postlists cd top fuel [(a, x), (b, y), (c, z)] 0 with
        | error e => rfl
        | ok adds =>
          dsimp only
          cases steps with
          | zero => omega
          | succ s =>
            unfold passLoop
            rw [if_neg (by omega)]
      | [a, b, c], x :: y :: z :: _ :: _ =>
        have h1 := hlt
        have h2 := hlo
        try simp only [hL, hO, List.length_cons, List.length_nil] at h1
        try simp only [hL, hO, List.length_cons, List.length_nil] at h2
        omega
      | _ :: _ :: _ :: _ :: _, [x, y, z] =>
        have h1 := hlt
        have h2 := hlo
        try simp only [hL, hO, List.length_cons, List.length_nil] at h1
        try simp only [hL, hO, List.length_cons, List.length_nil] at h2
        omega
      | a :: b :: c :: d :: rest, x :: y :: z :: w :: orest =>
        try simp only [hL, List.length_cons, List.length_nil] at hlt
        have hj : ¬ (i + 2 == tmp.length - 1) = true := by
          simp only [beq_iff_eq]; omega
        rw [if_neg hj]
        have hji : i + 2 - i = 2 := by omega
        rw [hji]
        have hL2 := drop_two_eq tmp i a b _ hL
        have hO2 := drop_two_eq off i x y _ hO
        simp only [List.take, List.zip_cons_cons, List.zip_nil_left, pairUp, mergeGroups]
        cases merge_postlists cd top fuel [(a, x), (b, y)] 0 with
        | error e => rfl
        | ok adds =>
          dsimp only
          rw [ih (i + 2) _ (by omega) (by omega) (by omega), hL2, hO2]
          simp only [List.zip, List.zipWith]
          cases mergeGroups cd top fuel (pairUp ((c, z) :: (d, w) :: List.zipWith Prod.mk rest orest)) with
          | error e => rfl
          | ok tables => simp
    · rw [if_neg hlast]
      have hi2 : i = tmp.length := by omega
      subst hi2
      simp [pairUp, mergeGroups]

theorem mergeGroups_length (cd : Codec)
    (top : List PostlistCursor → Option (PostlistCursor × List PostlistCursor)) (fuel : Nat) :
    ∀ (gs : List (List (List (Bytes × Bytes) × Nat))) (tables : List (List (Bytes × Bytes))),
      mergeGroups cd top fuel gs = Except.ok tables → tables.length = gs.length := by
  intro gs
  induction gs with
  | nil => intro tables h; simp only [mergeGroups, Except.ok.injEq] at h; subst h; rfl
  | cons g gs ih =>
    intro tables h
    simp only [mergeGroups] at h
    cases hm : merge_postlists cd top fuel g 0 with
    | error e => rw [hm] at h; simp at h
    | ok adds =>
      rw [hm] at h
      dsimp only at h
      cases hg : mergeGroups cd top fuel gs with
      | error e => rw [hg] at h; simp at h
      | ok ts =>
        rw [hg] at h
        simp only [Except.ok.injEq] at h
        rw [← h, List.length_cons, ih ts hg, List.length_cons]

/-- One turn of the loop `while (tmp.size() > 3)`: a pass over the groups, then
the same again on the temporary tables with offsets of 0. -/
theorem multimerge_unroll (cd : Codec)
    (top : List PostlistCursor → Option (PostlistCursor × List PostlistCursor))
    (fuel tot_off steps : Nat) (tmp : List (List (Bytes × Bytes))) (off : List Nat)
    (hlen : off.length = tmp.length) (hn : 3 < tmp.length) (hsteps : tmp.length ≤ steps) :
    multimerge_postlists cd top fuel tot_off (steps + 1) tmp off =
      match mergeGroups cd top fuel (pairUp (tmp.zip off)) with
      | Except.error e => some (Except.error e)
      | Except.ok tmpout =>
        multimerge_postlists cd top fuel tot_off steps tmpout (List.replicate (tmp.length / 2) 0) := by
  rw [multimerge_postlists, if_pos hn]
  dsimp only
  rw [passLoop_eq cd top fuel tmp off hlen steps 0 [] (by omega) (by omega) (by omega)]
  simp only [List.drop_zero, List.nil_append]
  cases mergeGroups cd top fuel (pairUp (tmp.zip off)) with
  | error e => rfl
  | ok tables => rfl

/-- With more steps than inputs the loop `while (tmp.size() > 3)` ends. -/
theorem multimerge_ends (cd : Codec)
    (top : List PostlistCursor → Option (PostlistCursor × List PostlistCursor))
    (fuel tot_off : Nat) :
    ∀ (steps : Nat) (tmp : List (List (Bytes × Bytes))) (off : List Nat),
      off.length = tmp.length → tmp.length < steps →
      (multimerge_postlists cd top fuel tot_off steps tmp off).isSome = true := by
  intro steps
  induction steps with
  | zero => intro tmp off _ h; omega
  | succ s ih =>
    intro tmp off hlen hs
    by_cases hn : 3 < tmp.length
    · rw [multimerge_unroll cd top fuel tot_off s tmp off hlen hn (by omega)]
      cases hg : mergeGroups cd top fuel (pairUp (tmp.zip off)) with
      | error e => rfl
      | ok tables =>
        dsimp only
        have hl := mergeGroups_length cd top fuel _ _ hg
        have hz : (tmp.zip off).length = tmp.length := by
          rw [List.length_zip, hlen, Nat.min_self]
        have hp := (pairUp_spec tmp.length (tmp.zip off) hz (by omega)).2.1
        apply ih
        · rw [List.length_replicate, hl, hp]
        · rw [hl, hp]; omega
    · unfold multimerge_postlists
      rw [if_neg (by omega)]
      rfl

/-- C14: for more than three input tables, a pass of `multimerge_postlists`
merges the groups `pairUp` of consecutive inputs, each with `merge_postlists`
into one temporary table: the groups put end to end are the inputs, there are
half as many groups as inputs (rounded down), every group but the last is a
pair, and the last is a pair or, for an odd number of inputs, a triple. The
loop then goes on with the temporary tables, half as many as the inputs, and
with offsets of 0, so that the offsets of the sources are used in the first
pass only; with at most three inputs it merges them into the output table
with `tot_off`; and it ends. -/
theorem multimerge_passes (cd : Codec)
    (top : List PostlistCursor → Option (PostlistCursor × List PostlistCursor))
    (fuel tot_off steps : Nat) (tmp : List (List (Bytes × Bytes))) (off : List Nat)
    (hlen : off.length = tmp.length) (hn : 3 < tmp.length) (hsteps : tmp.length ≤ steps) :
    ((pairUp (tmp.zip off)).flatten = tmp.zip off ∧
      (pairUp (tmp.zip off)).length = tmp.length / 2 ∧
      (∀ g ∈ (pairUp (tmp.zip off)).dropLast, g.length = 2) ∧
      (pairUp (tmp.zip off)).getLast?.map List.length = some (2 + tmp.length % 2)) ∧
    passLoop cd top fuel tmp off steps 0 [] =
      some (mergeGroups cd top fuel (pairUp (tmp.zip off))) ∧
    (∀ tmpout, mergeGroups cd top fuel (pairUp (tmp.zip off)) = Except.ok tmpout →
      tmpout.length = tmp.length / 2 ∧
      multimerge_postlists cd top fuel tot_off (steps + 1) tmp off =
        multimerge_postlists cd top fuel tot_off steps tmpout
          (List.replicate (tmp.length / 2) 0)) ∧
    (∀ e, mergeGroups cd top fuel (pairUp (tmp.zip off)) = Except.error e →
      multimerge_postlists cd top fuel tot_off (steps + 1) tmp off = some (Except.error e)) ∧
    (∀ (tmp1 : List (List (Bytes × Bytes))) (off1 : List Nat), tmp1.length ≤ 3 →
      multimerge_postlists cd top fuel tot_off (steps + 1) tmp1 off1 =
        some (merge_postlists cd top fuel (tmp1.zip off1) tot_off)) ∧
    (multimerge_postlists cd top fuel tot_off (steps + 1) tmp off).isSome = true := by
  have hz : (tmp.zip off).length = tmp.length := by
    rw [List.length_zip, hlen, Nat.min_self]
  have hp := pairUp_spec tmp.length (tmp.zip off) hz (by omega)
  have hun := multimerge_unroll cd top fuel tot_off steps tmp off hlen hn hsteps
  refine ⟨hp, ?_, ?_, ?_, ?_, multimerge_ends cd top fuel tot_off _ tmp off hlen (by omega)⟩
  · rw [passLoop_eq cd top fuel tmp off hlen steps 0 [] (by omega) (by omega) (by omega)]
    simp only [List.drop_zero, List.nil_append]
    cases mergeGroups cd top fuel (pairUp (tmp.zip off)) with
    | error e => rfl
    | ok tables => rfl
  · intro tmpout hg
    rw [hg] at hun
    exact ⟨by rw [mergeGroups_length cd top fuel _ _ hg, hp.2.1], hun⟩
  · intro e hg
    rw [hg] at hun
    exact hun
  · intro tmp1 off1 h3
    unfold multimerge_postlists
    rw [if_neg (by omega)]

/-- Five tables are merged as a pair and a triple into two temporary tables,
and these into the output. -/
theorem multimerge_passes_witness :
    ([0, 1, 2, 3, 4].length = exampleFive.length ∧ 3 < exampleFive.length ∧
      exampleFive.length ≤ 5) ∧
    (pairUp (exampleFive.zip [0, 1, 2, 3, 4])).map (fun g => g.map (fun s => s.2)) =
      [[0, 1], [2, 3, 4]] ∧
    multimerge_postlists flintCodec popMin 10 7 6 exampleFive [0, 1, 2, 3, 4] =
      some (Except.ok [([0], [7, 233, 1]), ([97, 0, 0], [2, 2, 1, 48, 97]),
        ([97, 0, 0, 1, 4], [49, 97]), ([98, 0, 0], [2, 2, 0, 48, 98]),
        ([98, 0, 0, 1, 5], [49, 98]), ([99, 0, 0], [1, 1, 2, 49, 99])]) ∧
    (pairUp (exampleFive.zip [0, 1, 2, 3, 4])).length = exampleFive.length / 2 :=
  ⟨⟨rfl, by decide, by decide⟩, rfl, rfl,
    (multimerge_passes flintCodec popMin 10 7 5 exampleFive [0, 1, 2, 3, 4] rfl (by decide)
      (by decide)).1.2.1⟩

end Compact

/-! ## Theorems: the options of `xapian-compact` -/

namespace Compact

/-- The test `(n & (n - 1)) == 0` holds of the powers of two only. -/
theorem land_pred_eq_zero_iff : ∀ n : Nat, 1 ≤ n → ((n &&& (n - 1)) = 0 ↔ ∃ k, n = 2 ^ k) := by
  intro n
  induction n using Nat.strong_induction_on with
  | _ n ih =>
    intro hn
    have hsplit : (n &&& (n - 1)) = 0 ↔ (n / 2 &&& (n - 1) / 2) = 0 := by
      have h2 : (n &&& (n - 1)) % 2 = 0 := by
        have := @Nat.and_mod_two_eq_one n (n - 1)
        have hne : ¬ (n % 2 = 1 ∧ (n - 1) % 2 = 1) := by omega
        have hmod : (n &&& (n - 1)) % 2 ≠ 1 := fun h => hne (this.1 h)
        omega
      have h3 : (n &&& (n - 1)) / 2 = n / 2 &&& (n - 1) / 2 := Nat.and_div_two
      constructor
      · intro h
        rw [← h3, h]
      · intro h
        rw [← h3] at h
        omega
    rw [hsplit]
    rcases Nat.even_or_odd' n with ⟨m, rfl | rfl⟩
    · -- n = 2 * m
      have hm : 1 ≤ m := by omega
      have e1 : 2 * m / 2 = m := by omega
      have e2 : (2 * m - 1) / 2 = m - 1 := by omega
      rw [e1, e2, ih m (by omega) hm]
      constructor
      · rintro ⟨k, rfl⟩
        exact ⟨k + 1, by rw [pow_succ]; omega⟩
      · rintro ⟨k, hk⟩
        cases k with
        | zero => simp at hk
        | succ j =>
          refine ⟨j, ?_⟩
          rw [pow_succ] at hk
          omega
    · -- n = 2 * m + 1
      have e1 : (2 * m + 1) / 2 = m := by omega
      have e2 : (2 * m + 1 - 1) / 2 = m := by omega
      rw [e1, e2, Nat.and_self]
      constructor
      · intro h
        subst h
        exact ⟨0, rfl⟩
      · rintro ⟨k, hk⟩
        cases k with
        | zero => simp at hk; omega
        | succ j =>
          rw [pow_succ] at hk
          omega

theorem scanDigits_decimal (suffix : List Char)
    (hs : ∀ c, suffix.head? = some c → c.isDigit = false) :
    ∀ (ds : List Char) (acc : Nat) (any : Bool), (∀ c ∈ ds, c.isDigit = true) →
      scanDigits (ds ++ suffix) acc any =
        (ds.foldl (fun acc c => 10 * acc + (c.toNat - '0'.toNat)) acc, suffix,
          any || !ds.isEmpty) := by
  intro ds
  induction ds with
  | nil =>
    intro acc any _
    cases suffix with
    | nil => simp [scanDigits]
    | cons c cs =>
      have := hs c rfl
      simp [scanDigits, this]
  | cons d ds ih =>
    intro acc any h
    have hd := h d (List.mem_cons_self _ _)
    rw [List.cons_append]
    unfold scanDigits
    rw [if_pos hd, ih _ _ (fun c hc => h c (List.mem_cons_of_mem _ hc))]
    simp

theorem isSpace_not_digit (c : Char) (h : c.isDigit = true) :
    isSpace c = false ∧ c ≠ '-' ∧ c ≠ '+' := by
  refine ⟨?_, ?_, ?_⟩
  · cases hsp : isSpace c with
    | false => rfl
    | true =>
      simp only [isSpace, Bool.or_eq_true, beq_iff_eq] at hsp
      rcases hsp with ((((rfl | rfl) | rfl) | rfl) | rfl) | rfl <;> exact absurd h (by decide)
  · rintro rfl; exact absurd h (by decide)
  · rintro rfl; exact absurd h (by decide)

/-- On a string that starts with decimal digits `strtoul` gives the number they
write, or the largest value when it does not fit, and the rest of the string. -/
theorem strtoul_decimal (bits : Nat) (ds suffix : List Char) (hds : IsDecimal ds)
    (hs : ∀ c, suffix.head? = some c → c.isDigit = false) :
    strtoul bits (ds ++ suffix) = (min (decimalValue ds) (2 ^ bits - 1), suffix) := by
  obtain ⟨hne, hdig⟩ := hds
  cases ds with
  | nil => exact absurd rfl hne
  | cons d rest =>
    obtain ⟨h1, h2, h3⟩ := isSpace_not_digit d (hdig d (List.mem_cons_self _ _))
    have hscan := scanDigits_decimal suffix hs (d :: rest) 0 false hdig
    have hpos : 0 < 2 ^ bits := Nat.pos_pow_of_pos _ (by decide)
    unfold strtoul
    have hsign : stripSign (d :: (rest ++ suffix)) = (false, d :: (rest ++ suffix)) := by
      unfold stripSign
      split
      · rename_i heq
        simp only [List.cons.injEq] at heq
        exact absurd heq.1 h2
      · rename_i heq
        simp only [List.cons.injEq] at heq
        exact absurd heq.1 h3
      · rfl
    simp only [List.cons_append, List.dropWhile_cons, h1, Bool.false_eq_true, if_false, hsign]
    simp only [List.cons_append] at hscan
    rw [hscan]
    · simp only [Bool.false_or, List.isEmpty_cons, Bool.not_false, decimalValue]
      by_cases hbig : 2 ^ bits ≤ List.foldl (fun acc c => 10 * acc + (c.toNat - '0'.toNat)) 0 (d :: rest)
      · rw [if_pos hbig]
        congr 1
        omega
      · rw [if_neg hbig]
        congr 1
        omega

/-- The option `-b` either gives a block size or ends `main` with status 1. -/
theorem blockSizeOption_cases (bits : Nat) (optarg : String) :
    (∃ size, blockSizeOption bits optarg = Except.ok size) ∨
      blockSizeOption bits optarg = Except.error (Stop.exit 1) := by
  unfold blockSizeOption
  generalize strtoul bits optarg.data = r
  obtain ⟨N, p⟩ := r
  dsimp only
  by_cases hK : (decide (N ≤ 64) && (p.head? == some 'K' || p.head? == some 'k')) = true
  · rw [if_pos hK]
    dsimp only
    split
    · exact Or.inr rfl
    · exact Or.inl ⟨_, rfl⟩
  · rw [if_neg hK]
    dsimp only
    split
    · exact Or.inr rfl
    · exact Or.inl ⟨_, rfl⟩

/-- The value that the option `-b` gives, in terms of what `strtoul` reads. -/
theorem blockSizeOption_iff (bits : Nat) (hbits : 17 ≤ bits) (optarg : String) (size : Nat) :
    blockSizeOption bits optarg = Except.ok size ↔
      ∃ N rest, strtoul bits optarg.data = (N, rest) ∧
        ((rest = [] ∧ size = N) ∨ ((rest = ['K'] ∨ rest = ['k']) ∧ size = N * 1024)) ∧
        (∃ k, size = 2 ^ k) ∧ 2048 ≤ size ∧ size ≤ 65536 := by
  have hpow : 65536 < 2 ^ bits := by
    calc 65536 < 2 ^ 17 := by norm_num
      _ ≤ 2 ^ bits := Nat.pow_le_pow_right (by decide) hbits
  unfold blockSizeOption
  generalize strtoul bits optarg.data = r
  obtain ⟨N, p⟩ := r
  dsimp only
  by_cases hK : (decide (N ≤ 64) && (p.head? == some 'K' || p.head? == some 'k')) = true
  · rw [if_pos hK]
    dsimp only
    simp only [Bool.and_eq_true, decide_eq_true_eq, Bool.or_eq_true, beq_iff_eq] at hK
    obtain ⟨h64, hhead⟩ := hK
    have hmod : N * 1024 % 2 ^ bits = N * 1024 := Nat.mod_eq_of_lt (by omega)
    rw [hmod]
    have hp : p ≠ [] := by
      intro e; subst e; simp at hhead
    have hptail : (p = ['K'] ∨ p = ['k']) ↔ p.tail = [] := by
      cases p with
      | nil => exact absurd rfl hp
      | cons c cs =>
        simp only [List.head?_cons, Option.some.injEq] at hhead
        simp only [List.cons.injEq, List.tail_cons]
        constructor
        · rintro (⟨_, h⟩ | ⟨_, h⟩) <;> exact h
        · intro h
          rcases hhead with rfl | rfl
          · exact Or.inl ⟨rfl, h⟩
          · exact Or.inr ⟨rfl, h⟩
    constructor
    · intro h
      split at h
      · cases h
      · rename_i hc
        simp only [Except.ok.injEq] at h
        simp only [Bool.or_eq_true, Bool.not_eq_true', decide_eq_true_eq, bne_iff_ne, ne_eq,
          not_or, Bool.not_eq_false, not_lt, not_not, List.isEmpty_iff] at hc
        obtain ⟨⟨⟨hc1, hc2⟩, hc3⟩, hc4⟩ := hc
        subst h
        exact ⟨N, p, rfl, Or.inr ⟨hptail.2 hc1, rfl⟩,
          (land_pred_eq_zero_iff _ (by omega)).1 hc4, hc2, hc3⟩
    · rintro ⟨N1, rest, heq, hform, hk, hlo, hhi⟩
      simp only [Prod.mk.injEq] at heq
      obtain ⟨rfl, rfl⟩ := heq
      rcases hform with ⟨h1, _⟩ | ⟨h1, h2⟩
      · exact absurd h1 hp
      · subst h2
        have hland := (land_pred_eq_zero_iff _ (by omega)).2 hk
        have ht := hptail.1 h1
        rw [if_neg]
        simp only [Bool.or_eq_true, Bool.not_eq_true', decide_eq_true_eq, bne_iff_ne, ne_eq,
          not_or, Bool.not_eq_false, not_lt, not_not, List.isEmpty_iff]
        exact ⟨⟨⟨ht, hlo⟩, hhi⟩, hland⟩
  · rw [if_neg hK]
    dsimp only
    simp only [Bool.and_eq_true, decide_eq_true_eq, Bool.or_eq_true, beq_iff_eq, not_and] at hK
    constructor
    · intro h
      split at h
      · cases h
      · rename_i hc
        simp only [Except.ok.injEq] at h
        simp only [Bool.or_eq_true, Bool.not_eq_true', decide_eq_true_eq, bne_iff_ne, ne_eq,
          not_or, Bool.not_eq_false, not_lt, not_not, List.isEmpty_iff] at hc
        obtain ⟨⟨⟨hc1, hc2⟩, hc3⟩, hc4⟩ := hc
        subst h
        exact ⟨N, p, rfl, Or.inl ⟨hc1, rfl⟩, (land_pred_eq_zero_iff _ (by omega)).1 hc4, hc2, hc3⟩
    · rintro ⟨N1, rest, heq, hform, hk, hlo, hhi⟩
      simp only [Prod.mk.injEq] at heq
      obtain ⟨rfl, rfl⟩ := heq
      rcases hform with ⟨h1, h2⟩ | ⟨h1, h2⟩
      · subst h2
        have hland := (land_pred_eq_zero_iff _ (by omega)).2 hk
        rw [if_neg]
        simp only [Bool.or_eq_true, Bool.not_eq_true', decide_eq_true_eq, bne_iff_ne, ne_eq,
          not_or, Bool.not_eq_false, not_lt, not_not, List.isEmpty_iff]
        exact ⟨⟨⟨h1, hlo⟩, hhi⟩, hland⟩
      · exfalso
        have h64 : N ≤ 64 := by omega
        have := hK h64
        rcases h1 with rfl | rfl <;> simp at this

/-- Options other than `-b` leave the block size as it is. -/
theorem readOptions_block_size (bits : Nat) :
    ∀ (opts : List CommandOption) (s s1 : Settings),
      (∀ o ∈ opts, ∀ a, o ≠ CommandOption.b a) →
      readOptions bits opts s = Except.ok s1 → s1.block_size = s.block_size := by
  intro opts
  induction opts with
  | nil =>
    intro s s1 _ h
    simp only [readOptions, Except.ok.injEq] at h
    rw [h]
  | cons o opts ih =>
    intro s s1 hno h
    have hrest : ∀ o ∈ opts, ∀ a, o ≠ CommandOption.b a :=
      fun o ho => hno o (List.mem_cons_of_mem _ ho)
    cases o with
    | b a => exact absurd rfl (hno _ (List.mem_cons_self _ _) a)
    | n => simp only [readOptions] at h; have e := ih _ _ hrest h; exact e
    | F => simp only [readOptions] at h; have e := ih _ _ hrest h; exact e
    | m => simp only [readOptions] at h; have e := ih _ _ hrest h; exact e
    | noRenumber => simp only [readOptions] at h; have e := ih _ _ hrest h; exact e
    | help => simp [readOptions] at h
    | version => simp [readOptions] at h
    | other => simp [readOptions] at h

/-- A string that does not start with a digit is not decimal digits with
something after them. -/
theorem not_decimal_of_head (s : List Char)
    (h : ∀ c, s.head? = some c → c.isDigit = false) :
    ∀ ds suffix, IsDecimal ds → s ≠ ds ++ suffix := by
  intro ds suffix hd e
  obtain ⟨hne, hdig⟩ := hd
  cases ds with
  | nil => exact absurd rfl hne
  | cons d ds =>
    have h1 := h d (by rw [e]; rfl)
    rw [hdig d (List.mem_cons_self _ _)] at h1
    exact absurd h1 (by simp)

/-- C16, as stated, fails: with a 64-bit `unsigned long` the arguments ` 2048`
(with a space in front), `+4K` and `-18446744073709549568` are accepted, with
the block sizes 2048, 4096 and 2048, and none of them is a decimal number
with or without something after it. -/
theorem blocksize_accepts_sign_and_space :
    blockSizeOption 64 " 2048" = Except.ok 2048 ∧
    blockSizeOption 64 "+4K" = Except.ok 4096 ∧
    blockSizeOption 64 "-18446744073709549568" = Except.ok 2048 ∧
    (∀ ds suffix, IsDecimal ds → " 2048".data ≠ ds ++ suffix) ∧
    (∀ ds suffix, IsDecimal ds → "+4K".data ≠ ds ++ suffix) ∧
    (∀ ds suffix, IsDecimal ds → "-18446744073709549568".data ≠ ds ++ suffix) :=
  ⟨rfl, rfl, rfl,
    not_decimal_of_head _ (by intro c hc; cases hc; rfl),
    not_decimal_of_head _ (by intro c hc; cases hc; rfl),
    not_decimal_of_head _ (by intro c hc; cases hc; rfl)⟩

/-- C16, amended: the argument of `-b` is accepted, with the block size `size`, exactly
when `strtoul` reads a number `N` from it and leaves nothing, with
`size = N`, or leaves a single `K` or `k`, with `size = N * 1024`, and `size` is
a power of two from 2048 to 65536; every other argument ends `main` with
status 1. On an argument that starts with decimal digits `strtoul` reads the
number they write (the largest `unsigned long` when it does not fit) and leaves
what follows the digits; before the digits it passes over white space and a
sign. Without the option `-b` the block size is 8192. -/
theorem blocksize_option (bits : Nat) (hbits : 17 ≤ bits) (optarg : String) :
    (∀ size, blockSizeOption bits optarg = Except.ok size ↔
      ∃ N rest, strtoul bits optarg.data = (N, rest) ∧
        ((rest = [] ∧ size = N) ∨ ((rest = ['K'] ∨ rest = ['k']) ∧ size = N * 1024)) ∧
        (∃ k, size = 2 ^ k) ∧ 2048 ≤ size ∧ size ≤ 65536) ∧
    ((¬ ∃ size, blockSizeOption bits optarg = Except.ok size) →
      blockSizeOption bits optarg = Except.error (Stop.exit 1)) ∧
    (∀ ds suffix, optarg.data = ds ++ suffix → IsDecimal ds →
      (∀ c, suffix.head? = some c → c.isDigit = false) →
      strtoul bits optarg.data = (min (decimalValue ds) (2 ^ bits - 1), suffix)) ∧
    readOptions bits [CommandOption.b optarg] Settings.initial =
      (match blockSizeOption bits optarg with
        | Except.error e => Except.error e
        | Except.ok size => Except.ok { Settings.initial with block_size := size }) ∧
    (∀ opts s, (∀ o ∈ opts, ∀ a, o ≠ CommandOption.b a) →
      readOptions bits opts Settings.initial = Except.ok s → s.block_size = 8192) := by
  refine ⟨fun size => blockSizeOption_iff bits hbits optarg size, ?_, ?_, ?_, ?_⟩
  · intro h
    rcases blockSizeOption_cases bits optarg with h1 | h1
    · exact absurd h1 h
    · exact h1
  · intro ds suffix hd hds hs
    rw [hd]
    exact strtoul_decimal bits ds suffix hds hs
  · rfl
  · intro opts s hno h
    exact readOptions_block_size bits opts _ s hno h

/-- With a 64-bit `unsigned long`, `8K` gives a block size of 8192, `3000` and
`128K` end `main` with status 1, and the options `-m --no-renumber` leave
8192. -/
theorem blocksize_option_witness :
    17 ≤ 64 ∧
    blockSizeOption 64 "8K" = Except.ok 8192 ∧
    blockSizeOption 64 "3000" = Except.error (Stop.exit 1) ∧
    blockSizeOption 64 "128K" = Except.error (Stop.exit 1) ∧
    (readOptions 64 [CommandOption.m, CommandOption.noRenumber] Settings.initial).toOption.map
      (fun s => s.block_size) = some 8192 ∧
    ∃ N rest, strtoul 64 "8K".data = (N, rest) ∧
      ((rest = [] ∧ 8192 = N) ∨ ((rest = ['K'] ∨ rest = ['k']) ∧ 8192 = N * 1024)) ∧
      (∃ k, 8192 = 2 ^ k) ∧ 2048 ≤ 8192 ∧ 8192 ≤ 65536 :=
  ⟨by decide, rfl, rfl, rfl, rfl,
    ((blocksize_option 64 (by decide) "8K").1 8192).1 rfl⟩

end Compact

/-! ## Theorems: `merge_spellings` -/

namespace Compact

set_option maxRecDepth 100000

theorem top_some {α : Type} {gt : α → α → Bool} {top : List α → Option (α × List α)}
    (h : IsPriorityQueueOf gt top) {pq : List α} {c : α} {rest : List α}
    (e : top pq = some (c, rest)) : (c :: rest).Perm pq ∧ ∀ d ∈ rest, gt c d = false := by
  have hne : pq ≠ [] := by
    intro h0
    rw [h0, h.1] at e
    exact absurd e (by simp)
  obtain ⟨c1, rest1, e1, hp, hm⟩ := h.2 pq hne
  rw [e] at e1
  simp only [Option.some.injEq, Prod.mk.injEq] at e1
  obtain ⟨rfl, rfl⟩ := e1
  exact ⟨hp, hm⟩

theorem top_none {α : Type} {gt : α → α → Bool} {top : List α → Option (α × List α)}
    (h : IsPriorityQueueOf gt top) {pq : List α} (e : top pq = none) : pq = [] := by
  by_contra hne
  obtain ⟨c1, rest1, e1, _, _⟩ := h.2 pq hne
  rw [e] at e1
  exact absurd e1 (by simp)

theorem strLess_nil_false (x : Bytes) : strLess x [] = false := by
  unfold strLess
  cases x <;> rfl

theorem strLess_nil_eq {x : Bytes} (h : strLess [] x = false) : x = [] := by
  cases x with
  | nil => rfl
  | cons b y => exact absurd h (by simp [strLess, QueryParser.lexLt])

theorem strLess_of_ne {a b : Bytes} (h : strLess b a = false) (hne : a ≠ b) :
    strLess a b = true := by
  cases h1 : strLess a b
  · exact absurd (strLess_strictTotal.total _ _ h1 h) hne
  · rfl

theorem strLess_asymm {a b : Bytes} (h : strLess a b = true) : strLess b a = false := by
  cases h1 : strLess b a
  · rfl
  · have := strLess_strictTotal.trans _ _ _ h h1
    rw [strLess_strictTotal.irrefl] at this
    exact absurd this (by decide)

theorem strLess_ne {a b : Bytes} (h : strLess a b = true) : a ≠ b := by
  intro e
  rw [e, strLess_strictTotal.irrefl] at h
  exact absurd h (by decide)

theorem incr_none {it : PrefixCompressedStringItor} (hp : it.p = none)
    : it.incr = Except.ok { it with p := none } := by
  unfold PrefixCompressedStringItor.incr
  rw [hp]

theorem incr_size {it next : PrefixCompressedStringItor} (h : it.incr = Except.ok next)
    (hn : next.p ≠ none) : itorSize next < itorSize it := by
  unfold PrefixCompressedStringItor.incr at h
  cases hp : it.p with
  | none =>
    rw [hp] at h
    simp only [Except.ok.injEq] at h
    rw [← h] at hn
    exact absurd rfl hn
  | some bs =>
    rw [hp] at h
    cases bs with
    | nil =>
      simp only [Except.ok.injEq] at h
      rw [← h] at hn
      exact absurd rfl hn
    | cons b bs =>
      simp only at h
      have hlen : (if (!it.current.isEmpty) = true then
          (resize it.current (b ^^^ MAGIC_XOR_VALUE), bs) else (it.current, b :: bs)).2.length ≤
            bs.length + 1 := by
        split <;> simp
      generalize (if (!it.current.isEmpty) = true then
          (resize it.current (b ^^^ MAGIC_XOR_VALUE), bs) else (it.current, b :: bs)) = st at h hlen
      cases hst : st.2 with
      | nil => rw [hst] at h; simp at h
      | cons a p =>
        rw [hst] at h hlen
        simp only at h
        split at h
        · simp at h
        · simp only [Except.ok.injEq] at h
          rw [← h]
          unfold itorSize
          rw [hp]
          simp only [List.length_drop, List.length_cons] at hlen ⊢
          omega

theorem decodes_det : ∀ {it : PrefixCompressedStringItor} {a b : List Bytes},
    Decodes it a → Decodes it b → a = b := by
  intro it a b ha
  induction ha generalizing b with
  | done it hp =>
    intro hb
    cases hb with
    | done _ _ => rfl
    | more _ _ _ hp2 _ _ => exact absurd hp hp2
  | more it next ws hp hi _ ih =>
    intro hb
    cases hb with
    | done _ hp2 => exact absurd hp2 hp
    | more _ next2 ws2 _ hi2 hd2 =>
      rw [hi] at hi2
      simp only [Except.ok.injEq] at hi2
      subst hi2
      rw [ih hd2]

theorem decodes_none {it : PrefixCompressedStringItor} {ws : List Bytes} (h : Decodes it ws)
    (hp : it.p = none) : ws = [] := decodes_det h (Decodes.done it hp)

theorem decodes_some {it : PrefixCompressedStringItor} {ws : List Bytes} (h : Decodes it ws)
    (hp : it.p ≠ none) : ∃ l, ws = it.current :: l := by
  cases h with
  | done _ hp2 => exact absurd hp2 hp
  | more _ _ l _ _ _ => exact ⟨l, rfl⟩

theorem wordsFrom_decodes : ∀ (fuel : Nat) (it : PrefixCompressedStringItor) (ws : List Bytes),
    wordsFrom fuel it = some ws → Decodes it ws := by
  intro fuel
  induction fuel with
  | zero => intro it ws h; simp [wordsFrom] at h
  | succ f ih =>
    intro it ws h
    unfold wordsFrom at h
    by_cases he : it.at_end = true
    · rw [if_pos he] at h
      simp only [Option.some.injEq] at h
      subst h
      refine Decodes.done it ?_
      unfold PrefixCompressedStringItor.at_end at he
      cases hp : it.p with
      | none => rfl
      | some _ => rw [hp] at he; simp at he
    · rw [if_neg he] at h
      have hp : it.p ≠ none := by
        intro hp
        unfold PrefixCompressedStringItor.at_end at he
        rw [hp] at he
        simp at he
      cases hi : it.incr with
      | error e => rw [hi] at h; simp at h
      | ok next =>
        rw [hi] at h
        simp only [Option.map_eq_some'] at h
        obtain ⟨l, hl, rfl⟩ := h
        exact Decodes.more it next l hp hi (ih next l hl)

theorem incr_error {it : PrefixCompressedStringItor} {e : MergeError}
    (h : it.incr = Except.error e) :
    e = MergeError.corrupt "Bad spelling data (too little left)" := by
  unfold PrefixCompressedStringItor.incr at h
  cases hp : it.p with
  | none => rw [hp] at h; simp at h
  | some bs =>
    rw [hp] at h
    cases bs with
    | nil => simp at h
    | cons b bs =>
      simp only at h
      generalize (if (!it.current.isEmpty) = true then
          (resize it.current (b ^^^ MAGIC_XOR_VALUE), bs) else (it.current, b :: bs)) = st at h
      cases hst : st.2 with
      | nil =>
        rw [hst] at h
        simp only [Except.error.injEq] at h
        exact h.symm
      | cons a p =>
        rw [hst] at h
        simp only at h
        split at h
        · simp only [Except.error.injEq] at h
          exact h.symm
        · simp at h

theorem at_end_iff (it : PrefixCompressedStringItor) : it.at_end = true ↔ it.p = none := by
  unfold PrefixCompressedStringItor.at_end
  cases it.p <;> simp

/-- The queue of iterators after a turn of the word loop. -/
theorem wordLoop_step
    (toptag : List PrefixCompressedStringItor →
      Option (PrefixCompressedStringItor × List PrefixCompressedStringItor))
    (fuel : Nat) (pqtag others : List PrefixCompressedStringItor)
    (it next : PrefixCompressedStringItor) (wr : PrefixCompressedStringWriter) (last : Bytes)
    (ht : toptag pqtag = some (it, others)) (hi : it.incr = Except.ok next) :
    wordLoop toptag (fuel + 1) pqtag wr last =
      wordLoop toptag fuel (if next.p = none then others else others ++ [next])
        (if it.current ≠ last then wr.append it.current else wr)
        (if it.current ≠ last then it.current else last) := by
  rw [wordLoop, ht]
  simp only [hi]
  by_cases hp : next.p = none
  · rw [if_neg (by rw [(at_end_iff next).2 hp]; decide), if_pos hp]
  · have : next.at_end = false := by
      cases h : next.at_end
      · rfl
      · exact absurd ((at_end_iff next).1 h) hp
    rw [if_pos (by rw [this]; rfl), if_neg hp]

theorem wordLoop_error
    (toptag : List PrefixCompressedStringItor →
      Option (PrefixCompressedStringItor × List PrefixCompressedStringItor))
    (h : IsPriorityQueueOf PrefixCompressedStringItorGt toptag) :
    ∀ (fuel : Nat) (pqtag : List PrefixCompressedStringItor) (wr : PrefixCompressedStringWriter)
      (last : Bytes) (e : MergeError), (pqtag.map itorSize).sum < fuel →
      wordLoop toptag fuel pqtag wr last = Except.error e →
      e = MergeError.corrupt "Bad spelling data (too little left)" := by
  intro fuel
  induction fuel with
  | zero => intro pqtag wr last e hs; omega
  | succ f ih =>
    intro pqtag wr last e hs he
    cases ht : toptag pqtag with
    | none =>
      rw [wordLoop, ht] at he
      simp at he
    | some r =>
      obtain ⟨it, others⟩ := r
      obtain ⟨hperm, _⟩ := top_some h ht
      have hsum : (pqtag.map itorSize).sum = itorSize it + (others.map itorSize).sum := by
        rw [← (hperm.map itorSize).sum_eq]
        simp
      cases hi : it.incr with
      | error e1 =>
        rw [wordLoop, ht] at he
        simp only [hi, Except.error.injEq] at he
        rw [← he]
        exact incr_error hi
      | ok next =>
        rw [wordLoop_step toptag f pqtag others it next wr last ht hi] at he
        refine ih _ _ _ e ?_ he
        by_cases hp : next.p = none
        · rw [if_pos hp]
          have : 1 ≤ itorSize it := by unfold itorSize; split <;> omega
          omega
        · rw [if_neg hp]
          have := incr_size hi hp
          simp only [List.map_append, List.sum_append, List.map_cons, List.map_nil, List.sum_cons,
            List.sum_nil]
          omega

theorem ascending_cons_trans {a b : Bytes} {ws : List Bytes} (hab : strLess a b = true)
    (h : Ascending (b :: ws)) : Ascending (a :: b :: ws) := by
  unfold Ascending at h ⊢
  rw [List.pairwise_cons] at h ⊢
  refine ⟨?_, List.pairwise_cons.2 h⟩
  intro x hx
  rcases List.mem_cons.1 hx with rfl | hx
  · exact hab
  · exact strLess_strictTotal.trans _ _ _ hab (h.1 x hx)

theorem wordLoop_spec
    (toptag : List PrefixCompressedStringItor →
      Option (PrefixCompressedStringItor × List PrefixCompressedStringItor))
    (h : IsPriorityQueueOf PrefixCompressedStringItorGt toptag) :
    ∀ (fuel : Nat) (pqtag : List PrefixCompressedStringItor) (wr : PrefixCompressedStringWriter)
      (last : Bytes), (pqtag.map itorSize).sum < fuel → (∀ it ∈ pqtag, ValidItor it) →
      (∀ it ∈ pqtag, strLess it.current last = false) →
      ∃ ws, wordLoop toptag fuel pqtag wr last =
          Except.ok (ws.foldl PrefixCompressedStringWriter.append wr) ∧
        Ascending (last :: ws) ∧
        ∀ w, w ∈ ws ↔ (w ≠ last ∧ ∃ it ∈ pqtag, ∃ l, Decodes it l ∧ w ∈ l) := by
  intro fuel
  induction fuel with
  | zero => intro pqtag wr last hs; omega
  | succ f ih =>
    intro pqtag wr last hs hv hge
    cases ht : toptag pqtag with
    | none =>
      have := top_none h ht
      subst this
      refine ⟨[], ?_, ?_, ?_⟩
      · rw [wordLoop, ht]
        rfl
      · unfold Ascending
        simp
      · intro w
        simp
    | some r =>
      obtain ⟨it, others⟩ := r
      obtain ⟨hperm, hmin⟩ := top_some h ht
      have hsum : (pqtag.map itorSize).sum = itorSize it + (others.map itorSize).sum := by
        rw [← (hperm.map itorSize).sum_eq]
        simp
      have hmem : ∀ x, x ∈ pqtag ↔ x = it ∨ x ∈ others := by
        intro x
        rw [← hperm.mem_iff, List.mem_cons]
      obtain ⟨l, hdec, hasc, hend⟩ := hv it ((hmem it).2 (Or.inl rfl))
      have hitlast := hge it ((hmem it).2 (Or.inl rfl))
      cases hdec with
      | done _ hp =>
        -- an iterator over an empty tag
        have hcur := hend hp
        have hlast : last = [] := by
          rw [hcur] at hitlast
          exact strLess_nil_eq hitlast
        rw [wordLoop_step toptag f pqtag others it _ wr last ht (incr_none hp)]
        simp only [if_true, hcur, hlast, ne_eq, not_true_eq_false, if_false]
        obtain ⟨ws, h1, h2, h3⟩ := ih others wr [] (by
            have : 1 ≤ itorSize it := by unfold itorSize; split <;> omega
            omega)
          (fun x hx => hv x ((hmem x).2 (Or.inr hx)))
          (fun x _ => strLess_nil_false _)
        refine ⟨ws, h1, h2, ?_⟩
        intro w
        rw [h3 w]
        constructor
        · rintro ⟨hw, x, hx, l1, hl1, hwl⟩
          exact ⟨hw, x, (hmem x).2 (Or.inr hx), l1, hl1, hwl⟩
        · rintro ⟨hw, x, hx, l1, hl1, hwl⟩
          rcases (hmem x).1 hx with rfl | hx
          · rw [decodes_none hl1 hp] at hwl
            simp at hwl
          · exact ⟨hw, x, hx, l1, hl1, hwl⟩
      | more _ next l1 hp hi hd1 =>
        have hasc1 : Ascending l1 := (List.pairwise_cons.1 hasc).2
        rw [wordLoop_step toptag f pqtag others it next wr last ht hi]
        have hlast' : (if it.current ≠ last then it.current else last) = it.current := by
          by_cases hw : it.current = last
          · rw [if_neg (by simpa using hw)]; exact hw.symm
          · rw [if_pos hw]
        rw [hlast']
        -- the queue after the step
        have hsize : ((if next.p = none then others else others ++ [next]).map itorSize).sum <
            f := by
          by_cases hp1 : next.p = none
          · rw [if_pos hp1]
            have : 1 ≤ itorSize it := by unfold itorSize; split <;> omega
            omega
          · rw [if_neg hp1]
            have := incr_size hi hp1
            simp only [List.map_append, List.sum_append, List.map_cons, List.map_nil,
              List.sum_cons, List.sum_nil]
            omega
        have hmem' : ∀ x, x ∈ (if next.p = none then others else others ++ [next]) →
            x ∈ others ∨ (x = next ∧ next.p ≠ none) := by
          intro x hx
          by_cases hp1 : next.p = none
          · rw [if_pos hp1] at hx; exact Or.inl hx
          · rw [if_neg hp1] at hx
            rcases List.mem_append.1 hx with hx | hx
            · exact Or.inl hx
            · exact Or.inr ⟨by simpa using hx, hp1⟩
        have hvalid : ∀ x ∈ (if next.p = none then others else others ++ [next]),
            ValidItor x := by
          intro x hx
          rcases hmem' x hx with hx | ⟨rfl, hp1⟩
          · exact hv x ((hmem x).2 (Or.inr hx))
          · exact ⟨l1, hd1, hasc1, fun e => absurd e hp1⟩
        have hge' : ∀ x ∈ (if next.p = none then others else others ++ [next]),
            strLess x.current it.current = false := by
          intro x hx
          rcases hmem' x hx with hx | ⟨rfl, hp1⟩
          · exact hmin x hx
          · obtain ⟨l2, rfl⟩ := decodes_some hd1 hp1
            exact strLess_asymm ((List.pairwise_cons.1 hasc).1 _ (List.mem_cons_self _ _))
        obtain ⟨ws, h1, h2, h3⟩ := ih _ (if it.current ≠ last then wr.append it.current else wr)
          it.current hsize hvalid hge'
        have hstream : ∀ w, (∃ x ∈ (if next.p = none then others else others ++ [next]),
            ∃ l, Decodes x l ∧ w ∈ l) ↔ (w ∈ l1 ∨ ∃ x ∈ others, ∃ l, Decodes x l ∧ w ∈ l) := by
          intro w
          constructor
          · rintro ⟨x, hx, l2, hl2, hw⟩
            rcases hmem' x hx with hx | ⟨rfl, _⟩
            · exact Or.inr ⟨x, hx, l2, hl2, hw⟩
            · rw [decodes_det hl2 hd1] at hw
              exact Or.inl hw
          · rintro (hw | ⟨x, hx, l2, hl2, hw⟩)
            · have hp1 : next.p ≠ none := by
                intro hp1
                rw [decodes_none hd1 hp1] at hw
                simp at hw
              refine ⟨next, ?_, l1, hd1, hw⟩
              rw [if_neg hp1]
              simp
            · refine ⟨x, ?_, l2, hl2, hw⟩
              by_cases hp1 : next.p = none
              · rw [if_pos hp1]; exact hx
              · rw [if_neg hp1]; exact List.mem_append_left _ hx
        have hall : ∀ w, (∃ x ∈ pqtag, ∃ l, Decodes x l ∧ w ∈ l) ↔
            (w = it.current ∨ w ∈ l1 ∨ ∃ x ∈ others, ∃ l, Decodes x l ∧ w ∈ l) := by
          intro w
          constructor
          · rintro ⟨x, hx, l2, hl2, hw⟩
            rcases (hmem x).1 hx with rfl | hx
            · rw [decodes_det hl2 (Decodes.more _ next l1 hp hi hd1)] at hw
              rcases List.mem_cons.1 hw with hw | hw
              · exact Or.inl hw
              · exact Or.inr (Or.inl hw)
            · exact Or.inr (Or.inr ⟨x, hx, l2, hl2, hw⟩)
          · rintro (rfl | hw | ⟨x, hx, l2, hl2, hw⟩)
            · exact ⟨it, (hmem it).2 (Or.inl rfl), _, Decodes.more _ next l1 hp hi hd1,
                List.mem_cons_self _ _⟩
            · exact ⟨it, (hmem it).2 (Or.inl rfl), _, Decodes.more _ next l1 hp hi hd1,
                List.mem_cons_of_mem _ hw⟩
            · exact ⟨x, (hmem x).2 (Or.inr hx), l2, hl2, hw⟩
        by_cases hw : it.current = last
        · -- a repeated word
          have hwr : (if it.current ≠ last then wr.append it.current else wr) = wr :=
            if_neg (not_not.2 hw)
          rw [hwr] at h1 ⊢
          refine ⟨ws, h1, by rw [← hw]; exact h2, ?_⟩
          intro w
          rw [h3 w, hstream w, hall w, ← hw]
          constructor
          · rintro ⟨h4, h5⟩
            exact ⟨h4, Or.inr h5⟩
          · rintro ⟨h4, h5 | h5⟩
            · exact absurd h5 h4
            · exact ⟨h4, h5⟩
        · -- a new word
          have hwr : (if it.current ≠ last then wr.append it.current else wr) =
              wr.append it.current := if_pos hw
          rw [hwr] at h1 ⊢
          have hlt : strLess last it.current = true := strLess_of_ne hitlast (Ne.symm hw)
          refine ⟨it.current :: ws, h1, ascending_cons_trans hlt h2, ?_⟩
          intro w
          rw [List.mem_cons, h3 w, hstream w, hall w]
          constructor
          · rintro (rfl | ⟨h4, h5⟩)
            · exact ⟨hw, Or.inl rfl⟩
            · refine ⟨?_, Or.inr h5⟩
              have hin : w ∈ ws := (h3 w).2 ⟨h4, (hstream w).2 h5⟩
              have := (List.pairwise_cons.1 h2).1 w hin
              exact Ne.symm (strLess_ne (strLess_strictTotal.trans _ _ _ hlt this))
          · rintro ⟨_, rfl | h5⟩
            · exact Or.inl rfl
            · by_cases h6 : w = it.current
              · exact Or.inl h6
              · exact Or.inr ⟨h6, h5⟩

theorem next_some {c d : MergeCursor} (h : c.next = some d) : c.rest = d.entries := by
  unfold MergeCursor.next at h
  cases hr : c.rest with
  | nil => rw [hr] at h; simp [MergeCursor.create] at h
  | cons e r =>
    rw [hr] at h
    obtain ⟨k, t⟩ := e
    simp only [MergeCursor.create, Option.some.injEq] at h
    subst h
    rfl

theorem next_none {c : MergeCursor} (h : c.next = none) : c.rest = [] := by
  unfold MergeCursor.next at h
  cases hr : c.rest with
  | nil => rfl
  | cons e r =>
    rw [hr] at h
    obtain ⟨k, t⟩ := e
    simp [MergeCursor.create] at h

theorem entriesOf_append (a b : List MergeCursor) :
    entriesOf (a ++ b) = entriesOf a ++ entriesOf b := by
  unfold entriesOf
  simp

theorem entriesOf_cons (c : MergeCursor) (pq : List MergeCursor) :
    entriesOf (c :: pq) = c.entries ++ entriesOf pq := by
  unfold entriesOf
  simp

theorem entriesOf_pushNext (pq : List MergeCursor) (c : MergeCursor) :
    entriesOf (pushNext pq c) = entriesOf pq ++ c.rest := by
  unfold pushNext
  cases h : c.next with
  | none => simp [next_none h]
  | some d =>
    simp only
    rw [entriesOf_append, next_some h]
    simp [entriesOf]

theorem entriesOf_perm {a b : List MergeCursor} (h : a.Perm b) :
    (entriesOf a).Perm (entriesOf b) := by
  unfold entriesOf
  exact h.flatMap_right _

theorem sorted_rest {c : MergeCursor} (h : SortedTable c.entries) :
    SortedTable c.rest ∧ ∀ e ∈ c.rest, strLess c.current_key e.1 = true := by
  unfold SortedTable Ascending MergeCursor.entries at h
  rw [List.map_cons, List.pairwise_cons] at h
  refine ⟨h.2, ?_⟩
  intro e he
  exact h.1 e.1 (List.mem_map_of_mem _ he)

theorem sorted_entries_ge {c : MergeCursor} (h : SortedTable c.entries) :
    ∀ e ∈ c.entries, strLess e.1 c.current_key = false := by
  intro e he
  rcases List.mem_cons.1 he with rfl | he
  · exact strLess_strictTotal.irrefl _
  · exact strLess_asymm ((sorted_rest h).2 e he)

theorem pushNext_sorted {pq : List MergeCursor} {c : MergeCursor}
    (hpq : ∀ d ∈ pq, SortedTable d.entries) (hc : SortedTable c.entries) :
    ∀ d ∈ pushNext pq c, SortedTable d.entries := by
  intro d hd
  unfold pushNext at hd
  cases h : c.next with
  | none => rw [h] at hd; exact hpq d hd
  | some n =>
    rw [h] at hd
    rcases List.mem_append.1 hd with hd | hd
    · exact hpq d hd
    · simp only [List.mem_singleton] at hd
      subst hd
      rw [← next_some h]
      exact (sorted_rest hc).1

theorem pushNext_key {pq : List MergeCursor} {c : MergeCursor} {key : Bytes}
    (hpq : ∀ d ∈ pq, strLess d.current_key key = false) (hc : SortedTable c.entries)
    (hk : c.current_key = key) :
    ∀ d ∈ pushNext pq c, strLess d.current_key key = false ∧
      (d.current_key = key → d ∈ pq) := by
  intro d hd
  unfold pushNext at hd
  cases h : c.next with
  | none => rw [h] at hd; exact ⟨hpq d hd, fun _ => hd⟩
  | some n =>
    rw [h] at hd
    rcases List.mem_append.1 hd with hd | hd
    · exact ⟨hpq d hd, fun _ => hd⟩
    · simp only [List.mem_singleton] at hd
      subst hd
      have : strLess key d.current_key = true := by
        rw [← hk]
        apply (sorted_rest hc).2 (d.current_key, d.current_tag)
        rw [next_some h]
        exact List.mem_cons_self _ _
      exact ⟨strLess_asymm this, fun e => absurd e.symm (strLess_ne this)⟩

theorem foldl_pushNext_entries (vec : List MergeCursor) :
    ∀ pq, entriesOf (vec.foldl pushNext pq) = entriesOf pq ++ vec.flatMap MergeCursor.rest := by
  induction vec with
  | nil => intro pq; simp
  | cons c vec ih =>
    intro pq
    rw [List.foldl_cons, ih, entriesOf_pushNext]
    simp

theorem foldl_pushNext_sorted (vec : List MergeCursor) :
    ∀ pq, (∀ d ∈ pq, SortedTable d.entries) → (∀ d ∈ vec, SortedTable d.entries) →
      ∀ d ∈ vec.foldl pushNext pq, SortedTable d.entries := by
  induction vec with
  | nil => intro pq h _; exact h
  | cons c vec ih =>
    intro pq h hv
    rw [List.foldl_cons]
    exact ih _ (pushNext_sorted h (hv c (List.mem_cons_self _ _)))
      (fun d hd => hv d (List.mem_cons_of_mem _ hd))

/-- The entries of a cursor on the key, apart from the entry it is on. -/
theorem filter_entries_same {c : MergeCursor} {key : Bytes} (h : SortedTable c.entries)
    (hk : c.current_key = key) :
    c.entries.filter (fun e => e.1 ≠ key) = c.rest ∧
      tagsIn c.entries key = [c.current_tag] := by
  have hr := (sorted_rest h).2
  rw [hk] at hr
  have h1 : c.rest.filter (fun e => e.1 ≠ key) = c.rest := by
    rw [List.filter_eq_self]
    intro e he
    simpa using Ne.symm (strLess_ne (hr e he))
  have h2 : c.rest.filter (fun e => e.1 = key) = [] := by
    rw [List.filter_eq_nil_iff]
    intro e he
    simpa using Ne.symm (strLess_ne (hr e he))
  unfold tagsIn MergeCursor.entries
  rw [List.filter_cons, List.filter_cons, h1, h2]
  simp [hk]

/-- The entries of a cursor that is past the key. -/
theorem filter_entries_greater {c : MergeCursor} {key : Bytes} (h : SortedTable c.entries)
    (hk : strLess key c.current_key = true) :
    c.entries.filter (fun e => e.1 ≠ key) = c.entries ∧ tagsIn c.entries key = [] := by
  have hall : ∀ e ∈ c.entries, e.1 ≠ key := by
    intro e he
    have h1 := sorted_entries_ge h e he
    intro e1
    rw [e1, hk] at h1
    exact absurd h1 (by decide)
  constructor
  · rw [List.filter_eq_self]
    intro e he
    simpa using hall e he
  · unfold tagsIn
    rw [List.map_eq_nil_iff, List.filter_eq_nil_iff]
    intro e he
    simpa using hall e he

theorem tagsIn_append (a b : List (Bytes × Bytes)) (key : Bytes) :
    tagsIn (a ++ b) key = tagsIn a key ++ tagsIn b key := by
  unfold tagsIn
  simp

theorem tagsIn_perm {a b : List (Bytes × Bytes)} (h : a.Perm b) (key : Bytes) :
    (tagsIn a key).Perm (tagsIn b key) := by
  unfold tagsIn
  exact (h.filter _).map _

/-- The entries and the tags of the key for cursors past the key. -/
theorem entries_greater {key : Bytes} : ∀ (pq : List MergeCursor),
    (∀ d ∈ pq, SortedTable d.entries) → (∀ d ∈ pq, strLess key d.current_key = true) →
    (entriesOf pq).filter (fun e => e.1 ≠ key) = entriesOf pq ∧ tagsIn (entriesOf pq) key = [] := by
  intro pq
  induction pq with
  | nil => intro _ _; exact ⟨rfl, rfl⟩
  | cons c pq ih =>
    intro hs hk
    obtain ⟨h1, h2⟩ := ih (fun d hd => hs d (List.mem_cons_of_mem _ hd))
      (fun d hd => hk d (List.mem_cons_of_mem _ hd))
    obtain ⟨h3, h4⟩ := filter_entries_greater (hs c (List.mem_cons_self _ _))
      (hk c (List.mem_cons_self _ _))
    rw [entriesOf_cons, List.filter_append, tagsIn_append, h1, h2, h3, h4]
    exact ⟨rfl, rfl⟩

/-- The entries and the tags of the key for cursors on the key. -/
theorem entries_same {key : Bytes} : ∀ (vec : List MergeCursor),
    (∀ d ∈ vec, SortedTable d.entries) → (∀ d ∈ vec, d.current_key = key) →
    (entriesOf vec).filter (fun e => e.1 ≠ key) = vec.flatMap MergeCursor.rest ∧
      tagsIn (entriesOf vec) key = vec.map MergeCursor.current_tag := by
  intro vec
  induction vec with
  | nil => intro _ _; exact ⟨rfl, rfl⟩
  | cons c vec ih =>
    intro hs hk
    obtain ⟨h1, h2⟩ := ih (fun d hd => hs d (List.mem_cons_of_mem _ hd))
      (fun d hd => hk d (List.mem_cons_of_mem _ hd))
    obtain ⟨h3, h4⟩ := filter_entries_same (hs c (List.mem_cons_self _ _))
      (hk c (List.mem_cons_self _ _))
    rw [entriesOf_cons, List.filter_append, tagsIn_append, h1, h2, h3, h4]
    simp

theorem create_error {s : Bytes} {e : MergeError}
    (h : PrefixCompressedStringItor.create s = Except.error e) :
    e = MergeError.corrupt "Bad spelling data (too little left)" := by
  unfold PrefixCompressedStringItor.create at h
  split at h
  · exact incr_error h
  · simp at h

/-- Below the least key of a queue there is no key of it. -/
theorem top_least {top : List MergeCursor → Option (MergeCursor × List MergeCursor)}
    (htop : IsPriorityQueueOf CursorGt top) {pq others : List MergeCursor} {t : MergeCursor}
    (ht : top pq = some (t, others)) :
    ∀ d ∈ pq, strLess d.current_key t.current_key = false := by
  obtain ⟨hperm, hmin⟩ := top_some htop ht
  intro d hd
  rcases List.mem_cons.1 (hperm.mem_iff.2 hd) with rfl | hd
  · exact strLess_strictTotal.irrefl _
  · exact hmin d hd

theorem key_greater {key a b : Bytes} (h1 : strLess a key = false) (hne : a ≠ key)
    (h2 : strLess b a = false) : strLess key b = true := by
  have h3 : strLess key a = true := strLess_of_ne h1 (Ne.symm hne)
  cases h4 : strLess key b
  · cases h5 : strLess b key
    · have := strLess_strictTotal.total _ _ h4 h5
      subst this
      rw [h3] at h2
      exact absurd h2 (by decide)
    · have := strLess_strictTotal.trans _ _ _ h5 h3
      rw [this] at h2
      exact absurd h2 (by decide)
  · rfl

theorem gatherLoop_spec (top : List MergeCursor → Option (MergeCursor × List MergeCursor))
    (htop : IsPriorityQueueOf CursorGt top) (key : Bytes) :
    ∀ (fuel : Nat) (cur : MergeCursor) (pq : List MergeCursor)
      (pqtag : List PrefixCompressedStringItor) (vec : List MergeCursor),
      pq.length < fuel → cur.current_key = key →
      (∀ d ∈ pq, strLess d.current_key key = false) →
      (gatherLoop top key fuel cur pq pqtag vec =
          Except.error (MergeError.corrupt "Bad spelling data (too little left)") ∧
        ∃ d ∈ cur :: pq, d.current_key = key ∧
          ∃ e, PrefixCompressedStringItor.create d.current_tag = Except.error e) ∨
      (∃ pq1 its vec1, gatherLoop top key fuel cur pq pqtag vec =
          Except.ok (pq1, pqtag ++ its, vec ++ vec1) ∧
        (vec1 ++ pq1).Perm (cur :: pq) ∧ (∀ d ∈ vec1, d.current_key = key) ∧
        (∀ d ∈ pq1, strLess key d.current_key = true) ∧
        List.Forall₂ (fun d it => PrefixCompressedStringItor.create d.current_tag = Except.ok it)
          vec1 its) := by
  intro fuel
  induction fuel with
  | zero => intro cur pq pqtag vec hf; omega
  | succ f ih =>
    intro cur pq pqtag vec hf hk hge
    unfold gatherLoop
    cases hc : PrefixCompressedStringItor.create cur.current_tag with
    | error e =>
      left
      simp only
      rw [create_error hc]
      exact ⟨rfl, cur, List.mem_cons_self _ _, hk, e, hc⟩
    | ok it =>
      simp only
      cases ht : top pq with
      | none =>
        have := top_none htop ht
        subst this
        right
        exact ⟨[], [it], [cur], rfl, by simp, by simpa using hk, by simp,
          List.Forall₂.cons hc List.Forall₂.nil⟩
      | some r =>
        obtain ⟨t, others⟩ := r
        obtain ⟨hperm, hmin⟩ := top_some htop ht
        simp only
        by_cases htk : t.current_key = key
        · rw [if_neg (by simpa using htk)]
          have hlen : others.length < f := by
            have := hperm.length_eq
            simp only [List.length_cons] at this
            omega
          have hge1 : ∀ d ∈ others, strLess d.current_key key = false :=
            fun d hd => hge d (hperm.mem_iff.1 (List.mem_cons_of_mem _ hd))
          rcases ih t others (pqtag ++ [it]) (vec ++ [cur]) hlen htk hge1 with
            ⟨h1, d, hd, hdk, hde⟩ | ⟨pq1, its, vec1, h1, h2, h3, h4, h5⟩
          · left
            exact ⟨h1, d, List.mem_cons_of_mem _ (hperm.mem_iff.1 hd), hdk, hde⟩
          · right
            refine ⟨pq1, it :: its, cur :: vec1, ?_, ?_, ?_, h4, List.Forall₂.cons hc h5⟩
            · rw [h1]
              simp
            · rw [List.cons_append]
              exact (h2.trans hperm).cons cur
            · intro d hd
              rcases List.mem_cons.1 hd with rfl | hd
              · exact hk
              · exact h3 d hd
        · rw [if_pos (by simpa using htk)]
          right
          refine ⟨pq, [it], [cur], rfl, by simp, by simpa using hk, ?_,
            List.Forall₂.cons hc List.Forall₂.nil⟩
          intro d hd
          exact key_greater (hge t (hperm.mem_iff.1 (List.mem_cons_self _ _))) htk
            (top_least htop ht d hd)

theorem filter_pushNext {pq : List MergeCursor} {c : MergeCursor} {key : Bytes}
    (hc : SortedTable c.entries) (hk : c.current_key = key) :
    (pushNext pq c).filter (fun d => d.current_key = key) =
      pq.filter (fun d => d.current_key = key) := by
  unfold pushNext
  cases h : c.next with
  | none => rfl
  | some n =>
    simp only
    rw [List.filter_append]
    have : strLess key n.current_key = true := by
      rw [← hk]
      apply (sorted_rest hc).2 (n.current_key, n.current_tag)
      rw [next_some h]
      exact List.mem_cons_self _ _
    have hne : n.current_key ≠ key := fun e => absurd e.symm (strLess_ne this)
    simp [hne]

theorem tagsIn_rest {c : MergeCursor} {key : Bytes} (hc : SortedTable c.entries)
    (hk : c.current_key = key) :
    tagsIn c.rest key = [] ∧ c.rest.filter (fun e => e.1 ≠ key) = c.rest := by
  have hr := (sorted_rest hc).2
  rw [hk] at hr
  constructor
  · unfold tagsIn
    rw [List.map_eq_nil_iff, List.filter_eq_nil_iff]
    intro e he
    simpa using Ne.symm (strLess_ne (hr e he))
  · rw [List.filter_eq_self]
    intro e he
    simpa using Ne.symm (strLess_ne (hr e he))

theorem freqLoop_spec (cd : Codec)
    (top : List MergeCursor → Option (MergeCursor × List MergeCursor))
    (htop : IsPriorityQueueOf CursorGt top) (key : Bytes) :
    ∀ (fuel : Nat) (cur : MergeCursor) (pq : List MergeCursor) (tot : Nat),
      (pq.filter (fun d => d.current_key = key)).length < fuel → cur.current_key = key →
      SortedTable cur.entries → (∀ d ∈ pq, SortedTable d.entries) →
      (∀ d ∈ pq, strLess d.current_key key = false) →
      (freqLoop cd top key fuel cur pq tot =
          Except.error (MergeError.corrupt "Bad spelling word freq") ∧
        ∃ t ∈ tagsIn (entriesOf (cur :: pq)) key,
          cd.F_unpack_uint_last_termcount t = none ∨ cd.F_unpack_uint_last_termcount t = some 0) ∨
      (∃ pq1, freqLoop cd top key fuel cur pq tot =
          Except.ok (pq1,
            (tot + ((tagsIn (entriesOf (cur :: pq)) key).map (freqOf cd)).sum) % 2 ^ 32) ∧
        (∀ d ∈ pq1, SortedTable d.entries) ∧
        (entriesOf pq1).Perm ((entriesOf (cur :: pq)).filter (fun e => e.1 ≠ key)) ∧
        ∀ t ∈ tagsIn (entriesOf (cur :: pq)) key,
          ∃ f, cd.F_unpack_uint_last_termcount t = some f ∧ f ≠ 0) := by
  intro fuel
  induction fuel with
  | zero => intro cur pq tot hf; omega
  | succ f ih =>
    intro cur pq tot hf hk hcs hs hge
    obtain ⟨hfe, hft⟩ := filter_entries_same hcs hk
    have htags : tagsIn (entriesOf (cur :: pq)) key =
        cur.current_tag :: tagsIn (entriesOf pq) key := by
      rw [entriesOf_cons, tagsIn_append, hft]
      rfl
    have hfilter : (entriesOf (cur :: pq)).filter (fun e => e.1 ≠ key) =
        cur.rest ++ (entriesOf pq).filter (fun e => e.1 ≠ key) := by
      rw [entriesOf_cons, List.filter_append, hfe]
    unfold freqLoop
    cases hu : cd.F_unpack_uint_last_termcount cur.current_tag with
    | none =>
      left
      exact ⟨rfl, cur.current_tag, by rw [htags]; exact List.mem_cons_self _ _, Or.inl hu⟩
    | some freq =>
      simp only
      by_cases hz : freq = 0
      · left
        rw [if_pos hz]
        subst hz
        exact ⟨rfl, cur.current_tag, by rw [htags]; exact List.mem_cons_self _ _, Or.inr hu⟩
      · rw [if_neg hz]
        have hfreq : freqOf cd cur.current_tag = freq := by
          unfold freqOf
          rw [hu]
          rfl
        have hs1 := pushNext_sorted hs hcs
        have hk1 := pushNext_key hge hcs hk
        have he1 := entriesOf_pushNext pq cur
        cases ht : top (pushNext pq cur) with
        | none =>
          have hnil := top_none htop ht
          have hpq : entriesOf pq = [] ∧ cur.rest = [] := by
            have := he1
            rw [hnil] at this
            exact List.append_eq_nil.1 this.symm
          simp only
          right
          refine ⟨pushNext pq cur, ?_, hs1, ?_, ?_⟩
          · rw [htags, hpq.1]
            simp [tagsIn, hfreq]
          · rw [hfilter, hpq.1, hpq.2, hnil]
            exact List.Perm.refl _
          · intro t ht1
            rw [htags, hpq.1] at ht1
            simp only [tagsIn, List.filter_nil, List.map_nil, List.mem_singleton] at ht1
            subst ht1
            exact ⟨freq, hu, hz⟩
        | some r =>
          obtain ⟨t, others⟩ := r
          obtain ⟨hperm, hmin⟩ := top_some htop ht
          simp only
          by_cases htk : t.current_key = key
          · rw [if_neg (by simpa using htk)]
            have hmem : ∀ d, d ∈ t :: others → d ∈ pushNext pq cur :=
              fun d hd => hperm.mem_iff.1 hd
            have hlen : (others.filter (fun d => d.current_key = key)).length < f := by
              have h1 := (hperm.filter (fun d => d.current_key = key)).length_eq
              rw [filter_pushNext hcs hk, List.filter_cons] at h1
              simp only [htk, decide_True, if_true, List.length_cons] at h1
              omega
            have hent : (entriesOf (t :: others)).Perm (entriesOf pq ++ cur.rest) := by
              rw [← he1]
              exact entriesOf_perm hperm
            have htr := tagsIn_rest hcs hk
            have htags2 : (tagsIn (entriesOf (t :: others)) key).Perm
                (tagsIn (entriesOf pq) key) := by
              have := tagsIn_perm hent key
              rw [tagsIn_append, htr.1, List.append_nil] at this
              exact this
            rcases ih t others ((tot + freq) % 2 ^ 32) hlen htk
                (hs1 t (hmem t (List.mem_cons_self _ _)))
                (fun d hd => hs1 d (hmem d (List.mem_cons_of_mem _ hd)))
                (fun d hd => (hk1 d (hmem d (List.mem_cons_of_mem _ hd))).1) with
              ⟨h1, b, hb, hbad⟩ | ⟨pq1, h1, h2, h3, h4⟩
            · left
              refine ⟨h1, b, ?_, hbad⟩
              rw [htags]
              exact List.mem_cons_of_mem _ (htags2.mem_iff.1 hb)
            · right
              refine ⟨pq1, ?_, h2, ?_, ?_⟩
              · rw [h1, htags, List.map_cons, List.sum_cons, hfreq,
                  ((htags2.map (freqOf cd)).sum_eq), Nat.mod_add_mod, Nat.add_assoc]
              · refine h3.trans ?_
                rw [hfilter]
                have := hent.filter (fun e => e.1 ≠ key)
                rw [List.filter_append, htr.2] at this
                exact this.trans List.perm_append_comm
              · intro x hx
                rw [htags] at hx
                rcases List.mem_cons.1 hx with rfl | hx
                · exact ⟨freq, hu, hz⟩
                · exact h4 x (htags2.mem_iff.2 hx)
          · rw [if_pos (by simpa using htk)]
            have hgt : ∀ d ∈ pq, strLess key d.current_key = true := by
              intro d hd
              have hd1 : d ∈ pushNext pq cur := by
                unfold pushNext
                cases cur.next with
                | none => exact hd
                | some n => exact List.mem_append_left _ hd
              exact key_greater (hk1 t (hperm.mem_iff.1 (List.mem_cons_self _ _))).1 htk
                (top_least htop ht d hd1)
            obtain ⟨hg1, hg2⟩ := entries_greater pq hs hgt
            right
            refine ⟨pushNext pq cur, ?_, hs1, ?_, ?_⟩
            · rw [htags, hg2]
              simp [hfreq]
            · rw [hfilter, hg1, he1]
              exact List.perm_append_comm
            · intro x hx
              rw [htags, hg2] at hx
              simp only [List.mem_singleton] at hx
              subst hx
              exact ⟨freq, hu, hz⟩

theorem groupValid_perm {cd : Codec} {key : Bytes} {a b : List Bytes} (h : a.Perm b)
    (hv : GroupValid cd key a) : GroupValid cd key b :=
  ⟨fun hw t ht => hv.1 hw t (h.mem_iff.2 ht), fun hw t ht => hv.2 hw t (h.mem_iff.2 ht)⟩

theorem merged_perm {cd : Codec} {key tag : Bytes} {a b : List Bytes} (h : a.Perm b)
    (hm : Merged cd key a tag) : Merged cd key b tag := by
  obtain ⟨h1, h2, h3⟩ := hm
  refine ⟨?_, ?_, ?_⟩
  · intro t ht
    rw [ht] at h
    exact h1 t (List.perm_singleton.1 h)
  · intro hl hw
    rw [h2 (by rw [h.length_eq]; exact hl) hw, (h.map (freqOf cd)).sum_eq]
  · intro hl hw
    obtain ⟨ws, hasc, hmem, ht⟩ := h3 (by rw [h.length_eq]; exact hl) hw
    refine ⟨ws, hasc, ?_, ht⟩
    intro w
    rw [hmem w]
    constructor
    · rintro ⟨hw, t, ht1, r⟩
      exact ⟨hw, t, h.mem_iff.1 ht1, r⟩
    · rintro ⟨hw, t, ht1, r⟩
      exact ⟨hw, t, h.mem_iff.2 ht1, r⟩

theorem stepSpec_perm {cd : Codec} {key : Bytes} {a b : List Bytes}
    {la lb : List (Bytes × Bytes)}
    {r : Except MergeError (Option ((Bytes × Bytes) × List MergeCursor))}
    (h : a.Perm b) (hl : la.Perm lb) (hs : StepSpec cd key a la r) : StepSpec cd key b lb r := by
  obtain ⟨h1, h2, h3⟩ := hs
  refine ⟨?_, ?_, ?_⟩
  · rcases h1 with h1 | ⟨tag, pq, e, hs, hp⟩
    · exact Or.inl h1
    · exact Or.inr ⟨tag, pq, e, hs, hp.trans hl⟩
  · intro hw hlen hbad
    obtain ⟨t, ht, hb⟩ := hbad
    exact h2 hw (by rw [h.length_eq]; exact hlen) ⟨t, h.mem_iff.2 ht, hb⟩
  · intro hv
    obtain ⟨tag, pq, e, hm, hs, hp⟩ := h3
      (fun hlen => groupValid_perm h.symm (hv (by rw [← h.length_eq]; exact hlen)))
    exact ⟨tag, pq, e, merged_perm h hm, hs, hp.trans hl⟩

theorem create_itor {s : Bytes} {it : PrefixCompressedStringItor}
    (h : PrefixCompressedStringItor.create s = Except.ok it) :
    (it.p = none → it.current = []) ∧ itorSize it ≤ s.length + 1 := by
  unfold PrefixCompressedStringItor.create at h
  cases s with
  | nil =>
    simp only [List.isEmpty_nil, Bool.not_true, Bool.false_eq_true, if_false,
      Except.ok.injEq] at h
    subst h
    exact ⟨fun _ => rfl, by simp [itorSize]⟩
  | cons b bs =>
    simp only [List.isEmpty_cons, Bool.not_false, if_true,
      PrefixCompressedStringItor.incr, List.isEmpty_nil, Bool.not_true, Bool.false_eq_true,
      if_false] at h
    split at h
    · simp at h
    · simp only [Except.ok.injEq] at h
      subst h
      constructor
      · intro hp
        simp at hp
      · simp only [itorSize, List.length_drop, List.length_cons]
        omega

theorem wordsOf_decodes {t : Bytes} {ws : List Bytes} (h : wordsOf t = some ws) :
    ∃ it, PrefixCompressedStringItor.create t = Except.ok it ∧ Decodes it ws := by
  unfold wordsOf at h
  cases hc : PrefixCompressedStringItor.create t with
  | error e => rw [hc] at h; simp at h
  | ok it =>
    rw [hc] at h
    exact ⟨it, rfl, wordsFrom_decodes _ it ws h⟩

theorem wordsOf_create_error {t : Bytes} {e : MergeError}
    (h : PrefixCompressedStringItor.create t = Except.error e) : wordsOf t = none := by
  unfold wordsOf
  rw [h]

theorem forall₂_right {α β : Type} {R : α → β → Prop} {l1 : List α} {l2 : List β}
    (h : List.Forall₂ R l1 l2) : ∀ b ∈ l2, ∃ a ∈ l1, R a b := by
  induction h with
  | nil => intro b hb; simp at hb
  | cons hab _ ih =>
    intro b hb
    rcases List.mem_cons.1 hb with rfl | hb
    · exact ⟨_, List.mem_cons_self _ _, hab⟩
    · obtain ⟨a, ha, r⟩ := ih b hb
      exact ⟨a, List.mem_cons_of_mem _ ha, r⟩

theorem forall₂_left {α β : Type} {R : α → β → Prop} {l1 : List α} {l2 : List β}
    (h : List.Forall₂ R l1 l2) : ∀ a ∈ l1, ∃ b ∈ l2, R a b := by
  induction h with
  | nil => intro a ha; simp at ha
  | cons hab _ ih =>
    intro a ha
    rcases List.mem_cons.1 ha with rfl | ha
    · exact ⟨_, List.mem_cons_self _ _, hab⟩
    · obtain ⟨b, hb, r⟩ := ih a ha
      exact ⟨b, List.mem_cons_of_mem _ hb, r⟩

theorem itors_size {vec : List MergeCursor} {its : List PrefixCompressedStringItor}
    (h : List.Forall₂ (fun d it => PrefixCompressedStringItor.create d.current_tag = Except.ok it)
      vec its) :
    (its.map itorSize).sum ≤ spellingSize (entriesOf vec) := by
  induction h with
  | nil => simp
  | @cons d it vec its hab _ ih =>
    rw [entriesOf_cons]
    have := (create_itor hab).2
    simp only [spellingSize, List.map_cons, List.sum_cons, List.map_append, List.sum_append,
      MergeCursor.entries] at ih ⊢
    omega

theorem spellingSize_append (a b : List (Bytes × Bytes)) :
    spellingSize (a ++ b) = spellingSize a + spellingSize b := by
  simp [spellingSize]

theorem spellingSize_perm {a b : List (Bytes × Bytes)} (h : a.Perm b) :
    spellingSize a = spellingSize b := by
  unfold spellingSize
  exact (h.map _).sum_eq

theorem length_le_spellingSize (pq : List MergeCursor) :
    pq.length ≤ spellingSize (entriesOf pq) := by
  induction pq with
  | nil => simp
  | cons c pq ih =>
    rw [entriesOf_cons, spellingSize_append]
    simp only [spellingSize, MergeCursor.entries, List.map_cons, List.sum_cons,
      List.length_cons] at ih ⊢
    omega

theorem entries_length_le (l : List (Bytes × Bytes)) : l.length ≤ spellingSize l := by
  induction l with
  | nil => simp
  | cons e l ih =>
    simp only [spellingSize, List.map_cons, List.sum_cons, List.length_cons] at ih ⊢
    omega

theorem spellingSize_filter_le (p : Bytes × Bytes → Bool) (l : List (Bytes × Bytes)) :
    spellingSize (l.filter p) ≤ spellingSize l := by
  induction l with
  | nil => simp
  | cons e l ih =>
    rw [List.filter_cons]
    split
    · simp only [spellingSize, List.map_cons, List.sum_cons] at ih ⊢
      omega
    · simp only [spellingSize, List.map_cons, List.sum_cons] at ih ⊢
      omega

theorem strLess_ge_trans {a b c : Bytes} (h1 : strLess a b = false) (h2 : strLess b c = false) :
    strLess a c = false := by
  have st := strLess_strictTotal
  cases h : strLess a c
  · rfl
  · cases h3 : strLess c b
    · have e := st.total _ _ h2 h3
      rw [e] at h1
      rw [h1] at h
      exact h.symm
    · rw [st.trans _ _ _ h h3] at h1
      exact absurd h1 (by decide)

theorem strLess_lt_ge {a b c : Bytes} (h1 : strLess a b = true) (h2 : strLess c b = false) :
    strLess a c = true := by
  cases h : strLess a c
  · cases h3 : strLess c a
    · have e := strLess_strictTotal.total _ _ h h3
      subst e
      rw [h1] at h2
      exact absurd h2 (by decide)
    · have := strLess_strictTotal.trans _ _ _ h3 h1
      rw [this] at h2
      exact absurd h2 (by decide)
  · rfl

/-- The tag of a cursor on the key is among the tags of the key. -/
theorem tag_mem_tagsIn {pq : List MergeCursor} {d : MergeCursor} {key : Bytes} (hd : d ∈ pq)
    (hk : d.current_key = key) : d.current_tag ∈ tagsIn (entriesOf pq) key := by
  unfold tagsIn entriesOf
  rw [List.mem_map]
  refine ⟨(d.current_key, d.current_tag), ?_, rfl⟩
  rw [List.mem_filter]
  refine ⟨?_, by simpa using hk⟩
  rw [List.mem_flatMap]
  exact ⟨d, hd, List.mem_cons_self _ _⟩

theorem step_tags {cur : MergeCursor} {rest1 : List MergeCursor} {key : Bytes}
    (hk : cur.current_key = key) (hcs : SortedTable cur.entries) :
    tagsIn (entriesOf (cur :: rest1)) key = cur.current_tag :: tagsIn (entriesOf rest1) key ∧
      (entriesOf (cur :: rest1)).filter (fun e => e.1 ≠ key) =
        cur.rest ++ (entriesOf rest1).filter (fun e => e.1 ≠ key) := by
  obtain ⟨h1, h2⟩ := filter_entries_same hcs hk
  rw [entriesOf_cons, tagsIn_append, List.filter_append, h1, h2]
  exact ⟨rfl, rfl⟩

theorem step_two {cur : MergeCursor} {rest1 : List MergeCursor} {key : Bytes}
    (hk : cur.current_key = key) (hcs : SortedTable cur.entries)
    (hex : ∃ n ∈ rest1, n.current_key = key) :
    2 ≤ (tagsIn (entriesOf (cur :: rest1)) key).length := by
  obtain ⟨n, hn, hnk⟩ := hex
  rw [(step_tags hk hcs).1]
  have := tag_mem_tagsIn hn hnk
  cases h : tagsIn (entriesOf rest1) key with
  | nil => rw [h] at this; simp at this
  | cons a l => simp

theorem step_single (cd : Codec) {cur : MergeCursor} {rest1 : List MergeCursor} {key : Bytes}
    (hk : cur.current_key = key) (hcs : SortedTable cur.entries)
    (hrs : ∀ d ∈ rest1, SortedTable d.entries)
    (hsingle : ∀ d ∈ rest1, strLess key d.current_key = true) :
    StepSpec cd key (tagsIn (entriesOf (cur :: rest1)) key)
      ((entriesOf (cur :: rest1)).filter (fun e => e.1 ≠ key))
      (Except.ok (some ((key, cur.current_tag), pushNext rest1 cur))) := by
  obtain ⟨h1, h2⟩ := @step_tags cur rest1 key hk hcs
  obtain ⟨h3, h4⟩ := entries_greater rest1 hrs hsingle
  rw [h1, h2, h3, h4]
  have hp : (entriesOf (pushNext rest1 cur)).Perm (cur.rest ++ entriesOf rest1) := by
    rw [entriesOf_pushNext]
    exact List.perm_append_comm
  refine ⟨Or.inr ⟨_, _, rfl, pushNext_sorted hrs hcs, hp⟩, ?_, ?_⟩
  · intro _ hl
    simp at hl
  · intro _
    refine ⟨_, _, rfl, ⟨?_, ?_, ?_⟩, pushNext_sorted hrs hcs, hp⟩
    · intro t ht
      simpa using ht
    · intro hl
      simp at hl
    · intro hl
      simp at hl

theorem step_freq (cd : Codec) (top : List MergeCursor → Option (MergeCursor × List MergeCursor))
    (htop : IsPriorityQueueOf CursorGt top) (steps : Nat)
    {cur : MergeCursor} {rest1 : List MergeCursor} {key : Bytes}
    (hk : cur.current_key = key) (hcs : SortedTable cur.entries)
    (hrs : ∀ d ∈ rest1, SortedTable d.entries)
    (hge : ∀ d ∈ rest1, strLess d.current_key key = false)
    (hsteps : spellingSize (entriesOf (cur :: rest1)) < steps)
    (hw : key.head? = some 'W'.toNat) (hex : ∃ n ∈ rest1, n.current_key = key) :
    StepSpec cd key (tagsIn (entriesOf (cur :: rest1)) key)
      ((entriesOf (cur :: rest1)).filter (fun e => e.1 ≠ key))
      (match freqLoop cd top key steps cur rest1 0 with
        | Except.error e => Except.error e
        | Except.ok (pq, tot_freq) =>
          Except.ok (some ((key, cd.F_pack_uint_last tot_freq), pq))) := by
  have htwo := step_two hk hcs hex
  have hfuel : (rest1.filter (fun d => d.current_key = key)).length < steps := by
    have h1 := List.length_filter_le (fun d : MergeCursor => decide (d.current_key = key)) rest1
    have h2 := length_le_spellingSize rest1
    rw [entriesOf_cons, spellingSize_append] at hsteps
    omega
  rcases freqLoop_spec cd top htop key steps cur rest1 0 hfuel hk hcs hrs hge with
    ⟨h1, t, ht, hbad⟩ | ⟨pq1, h1, h2, h3, h4⟩
  · rw [h1]
    refine ⟨Or.inl ⟨_, rfl⟩, fun _ _ _ => rfl, ?_⟩
    intro hv
    obtain ⟨f, hf, hz⟩ := (hv htwo).1 hw t ht
    have hf : cd.F_unpack_uint_last_termcount t = some f := hf
    rcases hbad with hb | hb
    · rw [hb] at hf; simp at hf
    · rw [hb] at hf
      simp only [Option.some.injEq] at hf
      exact absurd hf.symm hz
  · rw [h1]
    simp only [Nat.zero_add]
    refine ⟨Or.inr ⟨_, _, rfl, h2, h3⟩, ?_, ?_⟩
    · rintro _ _ ⟨t, ht, hbad⟩
      obtain ⟨f, hf, hz⟩ := h4 t ht
      rcases hbad with hb | hb
      · rw [hb] at hf; simp at hf
      · rw [hb] at hf
        simp only [Option.some.injEq] at hf
        exact absurd hf.symm hz
    · intro _
      refine ⟨_, _, rfl, ⟨?_, ?_, ?_⟩, h2, h3⟩
      · intro t ht
        rw [ht] at htwo
        simp at htwo
      · intro _ _
        rfl
      · intro _ hnw
        exact absurd hw hnw

/-- The count of the loop of `append` is the number of bytes in common. -/
theorem commonLength_eq_sharedPrefix : ∀ (a b : Bytes), commonLength a b = sharedPrefix a b := by
  intro a
  induction a with
  | nil => intro b; simp [commonLength, sharedPrefix]
  | cons x a ih =>
    intro b
    cases b with
    | nil => simp [commonLength, sharedPrefix]
    | cons y b =>
      by_cases hxy : x = y
      · subst hxy
        have := ih b
        simp only [sharedPrefix] at this
        simp [commonLength, sharedPrefix, List.takeWhile_cons, this]
      · simp [commonLength, sharedPrefix, List.takeWhile_cons, hxy]

/-- After a word that is not empty the writer adds the prefix-compressed bytes
of the words it is given. -/
theorem foldl_append_prefixCompressedAfter :
    ∀ (ws : List Bytes) (wr : PrefixCompressedStringWriter), wr.current ≠ [] →
      (∀ w ∈ ws, w ≠ []) →
      (ws.foldl PrefixCompressedStringWriter.append wr).out =
        wr.out ++ prefixCompressedAfter wr.current ws := by
  intro ws
  induction ws with
  | nil => intro wr _ _; simp [prefixCompressedAfter]
  | cons w ws ih =>
    intro wr hc hne
    have hw : w ≠ [] := hne w (List.mem_cons_self _ _)
    have he : wr.current.isEmpty = false := by
      cases h : wr.current with
      | nil => exact absurd h hc
      | cons _ _ => rfl
    rw [List.foldl_cons, ih _ (by simp [PrefixCompressedStringWriter.append, he, hw])
      (fun v hv => hne v (List.mem_cons_of_mem _ hv))]
    simp [PrefixCompressedStringWriter.append, he, prefixCompressedAfter,
      commonLength_eq_sharedPrefix]

/-- For words none of which is empty the writer writes the prefix-compressed
form. -/
theorem encodeWords_eq_prefixCompressed (ws : List Bytes) (hne : ∀ w ∈ ws, w ≠ []) :
    encodeWords ws = prefixCompressed ws := by
  cases ws with
  | nil => rfl
  | cons w ws =>
    have hw : w ≠ [] := hne w (List.mem_cons_self _ _)
    unfold encodeWords
    rw [List.foldl_cons, foldl_append_prefixCompressedAfter ws _
      (by simp [PrefixCompressedStringWriter.append, hw])
      (fun v hv => hne v (List.mem_cons_of_mem _ hv))]
    simp [PrefixCompressedStringWriter.append, prefixCompressed]

theorem step_words (cd : Codec)
    (top : List MergeCursor → Option (MergeCursor × List MergeCursor))
    (toptag : List PrefixCompressedStringItor →
      Option (PrefixCompressedStringItor × List PrefixCompressedStringItor))
    (htop : IsPriorityQueueOf CursorGt top)
    (htoptag : IsPriorityQueueOf PrefixCompressedStringItorGt toptag) (steps : Nat)
    {cur : MergeCursor} {rest1 : List MergeCursor} {key : Bytes}
    (hk : cur.current_key = key) (hcs : SortedTable cur.entries)
    (hrs : ∀ d ∈ rest1, SortedTable d.entries)
    (hge : ∀ d ∈ rest1, strLess d.current_key key = false)
    (hsteps : spellingSize (entriesOf (cur :: rest1)) < steps)
    (hw : key.head? ≠ some 'W'.toNat) (hex : ∃ n ∈ rest1, n.current_key = key) :
    StepSpec cd key (tagsIn (entriesOf (cur :: rest1)) key)
      ((entriesOf (cur :: rest1)).filter (fun e => e.1 ≠ key))
      (match gatherLoop top key steps cur rest1 [] [] with
        | Except.error e => Except.error e
        | Except.ok (pq, pqtag, vec) =>
          match wordLoop toptag steps pqtag ⟨[], []⟩ [] with
          | Except.error e => Except.error e
          | Except.ok wr => Except.ok (some ((key, wr.out), vec.foldl pushNext pq))) := by
  have htwo := step_two hk hcs hex
  have hfuel : rest1.length < steps := by
    have h2 := length_le_spellingSize rest1
    rw [entriesOf_cons, spellingSize_append] at hsteps
    omega
  rcases gatherLoop_spec top htop key steps cur rest1 [] [] hfuel hk hge with
    ⟨h1, d, hd, hdk, e, hde⟩ | ⟨pq1, its, vec1, h1, hperm, hvk, hpk, hf2⟩
  · rw [h1]
    refine ⟨Or.inl ⟨_, rfl⟩, fun hw1 => absurd hw1 hw, ?_⟩
    intro hv
    obtain ⟨ws, hws, _⟩ := (hv htwo).2 hw d.current_tag (tag_mem_tagsIn hd hdk)
    rw [wordsOf_create_error hde] at hws
    exact absurd hws (by simp)
  · rw [h1]
    simp only [List.nil_append]
    have hE : (entriesOf (cur :: rest1)).Perm (entriesOf vec1 ++ entriesOf pq1) := by
      rw [← entriesOf_append]
      exact entriesOf_perm hperm.symm
    have hmemc : ∀ d, d ∈ vec1 ++ pq1 → SortedTable d.entries := by
      intro d hd
      rcases List.mem_cons.1 (hperm.mem_iff.1 hd) with rfl | hd
      · exact hcs
      · exact hrs d hd
    have hiv : ∀ d ∈ vec1, SortedTable d.entries :=
      fun d hd => hmemc d (List.mem_append_left _ hd)
    have hip : ∀ d ∈ pq1, SortedTable d.entries :=
      fun d hd => hmemc d (List.mem_append_right _ hd)
    obtain ⟨es1, et1⟩ := entries_same vec1 hiv hvk
    obtain ⟨eg1, eg2⟩ := entries_greater pq1 hip hpk
    have htags : (tagsIn (entriesOf (cur :: rest1)) key).Perm
        (vec1.map MergeCursor.current_tag) := by
      have := tagsIn_perm hE key
      rw [tagsIn_append, et1, eg2, List.append_nil] at this
      exact this
    have hleft : ((entriesOf (cur :: rest1)).filter (fun e => e.1 ≠ key)).Perm
        (vec1.flatMap MergeCursor.rest ++ entriesOf pq1) := by
      have := hE.filter (fun e => e.1 ≠ key)
      rw [List.filter_append, es1, eg1] at this
      exact this
    have hpi := foldl_pushNext_sorted vec1 pq1 hip hiv
    have hpp : (entriesOf (vec1.foldl pushNext pq1)).Perm
        ((entriesOf (cur :: rest1)).filter (fun e => e.1 ≠ key)) := by
      rw [foldl_pushNext_entries]
      exact List.perm_append_comm.trans hleft.symm
    have hsize : (its.map itorSize).sum < steps := by
      have h2 := itors_size hf2
      have h3 := spellingSize_perm hE
      rw [spellingSize_append] at h3
      omega
    have hspec : GroupValid cd key (tagsIn (entriesOf (cur :: rest1)) key) →
        ∃ ws, wordLoop toptag steps its ⟨[], []⟩ [] =
            Except.ok (ws.foldl PrefixCompressedStringWriter.append ⟨[], []⟩) ∧
          Ascending ws ∧
          ∀ w, w ∈ ws ↔ w ≠ [] ∧ ∃ t ∈ tagsIn (entriesOf (cur :: rest1)) key,
            ∃ l, wordsOf t = some l ∧ w ∈ l := by
      intro hv
      have hval : ∀ it ∈ its, ∃ d ∈ vec1, ∃ ws,
          PrefixCompressedStringItor.create d.current_tag = Except.ok it ∧
          wordsOf d.current_tag = some ws ∧ Decodes it ws ∧ Ascending ws := by
        intro it hit
        obtain ⟨d, hd, hc⟩ := forall₂_right hf2 it hit
        obtain ⟨ws, hws, hasc⟩ := hv.2 hw d.current_tag
          (htags.mem_iff.2 (List.mem_map_of_mem _ hd))
        obtain ⟨it1, hc1, hdec⟩ := wordsOf_decodes hws
        rw [hc] at hc1
        simp only [Except.ok.injEq] at hc1
        subst hc1
        exact ⟨d, hd, ws, hc, hws, hdec, hasc⟩
      obtain ⟨ws, h2, h3, h4⟩ := wordLoop_spec toptag htoptag steps its ⟨[], []⟩ [] hsize
        (fun it hit => by
          obtain ⟨d, _, ws, hc, _, hdec, hasc⟩ := hval it hit
          exact ⟨ws, hdec, hasc, (create_itor hc).1⟩)
        (fun it _ => strLess_nil_false _)
      refine ⟨ws, h2, (List.pairwise_cons.1 h3).2, ?_⟩
      intro w
      rw [h4 w]
      constructor
      · rintro ⟨hne, it, hit, l, hl, hwl⟩
        obtain ⟨d, hd, ws1, _, hws, hdec, _⟩ := hval it hit
        rw [decodes_det hl hdec] at hwl
        exact ⟨hne, d.current_tag, htags.mem_iff.2 (List.mem_map_of_mem _ hd), ws1, hws, hwl⟩
      · rintro ⟨hne, t, ht, l, hl, hwl⟩
        obtain ⟨d, hd, rfl⟩ := List.mem_map.1 (htags.mem_iff.1 ht)
        obtain ⟨it, hit, hc⟩ := forall₂_left hf2 d hd
        obtain ⟨it1, hc1, hdec⟩ := wordsOf_decodes hl
        rw [hc] at hc1
        simp only [Except.ok.injEq] at hc1
        subst hc1
        exact ⟨hne, it, hit, l, hdec, hwl⟩
    cases hwl : wordLoop toptag steps its ⟨[], []⟩ [] with
    | error e =>
      simp only
      rw [wordLoop_error toptag htoptag steps its _ _ e hsize hwl]
      refine ⟨Or.inl ⟨_, rfl⟩, fun hw1 => absurd hw1 hw, ?_⟩
      intro hv
      obtain ⟨ws, h2, _⟩ := hspec (hv htwo)
      rw [hwl] at h2
      exact absurd h2 (by simp)
    | ok wr =>
      simp only
      refine ⟨Or.inr ⟨_, _, rfl, hpi, hpp⟩, fun hw1 => absurd hw1 hw, ?_⟩
      intro hv
      obtain ⟨ws, h2, h3, h4⟩ := hspec (hv htwo)
      rw [hwl] at h2
      simp only [Except.ok.injEq] at h2
      refine ⟨_, _, rfl, ⟨?_, ?_, ?_⟩, hpi, hpp⟩
      · intro t ht
        rw [ht] at htwo
        simp at htwo
      · intro _ hw1
        exact absurd hw1 hw
      · intro _ _
        refine ⟨ws, h3, h4, ?_⟩
        rw [h2]
        exact encodeWords_eq_prefixCompressed ws (fun w hw => ((h4 w).1 hw).1)

theorem mergeStep_nil (cd : Codec)
    (top : List MergeCursor → Option (MergeCursor × List MergeCursor))
    (toptag : List PrefixCompressedStringItor →
      Option (PrefixCompressedStringItor × List PrefixCompressedStringItor))
    (htop : IsPriorityQueueOf CursorGt top) (steps : Nat) :
    mergeStep cd top toptag steps [] = Except.ok none := by
  unfold mergeStep
  rw [htop.1]

theorem mergeStep_spec (cd : Codec)
    (top : List MergeCursor → Option (MergeCursor × List MergeCursor))
    (toptag : List PrefixCompressedStringItor →
      Option (PrefixCompressedStringItor × List PrefixCompressedStringItor))
    (htop : IsPriorityQueueOf CursorGt top)
    (htoptag : IsPriorityQueueOf PrefixCompressedStringItorGt toptag) (steps : Nat)
    (pq : List MergeCursor) (hne : pq ≠ []) (hs : ∀ d ∈ pq, SortedTable d.entries)
    (hsteps : spellingSize (entriesOf pq) < steps) :
    ∃ key, tagsIn (entriesOf pq) key ≠ [] ∧ (∀ e ∈ entriesOf pq, strLess e.1 key = false) ∧
      StepSpec cd key (tagsIn (entriesOf pq) key)
        ((entriesOf pq).filter (fun e => e.1 ≠ key)) (mergeStep cd top toptag steps pq) := by
  obtain ⟨cur, rest1, ht, hperm, hmin⟩ := htop.2 pq hne
  have hcs : SortedTable cur.entries := hs cur (hperm.mem_iff.1 (List.mem_cons_self _ _))
  have hrs : ∀ d ∈ rest1, SortedTable d.entries :=
    fun d hd => hs d (hperm.mem_iff.1 (List.mem_cons_of_mem _ hd))
  have hge : ∀ d ∈ rest1, strLess d.current_key cur.current_key = false := hmin
  have hE := entriesOf_perm hperm
  have hsteps1 : spellingSize (entriesOf (cur :: rest1)) < steps := by
    rw [spellingSize_perm hE]
    exact hsteps
  refine ⟨cur.current_key, ?_, ?_, ?_⟩
  · intro h0
    have := tag_mem_tagsIn (hperm.mem_iff.1 (List.mem_cons_self cur rest1)) rfl
    rw [h0] at this
    simp at this
  · intro e he
    have he1 := hE.mem_iff.2 he
    unfold entriesOf at he1
    rw [List.mem_flatMap] at he1
    obtain ⟨d, hd, hed⟩ := he1
    rcases List.mem_cons.1 hd with rfl | hd
    · exact sorted_entries_ge hcs e hed
    · exact strLess_ge_trans (sorted_entries_ge (hrs d hd) e hed) (hge d hd)
  · refine stepSpec_perm (tagsIn_perm hE _) (hE.filter _) ?_
    unfold mergeStep
    rw [ht]
    simp only
    cases ht1 : top rest1 with
    | none =>
      have := top_none htop ht1
      subst this
      simp only [if_true]
      exact step_single cd rfl hcs hrs (by simp)
    | some r =>
      obtain ⟨n, others⟩ := r
      obtain ⟨hperm1, hmin1⟩ := top_some htop ht1
      simp only
      have hn : n ∈ rest1 := hperm1.mem_iff.1 (List.mem_cons_self _ _)
      by_cases hlt : strLess cur.current_key n.current_key = true
      · rw [if_pos hlt]
        refine step_single cd rfl hcs hrs ?_
        intro d hd
        exact strLess_lt_ge hlt (top_least htop ht1 d hd)
      · rw [if_neg hlt]
        simp only [Bool.not_eq_true] at hlt
        have hnk : n.current_key = cur.current_key :=
          strLess_strictTotal.total _ _ (hge n hn) hlt
        by_cases hw : cur.current_key.head? = some 'W'.toNat
        · rw [if_neg (by simpa using hw)]
          exact step_freq cd top htop steps rfl hcs hrs hge hsteps1 hw ⟨n, hn, hnk⟩
        · rw [if_pos hw]
          exact step_words cd top toptag htop htoptag steps rfl hcs hrs hge hsteps1 hw
            ⟨n, hn, hnk⟩

theorem tagsIn_filter_ne (l : List (Bytes × Bytes)) {k key : Bytes} (h : k ≠ key) :
    tagsIn (l.filter (fun e => e.1 ≠ key)) k = tagsIn l k := by
  unfold tagsIn
  rw [List.filter_filter]
  congr 1
  apply List.filter_congr
  intro e _
  by_cases hk : e.1 = k
  · simp [hk, h]
  · simp [hk]

theorem tagsIn_filter_same (l : List (Bytes × Bytes)) (key : Bytes) :
    tagsIn (l.filter (fun e => e.1 ≠ key)) key = [] := by
  unfold tagsIn
  rw [List.filter_filter, List.map_eq_nil_iff, List.filter_eq_nil_iff]
  intro e _
  by_cases hk : e.1 = key <;> simp [hk]

theorem tagsIn_ne_nil {l : List (Bytes × Bytes)} {key : Bytes} (h : tagsIn l key ≠ []) :
    ∃ e ∈ l, e.1 = key := by
  unfold tagsIn at h
  cases hf : l.filter (fun e => e.1 = key) with
  | nil => rw [hf] at h; exact absurd rfl h
  | cons e r =>
    have : e ∈ l.filter (fun e => e.1 = key) := by rw [hf]; exact List.mem_cons_self _ _
    rw [List.mem_filter] at this
    exact ⟨e, this.1, by simpa using this.2⟩

theorem filter_length_lt {l : List (Bytes × Bytes)} {key : Bytes} (h : tagsIn l key ≠ []) :
    (l.filter (fun e => e.1 ≠ key)).length < l.length := by
  obtain ⟨e, he, hk⟩ := tagsIn_ne_nil h
  clear h
  induction l with
  | nil => simp at he
  | cons a l ih =>
    have hle : (l.filter (fun e => decide (e.1 ≠ key))).length ≤ l.length :=
      List.length_filter_le _ _
    rw [List.filter_cons]
    by_cases ha : a.1 = key
    · rw [if_neg (by simp [ha])]
      simp only [List.length_cons]
      omega
    · rw [if_pos (by simp [ha])]
      rcases List.mem_cons.1 he with rfl | he
      · exact absurd hk ha
      · have := ih he
        simp only [List.length_cons]
        omega

/-- The loop of `merge_spellings` on tags that are as the merge expects. -/
theorem mergeLoop_spec (cd : Codec)
    (top : List MergeCursor → Option (MergeCursor × List MergeCursor))
    (toptag : List PrefixCompressedStringItor →
      Option (PrefixCompressedStringItor × List PrefixCompressedStringItor))
    (htop : IsPriorityQueueOf CursorGt top)
    (htoptag : IsPriorityQueueOf PrefixCompressedStringItorGt toptag) (steps : Nat) :
    ∀ (fuel : Nat) (pq : List MergeCursor) (out : List (Bytes × Bytes)),
      (∀ d ∈ pq, SortedTable d.entries) → spellingSize (entriesOf pq) < steps →
      (entriesOf pq).length < fuel →
      (∀ key, 2 ≤ (tagsIn (entriesOf pq) key).length →
        GroupValid cd key (tagsIn (entriesOf pq) key)) →
      ∃ res, mergeLoop cd top toptag steps fuel pq out = Except.ok (out ++ res) ∧
        Ascending (res.map Prod.fst) ∧
        (∀ key, key ∈ res.map Prod.fst ↔ tagsIn (entriesOf pq) key ≠ []) ∧
        ∀ key tag, (key, tag) ∈ res → Merged cd key (tagsIn (entriesOf pq) key) tag := by
  intro fuel
  induction fuel with
  | zero => intro pq out _ _ hf; omega
  | succ f ih =>
    intro pq out hs hsteps hf hvalid
    by_cases hne : pq = []
    · subst hne
      refine ⟨[], ?_, ?_, ?_, ?_⟩
      · unfold mergeLoop
        rw [mergeStep_nil cd top toptag htop steps]
        simp
      · unfold Ascending
        simp
      · intro key
        simp [entriesOf, tagsIn]
      · intro key tag h
        simp at h
    · obtain ⟨key, hkne, hkmin, _, _, R2⟩ :=
        mergeStep_spec cd top toptag htop htoptag steps pq hne hs hsteps
      obtain ⟨tag, pq1, hstep, hmerged, hs1, hp1⟩ := R2 (hvalid key)
      have hsame : tagsIn (entriesOf pq1) key = [] := by
        have := tagsIn_perm hp1 key
        rw [tagsIn_filter_same] at this
        exact List.perm_nil.1 this
      have hother : ∀ k, k ≠ key →
          (tagsIn (entriesOf pq1) k).Perm (tagsIn (entriesOf pq) k) := by
        intro k hk
        have := tagsIn_perm hp1 k
        rw [tagsIn_filter_ne _ hk] at this
        exact this
      have hsize : spellingSize (entriesOf pq1) < steps := by
        rw [spellingSize_perm hp1]
        exact lt_of_le_of_lt (spellingSize_filter_le _ _) hsteps
      have hlen : (entriesOf pq1).length < f := by
        rw [hp1.length_eq]
        have := filter_length_lt hkne
        omega
      obtain ⟨res, h1, h2, h3, h4⟩ := ih pq1 (out ++ [(key, tag)]) hs1 hsize hlen (by
        intro k hk
        by_cases hkk : k = key
        · rw [hkk, hsame] at hk
          simp at hk
        · have hp := hother k hkk
          exact groupValid_perm hp.symm (hvalid k (by rw [← hp.length_eq]; exact hk)))
      have hkeys : ∀ k ∈ res.map Prod.fst, k ≠ key ∧ strLess key k = true := by
        intro k hk
        have h5 := (h3 k).1 hk
        have hkk : k ≠ key := by
          intro e
          rw [e] at h5
          exact h5 hsame
        refine ⟨hkk, ?_⟩
        have h6 : tagsIn (entriesOf pq) k ≠ [] := by
          intro h0
          have := hother k hkk
          rw [h0] at this
          exact h5 (List.perm_nil.1 this)
        obtain ⟨e, he, hek⟩ := tagsIn_ne_nil h6
        have := hkmin e he
        rw [hek] at this
        exact strLess_of_ne this (Ne.symm hkk)
      refine ⟨(key, tag) :: res, ?_, ?_, ?_, ?_⟩
      · unfold mergeLoop
        rw [hstep]
        simp only
        rw [h1]
        simp
      · unfold Ascending
        rw [List.map_cons, List.pairwise_cons]
        exact ⟨fun k hk => (hkeys k hk).2, h2⟩
      · intro k
        rw [List.map_cons, List.mem_cons]
        by_cases hkk : k = key
        · rw [hkk]
          exact ⟨fun _ => hkne, fun _ => Or.inl rfl⟩
        · rw [h3 k]
          have hp := hother k hkk
          constructor
          · rintro (h5 | h5)
            · exact absurd h5 hkk
            · intro h0
              rw [h0] at hp
              exact h5 (List.perm_nil.1 hp)
          · intro h5
            right
            intro h0
            rw [h0] at hp
            exact h5 (List.nil_perm.1 hp)
      · intro k t hkt
        rcases List.mem_cons.1 hkt with e | hkt
        · obtain ⟨rfl, rfl⟩ := Prod.mk.inj e
          exact hmerged
        · have hkk := (hkeys k (List.mem_map_of_mem Prod.fst hkt)).1
          exact merged_perm (hother k hkk) (h4 k t hkt)

/-- The loop of `merge_spellings` when a key that starts with `W` has several
tags of which one is not a frequency. -/
theorem mergeLoop_bad_freq (cd : Codec)
    (top : List MergeCursor → Option (MergeCursor × List MergeCursor))
    (toptag : List PrefixCompressedStringItor →
      Option (PrefixCompressedStringItor × List PrefixCompressedStringItor))
    (htop : IsPriorityQueueOf CursorGt top)
    (htoptag : IsPriorityQueueOf PrefixCompressedStringItorGt toptag) (steps : Nat) :
    ∀ (fuel : Nat) (pq : List MergeCursor) (out : List (Bytes × Bytes)),
      (∀ d ∈ pq, SortedTable d.entries) → spellingSize (entriesOf pq) < steps →
      (entriesOf pq).length < fuel →
      (∃ key, key.head? = some 'W'.toNat ∧ 2 ≤ (tagsIn (entriesOf pq) key).length ∧
        ∃ t ∈ tagsIn (entriesOf pq) key,
          cd.F_unpack_uint_last_termcount t = none ∨ cd.F_unpack_uint_last_termcount t = some 0) →
      ∃ what, mergeLoop cd top toptag steps fuel pq out =
        Except.error (MergeError.corrupt what) := by
  intro fuel
  induction fuel with
  | zero => intro pq out _ _ hf; omega
  | succ f ih =>
    intro pq out hs hsteps hf hbad
    obtain ⟨bkey, hw, hlen, t, ht, hb⟩ := hbad
    have hne : pq ≠ [] := by
      intro h0
      subst h0
      simp [entriesOf, tagsIn] at hlen
    obtain ⟨key, hkne, hkmin, R3, R1, _⟩ :=
      mergeStep_spec cd top toptag htop htoptag steps pq hne hs hsteps
    by_cases hkk : bkey = key
    · subst hkk
      refine ⟨"Bad spelling word freq", ?_⟩
      unfold mergeLoop
      rw [R1 hw hlen ⟨t, ht, hb⟩]
    · rcases R3 with ⟨what, he⟩ | ⟨tag, pq1, hstep, hs1, hp1⟩
      · refine ⟨what, ?_⟩
        unfold mergeLoop
        rw [he]
      · have hother : (tagsIn (entriesOf pq1) bkey).Perm (tagsIn (entriesOf pq) bkey) := by
          have := tagsIn_perm hp1 bkey
          rw [tagsIn_filter_ne _ hkk] at this
          exact this
        have hsize : spellingSize (entriesOf pq1) < steps := by
          rw [spellingSize_perm hp1]
          exact lt_of_le_of_lt (spellingSize_filter_le _ _) hsteps
        have hlen1 : (entriesOf pq1).length < f := by
          rw [hp1.length_eq]
          have := filter_length_lt hkne
          omega
        obtain ⟨what, he⟩ := ih pq1 (out ++ [(key, tag)]) hs1 hsize hlen1
          ⟨bkey, hw, by rw [hother.length_eq]; exact hlen, t, hother.mem_iff.2 ht, hb⟩
        refine ⟨what, ?_⟩
        unfold mergeLoop
        rw [hstep]
        exact he

theorem create_entries {table : List (Bytes × Bytes)} {c : MergeCursor}
    (h : MergeCursor.create table = some c) : c.entries = table := by
  cases table with
  | nil => simp [MergeCursor.create] at h
  | cons e r =>
    obtain ⟨k, t⟩ := e
    simp only [MergeCursor.create, Option.some.injEq] at h
    subst h
    rfl

theorem create_none {table : List (Bytes × Bytes)} (h : MergeCursor.create table = none) :
    table = [] := by
  cases table with
  | nil => rfl
  | cons e r =>
    obtain ⟨k, t⟩ := e
    simp [MergeCursor.create] at h

theorem openSpellings_spec : ∀ (sources : List (List (Bytes × Bytes))) (pq : List MergeCursor),
    (∀ t ∈ sources, SortedTable t) → (∀ d ∈ pq, SortedTable d.entries) →
    entriesOf (openSpellings sources pq) = entriesOf pq ++ sources.flatten ∧
      ∀ d ∈ openSpellings sources pq, SortedTable d.entries := by
  intro sources
  induction sources with
  | nil => intro pq _ hp; exact ⟨by simp [openSpellings], hp⟩
  | cons table more ih =>
    intro pq hs hp
    unfold openSpellings
    cases hc : MergeCursor.create table with
    | none =>
      simp only
      obtain ⟨h1, h2⟩ := ih pq (fun t ht => hs t (List.mem_cons_of_mem _ ht)) hp
      rw [create_none hc]
      exact ⟨by rw [h1]; simp, h2⟩
    | some c =>
      simp only
      have hce := create_entries hc
      obtain ⟨h1, h2⟩ := ih (pq ++ [c]) (fun t ht => hs t (List.mem_cons_of_mem _ ht)) (by
        intro d hd
        rcases List.mem_append.1 hd with hd | hd
        · exact hp d hd
        · simp only [List.mem_singleton] at hd
          subst hd
          rw [hce]
          exact hs table (List.mem_cons_self _ _))
      refine ⟨?_, h2⟩
      rw [h1, entriesOf_append]
      simp [entriesOf, hce]

theorem popLeast_none {α : Type} (gt : α → α → Bool) (pq : List α)
    (h : popLeast gt pq = none) : pq = [] := by
  cases pq with
  | nil => rfl
  | cons c cs =>
    unfold popLeast at h
    cases hp : popLeast gt cs with
    | none => rw [hp] at h; simp at h
    | some p =>
      rw [hp] at h
      dsimp only at h
      split at h <;> simp at h

/-- The scanning queue is a priority queue for a comparison that is a strict
weak order. -/
theorem popLeast_isPriorityQueueOf {α : Type} (gt : α → α → Bool)
    (hasymm : ∀ a b, gt a b = true → gt b a = false)
    (htrans : ∀ a b c, gt a b = false → gt b c = false → gt a c = false) :
    IsPriorityQueueOf gt (popLeast gt) := by
  refine ⟨rfl, ?_⟩
  intro pq
  induction pq with
  | nil => intro h; exact absurd rfl h
  | cons c cs ih =>
    intro _
    unfold popLeast
    cases hp : popLeast gt cs with
    | none =>
      have := popLeast_none gt cs hp
      subst this
      exact ⟨c, [], rfl, List.Perm.refl _, by simp⟩
    | some p =>
      obtain ⟨m, rest⟩ := p
      have hcs : cs ≠ [] := by
        intro e
        subst e
        simp [popLeast] at hp
      obtain ⟨m1, rest1, e, hperm, hmin⟩ := ih hcs
      rw [hp] at e
      simp only [Option.some.injEq, Prod.mk.injEq] at e
      obtain ⟨rfl, rfl⟩ := e
      dsimp only
      by_cases hgt : gt c m = true
      · rw [if_pos hgt]
        refine ⟨m, c :: rest, rfl, ?_, ?_⟩
        · exact (List.Perm.swap c m rest).trans (List.Perm.cons c hperm)
        · intro d hd
          rw [List.mem_cons] at hd
          rcases hd with rfl | hd
          · exact hasymm _ _ hgt
          · exact hmin d hd
      · rw [if_neg hgt]
        simp only [Bool.not_eq_true] at hgt
        refine ⟨c, cs, rfl, List.Perm.refl _, ?_⟩
        intro d hd
        have hd2 := hperm.mem_iff.2 hd
        rw [List.mem_cons] at hd2
        rcases hd2 with rfl | hd2
        · exact hgt
        · exact htrans _ _ _ hgt (hmin d hd2)

theorem popLeast_cursors : IsPriorityQueueOf CursorGt (popLeast CursorGt) :=
  popLeast_isPriorityQueueOf CursorGt (fun _ _ h => strLess_asymm h)
    (fun _ _ _ h1 h2 => strLess_ge_trans h2 h1)

theorem popLeast_itors :
    IsPriorityQueueOf PrefixCompressedStringItorGt (popLeast PrefixCompressedStringItorGt) :=
  popLeast_isPriorityQueueOf PrefixCompressedStringItorGt (fun _ _ h => strLess_asymm h)
    (fun _ _ _ h1 h2 => strLess_ge_trans h2 h1)

/-- It is enough that the tags of the keys of the sources are as the merge
expects. -/
theorem groupValid_of_entries (cd : Codec) (sources : List (List (Bytes × Bytes)))
    (h : ∀ e ∈ sources.flatten, 2 ≤ (tagsOf sources e.1).length →
      GroupValid cd e.1 (tagsOf sources e.1)) :
    ∀ key, 2 ≤ (tagsOf sources key).length → GroupValid cd key (tagsOf sources key) := by
  intro key hlen
  have hne : tagsIn sources.flatten key ≠ [] := by
    intro h0
    have : tagsOf sources key = [] := h0
    rw [this] at hlen
    simp at hlen
  obtain ⟨e, he, hk⟩ := tagsIn_ne_nil hne
  subst hk
  exact h e he hlen

end Compact

namespace Compact

/-- Without renumbering `main` leaves `tot_off` as it is. -/
theorem offsetLoop_keeps_tot_off (fuel : Nat) :
    ∀ (dbs : List SourceDb) (s s1 : OffsetState),
      offsetLoop false fuel dbs s = Except.ok s1 → s1.tot_off = s.tot_off := by
  intro dbs
  induction dbs with
  | nil =>
    intro s s1 h
    simp only [offsetLoop, Except.ok.injEq] at h
    rw [← h]
  | cons db dbs ih =>
    intro s s1 h
    unfold offsetLoop at h
    cases hstep : sourceStep false fuel db s with
    | error e => rw [hstep] at h; cases h
    | ok s2 =>
      rw [hstep] at h
      dsimp only at h
      rw [ih s2 s1 h]
      unfold sourceStep at hstep
      dsimp only at hstep
      split at hstep
      · cases hstep
      · rename_i first last tot heq
        simp only [Bool.false_eq_true, if_false, Except.ok.injEq] at hstep
        rw [← hstep]
        dsimp only
        split at heq
        · split at heq
          · cases heq
          · simp only [Bool.false_and, Bool.false_eq_true, if_false] at heq
            split at heq
            · cases heq
            · simp only [Except.ok.injEq, Prod.mk.injEq] at heq
              exact heq.2.2.symm
        · simp only [Except.ok.injEq, Prod.mk.injEq] at heq
          exact heq.2.2.symm

/-- C34, on the code: with `--no-renumber`, for one source with the documents
1 to 5, `main` ends with `tot_off` 0, and `merge_postlists` writes it as the
last docid of the metainfo entry, while the merged database holds docid 5.
With renumbering `tot_off` is 5. -/
theorem no_renumber_tot_off_zero :
    offsetLoop false 40 [fiveDocs] ⟨[], [], 0⟩ = Except.ok ⟨[0], [(1, 5)], 0⟩ ∧
    offsetLoop true 40 [fiveDocs] ⟨[], [], 0⟩ = Except.ok ⟨[0], [(1, 5)], 5⟩ ∧
    (5 ∈ fiveDocs.docids ∧ ¬ 5 ≤ 0) ∧
    (merge_postlists flintCodec popMin 20 [(exampleTableA, 0)] 0).map (fun out => out.head?) =
      Except.ok (some ([0], packUint 0 ++ packUintLast 7)) :=
  ⟨rfl, rfl, by decide, rfl⟩

/-- C36, on the code: for one source whose synonym table has one entry,
`merge_synonyms` takes the cursor off the queue and then calls `pq.top()` on
the empty queue; so it does after the key `c` of two tables with the keys `a`
and `a`, `c`. `merge_spellings` tests `pq.empty()` first and copies the
entry. -/
theorem merge_synonyms_top_of_empty_queue :
    merge_synonyms (popLeast CursorGt) (popLeast ByteLengthPrefixedStringItorGt) 10
      [exampleSynonyms] = Except.error SynonymStop.emptyTop ∧
    merge_synonyms (popLeast CursorGt) (popLeast ByteLengthPrefixedStringItorGt) 10
      [exampleSynonyms, exampleSynonymsB] = Except.error SynonymStop.emptyTop ∧
    synonymStep (popLeast CursorGt) (popLeast ByteLengthPrefixedStringItorGt) 10
      (openSpellings [exampleSynonyms, exampleSynonymsB] []) =
      Except.ok (some (([97], [1 ^^^ MAGIC_XOR_VALUE, 98, 1 ^^^ MAGIC_XOR_VALUE, 100]),
        [⟨[99], [1 ^^^ MAGIC_XOR_VALUE, 101], []⟩])) ∧
    merge_spellings flintCodec (popLeast CursorGt) (popLeast PrefixCompressedStringItorGt) 10
      [exampleSynonyms] = Except.ok exampleSynonyms :=
  ⟨rfl, rfl, rfl, rfl⟩

/-- C38: for a source with `num_docs` docids in use, `first` and the rest,
which ascend strictly and are at most `get_lastdocid()`, which fits 32 bits,
the binary chop of `main`, started with `last_lbound` at
`first + num_docs - 1` and `last` at `get_lastdocid()`, ends within 32 turns
and leaves `last` on the largest docid in use. -/
theorem binary_chop_finds_last_docid (db : SourceDb) (first : Nat) (rest : List Nat)
    (fuel : Nat) (hids : db.docids = first :: rest) (hcount : db.doccount = db.docids.length)
    (hasc : db.docids.Pairwise (fun a b => a < b))
    (hlast : ∀ d ∈ db.docids, d ≤ db.lastdocid) (hbits : db.lastdocid < 2 ^ 32)
    (hfuel : 32 ≤ fuel) :
    ∃ m, m ∈ db.docids ∧ (∀ d ∈ db.docids, d ≤ m) ∧
      lastUsedLoop db fuel db.docids ((first + db.doccount - 1) % 2 ^ 32) db.lastdocid =
        Except.ok m := by
  rw [hids] at hasc
  obtain ⟨hge, hmem0, hmax0⟩ := ascending_last_ge rest first hasc
  have hmem : (first :: rest).getLastD 0 ∈ db.docids := by rw [hids]; exact hmem0
  have hmax : ∀ d ∈ db.docids, d ≤ (first :: rest).getLastD 0 := by rw [hids]; exact hmax0
  have hm := hlast _ hmem
  have hlen : first + db.doccount - 1 = first + rest.length := by
    rw [hcount, hids]; simp
  have hmod : (first + db.doccount - 1) % 2 ^ 32 = first + rest.length := by
    rw [hlen]
    exact Nat.mod_eq_of_lt (by omega)
  refine ⟨(first :: rest).getLastD 0, hmem, hmax, ?_⟩
  rw [hmod]
  apply lastUsedLoop_spec db _ hmem hmax fuel db.docids
  · calc db.lastdocid - (first + rest.length) ≤ db.lastdocid := Nat.sub_le _ _
      _ < 2 ^ 32 := hbits
      _ ≤ 2 ^ fuel := Nat.pow_le_pow_right (by decide) hfuel
  · exact hge
  · exact hm
  · exact ⟨[], rfl, by simp⟩

/-- C38 on a source with the docids 2, 3 and 7 whose last docid is 20. -/
theorem binary_chop_finds_last_docid_witness :
    lastUsedLoop ⟨3, [2, 3, 7], 20⟩ 32 [2, 3, 7] 4 20 = Except.ok 7 ∧
    ∃ m, m ∈ [2, 3, 7] ∧ (∀ d ∈ [2, 3, 7], d ≤ m) ∧
      lastUsedLoop ⟨3, [2, 3, 7], 20⟩ 32 [2, 3, 7] ((2 + 3 - 1) % 2 ^ 32) 20 =
        Except.ok m :=
  ⟨rfl,
    binary_chop_finds_last_docid ⟨3, [2, 3, 7], 20⟩ 2 [3, 7] 32 rfl rfl (by decide)
      (by decide) (by decide) (by decide)⟩

/-- A byte count below 256 survives `char(n ^ MAGIC_XOR_VALUE)` and the
`^ MAGIC_XOR_VALUE` of the reader. -/
theorem magic_xor_roundtrip (n : Nat) (h : n < 256) :
    ((n ^^^ MAGIC_XOR_VALUE) % 256) ^^^ MAGIC_XOR_VALUE = n := by
  have h1 : n ^^^ MAGIC_XOR_VALUE < 2 ^ 8 :=
    Nat.xor_lt_two_pow (by simpa using h) (by decide)
  rw [Nat.mod_eq_of_lt (by simpa using h1), Nat.xor_assoc, Nat.xor_self, Nat.xor_zero]

/-- The common start that `append` counts is a start of both strings. -/
theorem commonLength_spec : ∀ (current word : Bytes),
    commonLength current word ≤ current.length ∧ commonLength current word ≤ word.length ∧
      current.take (commonLength current word) = word.take (commonLength current word) := by
  intro current
  induction current with
  | nil => intro word; simp [commonLength]
  | cons a current ih =>
    intro word
    cases word with
    | nil => simp [commonLength]
    | cons b word =>
      by_cases hab : a = b
      · subst hab
        obtain ⟨h1, h2, h3⟩ := ih word
        simp only [commonLength, ne_eq, not_true_eq_false, if_false, List.length_cons,
          List.take_succ_cons]
        exact ⟨by omega, by omega, by rw [h3]⟩
      · simp [commonLength, hab]

/-- The writer adds the bytes of `encodeFrom` to its output. -/
theorem foldl_append_out : ∀ (ws : List Bytes) (wr : PrefixCompressedStringWriter),
    (ws.foldl PrefixCompressedStringWriter.append wr).out = wr.out ++ encodeFrom wr.current ws := by
  intro ws
  induction ws with
  | nil => intro wr; simp [encodeFrom]
  | cons w ws ih =>
    intro wr
    rw [List.foldl_cons, ih]
    by_cases hc : wr.current.isEmpty = true
    · simp [PrefixCompressedStringWriter.append, encodeFrom, encodeWord, hc]
    · simp [PrefixCompressedStringWriter.append, encodeFrom, encodeWord, hc]

/-- The iterator reads back one word that the writer wrote. -/
theorem incr_encodeWord (current word rest : Bytes) (h : word.length < 256) :
    PrefixCompressedStringItor.incr ⟨some (encodeWord current word ++ rest), current⟩ =
      Except.ok ⟨some rest, word⟩ := by
  by_cases hc : current.isEmpty = true
  · have hx := magic_xor_roundtrip word.length h
    simp only [encodeWord, hc, Bool.not_true, Bool.false_eq_true, if_false, List.singleton_append,
      List.cons_append, PrefixCompressedStringItor.incr, hx]
    have hcur : current = [] := List.isEmpty_iff.mp hc
    subst hcur
    simp
    omega
  · obtain ⟨h1, h2, h3⟩ := commonLength_spec current word
    have hi := magic_xor_roundtrip (commonLength current word) (by omega)
    have hr := magic_xor_roundtrip (word.length - commonLength current word) (by omega)
    simp only [Bool.not_eq_true] at hc
    simp only [encodeWord, hc, Bool.not_false, if_true, List.singleton_append,
      List.cons_append, List.nil_append, PrefixCompressedStringItor.incr, hi, hr]
    have hlen : (List.drop (commonLength current word) word).length =
        word.length - commonLength current word := List.length_drop _ _
    have hres : resize current (commonLength current word) =
        word.take (commonLength current word) := by
      rw [resize, h3, Nat.sub_eq_zero_of_le h1]; simp
    have hnot : ¬ (word.length - commonLength current word ≥
        (List.drop (commonLength current word) word ++ rest).length + 1) := by
      rw [List.length_append, hlen]; omega
    rw [if_neg hnot, hres]
    have hd : List.drop (word.length - commonLength current word)
        (List.drop (commonLength current word) word ++ rest) = rest := by
      rw [← hlen]; exact List.drop_left _ _
    have ht : List.take (word.length - commonLength current word)
        (List.drop (commonLength current word) word ++ rest) =
        List.drop (commonLength current word) word := by
      rw [← hlen]; exact List.take_left _ _
    rw [hd, ht, List.take_append_drop]

/-- The iterator on the word `w` with the bytes of the words `ws` left gives
`w` and then `ws`. -/
theorem wordsFrom_encodeFrom : ∀ (ws : List Bytes) (w : Bytes) (fuel : Nat),
    (∀ v ∈ ws, v.length < 256) → ws.length + 2 ≤ fuel →
      wordsFrom fuel ⟨some (encodeFrom w ws), w⟩ = some (w :: ws) := by
  intro ws
  induction ws with
  | nil =>
    intro w fuel _ hf
    obtain ⟨f, rfl⟩ : ∃ f, fuel = f + 2 := ⟨fuel - 2, by simp at hf; omega⟩
    simp [wordsFrom, encodeFrom, PrefixCompressedStringItor.at_end,
      PrefixCompressedStringItor.incr]
  | cons v ws ih =>
    intro w fuel hlen hf
    obtain ⟨f, rfl⟩ : ∃ f, fuel = f + 1 := ⟨fuel - 1, by simp at hf; omega⟩
    have hstep := incr_encodeWord w v (encodeFrom v ws) (hlen v (List.mem_cons_self _ _))
    have hrec := ih v f (fun u hu => hlen u (List.mem_cons_of_mem _ hu))
      (by simp at hf; omega)
    rw [wordsFrom]
    simp only [PrefixCompressedStringItor.at_end, Option.isNone_some, Bool.false_eq_true,
      if_false, encodeFrom, hstep, hrec, Option.map_some']

/-- The bytes for a list of words are at least as many as the words. -/
theorem encodeFrom_length : ∀ (ws : List Bytes) (current : Bytes),
    ws.length ≤ (encodeFrom current ws).length := by
  intro ws
  induction ws with
  | nil => intro current; simp
  | cons w ws ih =>
    intro current
    have h := ih w
    have h1 : 1 ≤ (encodeWord current w).length := by
      unfold encodeWord
      split <;> simp
    simp only [encodeFrom, List.length_append, List.length_cons]
    omega

/-- The iterator reads back the words, of less than 256 bytes each, that the
writer wrote. -/
theorem wordsOf_encodeWords (ws : List Bytes) (h : ∀ w ∈ ws, w.length < 256) :
    wordsOf (encodeWords ws) = some ws := by
  have henc : encodeWords ws = encodeFrom [] ws := by
    rw [encodeWords, foldl_append_out]; rfl
  rw [henc]
  cases ws with
  | nil => rfl
  | cons w ws =>
    have hstep := incr_encodeWord [] w (encodeFrom w ws) (h w (List.mem_cons_self _ _))
    have hl := encodeFrom_length ws w
    have h1 : 1 ≤ (encodeWord [] w).length := by
      unfold encodeWord
      split <;> simp
    have hne : (encodeWord [] w ++ encodeFrom w ws).isEmpty = false := by
      cases hq : encodeWord [] w ++ encodeFrom w ws with
      | nil =>
        have h2 := congrArg List.length hq
        simp only [List.length_append, List.length_nil] at h2
        omega
      | cons a l => rfl
    unfold wordsOf PrefixCompressedStringItor.create
    simp only [encodeFrom, hne, Bool.not_false, if_true, hstep]
    apply wordsFrom_encodeFrom
    · intro v hv; exact h v (List.mem_cons_of_mem _ hv)
    · simp only [List.length_append]; omega

/-- C39: for words of less than 256 bytes each, the tag that
`PrefixCompressedStringWriter` writes for them, read with
`PrefixCompressedStringItor`, gives the same words in the same order and then
`at_end()`, without a `DatabaseCorruptError`. -/
theorem prefix_compressed_roundtrip (ws : List Bytes) (h : ∀ w ∈ ws, w.length < 256) :
    wordsOf (encodeWords ws) = some ws ∧
      ∃ it, PrefixCompressedStringItor.create (encodeWords ws) = Except.ok it ∧
        Decodes it ws :=
  ⟨wordsOf_encodeWords ws h, wordsOf_decodes (wordsOf_encodeWords ws h)⟩

/-- C39 on the words `cat`, `cat`, the empty word and `cot`. -/
theorem prefix_compressed_roundtrip_witness :
    wordsOf (encodeWords [[99, 97, 116], [99, 97, 116], [], [99, 111, 116]]) =
        some [[99, 97, 116], [99, 97, 116], [], [99, 111, 116]] ∧
      ∃ it, PrefixCompressedStringItor.create
          (encodeWords [[99, 97, 116], [99, 97, 116], [], [99, 111, 116]]) = Except.ok it ∧
        Decodes it [[99, 97, 116], [99, 97, 116], [], [99, 111, 116]] :=
  prefix_compressed_roundtrip [[99, 97, 116], [99, 97, 116], [], [99, 111, 116]] (by decide)

/-- A key with a user-metadata key as a start is a user-metadata key. -/
theorem user_metadata_key_of_take (k : Bytes) (n : Nat)
    (h : is_user_metadata_key (k.take n) = true) : is_user_metadata_key k = true := by
  match k, n, h with
  | [], _, h => simp [is_user_metadata_key] at h
  | [_], 0, h => simp [is_user_metadata_key] at h
  | [_], _ + 1, h => simp [is_user_metadata_key] at h
  | _ :: _ :: _, 0, h => simp [is_user_metadata_key] at h
  | _ :: _ :: _, 1, h => simp [is_user_metadata_key] at h
  | a :: b :: r, n + 2, h =>
    simp only [is_user_metadata_key, List.take_succ_cons, List.length_cons, List.getD_cons_zero,
      List.getD_cons_succ, Bool.and_eq_true, decide_eq_true_eq, beq_iff_eq] at h ⊢
    exact ⟨⟨by omega, h.1.2⟩, h.2⟩

/-- The cursor presents a user-metadata entry as it is, and presents no other
entry under a user-metadata key. -/
theorem read_user_meta (cd : Codec) (c c1 : PostlistCursor) (k t : Bytes)
    (r : List (Bytes × Bytes)) (h : c.read cd k t r = Except.ok c1) :
    (is_user_metadata_key k = true → c1.key = k ∧ c1.tag = t) ∧
      (is_user_metadata_key c1.key = true → c1.key = k ∧ c1.tag = t) := by
  unfold PostlistCursor.read at h
  dsimp only at h
  split at h
  · cases h; exact ⟨fun _ => ⟨rfl, rfl⟩, fun _ => ⟨rfl, rfl⟩⟩
  · split at h
    · cases h; exact ⟨fun _ => ⟨rfl, rfl⟩, fun _ => ⟨rfl, rfl⟩⟩
    · rename_i hnm hnu
      refine ⟨fun hk => absurd hk hnu, ?_⟩
      split at h
      · cases h
      · split at h
        · split at h
          · cases h
          · split at h
            · cases h
            · split at h
              · cases h
              · cases h
                intro hk
                exact absurd hk hnu
        · split at h
          · cases h
            intro hk
            exact absurd (user_metadata_key_of_take _ _ hk) hnu
          · cases h

/-- The user-metadata entries of a table are the states of its cursor with a
user-metadata key. -/
theorem following_user_meta (cd : Codec) :
    ∀ (entries : List (Bytes × Bytes)) (c : PostlistCursor) (l : List PostlistCursor),
      following cd entries c = some l →
      (∀ kt ∈ entries, is_user_metadata_key kt.1 = true →
        ∃ u ∈ l, u.key = kt.1 ∧ u.tag = kt.2) ∧
      (∀ u ∈ l, is_user_metadata_key u.key = true → (u.key, u.tag) ∈ entries) := by
  intro entries
  induction entries with
  | nil =>
    intro c l h
    simp only [following, Option.some.injEq] at h
    subst h
    simp
  | cons e r ih =>
    intro c l h
    obtain ⟨k, t⟩ := e
    simp only [following] at h
    cases hread : c.read cd k t r with
    | error e => rw [hread] at h; simp at h
    | ok c1 =>
      rw [hread] at h
      dsimp only at h
      cases hf : following cd r c1 with
      | none => rw [hf] at h; simp at h
      | some l1 =>
        rw [hf] at h
        simp only [Option.some.injEq] at h
        subst h
        obtain ⟨h1, h2⟩ := ih c1 l1 hf
        obtain ⟨hr1, hr2⟩ := read_user_meta cd c c1 k t r hread
        constructor
        · intro kt hkt hk
          rw [List.mem_cons] at hkt
          rcases hkt with rfl | hkt
          · exact ⟨c1, List.mem_cons_self _ _, hr1 hk⟩
          · obtain ⟨u, hu, hku⟩ := h1 kt hkt hk
            exact ⟨u, List.mem_cons_of_mem _ hu, hku⟩
        · intro u hu hk
          rw [List.mem_cons] at hu
          rcases hu with rfl | hu
          · obtain ⟨e1, e2⟩ := hr2 hk
            rw [e1, e2]
            exact List.mem_cons_self _ _
          · exact List.mem_cons_of_mem _ (h2 u hu hk)

/-- The user-metadata loop writes, for each user-metadata key of the queue that
is not `last_key`, one entry, which is an entry of the queue. -/
theorem metaLoop_entries (cd : Codec)
    (top : List PostlistCursor → Option (PostlistCursor × List PostlistCursor))
    (htop : IsPriorityQueue top) :
    ∀ (fuel : Nat) (pq : List PostlistCursor) (last_key last_tag : Bytes)
      (out : List (Bytes × Bytes)),
      queueSize pq < fuel → (∀ c ∈ pq, Readable cd c) →
      (∀ u ∈ pq.flatMap (fun c => c.stream cd), is_user_metadata_key u.key = true →
        ∀ t ∈ pq.flatMap (fun c => c.stream cd), isTermKey t.key = true →
          strLess u.key t.key = true) →
      ∃ pq1 last_key1 added,
        metaLoop cd top fuel pq last_key last_tag out = Except.ok (pq1, last_key1, out ++ added) ∧
        (∀ e ∈ added, ∃ u ∈ pq.flatMap (fun c => c.stream cd),
          is_user_metadata_key u.key = true ∧ e = (u.key, u.tag)) ∧
        (∀ u ∈ pq.flatMap (fun c => c.stream cd), is_user_metadata_key u.key = true →
          u.key = last_key ∨ ∃ e ∈ added, e.1 = u.key) := by
  intro fuel
  induction fuel with
  | zero => intro pq _ _ _ h; omega
  | succ n ih =>
    intro pq last_key last_tag out hsize hread hmeta
    unfold metaLoop
    by_cases hnil : pq = []
    · subst hnil
      rw [htop.1]
      exact ⟨[], last_key, [], by simp, by simp, by simp⟩
    · obtain ⟨c, others, ht, hperm, hmin⟩ := htop.2 pq hnil
      rw [ht]
      dsimp only
      have hc : c ∈ pq := hperm.mem_iff.1 (List.mem_cons_self _ _)
      have hothers : ∀ d ∈ others, d ∈ pq := fun d hd => hperm.mem_iff.1 (List.mem_cons_of_mem _ hd)
      have hsz : queueSize pq = (c.rest.length + 1) + queueSize others := by
        rw [← queueSize_perm hperm]
        simp [queueSize]
      have hflat : (pq.flatMap (fun c => c.stream cd)).Perm
          (c.stream cd ++ others.flatMap (fun c => c.stream cd)) := by
        have := (hperm.flatMap_right (fun c => c.stream cd)).symm
        simpa using this
      cases hk : is_user_metadata_key c.key with
      | false =>
        simp only [Bool.not_false, if_true]
        -- every cursor is at a posting-list chunk
        have hall : ∀ d ∈ pq, ∃ l, following cd d.rest d = some l ∧ (d :: l).Pairwise CursorLe ∧
            ∀ x ∈ d :: l, isTermKey x.key = true := by
          intro d hd
          apply (hread d hd).at_term
          cases hdk : is_user_metadata_key d.key with
          | false => rfl
          | true =>
            exfalso
            obtain ⟨lc, hlc, _, hct⟩ := (hread c hc).at_term hk
            have hcterm := hct c (List.mem_cons_self _ _)
            have hdo : d ∈ others := by
              have := hperm.mem_iff.2 hd
              rw [List.mem_cons] at this
              rcases this with rfl | h
              · rw [hk] at hdk; exact absurd hdk (by simp)
              · exact h
            have h1 := hmeta d (List.mem_flatMap.2 ⟨d, hd, by rw [stream_cons]; simp⟩) hdk
              c (List.mem_flatMap.2 ⟨c, hc, by rw [stream_cons]; simp⟩) hcterm
            have h2 : CursorLe c d := hmin d hdo
            rw [cursorLe_iff] at h2
            rw [h2.1] at h1
            exact absurd h1 (by simp)
        refine ⟨pq, last_key, [], by simp, by simp, ?_⟩
        intro u hu huk
        exfalso
        rw [List.mem_flatMap] at hu
        obtain ⟨d, hd, hud⟩ := hu
        obtain ⟨l, hl, _, ht⟩ := hall d hd
        rw [stream_of_following cd d l hl] at hud
        have := (isTermKey_not_meta (ht u hud)).1
        rw [huk] at this
        exact absurd this (by simp)
      | true =>
        simp only [Bool.not_true, Bool.false_eq_true, if_false]
        obtain ⟨l, hl, hnextok⟩ := (hread c hc).after_meta hk
        have hstream := stream_of_following cd c l hl
        have hcmem : c ∈ pq.flatMap (fun c => c.stream cd) :=
          List.mem_flatMap.2 ⟨c, hc, by rw [stream_cons]; simp⟩
        -- what the turn adds for `c`, and why that is enough for `c`
        have hturn : ∀ (pq2 : List PostlistCursor) (added : List (Bytes × Bytes)),
            (∀ x ∈ pq2.flatMap (fun c => c.stream cd), x ∈ pq.flatMap (fun c => c.stream cd)) →
            (∀ x ∈ pq.flatMap (fun c => c.stream cd),
              x = c ∨ x ∈ pq2.flatMap (fun c => c.stream cd)) →
            (∀ e ∈ added, ∃ u ∈ pq2.flatMap (fun c => c.stream cd),
              is_user_metadata_key u.key = true ∧ e = (u.key, u.tag)) →
            (∀ u ∈ pq2.flatMap (fun c => c.stream cd), is_user_metadata_key u.key = true →
              u.key = (if (!(c.key == last_key)) = true then c.key else last_key) ∨
                ∃ e ∈ added, e.1 = u.key) →
            (∀ e ∈ (if (!(c.key == last_key)) = true then [(c.key, c.tag)] else []) ++ added,
              ∃ u ∈ pq.flatMap (fun c => c.stream cd),
                is_user_metadata_key u.key = true ∧ e = (u.key, u.tag)) ∧
            (∀ u ∈ pq.flatMap (fun c => c.stream cd), is_user_metadata_key u.key = true →
              u.key = last_key ∨
                ∃ e ∈ (if (!(c.key == last_key)) = true then [(c.key, c.tag)] else []) ++ added,
                  e.1 = u.key) := by
          intro pq2 added hsub hsup ha hb
          constructor
          · intro e he
            rw [List.mem_append] at he
            rcases he with he | he
            · by_cases hbq : (!(c.key == last_key)) = true
              · rw [if_pos hbq, List.mem_singleton] at he
                exact ⟨c, hcmem, hk, he⟩
              · rw [if_neg hbq] at he
                exact absurd he (List.not_mem_nil _)
            · obtain ⟨u, hu, huk, hue⟩ := ha e he
              exact ⟨u, hsub u hu, huk, hue⟩
          · have hkey : ∀ key, key = (if (!(c.key == last_key)) = true then c.key else last_key) →
                key = last_key ∨
                  ∃ e ∈ (if (!(c.key == last_key)) = true then [(c.key, c.tag)] else []) ++ added,
                    e.1 = key := by
              intro key hkey
              by_cases hbq : (!(c.key == last_key)) = true
              · rw [if_pos hbq] at hkey
                right
                exact ⟨(c.key, c.tag), by rw [if_pos hbq]; simp, hkey.symm⟩
              · rw [if_neg hbq] at hkey
                exact Or.inl hkey
            have hckey : c.key = (if (!(c.key == last_key)) = true then c.key else last_key) := by
              by_cases hbq : (!(c.key == last_key)) = true
              · rw [if_pos hbq]
              · rw [if_neg hbq]
                simpa using hbq
            intro u hu huk
            rcases hsup u hu with rfl | hu2
            · exact hkey _ hckey
            · rcases hb u hu2 huk with h1 | ⟨e, he, hek⟩
              · exact hkey _ h1
              · exact Or.inr ⟨e, List.mem_append_right _ he, hek⟩
        rcases next_of_following cd c l hl with ⟨hlnil, hrnil, hnext⟩ | ⟨c1, l1, hlc, hnext, hf1, hlen⟩
        · rw [hnext]
          dsimp only
          obtain ⟨pq1, lk1, added, he, ha, hb⟩ :=
            ih others (if (!(c.key == last_key)) = true then c.key else last_key)
              (if (!(c.key == last_key)) = true then c.tag else last_tag)
              (if (!(c.key == last_key)) = true then out ++ [(c.key, c.tag)] else out)
              (by omega) (fun d hd => hread d (hothers d hd))
              (by
                intro u hu huk t ht htk
                exact hmeta u (hflat.mem_iff.2 (List.mem_append_right _ hu)) huk
                  t (hflat.mem_iff.2 (List.mem_append_right _ ht)) htk)
          rw [he]
          obtain ⟨r1, r2⟩ := hturn others added
            (fun x hx => hflat.mem_iff.2 (List.mem_append_right _ hx))
            (by
              intro x hx
              have := hflat.mem_iff.1 hx
              rw [List.mem_append, hstream, hlnil, List.mem_singleton] at this
              exact this)
            ha hb
          refine ⟨pq1, lk1, (if (!(c.key == last_key)) = true then [(c.key, c.tag)] else []) ++ added,
            ?_, r1, r2⟩
          by_cases hbq : (!(c.key == last_key)) = true
          · simp [hbq]
          · simp [hbq]
        · rw [hnext]
          dsimp only
          have hr1 : Readable cd c1 := hnextok c1 l1 hlc hf1
          have hstream1 := stream_of_following cd c1 l1 hf1
          have hsub : ∀ x ∈ (others ++ [c1]).flatMap (fun c => c.stream cd),
              x ∈ pq.flatMap (fun c => c.stream cd) := by
            intro x hx
            rw [List.flatMap_append, List.mem_append] at hx
            apply hflat.mem_iff.2
            rcases hx with hx | hx
            · exact List.mem_append_right _ hx
            · simp only [List.flatMap_cons, List.flatMap_nil, List.append_nil] at hx
              rw [hstream, hlc, ← hstream1]
              exact List.mem_append_left _ (List.mem_cons_of_mem _ hx)
          obtain ⟨pq1, lk1, added, he, ha, hb⟩ :=
            ih (others ++ [c1]) (if (!(c.key == last_key)) = true then c.key else last_key)
              (if (!(c.key == last_key)) = true then c.tag else last_tag)
              (if (!(c.key == last_key)) = true then out ++ [(c.key, c.tag)] else out)
              (by
                have : queueSize (others ++ [c1]) = queueSize others + (c1.rest.length + 1) := by
                  simp [queueSize]
                omega)
              (by
                intro d hd
                rw [List.mem_append, List.mem_singleton] at hd
                rcases hd with hd | rfl
                · exact hread d (hothers d hd)
                · exact hr1)
              (by
                intro u hu huk t ht htk
                exact hmeta u (hsub u hu) huk t (hsub t ht) htk)
          rw [he]
          obtain ⟨r1, r2⟩ := hturn (others ++ [c1]) added hsub
            (by
              intro x hx
              have := hflat.mem_iff.1 hx
              rw [List.mem_append, hstream, hlc, List.mem_cons] at this
              rw [List.flatMap_append, List.mem_append]
              simp only [List.flatMap_cons, List.flatMap_nil, List.append_nil]
              rw [hstream1]
              rcases this with (h | h) | h
              · exact Or.inl h
              · exact Or.inr (Or.inr h)
              · exact Or.inr (Or.inl h))
            ha hb
          refine ⟨pq1, lk1, (if (!(c.key == last_key)) = true then [(c.key, c.tag)] else []) ++ added,
            ?_, r1, r2⟩
          by_cases hbq : (!(c.key == last_key)) = true
          · simp [hbq]
          · simp [hbq]

/-- The loop that opens the sources leaves on the queue the entries of each
source after its metainfo entry. -/
theorem openLoop_streams (cd : Codec) :
    ∀ (sources : List (List (Bytes × Bytes) × Nat)) (tot0 : Nat) (pq0 : List PostlistCursor),
      (∀ s ∈ sources, WellFormedSource cd s) →
      tot0 + (sources.map (totlenOf cd)).sum < 2 ^ cd.totlen_bits →
      ∃ tot new, openLoop cd sources tot0 pq0 = Except.ok (tot, pq0 ++ new) ∧
        new.flatMap (fun c => c.stream cd) =
          sources.flatMap (fun s => ((chunksOf cd s).getD []).tail) := by
  intro sources
  induction sources with
  | nil =>
    intro tot0 pq0 _ _
    exact ⟨tot0, [], by simp [openLoop], by simp⟩
  | cons src more ih =>
    intro tot0 pq0 hwf htot
    obtain ⟨table, offset⟩ := src
    have hwf1 := hwf (table, offset) (List.mem_cons_self _ _)
    have hwf2 : ∀ s ∈ more, WellFormedSource cd s := fun s hs => hwf s (List.mem_cons_of_mem _ hs)
    simp only [List.map_cons, List.sum_cons] at htot
    unfold openLoop
    by_cases hempty : table = []
    · subst hempty
      simp only [List.isEmpty_nil, if_true]
      obtain ⟨tot, new, he, hs⟩ := ih tot0 pq0 hwf2 (by omega)
      refine ⟨tot, new, he, ?_⟩
      rw [hs, List.flatMap_cons]
      simp [chunksOf, following]
    · have hne : table.isEmpty = false := by
        cases table with
        | nil => exact absurd rfl hempty
        | cons _ _ => rfl
      rw [hne]
      simp only [Bool.false_eq_true, if_false]
      rcases hwf1 with h0 | ⟨m, us, ts, hch, hm, ⟨v, data, totlen, hv, hlast⟩, hus, hts, hsorted⟩
      · exact absurd h0 hempty
      · have htl : totlenOf cd (table, offset) = totlen := by
          unfold totlenOf
          rw [hch]
          dsimp only
          rw [hv]
          dsimp only
          rw [hlast]
          rfl
        rw [htl] at htot
        have hch2 := hch
        unfold chunksOf at hch2
        dsimp only at hch2
        rcases next_of_following cd ⟨table, offset, [], [], 0, 0, 0⟩ _ hch2 with
          ⟨hl, _, _⟩ | ⟨c1, l1, hl, hnext, hf, hlen⟩
        · exact absurd hl (by simp)
        · simp only [List.cons.injEq] at hl
          obtain ⟨hmc, hl1⟩ := hl
          subst hmc
          have hcreate : PostlistCursor.create cd table offset = Except.ok m := by
            unfold PostlistCursor.create
            dsimp only
            rw [hnext]
          rw [hcreate]
          dsimp only
          rw [if_pos hm, hv]
          dsimp only
          rw [hlast]
          dsimp only
          have hmod : (tot0 + totlen) % 2 ^ cd.totlen_bits = tot0 + totlen :=
            Nat.mod_eq_of_lt (by omega)
          rw [hmod, if_neg (by omega)]
          dsimp only
          rcases next_of_following cd m l1 hf with ⟨hnil, _, hn⟩ | ⟨c2, l2, hl2, hn, hf2, hlen2⟩
          · rw [hn]
            dsimp only
            obtain ⟨tot, new, he, hs⟩ := ih (tot0 + totlen) pq0 hwf2 (by omega)
            refine ⟨tot, new, he, ?_⟩
            rw [hs, List.flatMap_cons, hch, Option.getD_some, List.tail_cons, hl1, hnil,
              List.nil_append]
          · rw [hn]
            dsimp only
            obtain ⟨tot, new, he, hs⟩ := ih (tot0 + totlen) (pq0 ++ [c2]) hwf2 (by omega)
            have hstream : c2.stream cd = us ++ ts := by
              rw [stream_of_following cd c2 l2 hf2, ← hl2, hl1]
            refine ⟨tot, c2 :: new, by rw [he]; simp, ?_⟩
            rw [List.flatMap_cons, hs, List.flatMap_cons, hch, Option.getD_some, List.tail_cons,
              hstream]

/-- Each chunk has its entry among the entries written for the chunks: under
its key or its key with its first docid, with its tag after the flag byte at
the end. -/
theorem mem_expectedTerms (cd : Codec) (cs : List PostlistCursor) (c : PostlistCursor)
    (hc : c ∈ cs) :
    ∃ e ∈ expectedTerms cd cs,
      (e.1 = c.key ∨ e.1 = c.key ++ cd.F_pack_uint_preserving_sort c.firstdid) ∧
        ∃ hd flag, e.2 = hd ++ flag :: c.tag.tail := by
  have hg : c ∈ cs.filter (fun x => x.key == c.key) := List.mem_filter.2 ⟨hc, by simp⟩
  obtain ⟨i, hi⟩ := List.mem_iff_getElem?.1 hg
  refine ⟨expectedEntry cd c.key (cs.filter (fun x => x.key == c.key)) i c, ?_, ?_, ?_⟩
  · unfold expectedTerms
    rw [List.mem_flatMap]
    refine ⟨c.key, List.mem_dedup.2 (List.mem_map.2 ⟨c, hc, rfl⟩), ?_⟩
    unfold expectedGroup
    rw [List.mem_map]
    exact ⟨(i, c), List.mk_mem_enum_iff_getElem?.2 hi, rfl⟩
  · unfold expectedEntry
    dsimp only
    split
    · exact Or.inl rfl
    · exact Or.inr rfl
  · unfold expectedEntry
    dsimp only
    split
    · exact ⟨_, _, rfl⟩
    · exact ⟨[], _, rfl⟩

/-- For two sources that have the user-metadata key `x` with the tags 7 and 8,
`merge_postlists` writes the key with the tag 7 only, as the warning of the
user-metadata loop says ("picking arbitrary tag value"). -/
theorem merge_postlists_drops_clashing_metadata :
    merge_postlists flintCodec popMin 20 clashingSources 0 =
        Except.ok [([0], packUint 0 ++ packUintLast 14), ([0, 0xc0, 120], [7])] ∧
      (∃ s ∈ clashingSources, ([0, 0xc0, 120], [8]) ∈ s.1) ∧
      is_user_metadata_key [0, 0xc0, 120] = true ∧
      ([0, 0xc0, 120], [8]) ∉ [([0], packUint 0 ++ packUintLast 14), ([0, 0xc0, 120], [7])] :=
  ⟨rfl, by decide, rfl, by decide⟩

/-- What `merge_postlists` keeps of tables that have a metainfo entry: for
sources whose postlist tables are well formed (empty, or the metainfo entry,
then user-metadata entries, then posting-list chunks that decode and come in
queue order), with user-metadata keys below the keys of the chunks and a total
length that fits `totlen_t`, `merge_postlists` returns and its output has, for each posting-list chunk of a
source, an entry under the key of the chunk, alone or with the first docid,
whose tag ends with the tag of the chunk after a flag byte; and for each
user-metadata entry of a source an entry with its key that is an entry of a
source, which is the entry itself when no source has another tag under the
key. -/
theorem merge_postlists_keeps_entries (cd : Codec)
    (top : List PostlistCursor → Option (PostlistCursor × List PostlistCursor))
    (sources : List (List (Bytes × Bytes) × Nat)) (tot_off fuel : Nat)
    (htop : IsPriorityQueue top)
    (hwf : ∀ s ∈ sources, WellFormedSource cd s)
    (hmeta : ∀ u ∈ sources.flatMap (fun s => (chunksOf cd s).getD []),
      is_user_metadata_key u.key = true →
        ∀ t ∈ sources.flatMap (termChunks cd), strLess u.key t.key = true)
    (htotlen : (sources.map (totlenOf cd)).sum < 2 ^ cd.totlen_bits)
    (hfuel : (sources.map (fun s => s.1.length)).sum < fuel) :
    ∃ out, merge_postlists cd top fuel sources tot_off = Except.ok out ∧
      (∀ s ∈ sources, ∀ c ∈ termChunks cd s, ∃ e ∈ out,
        (e.1 = c.key ∨ e.1 = c.key ++ cd.F_pack_uint_preserving_sort c.firstdid) ∧
          ∃ hd flag, e.2 = hd ++ flag :: c.tag.tail) ∧
      (∀ s ∈ sources, ∀ kt ∈ s.1, is_user_metadata_key kt.1 = true →
        (∃ e ∈ out, e.1 = kt.1 ∧ ∃ s1 ∈ sources, e ∈ s1.1) ∧
          ((∀ s1 ∈ sources, ∀ e ∈ s1.1, e.1 = kt.1 → e = kt) → kt ∈ out)) := by
  obtain ⟨tot, new, hopen, hread, hsz, hterm, hall⟩ :=
    openLoop_spec cd sources 0 [] hwf (by omega)
  obtain ⟨tot2, new2, hopen2, hstreams⟩ := openLoop_streams cd sources 0 [] hwf (by omega)
  rw [hopen] at hopen2
  simp only [List.nil_append, Except.ok.injEq, Prod.mk.injEq] at hopen2
  obtain ⟨_, hnew⟩ := hopen2
  subst hnew
  rw [List.nil_append] at hopen
  have hmeta2 : ∀ u ∈ new.flatMap (fun c => c.stream cd), is_user_metadata_key u.key = true →
      ∀ t ∈ new.flatMap (fun c => c.stream cd), isTermKey t.key = true →
        strLess u.key t.key = true := by
    intro u hu huk t ht htk
    apply hmeta u (hall u hu) huk
    rw [← hterm]
    exact List.mem_filter.2 ⟨ht, htk⟩
  obtain ⟨pq1, lk1, added, hml, hadded, hsz1, hsorted1, hperm1⟩ :=
    metaLoop_spec cd top htop fuel new [] []
      [([0], cd.F_pack_uint tot_off ++ cd.F_pack_uint_last tot)] (by omega) hread hmeta2
  obtain ⟨pq2, lk2, added2, hml2, hfrom, hkeys⟩ :=
    metaLoop_entries cd top htop fuel new [] []
      [([0], cd.F_pack_uint tot_off ++ cd.F_pack_uint_last tot)] (by omega) hread hmeta2
  rw [hml] at hml2
  simp only [Except.ok.injEq, Prod.mk.injEq, List.append_cancel_left_eq] at hml2
  obtain ⟨_, _, hadd⟩ := hml2
  subst hadd
  obtain ⟨cs, hpop, hperm, hsorted⟩ :=
    popAll_sorted cd top htop fuel pq1 (by unfold queueSize at hsz1 hsz; omega) hsorted1
  have hpermT : cs.Perm (sources.flatMap (termChunks cd)) := by
    rw [← hterm]
    exact hperm.trans hperm1
  have hmerge : ∀ c ∈ cs, c.tag ≠ [] := by
    intro c hc
    have hcT := hpermT.mem_iff.1 hc
    rw [List.mem_flatMap] at hcT
    obtain ⟨s, hs, hcs⟩ := hcT
    exact termChunks_bounds cd s (hwf s hs) c hcs
  have hfeed := feed_eq cd cs [] lk1
    ([([0], cd.F_pack_uint tot_off ++ cd.F_pack_uint_last tot)] ++ added)
    (by simpa using hsorted) (by simp) (by simpa using hmerge)
  simp only [List.map_nil, List.sum_nil, List.nil_append, Nat.zero_mod] at hfeed
  have hrun : merge_postlists cd top fuel sources tot_off = Except.ok
      (([([0], cd.F_pack_uint tot_off ++ cd.F_pack_uint_last tot)] ++ added) ++
        expectedTerms cd cs) := by
    unfold merge_postlists
    rw [hopen]
    dsimp only
    rw [hml]
    dsimp only
    rw [termLoop_eq_feed cd top fuel pq1 _ cs hpop]
    exact hfeed
  -- an entry written by the user-metadata loop is an entry of a source
  have hsrc : ∀ u ∈ new.flatMap (fun c => c.stream cd), is_user_metadata_key u.key = true →
      ∃ s1 ∈ sources, (u.key, u.tag) ∈ s1.1 := by
    intro u hu huk
    have hu2 := hall u hu
    rw [List.mem_flatMap] at hu2
    obtain ⟨s1, hs1, hus1⟩ := hu2
    refine ⟨s1, hs1, ?_⟩
    cases hch : chunksOf cd s1 with
    | none => rw [hch] at hus1; simp at hus1
    | some l =>
      rw [hch, Option.getD_some] at hus1
      exact (following_user_meta cd s1.1 _ l hch).2 u hus1 huk
  have hum : ∀ s ∈ sources, ∀ kt ∈ s.1, is_user_metadata_key kt.1 = true →
      ∃ e ∈ added, e.1 = kt.1 ∧ ∃ s1 ∈ sources, e ∈ s1.1 := by
    intro s hs kt hkt hk
    have hne : s.1 ≠ [] := List.ne_nil_of_mem hkt
    rcases hwf s hs with h0 | ⟨m, us, ts, hch, hm, _, hus, hts, _⟩
    · exact absurd h0 hne
    · obtain ⟨u, hu, huk, hut⟩ := (following_user_meta cd s.1 _ _ hch).1 kt hkt hk
      have hutail : u ∈ us ++ ts := by
        rw [List.mem_cons] at hu
        rcases hu with rfl | hu
        · exfalso
          rw [← huk] at hk
          simp only [is_metainfo_key, Bool.and_eq_true, beq_iff_eq] at hm
          simp only [is_user_metadata_key, Bool.and_eq_true, decide_eq_true_eq] at hk
          omega
        · exact hu
      have hustream : u ∈ new.flatMap (fun c => c.stream cd) := by
        rw [hstreams, List.mem_flatMap]
        exact ⟨s, hs, by rw [hch, Option.getD_some, List.tail_cons]; exact hutail⟩
      have hk2 : is_user_metadata_key u.key = true := by rw [huk]; exact hk
      rcases hkeys u hustream hk2 with h1 | ⟨e, he, hek⟩
      · exfalso
        rw [h1] at hk2
        simp [is_user_metadata_key] at hk2
      · obtain ⟨w, hw, hwk, hwe⟩ := hfrom e he
        obtain ⟨s1, hs1, hmem⟩ := hsrc w hw hwk
        exact ⟨e, he, by rw [hek, huk], s1, hs1, by rw [hwe]; exact hmem⟩
  refine ⟨_, hrun, ?_, ?_⟩
  · intro s hs c hc
    have hcs : c ∈ cs := hpermT.mem_iff.2 (List.mem_flatMap.2 ⟨s, hs, hc⟩)
    obtain ⟨e, he, h1, h2⟩ := mem_expectedTerms cd cs c hcs
    exact ⟨e, List.mem_append_right _ he, h1, h2⟩
  · intro s hs kt hkt hk
    obtain ⟨e, he, hek, s1, hs1, hes1⟩ := hum s hs kt hkt hk
    have hout : e ∈ ([([0], cd.F_pack_uint tot_off ++ cd.F_pack_uint_last tot)] ++ added) ++
        expectedTerms cd cs :=
      List.mem_append_left _ (List.mem_append_right _ he)
    refine ⟨⟨e, hout, hek, s1, hs1, hes1⟩, ?_⟩
    intro hsame
    rw [← hsame s1 hs1 e hes1 hek]
    exact hout

/-- The entries kept of the two example sources. -/
theorem merge_postlists_keeps_entries_witness :
    ∃ out, merge_postlists flintCodec popMin 20 exampleSources 0 = Except.ok out ∧
      (∀ s ∈ exampleSources, ∀ c ∈ termChunks flintCodec s, ∃ e ∈ out,
        (e.1 = c.key ∨ e.1 = c.key ++ flintCodec.F_pack_uint_preserving_sort c.firstdid) ∧
          ∃ hd flag, e.2 = hd ++ flag :: c.tag.tail) ∧
      (∀ s ∈ exampleSources, ∀ kt ∈ s.1, is_user_metadata_key kt.1 = true →
        (∃ e ∈ out, e.1 = kt.1 ∧ ∃ s1 ∈ exampleSources, e ∈ s1.1) ∧
          ((∀ s1 ∈ exampleSources, ∀ e ∈ s1.1, e.1 = kt.1 → e = kt) → kt ∈ out)) :=
  merge_postlists_keeps_entries flintCodec popMin exampleSources 0 20 popMin_isPriorityQueue
    exampleSources_wellFormed (by decide) (by decide) (by decide)

/-- C35, on the code: for a source table without a metainfo entry
`merge_postlists` passes over the first entry of the table. Of the table with
the user-metadata entry `x` and the chunk of the term `a` it writes the chunk
and no entry with the key of `x`; of the table with the chunks of the terms
`a` and `b` it writes the chunk of `b` and no entry with the key of `a`. -/
theorem merge_postlists_without_metainfo :
    ((∀ e ∈ noMetainfoTable, is_metainfo_key e.1 = false) ∧
      ([0, 0xc0, 120], [7]) ∈ noMetainfoTable ∧ is_user_metadata_key [0, 0xc0, 120] = true) ∧
    merge_postlists flintCodec popMin 20 [(noMetainfoTable, 0)] 0 =
      Except.ok [([0], packUint 0 ++ packUintLast 0),
        (packStringPreservingSort [97], packUint 2 ++ packUint 3 ++ packUint 0 ++ [0x31, 1, 1, 1])] ∧
    (∀ e ∈ [([0], packUint 0 ++ packUintLast 0),
        (packStringPreservingSort [97], packUint 2 ++ packUint 3 ++ packUint 0 ++ [0x31, 1, 1, 1])],
      e.1 ≠ [0, 0xc0, 120]) ∧
    ((∀ e ∈ noMetainfoTerms, is_metainfo_key e.1 = false) ∧
      (packStringPreservingSort [97], packUint 2 ++ packUint 3 ++ packUint 0 ++ [0x31, 1, 1, 1]) ∈
        noMetainfoTerms) ∧
    merge_postlists flintCodec popMin 20 [(noMetainfoTerms, 0)] 0 =
      Except.ok [([0], packUint 0 ++ packUintLast 0),
        (packStringPreservingSort [98], packUint 1 ++ packUint 4 ++ packUint 2 ++ [0x31, 8])] ∧
    (∀ e ∈ [([0], packUint 0 ++ packUintLast 0),
        (packStringPreservingSort [98], packUint 1 ++ packUint 4 ++ packUint 2 ++ [0x31, 8])],
      e.1 ≠ packStringPreservingSort [97]) :=
  ⟨by decide, rfl, by decide, by decide, rfl, by decide⟩

/-- The cursor presents the metainfo entry and a user-metadata entry as they
are. -/
theorem read_of_meta (cd : Codec) (c : PostlistCursor) (k t : Bytes) (r : List (Bytes × Bytes))
    (h : isTermKey k = false) :
    ∃ c1, c.read cd k t r = Except.ok c1 ∧ c1.key = k ∧ c1.tag = t := by
  unfold PostlistCursor.read
  dsimp only
  by_cases hm : is_metainfo_key k = true
  · rw [if_pos hm]
    exact ⟨_, rfl, rfl, rfl⟩
  · rw [if_neg hm]
    have hu : is_user_metadata_key k = true := by
      simp only [isTermKey, Bool.and_eq_false_iff, Bool.not_eq_false'] at h
      rcases h with h | h
      · exact absurd h hm
      · exact h
    rw [if_pos hu]
    exact ⟨_, rfl, rfl, rfl⟩

/-- The cursor presents an entry that holds a posting-list chunk as that
chunk. -/
theorem read_of_chunk (cd : Codec) (c : PostlistCursor) (k t : Bytes) (r : List (Bytes × Bytes))
    (ch : Chunk) (h : isTermKey k = true) (hch : chunkOfEntry cd c.offset (k, t) = some ch) :
    ∃ c1, c.read cd k t r = Except.ok c1 ∧ c1.toChunk = ch := by
  simp only [isTermKey, Bool.and_eq_true, Bool.not_eq_true'] at h
  unfold PostlistCursor.read
  dsimp only
  rw [if_neg (by simp [h.1]), if_neg (by simp [h.2])]
  unfold chunkOfEntry at hch
  dsimp only at hch
  cases hs : cd.F_unpack_string_preserving_sort k with
  | none => rw [hs] at hch; simp at hch
  | some p =>
    obtain ⟨w, d⟩ := p
    rw [hs] at hch
    cases d with
    | nil =>
      dsimp only at hch ⊢
      rw [if_pos rfl]
      cases h1 : cd.F_unpack_uint t with
      | none => rw [h1] at hch; simp at hch
      | some p1 =>
        obtain ⟨tf, r1⟩ := p1
        rw [h1] at hch
        dsimp only at hch ⊢
        cases h2 : cd.F_unpack_uint r1 with
        | none => rw [h2] at hch; simp at hch
        | some p2 =>
          obtain ⟨cf, r2⟩ := p2
          rw [h2] at hch
          dsimp only at hch ⊢
          cases h3 : cd.F_unpack_uint r2 with
          | none => rw [h3] at hch; simp at hch
          | some p3 =>
            obtain ⟨d0, pl⟩ := p3
            rw [h3] at hch
            dsimp only at hch ⊢
            simp only [Option.some.injEq] at hch
            refine ⟨_, rfl, ?_⟩
            rw [← hch]
            simp only [PostlistCursor.toChunk, Nat.mod_add_mod]
    | cons b did =>
      dsimp only at hch ⊢
      rw [if_neg (by simp)]
      cases h1 : cd.F_unpack_uint_preserving_sort (b :: did) with
      | none => rw [h1] at hch; simp at hch
      | some p1 =>
        obtain ⟨fd, rest⟩ := p1
        rw [h1] at hch
        cases rest with
        | nil =>
          dsimp only at hch ⊢
          simp only [Option.some.injEq] at hch
          refine ⟨_, rfl, ?_⟩
          rw [← hch]
          rfl
        | cons x xs => simp at hch

/-- On a table whose entries with a term key hold chunks no call of `next`
throws, and the states of the cursor present the entries in turn. -/
theorem following_presents (cd : Codec) :
    ∀ (entries : List (Bytes × Bytes)) (c : PostlistCursor),
      (∀ e ∈ entries, isTermKey e.1 = true → ∃ ch, chunkOfEntry cd c.offset e = some ch) →
      ∃ l, following cd entries c = some l ∧ List.Forall₂ (Presents cd c.offset) l entries := by
  intro entries
  induction entries with
  | nil => intro c _; exact ⟨[], rfl, List.Forall₂.nil⟩
  | cons e r ih =>
    intro c h
    obtain ⟨k, t⟩ := e
    have hstep : ∃ c1, c.read cd k t r = Except.ok c1 ∧ Presents cd c.offset c1 (k, t) := by
      cases hk : isTermKey k with
      | false =>
        obtain ⟨c1, h1, h2, h3⟩ := read_of_meta cd c k t r hk
        refine ⟨c1, h1, ⟨fun h => ?_, fun _ => ⟨h2, h3⟩⟩⟩
        dsimp only at h
        rw [hk] at h
        cases h
      | true =>
        obtain ⟨ch, hch⟩ := h (k, t) (List.mem_cons_self _ _) hk
        obtain ⟨c1, h1, h2⟩ := read_of_chunk cd c k t r ch hk hch
        refine ⟨c1, h1, ⟨fun _ => by rw [h2]; exact hch, fun h => ?_⟩⟩
        dsimp only at h
        rw [hk] at h
        cases h
    obtain ⟨c1, hread, hp⟩ := hstep
    have hoff := (read_rest cd c c1 k t r hread).2
    obtain ⟨l, hl, hall⟩ := ih c1 (by
      intro e he hk
      rw [hoff]
      exact h e (List.mem_cons_of_mem _ he) hk)
    refine ⟨c1 :: l, ?_, List.Forall₂.cons hp (by rw [hoff] at hall; exact hall)⟩
    simp only [following, hread, hl]

theorem presents_keys (cd : Codec) (offset : Nat) :
    ∀ (l : List PostlistCursor) (es : List (Bytes × Bytes)),
      List.Forall₂ (Presents cd offset) l es → (∀ e ∈ es, isTermKey e.1 = false) →
      ∀ c ∈ l, ∃ e ∈ es, c.key = e.1 ∧ c.tag = e.2 := by
  intro l es h
  induction h with
  | nil => intro _ c hc; exact absurd hc (List.not_mem_nil _)
  | cons hp _ ih =>
    intro hes c hc
    rw [List.mem_cons] at hc
    rcases hc with rfl | hc
    · exact ⟨_, List.mem_cons_self _ _, hp.2 (hes _ (List.mem_cons_self _ _))⟩
    · obtain ⟨e, he, hk⟩ := ih (fun e he => hes e (List.mem_cons_of_mem _ he)) c hc
      exact ⟨e, List.mem_cons_of_mem _ he, hk⟩

theorem presents_chunks (cd : Codec) (offset : Nat) :
    ∀ (l : List PostlistCursor) (es : List (Bytes × Bytes)),
      List.Forall₂ (Presents cd offset) l es → (∀ e ∈ es, isTermKey e.1 = true) →
      l.map PostlistCursor.toChunk = es.filterMap (chunkOfEntry cd offset) := by
  intro l es h
  induction h with
  | nil => intro _; rfl
  | cons hp _ ih =>
    intro hes
    rw [List.map_cons, List.filterMap_cons, hp.1 (hes _ (List.mem_cons_self _ _)),
      ih (fun e he => hes e (List.mem_cons_of_mem _ he))]

theorem chunkLe_toChunk (a b : PostlistCursor) : ChunkLe a.toChunk b.toChunk ↔ CursorLe a b := by
  rw [cursorLe_iff]
  rfl

/-- The states of the cursor on a well-formed table: the metainfo entry, the
user-metadata entries, and the chunks that the other entries hold. -/
theorem chunksOf_wellFormed (cd : Codec) (src : List (Bytes × Bytes) × Nat)
    (m : Bytes × Bytes) (us ts : List (Bytes × Bytes)) (hsrc : src.1 = m :: (us ++ ts))
    (hm : is_metainfo_key m.1 = true) (hus : ∀ u ∈ us, is_user_metadata_key u.1 = true)
    (hts : ∀ e ∈ ts, isTermKey e.1 = true ∧ ∃ c, chunkOfEntry cd src.2 e = some c) :
    ∃ m1 us1 ts1, chunksOf cd src = some (m1 :: (us1 ++ ts1)) ∧ m1.key = m.1 ∧ m1.tag = m.2 ∧
      (∀ u ∈ us1, is_user_metadata_key u.key = true) ∧
      ts1.map PostlistCursor.toChunk = ts.filterMap (chunkOfEntry cd src.2) := by
  have hmt : isTermKey m.1 = false := by simp [isTermKey, hm]
  have hut : ∀ u ∈ us, isTermKey u.1 = false := fun u hu => by simp [isTermKey, hus u hu]
  obtain ⟨l, hl, hall⟩ := following_presents cd src.1 ⟨src.1, src.2, [], [], 0, 0, 0⟩ (by
    intro e he hk
    rw [hsrc, List.mem_cons, List.mem_append] at he
    rcases he with rfl | he | he
    · rw [hmt] at hk; cases hk
    · rw [hut e he] at hk; cases hk
    · exact (hts e he).2)
  dsimp only at hall
  rw [hsrc] at hall
  obtain ⟨m1, l1, hpm, hrest, rfl⟩ := List.forall₂_cons_right_iff.1 hall
  have h1 := List.forall₂_take_append l1 us ts hrest
  have h2 := List.forall₂_drop_append l1 us ts hrest
  refine ⟨m1, l1.take us.length, l1.drop us.length, ?_, (hpm.2 hmt).1, (hpm.2 hmt).2, ?_, ?_⟩
  · unfold chunksOf
    rw [hl, List.take_append_drop]
  · intro u hu
    obtain ⟨e, he, hk, _⟩ := presents_keys cd src.2 _ _ h1 hut u hu
    rw [hk]
    exact hus e he
  · exact presents_chunks cd src.2 _ _ h2 (fun e he => (hts e he).1)

/-- A well-formed table is one the cursor reads as a well-formed source, with
the chunks and the total length that the table format gives. -/
theorem WellFormedTable.source {cd : Codec} {src : List (Bytes × Bytes) × Nat}
    (h : WellFormedTable cd src) :
    WellFormedSource cd src ∧
      (termChunks cd src).map PostlistCursor.toChunk = tableChunks cd src ∧
      totlenOf cd src = tableTotlen cd src := by
  rcases h with h0 | ⟨m, us, ts, hsrc, hm, hdec, hus, hts, hsorted⟩
  · obtain ⟨table, offset⟩ := src
    dsimp only at h0
    subst h0
    exact ⟨Or.inl rfl, rfl, rfl⟩
  · obtain ⟨m1, us1, ts1, hch, hk, ht, hus1, hmap⟩ :=
      chunksOf_wellFormed cd src m us ts hsrc hm hus
        (fun e he => ⟨(hts e he).1, (hts e he).2.choose, (hts e he).2.choose_spec.1⟩)
    have hmem : ∀ c ∈ ts1, isTermKey c.key = true ∧ c.tag ≠ [] := by
      intro c hc
      have : c.toChunk ∈ ts.filterMap (chunkOfEntry cd src.2) := by
        rw [← hmap]
        exact List.mem_map.2 ⟨c, hc, rfl⟩
      rw [List.mem_filterMap] at this
      obtain ⟨e, he, hce⟩ := this
      obtain ⟨_, ch, hch2, hkey, hpl⟩ := hts e he
      rw [hce] at hch2
      simp only [Option.some.injEq] at hch2
      rw [← hch2] at hkey hpl
      exact ⟨hkey, hpl⟩
    have hm1 : is_metainfo_key m1.key = true := by rw [hk]; exact hm
    have hkeys := termChunks_eq cd src m1 us1 ts1 hch hm1 hus1 (fun c hc => (hmem c hc).1)
    refine ⟨Or.inr ⟨m1, us1, ts1, hch, hm1, by rw [ht]; exact hdec, hus1, hmem, ?_⟩, ?_, ?_⟩
    · rw [← hmap, List.pairwise_map] at hsorted
      exact hsorted.imp (fun h => (chunkLe_toChunk _ _).1 h)
    · rw [hkeys.1, hmap]
      unfold tableChunks
      rw [hsrc, List.filter_cons, if_neg (by simp [isTermKey, hm]), List.filter_append,
        List.filter_eq_nil_iff.2 (fun u hu => by simp [isTermKey, hus u hu]), List.nil_append,
        List.filter_eq_self.2 (fun e he => (hts e he).1)]
    · unfold totlenOf tableTotlen
      rw [hch, hsrc]
      dsimp only
      rw [if_pos hm, ht]

theorem filter_map_toChunk (cs : List PostlistCursor) (key : Bytes) :
    (cs.map PostlistCursor.toChunk).filter (fun c => c.key == key) =
      (cs.filter (fun c => c.key == key)).map PostlistCursor.toChunk := by
  induction cs with
  | nil => rfl
  | cons c cs ih =>
    simp only [List.map_cons, List.filter_cons]
    have : c.toChunk.key = c.key := rfl
    rw [this]
    split
    · rw [List.map_cons, ih]
    · exact ih

theorem expectedGroup_eq_mergedGroup (cd : Codec) (key : Bytes) (g : List PostlistCursor) :
    expectedGroup cd key g = mergedGroup cd key (g.map PostlistCursor.toChunk) := by
  unfold expectedGroup mergedGroup
  rw [List.enum_map, List.map_map]
  apply List.map_congr_left
  intro ic _
  simp only [Function.comp, Prod.map, expectedEntry, mergedEntry, List.length_map, List.map_map,
    PostlistCursor.toChunk, id]
  rfl

/-- What the term loop writes for cursor states is what the merged table holds
for the chunks they present. -/
theorem expectedTerms_eq_mergedTerms (cd : Codec) (cs : List PostlistCursor) :
    expectedTerms cd cs = mergedTerms cd (cs.map PostlistCursor.toChunk) := by
  unfold expectedTerms mergedTerms
  rw [List.map_map]
  have : ((fun c => c.key) ∘ PostlistCursor.toChunk : PostlistCursor → Bytes) =
      fun c => c.key := rfl
  rw [this]
  congr 1
  funext key
  rw [filter_map_toChunk, expectedGroup_eq_mergedGroup]

theorem flatMap_tableChunks (cd : Codec) (sources : List (List (Bytes × Bytes) × Nat))
    (hwf : ∀ s ∈ sources, WellFormedTable cd s) :
    (sources.flatMap (termChunks cd)).map PostlistCursor.toChunk =
      sources.flatMap (tableChunks cd) := by
  induction sources with
  | nil => rfl
  | cons s more ih =>
    rw [List.flatMap_cons, List.flatMap_cons, List.map_append,
      (hwf s (List.mem_cons_self _ _)).source.2.1,
      ih (fun x hx => hwf x (List.mem_cons_of_mem _ hx))]

theorem map_tableTotlen (cd : Codec) (sources : List (List (Bytes × Bytes) × Nat))
    (hwf : ∀ s ∈ sources, WellFormedTable cd s) :
    sources.map (totlenOf cd) = sources.map (tableTotlen cd) :=
  List.map_congr_left (fun s hs => (hwf s hs).source.2.2)

/-- C9, amended: for sources whose postlist tables are well formed (empty, or the
metainfo entry, then user-metadata entries, then entries that hold
posting-list chunks with a flag byte, in the order by key and first docid),
with user-metadata keys below the keys of the chunks and a total length that
fits `totlen_t`, `merge_postlists` returns on any priority queue, and after the
metainfo and user-metadata entries `pre` it writes the entries `mergedTerms cd
cs` of the chunks `cs` that the entries of all sources hold, taken by key and
then by offset-adjusted first docid. That is, for each term key: one entry
under the key itself, for the chunk with the smallest first docid `d0`, whose
tag starts with `Uint(sum of term_freq mod 2 ^ 32) · Uint(sum of collection_freq
mod 2 ^ 32) · Uint((d0 − 1) mod 2 ^ 32)`; every other chunk under the key
followed by `UintPreservingSort` of its first docid, in ascending order of
first docid; and the flag byte `'1'` on the last chunk of the term and `'0'` on
every other. The first docid of a chunk is the one its entry records plus the
offset of its source, modulo `2 ^ 32`. -/
theorem merge_postlists_terms (cd : Codec)
    (top : List PostlistCursor → Option (PostlistCursor × List PostlistCursor))
    (sources : List (List (Bytes × Bytes) × Nat)) (tot_off fuel : Nat)
    (htop : IsPriorityQueue top)
    (hwf : ∀ s ∈ sources, WellFormedTable cd s)
    (hmeta : ∀ s ∈ sources, ∀ u ∈ s.1, is_user_metadata_key u.1 = true →
      ∀ t ∈ sources.flatMap (tableChunks cd), strLess u.1 t.key = true)
    (htotlen : (sources.map (tableTotlen cd)).sum < 2 ^ cd.totlen_bits)
    (hfuel : (sources.map (fun s => s.1.length)).sum < fuel) :
    ∃ pre cs, merge_postlists cd top fuel sources tot_off =
        Except.ok (pre ++ mergedTerms cd cs) ∧
      cs.Perm (sources.flatMap (tableChunks cd)) ∧
      cs.Pairwise ChunkLe ∧
      ∀ e ∈ pre, is_metainfo_key e.1 = true ∨ is_user_metadata_key e.1 = true := by
  have hchunks := flatMap_tableChunks cd sources hwf
  obtain ⟨tot, pq, added, cs, _, hrun, hperm, hsorted, hadded⟩ :=
    merge_postlists_feed cd top sources tot_off fuel htop (fun s hs => (hwf s hs).source.1)
      (by
        intro u hu huk t ht
        rw [List.mem_flatMap] at hu
        obtain ⟨s, hs, hus⟩ := hu
        have hmem : (u.key, u.tag) ∈ s.1 := by
          cases hch : chunksOf cd s with
          | none => rw [hch] at hus; simp at hus
          | some l =>
            rw [hch, Option.getD_some] at hus
            exact (following_user_meta cd s.1 _ l hch).2 u hus huk
        have htc : t.toChunk ∈ sources.flatMap (tableChunks cd) := by
          rw [← hchunks]
          exact List.mem_map.2 ⟨t, ht, rfl⟩
        exact hmeta s hs (u.key, u.tag) hmem huk t.toChunk htc)
      (by rw [map_tableTotlen cd sources hwf]; exact htotlen) hfuel
  refine ⟨[([0], cd.F_pack_uint tot_off ++ cd.F_pack_uint_last tot)] ++ added,
    cs.map PostlistCursor.toChunk, ?_, ?_, ?_, ?_⟩
  · rw [hrun, expectedTerms_eq_mergedTerms]
  · rw [← hchunks]
    exact hperm.map _
  · rw [List.pairwise_map]
    exact hsorted.imp (fun h => (chunkLe_toChunk _ _).2 h)
  · intro e he
    rw [List.mem_append, List.mem_singleton] at he
    rcases he with rfl | he
    · exact Or.inl rfl
    · exact Or.inr (hadded e he)

/-- The example tables are well formed. -/
theorem exampleSources_wellFormedTable : ∀ s ∈ exampleSources, WellFormedTable flintCodec s := by
  intro s hs
  simp only [exampleSources, List.mem_cons, List.mem_singleton, List.not_mem_nil, or_false] at hs
  rcases hs with rfl | rfl
  · refine Or.inr ⟨exampleTableA.headD ([], []), [], exampleTableA.tail, rfl, by decide,
      ⟨3, [7], 7, by decide, by decide⟩, by decide, ?_, by decide⟩
    intro e he
    simp only [exampleTableA, List.tail_cons, List.mem_singleton] at he
    subst he
    exact ⟨by decide, _, rfl, by decide, by decide⟩
  · refine Or.inr ⟨exampleTableB.headD ([], []), (exampleTableB.tail).take 1,
      (exampleTableB.tail).drop 1, rfl, by decide,
      ⟨6, [9], 9, by decide, by decide⟩, by decide, ?_, by decide⟩
    intro e he
    simp only [exampleTableB, List.tail_cons, List.drop_succ_cons, List.drop_zero, List.mem_cons,
      List.mem_singleton, List.not_mem_nil, or_false] at he
    rcases he with rfl | rfl | rfl
    · exact ⟨by decide, _, rfl, by decide, by decide⟩
    · exact ⟨by decide, _, rfl, by decide, by decide⟩
    · exact ⟨by decide, _, rfl, by decide, by decide⟩

/-- C9, as stated, fails: two sources hold the term `a` with the collection
frequency `3 * 2 ^ 30` each, and the header that `merge_postlists` writes for
`a` carries `2 ^ 31`, their sum in the 32 bits of `Xapian::termcount`, and not
`Uint` of their sum. -/
theorem merge_postlists_collection_freq_wraps :
    (wrappingSources.flatMap (tableChunks flintCodec)).map
        (fun c => (c.key, c.first_did, c.term_freq, c.collection_freq)) =
      [(packStringPreservingSort [97], 1, 1, 3221225472),
       (packStringPreservingSort [97], 11, 1, 3221225472)] ∧
    merge_postlists flintCodec popMin 20 wrappingSources 0 =
      Except.ok [([0], packUint 0 ++ packUintLast 2),
        (packStringPreservingSort [97],
          packUint 2 ++ packUint 2147483648 ++ packUint 0 ++ [0x30, 1]),
        (packStringPreservingSort [97] ++ packUintPreservingSort 11, [0x31, 1])] ∧
    packUint 2147483648 ≠ packUint (3221225472 + 3221225472) :=
  ⟨by decide, rfl, by decide⟩

/-- The two example tables, the second with docid offset 10, hold three chunks
of `a` and one of `b`, and merge into the metainfo entry, the user-metadata
entry, the three chunks of `a` and the chunk of `b`. -/
theorem merge_postlists_terms_witness :
    (IsPriorityQueue popMin ∧ (∀ s ∈ exampleSources, WellFormedTable flintCodec s)) ∧
    exampleSources.flatMap (tableChunks flintCodec) =
      [⟨[97, 0, 0], 1, 2, 3, [0x31, 1, 1, 1]⟩, ⟨[97, 0, 0], 11, 2, 2, [0x30, 5]⟩,
        ⟨[97, 0, 0], 15, 0, 0, [0x31, 6]⟩, ⟨[98, 0, 0], 310, 1, 4, [0x31, 8]⟩] ∧
    merge_postlists flintCodec popMin 20 exampleSources 10 =
      Except.ok [([0], [10, 16]), ([0, 0xc0, 120], [7]),
        ([97, 0, 0], [4, 5, 0, 0x30, 1, 1, 1]),
        ([97, 0, 0, 1, 11], [0x30, 5]),
        ([97, 0, 0, 1, 15], [0x31, 6]),
        ([98, 0, 0], [1, 4, 181, 2, 0x31, 8])] ∧
    ∃ pre cs, merge_postlists flintCodec popMin 20 exampleSources 10 =
        Except.ok (pre ++ mergedTerms flintCodec cs) ∧
      cs.Perm (exampleSources.flatMap (tableChunks flintCodec)) ∧
      cs.Pairwise ChunkLe ∧
      ∀ e ∈ pre, is_metainfo_key e.1 = true ∨ is_user_metadata_key e.1 = true :=
  ⟨⟨popMin_isPriorityQueue, exampleSources_wellFormedTable⟩, by decide, rfl,
    merge_postlists_terms flintCodec popMin exampleSources 10 20 popMin_isPriorityQueue
      exampleSources_wellFormedTable (by decide) (by decide) (by decide)⟩

/-- C13, amended: `merge_spellings` on spelling tables whose keys are in
ascending order, with enough steps. When a key that starts with `W` is in
several sources and one of its tags there is not a frequency (it does not
decode as a 32-bit `Xapian::termcount`, or is zero), `DatabaseCorruptError` is
thrown. When for every key in several sources the tags are as the merge
expects (frequencies for a key that starts with `W`, else lists of words in
ascending order), the entries written have ascending keys, exactly the keys of
the sources, and for each key: the tag itself if the key is in one source
only; `F_pack_uint_last` of the sum of the frequencies modulo `2 ^ 32` (the sum
itself when it is below `2 ^ 32`), if the key starts with `W` and is in several
sources; and otherwise the prefix-compressed form of the words of the sources'
lists other than the empty word, in ascending order, each once, which
`PrefixCompressedStringItor` reads back as those words when each has less than
256 bytes. -/
theorem merge_spellings_keys (cd : Codec)
    (top : List MergeCursor → Option (MergeCursor × List MergeCursor))
    (toptag : List PrefixCompressedStringItor →
      Option (PrefixCompressedStringItor × List PrefixCompressedStringItor))
    (steps : Nat) (sources : List (List (Bytes × Bytes)))
    (htop : IsPriorityQueueOf CursorGt top)
    (htoptag : IsPriorityQueueOf PrefixCompressedStringItorGt toptag)
    (hsorted : ∀ t ∈ sources, SortedTable t) (hsteps : spellingSize sources.flatten < steps) :
    ((∃ key, key.head? = some 'W'.toNat ∧ 2 ≤ (tagsOf sources key).length ∧
        ∃ t ∈ tagsOf sources key,
          cd.F_unpack_uint_last_termcount t = none ∨
            cd.F_unpack_uint_last_termcount t = some 0) →
      ∃ what, merge_spellings cd top toptag steps sources =
        Except.error (MergeError.corrupt what)) ∧
    ((∀ key, 2 ≤ (tagsOf sources key).length → GroupValid cd key (tagsOf sources key)) →
      ∃ out, merge_spellings cd top toptag steps sources = Except.ok out ∧
        Ascending (out.map Prod.fst) ∧
        (∀ key, key ∈ out.map Prod.fst ↔ tagsOf sources key ≠ []) ∧
        ∀ key tag, (key, tag) ∈ out →
          (∀ t, tagsOf sources key = [t] → tag = t) ∧
          (2 ≤ (tagsOf sources key).length → key.head? = some 'W'.toNat →
            tag = cd.F_pack_uint_last (((tagsOf sources key).map (freqOf cd)).sum % 2 ^ 32) ∧
            (((tagsOf sources key).map (freqOf cd)).sum < 2 ^ 32 →
              tag = cd.F_pack_uint_last ((tagsOf sources key).map (freqOf cd)).sum)) ∧
          (2 ≤ (tagsOf sources key).length → key.head? ≠ some 'W'.toNat →
            ∃ ws, Ascending ws ∧
              (∀ w, w ∈ ws ↔
                w ≠ [] ∧ ∃ t ∈ tagsOf sources key, ∃ l, wordsOf t = some l ∧ w ∈ l) ∧
              tag = prefixCompressed ws ∧
              ((∀ w ∈ ws, w.length < 256) → wordsOf tag = some ws))) := by
  obtain ⟨he, hs⟩ := openSpellings_spec sources [] hsorted (by simp)
  have he1 : entriesOf (openSpellings sources []) = sources.flatten := by
    rw [he]
    simp [entriesOf]
  have htags : ∀ key, tagsIn (entriesOf (openSpellings sources [])) key = tagsOf sources key := by
    intro key
    rw [he1]
    rfl
  have hsize : spellingSize (entriesOf (openSpellings sources [])) < steps := by
    rw [he1]
    exact hsteps
  have hlen : (entriesOf (openSpellings sources [])).length < steps := by
    rw [he1]
    exact lt_of_le_of_lt (entries_length_le _) hsteps
  constructor
  · rintro ⟨key, hw, h2, t, ht, hb⟩
    exact mergeLoop_bad_freq cd top toptag htop htoptag steps steps _ [] hs hsize hlen
      ⟨key, hw, by rw [htags]; exact h2, t, by rw [htags]; exact ht, hb⟩
  · intro hvalid
    obtain ⟨res, h1, h2, h3, h4⟩ := mergeLoop_spec cd top toptag htop htoptag steps steps _ []
      hs hsize hlen (by
        intro key hk
        rw [htags] at hk ⊢
        exact hvalid key hk)
    refine ⟨res, by simpa using h1, h2, ?_, ?_⟩
    · intro key
      rw [h3 key, htags]
    · intro key tag hkt
      have := h4 key tag hkt
      rw [htags] at this
      obtain ⟨m1, m2, m3⟩ := this
      refine ⟨m1, ?_, ?_⟩
      · intro hl hw
        refine ⟨m2 hl hw, ?_⟩
        intro hlt
        have e := m2 hl hw
        rw [Nat.mod_eq_of_lt hlt] at e
        exact e
      · intro hl hw
        obtain ⟨ws, hasc, hmem, htag⟩ := m3 hl hw
        refine ⟨ws, hasc, hmem, htag, ?_⟩
        intro hshort
        rw [htag, ← encodeWords_eq_prefixCompressed ws (fun w hw => ((hmem w).1 hw).1)]
        exact wordsOf_encodeWords ws hshort

theorem exampleSpellings_valid :
    ∀ key, 2 ≤ (tagsOf [exampleSpellingA, exampleSpellingB] key).length →
      GroupValid flintCodec key (tagsOf [exampleSpellingA, exampleSpellingB] key) :=
  groupValid_of_entries flintCodec _ (by decide)

/-- C13, as stated, fails. Two sources have the key `Wcat` with the frequency
`2 ^ 31` each: the tag written is `F_pack_uint_last` of 0, their sum in the 32
bits of `Xapian::termcount`, and not of their sum. Two sources have the key
`Hct` with the lists of the empty word and `c`, and of `c` and `d`: the tag
written is the prefix-compressed form of `c` and `d`, without the empty word,
which is a word of the union; the writer gives another tag for the three
words. -/
theorem merge_spellings_wraps_and_drops_empty_word :
    merge_spellings flintCodec (popLeast CursorGt) (popLeast PrefixCompressedStringItorGt) 100
        [[([87, 99, 97, 116], packUintLast 2147483648)],
          [([87, 99, 97, 116], packUintLast 2147483648)]] =
      Except.ok [([87, 99, 97, 116], packUintLast 0)] ∧
    packUintLast 0 ≠ packUintLast (2147483648 + 2147483648) ∧
    (wordsOf [96, 97, 99] = some [[], [99]] ∧ wordsOf [97, 99, 96, 97, 100] = some [[99], [100]]) ∧
    merge_spellings flintCodec (popLeast CursorGt) (popLeast PrefixCompressedStringItorGt) 100
        [[([72, 99, 116], [96, 97, 99])], [([72, 99, 116], [97, 99, 96, 97, 100])]] =
      Except.ok [([72, 99, 116], prefixCompressed [[99], [100]])] ∧
    prefixCompressed [[99], [100]] ≠ encodeWords [[], [99], [100]] :=
  ⟨rfl, by decide, ⟨rfl, rfl⟩, rfl, by decide⟩

/-- The two example tables: the lists of words under `Hct` are united, the
frequencies of `cat` are summed, and the entries of `cow` and `dog` are
copied. A frequency of zero, and one of five bytes, which is not a
`Xapian::termcount`, are thrown as `"Bad spelling word freq"`. -/
theorem merge_spellings_keys_witness :
    ((∀ t ∈ [exampleSpellingA, exampleSpellingB], SortedTable t) ∧
      spellingSize [exampleSpellingA, exampleSpellingB].flatten < 100) ∧
    (∃ out, merge_spellings flintCodec (popLeast CursorGt)
          (popLeast PrefixCompressedStringItorGt) 100 [exampleSpellingA, exampleSpellingB] =
        Except.ok out ∧
      Ascending (out.map Prod.fst) ∧
      (∀ key, key ∈ out.map Prod.fst ↔ tagsOf [exampleSpellingA, exampleSpellingB] key ≠ []) ∧
      ∀ key tag, (key, tag) ∈ out →
        (∀ t, tagsOf [exampleSpellingA, exampleSpellingB] key = [t] → tag = t) ∧
        (2 ≤ (tagsOf [exampleSpellingA, exampleSpellingB] key).length →
          key.head? = some 'W'.toNat →
          tag = flintCodec.F_pack_uint_last
            (((tagsOf [exampleSpellingA, exampleSpellingB] key).map (freqOf flintCodec)).sum %
              2 ^ 32) ∧
          (((tagsOf [exampleSpellingA, exampleSpellingB] key).map (freqOf flintCodec)).sum <
              2 ^ 32 →
            tag = flintCodec.F_pack_uint_last
              ((tagsOf [exampleSpellingA, exampleSpellingB] key).map (freqOf flintCodec)).sum)) ∧
        (2 ≤ (tagsOf [exampleSpellingA, exampleSpellingB] key).length →
          key.head? ≠ some 'W'.toNat →
          ∃ ws, Ascending ws ∧
            (∀ w, w ∈ ws ↔
              w ≠ [] ∧ ∃ t ∈ tagsOf [exampleSpellingA, exampleSpellingB] key,
                ∃ l, wordsOf t = some l ∧ w ∈ l) ∧
            tag = prefixCompressed ws ∧
            ((∀ w ∈ ws, w.length < 256) → wordsOf tag = some ws))) ∧
    merge_spellings flintCodec (popLeast CursorGt) (popLeast PrefixCompressedStringItorGt) 100
        [exampleSpellingA, exampleSpellingB] =
      Except.ok [([72, 99, 116], prefixCompressed [[99, 97, 116], [99, 111, 116], [99, 117, 116]]),
        ([87, 99, 97, 116], [7]), ([87, 99, 111, 119], [2]), ([87, 100, 111, 103], [1])] ∧
    prefixCompressed [[99, 97, 116], [99, 111, 116], [99, 117, 116]] =
      [99, 99, 97, 116, 97, 98, 111, 116, 97, 98, 117, 116] ∧
    merge_spellings flintCodec (popLeast CursorGt) (popLeast PrefixCompressedStringItorGt) 100
        [exampleSpellingA, [([87, 99, 97, 116], [0])]] =
      Except.error (MergeError.corrupt "Bad spelling word freq") ∧
    merge_spellings flintCodec (popLeast CursorGt) (popLeast PrefixCompressedStringItorGt) 100
        [exampleSpellingA, [([87, 99, 97, 116], [1, 0, 0, 0, 1])]] =
      Except.error (MergeError.corrupt "Bad spelling word freq") :=
  ⟨⟨by decide, by decide⟩,
    (merge_spellings_keys flintCodec (popLeast CursorGt) (popLeast PrefixCompressedStringItorGt)
      100 [exampleSpellingA, exampleSpellingB] popLeast_cursors popLeast_itors (by decide)
      (by decide)).2 exampleSpellings_valid,
    rfl, by decide, rfl, rfl⟩

end Compact

/-! ## Theorems: position lists of a flint database -/

namespace Flint

open Compact

/-- C17: for every table and every `(did, term)`, whenever `read_data` returns,
`positionlist_count` returns the number of positions `read_data` has produced
(`get_size()`). Case by case: with no entry the count is 0 and `read_data`
returns `false` with no positions; a tag that is a single `Uint` gives 1 and
that position; a tag whose `Uint` does not decode makes both throw
`DatabaseCorruptError`; any other tag gives the size `n` read from the two
header values of the bit stream, and `read_data` returns `n` positions unless
`n` is 0. The count does not depend on `decode_interpolative`, which reads the
interior positions and is taken to fill the vector without resizing it. -/
theorem positionlist_count_eq_size {R W : Type} (cd : Codec) (bs : BitStream R W)
    (table : List (Bytes × Bytes)) (did : Nat) (term : Bytes)
    (hfill : ∀ r ps j k, (bs.decode_interpolative r ps j k).1.length = ps.length) :
    (∀ b pl, FlintPositionList.read_data cd bs table did term = Except.ok (b, pl) →
      positionlist_count cd bs table did term = Except.ok pl.get_size) ∧
    (get_exact_entry table (cd.F_pack_uint_preserving_sort did ++ term) = none →
      positionlist_count cd bs table did term = Except.ok 0 ∧
      FlintPositionList.read_data cd bs table did term = Except.ok (false, ⟨[], 0, false⟩)) ∧
    (∀ data pos_last,
      get_exact_entry table (cd.F_pack_uint_preserving_sort did ++ term) = some data →
      cd.F_unpack_uint data = some (pos_last, []) →
      positionlist_count cd bs table did term = Except.ok 1 ∧
      FlintPositionList.read_data cd bs table did term =
        Except.ok (true, ⟨[pos_last], 0, false⟩)) ∧
    (∀ data,
      get_exact_entry table (cd.F_pack_uint_preserving_sort did ++ term) = some data →
      cd.F_unpack_uint data = none →
      positionlist_count cd bs table did term =
        Except.error (PositionStop.corrupt "Position list data corrupt") ∧
      FlintPositionList.read_data cd bs table did term =
        Except.error (PositionStop.corrupt "Position list data corrupt")) ∧
    (∀ data pos_last pos,
      get_exact_entry table (cd.F_pack_uint_preserving_sort did ++ term) = some data →
      cd.F_unpack_uint data = some (pos_last, pos) → pos ≠ [] →
      ∃ n, positionlist_count cd bs table did term = Except.ok n ∧
        (n ≠ 0 → ∃ pl, FlintPositionList.read_data cd bs table did term = Except.ok (true, pl) ∧
          pl.get_size = n) ∧
        (n = 0 → FlintPositionList.read_data cd bs table did term =
          Except.error PositionStop.emptyVector)) ∧
    (∀ f, positionlist_count cd { bs with decode_interpolative := f } table did term =
      positionlist_count cd bs table did term) := by
  have hcases : ∀ data pos_last pos,
      get_exact_entry table (cd.F_pack_uint_preserving_sort did ++ term) = some data →
      cd.F_unpack_uint data = some (pos_last, pos) → pos ≠ [] →
      ∃ n, positionlist_count cd bs table did term = Except.ok n ∧
        (n ≠ 0 → ∃ pl, FlintPositionList.read_data cd bs table did term = Except.ok (true, pl) ∧
          pl.get_size = n) ∧
        (n = 0 → FlintPositionList.read_data cd bs table did term =
          Except.error PositionStop.emptyVector) := by
    intro data pos_last pos he hu hp
    unfold positionlist_count FlintPositionList.read_data
    rw [he]
    dsimp only
    rw [hu]
    dsimp only
    rw [if_neg hp, if_neg hp]
    refine ⟨_, rfl, ?_, ?_⟩
    · intro hn
      rw [if_neg hn]
      refine ⟨_, rfl, ?_⟩
      simp only [FlintPositionList.get_size, hfill, List.length_set, List.length_replicate]
    · intro hn
      rw [if_pos hn]
  refine ⟨?_, ?_, ?_, ?_, hcases, ?_⟩
  · intro b pl h
    cases he : get_exact_entry table (cd.F_pack_uint_preserving_sort did ++ term) with
    | none =>
      unfold FlintPositionList.read_data at h
      unfold positionlist_count
      rw [he] at h ⊢
      simp only [Except.ok.injEq, Prod.mk.injEq] at h
      rw [← h.2]
      rfl
    | some data =>
      cases hu : cd.F_unpack_uint data with
      | none =>
        unfold FlintPositionList.read_data at h
        rw [he] at h
        dsimp only at h
        rw [hu] at h
        cases h
      | some p =>
        obtain ⟨pos_last, pos⟩ := p
        by_cases hp : pos = []
        · subst hp
          unfold FlintPositionList.read_data at h
          unfold positionlist_count
          rw [he] at h ⊢
          dsimp only at h ⊢
          rw [hu] at h ⊢
          dsimp only at h ⊢
          rw [if_pos rfl] at h ⊢
          simp only [Except.ok.injEq, Prod.mk.injEq] at h
          rw [← h.2]
          rfl
        · obtain ⟨n, hc, h1, h2⟩ := hcases data pos_last pos he hu hp
          by_cases hn : n = 0
          · rw [h2 hn] at h
            cases h
          · obtain ⟨pl1, hr, hs⟩ := h1 hn
            rw [hr] at h
            simp only [Except.ok.injEq, Prod.mk.injEq] at h
            rw [hc, ← h.2, hs]
  · intro he
    unfold positionlist_count FlintPositionList.read_data
    rw [he]
    exact ⟨rfl, rfl⟩
  · intro data pos_last he hu
    unfold positionlist_count FlintPositionList.read_data
    rw [he]
    dsimp only
    rw [hu]
    exact ⟨rfl, rfl⟩
  · intro data he hu
    unfold positionlist_count FlintPositionList.read_data
    rw [he]
    dsimp only
    rw [hu]
    exact ⟨rfl, rfl⟩
  · intro f
    rfl

/-- The example bit stream fills the vector without resizing it. -/
theorem byteStream_fill (r ps : Bytes) (j k : Nat) :
    (byteStream.decode_interpolative r ps j k).1.length = ps.length := by
  simp [byteStream]

/-- The positions 3, 7, 9, 20 are read back from their entry, and counted as
4. -/
theorem positionlist_count_eq_size_witness :
    (∀ r ps j k, (byteStream.decode_interpolative r ps j k).1.length = ps.length) ∧
    FlintPositionList.read_data flintCodec byteStream [([1, 5, 97], [20, 3, 2, 7, 9])] 5 [97] =
      Except.ok (true, ⟨[3, 7, 9, 20], 0, false⟩) ∧
    positionlist_count flintCodec byteStream [([1, 5, 97], [20, 3, 2, 7, 9])] 5 [97] =
      Except.ok (FlintPositionList.get_size ⟨[3, 7, 9, 20], 0, false⟩) :=
  ⟨byteStream_fill, rfl,
    (positionlist_count_eq_size flintCodec byteStream [([1, 5, 97], [20, 3, 2, 7, 9])] 5 [97]
      byteStream_fill).1 true ⟨[3, 7, 9, 20], 0, false⟩ rfl⟩

/-- An entry is found under its key right after `add`. -/
theorem get_exact_entry_tableAdd (key tag : Bytes) :
    ∀ table : List (Bytes × Bytes), get_exact_entry (tableAdd table key tag) key = some tag := by
  intro table
  induction table with
  | nil => simp [tableAdd, get_exact_entry]
  | cons e rest ih =>
    obtain ⟨k, t⟩ := e
    unfold tableAdd
    by_cases h1 : strLess key k = true
    · rw [if_pos h1]
      simp [get_exact_entry]
    · rw [if_neg h1]
      by_cases h2 : key = k
      · rw [if_pos h2]
        simp [get_exact_entry]
      · rw [if_neg h2]
        unfold get_exact_entry
        rw [if_neg h2]
        exact ih

/-- C18: for a position `p` that `F_unpack_uint` reads back from
`F_pack_uint(p)`, `set_positionlist` with the one position `p` adds the entry
with the tag `F_pack_uint(p)` and nothing after it under the key of
`(did, tname)`, and `read_data` on the table it leaves returns `true` with the
position list `[p]`; and `read_data` for a `(did, term)` without entry returns
`false` with the empty list. -/
theorem single_position_roundtrip {R W : Type} (cd : Codec) (bs : BitStream R W)
    (table : List (Bytes × Bytes)) (did : Nat) (tname : Bytes) (p : Nat)
    (hrt : cd.F_unpack_uint (cd.F_pack_uint p) = some (p, [])) :
    set_positionlist cd bs table did tname [p] =
      Except.ok (tableAdd table (make_key cd did tname) (cd.F_pack_uint p)) ∧
    get_exact_entry (tableAdd table (make_key cd did tname) (cd.F_pack_uint p))
      (make_key cd did tname) = some (cd.F_pack_uint p) ∧
    FlintPositionList.read_data cd bs
      (tableAdd table (make_key cd did tname) (cd.F_pack_uint p)) did tname =
        Except.ok (true, ⟨[p], 0, false⟩) ∧
    (∀ (table0 : List (Bytes × Bytes)) (did0 : Nat) (term0 : Bytes),
      get_exact_entry table0 (cd.F_pack_uint_preserving_sort did0 ++ term0) = none →
      FlintPositionList.read_data cd bs table0 did0 term0 = Except.ok (false, ⟨[], 0, false⟩)) := by
  have hget := get_exact_entry_tableAdd (make_key cd did tname) (cd.F_pack_uint p) table
  refine ⟨rfl, hget, ?_, ?_⟩
  · unfold FlintPositionList.read_data
    unfold make_key at hget
    unfold make_key
    rw [hget]
    dsimp only
    rw [hrt]
    dsimp only
    rw [if_pos rfl]
  · intro table0 did0 term0 h
    unfold FlintPositionList.read_data
    rw [h]

/-- The position 300 for the term `a` of document 5 is stored as the two bytes
of `Uint(300)` and read back. -/
theorem single_position_roundtrip_witness :
    flintCodec.F_unpack_uint (flintCodec.F_pack_uint 300) = some (300, []) ∧
    set_positionlist flintCodec byteStream [] 5 [97] [300] = Except.ok [([1, 5, 97], [172, 2])] ∧
    FlintPositionList.read_data flintCodec byteStream
      (tableAdd [] (make_key flintCodec 5 [97]) (flintCodec.F_pack_uint 300)) 5 [97] =
        Except.ok (true, ⟨[300], 0, false⟩) :=
  ⟨rfl, rfl, (single_position_roundtrip flintCodec byteStream [] 5 [97] 300 rfl).2.2.1⟩

end Flint

/-! ## Theorems: term lists of a brass database -/

namespace Brass

open Compact

theorem resize_le (s : Bytes) (n : Nat) (h : n ≤ s.length) : resize s n = s.take n := by
  unfold resize
  have : n - s.length = 0 := by omega
  rw [this]
  simp

theorem reuse_byte_arith (w r L : Nat) (hr : r ≤ L) :
    L < (w + 1) * (L + 1) + r ∧ ((w + 1) * (L + 1) + r) / (L + 1) - 1 = w ∧
      ((w + 1) * (L + 1) + r) % (L + 1) = r := by
  have h1 : ((w + 1) * (L + 1) + r) / (L + 1) = w + 1 := by
    rw [Nat.add_comm, Nat.add_mul_div_right _ _ (by omega : 0 < L + 1)]
    rw [Nat.div_eq_of_lt (by omega)]
    omega
  have h2 : ((w + 1) * (L + 1) + r) % (L + 1) = r := by
    rw [Nat.add_comm, Nat.add_mul_mod_self_right]
    exact Nat.mod_eq_of_lt (by omega)
  refine ⟨?_, by rw [h1]; rfl, h2⟩
  have : (L + 1) ≤ (w + 1) * (L + 1) := Nat.le_mul_of_pos_left _ (by omega)
  omega

/-- C19: in `BrassTermList::next`, with a previous term of length `L` of at
least 1, a reuse byte `b`, and after it the length byte and the bytes `suffix`
of the new tail: when `b > L` the wdf becomes `b / (L + 1) - 1`, the term is
the first `b % (L + 1)` bytes of the previous term followed by `suffix`, and
`pos` is left right after the tail, no wdf being read; when `b ≤ L` the term
is the first `b` bytes of the previous term followed by `suffix` and the wdf is
what `unpack_uint` reads after the tail. So a byte `(w + 1) * (L + 1) + r` with
`r ≤ L` gives back the wdf `w` and the reuse length `r`. -/
theorem next_reuse_byte (unpack_uint : Bytes → Unpacked) (tl : BrassTermList) (b n : Nat)
    (suffix rest : Bytes) (hL : 1 ≤ tl.current_term.length)
    (hpos : tl.pos = some (b :: n :: (suffix ++ rest))) (hn : suffix.length = n) :
    (tl.current_term.length < b →
      tl.next unpack_uint = Except.ok
        { tl with pos := some rest, current_termfreq := 0,
                  current_wdf := b / (tl.current_term.length + 1) - 1,
                  current_term := tl.current_term.take (b % (tl.current_term.length + 1)) ++
                    suffix }) ∧
    (b ≤ tl.current_term.length → ∀ wdf rest1, unpack_uint rest = Unpacked.value wdf rest1 →
      tl.next unpack_uint = Except.ok
        { tl with pos := some rest1, current_termfreq := 0, current_wdf := wdf,
                  current_term := tl.current_term.take b ++ suffix }) ∧
    (∀ w r, r ≤ tl.current_term.length → (w + 1) * (tl.current_term.length + 1) + r ≤ 255 →
      b = (w + 1) * (tl.current_term.length + 1) + r →
      tl.next unpack_uint = Except.ok
        { tl with pos := some rest, current_termfreq := 0, current_wdf := w,
                  current_term := tl.current_term.take r ++ suffix }) := by
  have hne : (!tl.current_term.isEmpty) = true := by
    cases h : tl.current_term with
    | nil => rw [h] at hL; simp at hL
    | cons _ _ => rfl
  have htake : (suffix ++ rest).take n = suffix := by
    rw [← hn]; simp
  have hdrop : (suffix ++ rest).drop n = rest := by
    rw [← hn]; simp
  have hlen : ¬ (suffix ++ rest).length < n := by
    rw [List.length_append]; omega
  have hgt : tl.current_term.length < b →
      tl.next unpack_uint = Except.ok
        { tl with pos := some rest, current_termfreq := 0,
                  current_wdf := b / (tl.current_term.length + 1) - 1,
                  current_term := tl.current_term.take (b % (tl.current_term.length + 1)) ++
                    suffix } := by
    intro hb
    have hmod : b % (tl.current_term.length + 1) ≤ tl.current_term.length := by
      have := Nat.mod_lt b (by omega : 0 < tl.current_term.length + 1)
      omega
    unfold BrassTermList.next
    rw [hpos]
    dsimp only
    rw [if_pos hne, if_pos hb]
    dsimp only
    rw [if_neg hlen, htake, hdrop, resize_le _ _ hmod]
    rfl
  refine ⟨hgt, ?_, ?_⟩
  · intro hb wdf rest1 hu
    unfold BrassTermList.next
    rw [hpos]
    dsimp only
    rw [if_pos hne, if_neg (by omega)]
    dsimp only
    rw [if_neg hlen, htake, hdrop, resize_le _ _ hb, hu]
    rfl
  · intro w r hr _ hbw
    obtain ⟨h1, h2, h3⟩ := reuse_byte_arith w r tl.current_term.length hr
    rw [← hbw] at h1 h2 h3
    rw [hgt h1, h2, h3]

/-- After the term `ab`, the reuse byte 8 gives the wdf 1 and the term `abc`,
and the reuse byte 0 gives the term `b` with the wdf read after it. -/
theorem next_reuse_byte_witness :
    (1 ≤ (⟨some [8, 1, 99, 0, 1, 98, 7], 5, 3, [97, 98], 2, 0⟩ : BrassTermList).current_term.length ∧
      ([99] : Bytes).length = 1) ∧
    BrassTermList.next unpackByte ⟨some [8, 1, 99, 0, 1, 98, 7], 5, 3, [97, 98], 2, 0⟩ =
      Except.ok ⟨some [0, 1, 98, 7], 5, 3, [97, 98, 99], 1, 0⟩ ∧
    BrassTermList.next unpackByte ⟨some [0, 1, 98, 7], 5, 3, [97, 98, 99], 1, 0⟩ =
      Except.ok ⟨some [], 5, 3, [98], 7, 0⟩ :=
  ⟨⟨by decide, rfl⟩,
    (next_reuse_byte unpackByte ⟨some [8, 1, 99, 0, 1, 98, 7], 5, 3, [97, 98], 2, 0⟩ 8 1 [99]
      [0, 1, 98, 7] (by decide) rfl rfl).2.2 1 2 (by decide) (by decide) rfl,
    rfl⟩

theorem next_termfreq (unpack : Bytes → Option (Bytes × Bytes)) (fuel : Nat)
    (tl : BrassAllTermsList) :
    tl.next unpack fuel = BrassAllTermsList.next unpack fuel { tl with termfreq := 0 } := rfl

theorem next_eq_zero (unpack : Bytes → Option (Bytes × Bytes)) (P : Bytes) :
    ∀ (ks : List Bytes) (fuel : Nat) (cur : Bytes),
      (∀ k ∈ ks, (unpack k).isSome = true) → ks.length < fuel → ∀ term,
      BrassAllTermsList.next unpack fuel ⟨⟨cur, ks, false⟩, term, P, 0⟩ =
        Except.ok (nextState unpack P cur ks) := by
  intro ks
  induction ks with
  | nil =>
    intro fuel cur _ hf term
    obtain ⟨f, rfl⟩ : ∃ f, fuel = f + 1 := ⟨fuel - 1, by omega⟩
    rfl
  | cons k r ih =>
    intro fuel cur hr hf term
    obtain ⟨f, rfl⟩ : ∃ f, fuel = f + 1 := ⟨fuel - 1, by omega⟩
    have hk := hr k (List.mem_cons_self _ _)
    obtain ⟨⟨t, p⟩, hu⟩ := Option.isSome_iff_exists.1 hk
    have ih1 := ih f k (fun x hx => hr x (List.mem_cons_of_mem _ hx))
      (by simp only [List.length_cons] at hf; omega) t
    unfold BrassAllTermsList.next at ih1 ⊢
    unfold nextLoop
    simp only [BrassCursor.next, BrassCursor.after_end, Bool.false_eq_true, if_false, hu,
      nextState]
    by_cases hp : p.isEmpty = true
    · simp only [hp, if_true]
      by_cases hs : startswith t P = true
      · simp [hs]
      · simp only [Bool.not_eq_true] at hs
        simp [hs, BrassCursor.to_end]
    · simp only [hp, if_false, Bool.false_eq_true]
      exact ih1

theorem next_eq (unpack : Bytes → Option (Bytes × Bytes)) (tl : BrassAllTermsList) (fuel : Nat)
    (hr : ∀ k ∈ tl.cursor.following, (unpack k).isSome = true)
    (hf : tl.cursor.following.length < fuel) (he : tl.cursor.is_after_end = false) :
    tl.next unpack fuel =
      Except.ok (nextState unpack tl.prefix_ tl.cursor.current_key tl.cursor.following) := by
  rw [next_termfreq]
  obtain ⟨⟨cur, ks, e⟩, term, P, tf⟩ := tl
  simp only at he hr hf ⊢
  subst he
  exact next_eq_zero unpack P ks fuel cur hr hf term

theorem allTerms_eq (unpack : Bytes → Option (Bytes × Bytes)) (P : Bytes) (fuel : Nat) :
    ∀ (ks : List Bytes) (calls : Nat) (cur term : Bytes) (tf : Nat),
      (∀ k ∈ ks, (unpack k).isSome = true) → ks.length < fuel → ks.length < calls →
      ∃ last, allTerms unpack fuel calls ⟨⟨cur, ks, false⟩, term, P, tf⟩ =
          Except.ok (expectedStops unpack P ks, last) ∧ last.at_end = true := by
  intro ks
  induction ks with
  | nil =>
    intro calls cur term tf hr hf hc
    obtain ⟨c, rfl⟩ : ∃ c, calls = c + 1 := ⟨calls - 1, by omega⟩
    unfold allTerms
    rw [next_eq unpack _ fuel hr hf rfl]
    exact ⟨_, rfl, rfl⟩
  | cons k r ih =>
    intro calls cur term tf hr hf hc
    obtain ⟨c, rfl⟩ : ∃ c, calls = c + 1 := ⟨calls - 1, by omega⟩
    have hk := hr k (List.mem_cons_self _ _)
    obtain ⟨⟨t, p⟩, hu⟩ := Option.isSome_iff_exists.1 hk
    have hr1 : ∀ x ∈ r, (unpack x).isSome = true := fun x hx => hr x (List.mem_cons_of_mem _ hx)
    simp only [List.length_cons] at hf hc
    by_cases hp : p.isEmpty = true
    · by_cases hs : startswith t P = true
      · obtain ⟨last, h1, h2⟩ := ih c k t 0 hr1 (by omega) (by omega)
        refine ⟨last, ?_, h2⟩
        unfold allTerms
        rw [next_eq unpack _ fuel hr (by show (k :: r).length < fuel; simp only [List.length_cons]; omega) rfl]
        simp only [nextState, expectedStops, hu, hp, hs, if_true, BrassAllTermsList.at_end,
          BrassCursor.after_end, Bool.false_eq_true, if_false, h1,
          BrassAllTermsList.get_termname]
      · simp only [Bool.not_eq_true] at hs
        refine ⟨⟨⟨k, r, true⟩, [], P, 0⟩, ?_, rfl⟩
        unfold allTerms
        rw [next_eq unpack _ fuel hr (by show (k :: r).length < fuel; simp only [List.length_cons]; omega) rfl]
        simp only [nextState, expectedStops, hu, hp, hs, if_true, BrassAllTermsList.at_end,
          BrassCursor.after_end, Bool.false_eq_true, if_false]
    · obtain ⟨last, h1, h2⟩ := ih (c + 1) k t 0 hr1 (by omega) (by omega)
      refine ⟨last, ?_, h2⟩
      unfold allTerms at h1 ⊢
      rw [next_eq unpack _ fuel hr1 (by show r.length < fuel; omega) rfl] at h1
      rw [next_eq unpack _ fuel hr (by show (k :: r).length < fuel; simp only [List.length_cons]; omega) rfl]
      simp only [nextState, expectedStops, hu, hp, if_false, Bool.false_eq_true] at h1 ⊢
      exact h1

theorem strLess_cons (a b : Nat) (x y : Bytes) :
    strLess (a :: x) (b :: y) = if a < b then true else if b < a then false else strLess x y := by
  unfold strLess
  rw [QueryParser.lexLt]
  simp only [decide_eq_true_eq]

theorem strLess_nil_right (x : Bytes) : strLess x [] = false := by
  unfold strLess
  cases x <;> rfl

theorem strLess_nil_cons (b : Nat) (y : Bytes) : strLess [] (b :: y) = true := rfl

theorem startswith_nil (t : Bytes) : startswith t [] = true := by
  unfold startswith
  simp

theorem startswith_cons (a b : Nat) (t P : Bytes) :
    startswith (a :: t) (b :: P) = (decide (b = a) && startswith t P) := by
  unfold startswith
  by_cases h : b = a <;> simp [List.isPrefixOf, h]

theorem startswith_nil_cons (b : Nat) (P : Bytes) : startswith [] (b :: P) = false := by
  unfold startswith
  simp [List.isPrefixOf]

/-- A term that starts with the prefix is not before it. -/
theorem startswith_not_less : ∀ (P t : Bytes), startswith t P = true → strLess t P = false := by
  intro P
  induction P with
  | nil => intro t _; exact strLess_nil_right t
  | cons b P ih =>
    intro t h
    cases t with
    | nil => rw [startswith_nil_cons] at h; exact absurd h (by decide)
    | cons a t =>
      rw [startswith_cons] at h
      simp only [Bool.and_eq_true, decide_eq_true_eq] at h
      obtain ⟨rfl, h⟩ := h
      rw [strLess_cons]
      simp [ih t h]

/-- Between the prefix and a term that starts with it there are only terms
that start with it. -/
theorem startswith_between : ∀ (P t1 t2 : Bytes), strLess t1 P = false →
    strLess t2 t1 = false → startswith t2 P = true → startswith t1 P = true := by
  intro P
  induction P with
  | nil => intro t1 _ _ _ _; exact startswith_nil t1
  | cons b P ih =>
    intro t1 t2 h1 h2 h3
    cases t2 with
    | nil => rw [startswith_nil_cons] at h3; exact absurd h3 (by decide)
    | cons c t2 =>
      rw [startswith_cons] at h3
      simp only [Bool.and_eq_true, decide_eq_true_eq] at h3
      obtain ⟨rfl, h3⟩ := h3
      cases t1 with
      | nil => rw [strLess_nil_cons] at h1; exact absurd h1 (by decide)
      | cons a t1 =>
        rw [strLess_cons] at h1 h2
        have hab : a = b := by
          by_contra hne
          by_cases hlt : a < b
          · rw [if_pos hlt] at h1; exact absurd h1 (by decide)
          · have hgt : b < a := by omega
            rw [if_pos hgt] at h2; exact absurd h2 (by decide)
        subst hab
        simp only [lt_self_iff_false, if_false] at h1 h2
        rw [startswith_cons]
        simp [ih t1 t2 h1 h2 h3]

theorem metainfo_key_less (k : Bytes) (h : is_metainfo_key k = true) :
    strLess k [0x00, 0xff] = true := by
  unfold is_metainfo_key at h
  simp only [Bool.and_eq_true, beq_iff_eq] at h
  obtain ⟨h1, h2⟩ := h
  match k, h1, h2 with
  | [a], _, h2 =>
    simp only [List.getD_cons_zero] at h2
    subst h2
    rfl

theorem user_metadata_key_less (k : Bytes) (h : is_user_metadata_key k = true) :
    strLess k [0x00, 0xff] = true := by
  unfold is_user_metadata_key at h
  simp only [Bool.and_eq_true, beq_iff_eq, decide_eq_true_eq] at h
  obtain ⟨⟨h1, h2⟩, h3⟩ := h
  match k, h1, h2, h3 with
  | a :: b :: r, _, h2, h3 =>
    simp only [List.getD_cons_zero, List.getD_cons_succ] at h2 h3
    subst h2
    subst h3
    rfl

theorem strLess_not_of_le {k s z : Bytes} (h1 : strLess k s = false) (h2 : strLess s z = false) :
    strLess k z = false := by
  have st := strLess_strictTotal
  cases h : strLess k z
  · rfl
  · cases h3 : strLess z s
    · have e := st.total _ _ h2 h3
      rw [e] at h1
      rw [h1] at h
      exact h.symm
    · rw [st.trans _ _ _ h h3] at h1
      exact absurd h1 (by decide)

theorem dropWhile_not_less (s : Bytes) : ∀ (l : List Bytes),
    l.Pairwise (fun a b => strLess a b = true) →
    ∀ k ∈ l.dropWhile (fun k => strLess k s), strLess k s = false := by
  intro l
  induction l with
  | nil => intro _ k hk; simp at hk
  | cons a l ih =>
    intro hs k hk
    rw [List.pairwise_cons] at hs
    by_cases ha : strLess a s = true
    · rw [List.dropWhile_cons, if_pos ha] at hk
      exact ih hs.2 k hk
    · rw [List.dropWhile_cons, if_neg ha] at hk
      simp only [Bool.not_eq_true] at ha
      rcases List.mem_cons.1 hk with rfl | hk
      · exact ha
      · have hak := hs.1 k hk
        cases h : strLess k s
        · rfl
        · rw [strLess_strictTotal.trans _ _ _ hak h] at ha
          exact absurd ha (by decide)

theorem mem_dropWhile_of_not_less (s : Bytes) : ∀ (l : List Bytes) (k : Bytes), k ∈ l →
    strLess k s = false → k ∈ l.dropWhile (fun k => strLess k s) := by
  intro l
  induction l with
  | nil => intro k hk; simp at hk
  | cons a l ih =>
    intro k hk hks
    by_cases ha : strLess a s = true
    · rw [List.dropWhile_cons, if_pos ha]
      rcases List.mem_cons.1 hk with rfl | hk
      · rw [ha] at hks; exact absurd hks (by decide)
      · exact ih k hk hks
    · rw [List.dropWhile_cons, if_neg ha]
      exact hk

theorem isEmpty_eq_nil {p : Bytes} (h : p.isEmpty = true) : p = [] := by
  cases p with
  | nil => rfl
  | cons _ _ => simp at h

theorem expectedStops_sound (unpack : Bytes → Option (Bytes × Bytes)) (P : Bytes) :
    ∀ (ks : List Bytes) (k t : Bytes), (k, t) ∈ expectedStops unpack P ks →
      k ∈ ks ∧ unpack k = some (t, []) ∧ startswith t P = true := by
  intro ks
  induction ks with
  | nil => intro k t h; simp [expectedStops] at h
  | cons a r ih =>
    intro k t h
    unfold expectedStops at h
    cases hu : unpack a with
    | none => rw [hu] at h; simp at h
    | some tp =>
      obtain ⟨ta, p⟩ := tp
      rw [hu] at h
      simp only at h
      by_cases hp : p.isEmpty = true
      · rw [if_pos hp] at h
        by_cases hs : startswith ta P = true
        · rw [if_pos hs] at h
          rcases List.mem_cons.1 h with e | h
          · obtain ⟨rfl, rfl⟩ := Prod.mk.inj e
            have := isEmpty_eq_nil hp
            subst this
            exact ⟨List.mem_cons_self _ _, hu, hs⟩
          · obtain ⟨h1, h2⟩ := ih k t h
            exact ⟨List.mem_cons_of_mem _ h1, h2⟩
        · rw [if_neg hs] at h
          simp at h
      · rw [if_neg hp] at h
        obtain ⟨h1, h2⟩ := ih k t h
        exact ⟨List.mem_cons_of_mem _ h1, h2⟩

theorem expectedStops_complete (unpack : Bytes → Option (Bytes × Bytes)) (P : Bytes) :
    ∀ (ks : List Bytes), ks.Pairwise (fun a b => strLess a b = true) →
      (∀ k ∈ ks, (unpack k).isSome = true) →
      (∀ k1 ∈ ks, ∀ k2 ∈ ks, strLess k1 k2 = true → ∀ r1 ∈ unpack k1, ∀ r2 ∈ unpack k2,
        strLess r2.1 r1.1 = false) →
      (∀ k ∈ ks, ∀ r ∈ unpack k, strLess r.1 P = false) →
      ∀ (k t : Bytes), k ∈ ks → unpack k = some (t, []) → startswith t P = true →
        (k, t) ∈ expectedStops unpack P ks := by
  intro ks
  induction ks with
  | nil => intro _ _ _ _ k t h; simp at h
  | cons a r ih =>
    intro hS hR hO hP k t hk hu hs
    rw [List.pairwise_cons] at hS
    have ih1 := ih hS.2 (fun x hx => hR x (List.mem_cons_of_mem _ hx))
      (fun x hx y hy => hO x (List.mem_cons_of_mem _ hx) y (List.mem_cons_of_mem _ hy))
      (fun x hx => hP x (List.mem_cons_of_mem _ hx)) k t
    unfold expectedStops
    rcases List.mem_cons.1 hk with rfl | hk
    · rw [hu]
      simp only [List.isEmpty_nil, if_true, hs]
      exact List.mem_cons_self _ _
    · obtain ⟨⟨ta, p⟩, hua⟩ := Option.isSome_iff_exists.1 (hR a (List.mem_cons_self _ _))
      rw [hua]
      simp only
      by_cases hp : p.isEmpty = true
      · rw [if_pos hp]
        have h1 : strLess ta P = false := hP a (List.mem_cons_self _ _) (ta, p) hua
        have h2 : strLess t ta = false :=
          hO a (List.mem_cons_self _ _) k (List.mem_cons_of_mem _ hk) (hS.1 k hk) (ta, p) hua
            (t, []) hu
        rw [if_pos (startswith_between P ta t h1 h2 hs)]
        exact List.mem_cons_of_mem _ (ih1 hk hu hs)
      · rw [if_neg hp]
        exact ih1 hk hu hs

theorem expectedStops_ascending (unpack : Bytes → Option (Bytes × Bytes)) (P : Bytes) :
    ∀ (ks : List Bytes), ks.Pairwise (fun a b => strLess a b = true) →
      (∀ k1 ∈ ks, ∀ k2 ∈ ks, strLess k1 k2 = true → ∀ r1 ∈ unpack k1, ∀ r2 ∈ unpack k2,
        strLess r2.1 r1.1 = false) →
      (∀ k1 ∈ ks, ∀ k2 ∈ ks, ∀ r1 ∈ unpack k1, ∀ r2 ∈ unpack k2, r1.2 = [] → r1.1 = r2.1 →
        k1 = k2 ∨ strLess k1 k2 = true) →
      ((expectedStops unpack P ks).map Prod.snd).Pairwise (fun a b => strLess a b = true) := by
  intro ks
  induction ks with
  | nil => intro _ _ _; simp [expectedStops]
  | cons a r ih =>
    intro hS hO hF
    rw [List.pairwise_cons] at hS
    have ih1 := ih hS.2
      (fun x hx y hy => hO x (List.mem_cons_of_mem _ hx) y (List.mem_cons_of_mem _ hy))
      (fun x hx y hy => hF x (List.mem_cons_of_mem _ hx) y (List.mem_cons_of_mem _ hy))
    unfold expectedStops
    cases hu : unpack a with
    | none => simp
    | some tp =>
      obtain ⟨ta, p⟩ := tp
      simp only
      by_cases hp : p.isEmpty = true
      · rw [if_pos hp]
        by_cases hs : startswith ta P = true
        · rw [if_pos hs, List.map_cons, List.pairwise_cons]
          refine ⟨?_, ih1⟩
          intro t ht
          obtain ⟨⟨k, t1⟩, hkt, rfl⟩ := List.mem_map.1 ht
          obtain ⟨hk, huk, _⟩ := expectedStops_sound unpack P r k t1 hkt
          have hak := hS.1 k hk
          have h2 : strLess t1 ta = false :=
            hO a (List.mem_cons_self _ _) k (List.mem_cons_of_mem _ hk) hak (ta, p) hu (t1, []) huk
          have st := strLess_strictTotal
          cases h3 : strLess ta t1
          · have e : t1 = ta := st.total _ _ h2 h3
            rcases hF k (List.mem_cons_of_mem _ hk) a (List.mem_cons_self _ _) (t1, []) huk
              (ta, p) hu rfl e with e1 | e1
            · rw [e1, st.irrefl] at hak
              exact absurd hak (by decide)
            · have := st.trans _ _ _ hak e1
              rw [st.irrefl] at this
              exact absurd this (by decide)
          · rfl
        · rw [if_neg hs]
          simp
      · rw [if_neg hp]
        exact ih1

theorem create_eq (pack_key : Bytes → Bytes) (keys : List Bytes) (P : Bytes) :
    BrassAllTermsList.create pack_key keys P =
      ⟨find_entry_lt keys (seekKey pack_key P), [], P, 0⟩ := by
  unfold BrassAllTermsList.create seekKey
  by_cases h : P.isEmpty = true
  · simp only [h, if_true]
  · simp only [h, if_false, Bool.false_eq_true]

theorem seekKey_not_less (unpack : Bytes → Option (Bytes × Bytes)) (pack_key : Bytes → Bytes)
    (keys : List Bytes) (P : Bytes) (h : PostlistKeys unpack pack_key keys P) :
    strLess (seekKey pack_key P) [0x00, 0xff] = false := by
  unfold seekKey
  cases P with
  | nil => rfl
  | cons b P => exact h.seek_term (by simp)

/-- C20: for the keys of a postlist table in ascending order, in which the
keys from `\x00\xff` on are read by `unpack_string_preserving_sort` as a term
and the rest of the key, the terms are in the order of the keys, and the key of
the first chunk of a term is before those of its other chunks, repeated
`next()` on a `BrassAllTermsList` made for the prefix `P` comes to an end with
`at_end()` true, and before that stops at exactly the terms that start with
`P` and have a key of a first chunk, in strictly ascending byte order (so each
once), at keys of the table that are neither the metainfo key nor a key of
user metadata. -/
theorem alltermslist_next_terms (unpack_string_preserving_sort : Bytes → Option (Bytes × Bytes))
    (pack_brass_postlist_key : Bytes → Bytes) (keys : List Bytes) (P : Bytes) (fuel calls : Nat)
    (h : PostlistKeys unpack_string_preserving_sort pack_brass_postlist_key keys P)
    (hfuel : keys.length < fuel) (hcalls : keys.length < calls) :
    ∃ stops last,
      allTerms unpack_string_preserving_sort fuel calls
          (BrassAllTermsList.create pack_brass_postlist_key keys P) = Except.ok (stops, last) ∧
      last.at_end = true ∧
      (∀ t, t ∈ stops.map Prod.snd ↔
        (startswith t P = true ∧
          ∃ k ∈ keys, strLess k [0x00, 0xff] = false ∧
            unpack_string_preserving_sort k = some (t, []))) ∧
      (stops.map Prod.snd).Pairwise (fun a b => strLess a b = true) ∧
      (∀ kt ∈ stops, kt.1 ∈ keys ∧ is_metainfo_key kt.1 = false ∧
        is_user_metadata_key kt.1 = false ∧
        unpack_string_preserving_sort kt.1 = some (kt.2, [])) := by
  have hseek0 := seekKey_not_less _ _ _ _ h
  have hsub : (keys.dropWhile (fun k => strLess k (seekKey pack_brass_postlist_key P))).Sublist
      keys := List.dropWhile_sublist _
  have hmem : ∀ k ∈ keys.dropWhile (fun k => strLess k (seekKey pack_brass_postlist_key P)),
      k ∈ keys := fun k hk => hsub.subset hk
  have hge : ∀ k ∈ keys.dropWhile (fun k => strLess k (seekKey pack_brass_postlist_key P)),
      strLess k (seekKey pack_brass_postlist_key P) = false :=
    dropWhile_not_less _ keys h.sorted
  have hterm : ∀ k ∈ keys.dropWhile (fun k => strLess k (seekKey pack_brass_postlist_key P)),
      strLess k [0x00, 0xff] = false := fun k hk => strLess_not_of_le (hge k hk) hseek0
  have hR : ∀ k ∈ keys.dropWhile (fun k => strLess k (seekKey pack_brass_postlist_key P)),
      (unpack_string_preserving_sort k).isSome = true :=
    fun k hk => h.readable k (hmem k hk) (hterm k hk)
  have hS := h.sorted.sublist hsub
  have hO : ∀ k1 ∈ keys.dropWhile (fun k => strLess k (seekKey pack_brass_postlist_key P)),
      ∀ k2 ∈ keys.dropWhile (fun k => strLess k (seekKey pack_brass_postlist_key P)),
      strLess k1 k2 = true → ∀ r1 ∈ unpack_string_preserving_sort k1,
      ∀ r2 ∈ unpack_string_preserving_sort k2, strLess r2.1 r1.1 = false :=
    fun k1 h1 k2 h2 => h.ordered k1 (hmem k1 h1) k2 (hmem k2 h2) (hterm k1 h1)
  have hF : ∀ k1 ∈ keys.dropWhile (fun k => strLess k (seekKey pack_brass_postlist_key P)),
      ∀ k2 ∈ keys.dropWhile (fun k => strLess k (seekKey pack_brass_postlist_key P)),
      ∀ r1 ∈ unpack_string_preserving_sort k1, ∀ r2 ∈ unpack_string_preserving_sort k2,
      r1.2 = [] → r1.1 = r2.1 → k1 = k2 ∨ strLess k1 k2 = true :=
    fun k1 h1 k2 h2 =>
      h.first_chunk k1 (hmem k1 h1) k2 (hmem k2 h2) (hterm k1 h1) (hterm k2 h2)
  have hP : ∀ k ∈ keys, strLess k [0x00, 0xff] = false →
      ∀ r ∈ unpack_string_preserving_sort k,
        strLess k (seekKey pack_brass_postlist_key P) = false → strLess r.1 P = false := by
    intro k hk hkt r hr hks
    cases hP : P with
    | nil => exact strLess_nil_right _
    | cons b P1 =>
      have hne : P ≠ [] := by rw [hP]; simp
      have e := h.seek hne k hk hkt r hr
      rw [hP] at e hks
      unfold seekKey at hks
      simp only [List.isEmpty_cons, Bool.false_eq_true, if_false] at hks
      rw [← e]
      exact hks
  obtain ⟨last, h1, h2⟩ := allTerms_eq unpack_string_preserving_sort P fuel
    (keys.dropWhile (fun k => strLess k (seekKey pack_brass_postlist_key P))) calls
    (((keys.takeWhile (fun k => strLess k (seekKey pack_brass_postlist_key P))).getLast?).getD [])
    [] 0 hR (lt_of_le_of_lt hsub.length_le hfuel) (lt_of_le_of_lt hsub.length_le hcalls)
  refine ⟨_, last, ?_, h2, ?_, expectedStops_ascending _ P _ hS hO hF, ?_⟩
  · rw [create_eq]
    exact h1
  · intro t
    constructor
    · intro ht
      obtain ⟨⟨k, t1⟩, hkt, rfl⟩ := List.mem_map.1 ht
      obtain ⟨hk, hu, hs⟩ := expectedStops_sound _ P _ k t1 hkt
      exact ⟨hs, k, hmem k hk, hterm k hk, hu⟩
    · rintro ⟨hs, k, hk, hkt, hu⟩
      have hks : strLess k (seekKey pack_brass_postlist_key P) = false := by
        cases hP1 : P with
        | nil => exact hkt
        | cons b P1 =>
          have hne : P ≠ [] := by rw [hP1]; simp
          have e := h.seek hne k hk hkt (t, []) hu
          have e2 := startswith_not_less P t hs
          rw [hP1] at e e2
          unfold seekKey
          simp only [List.isEmpty_cons, Bool.false_eq_true, if_false]
          rw [e]
          exact e2
      have hkd := mem_dropWhile_of_not_less _ keys k hk hks
      have := expectedStops_complete unpack_string_preserving_sort P _ hS hR hO
        (fun x hx r hr => hP x (hmem x hx) (hterm x hx) r hr (hge x hx)) k t hkd hu hs
      exact List.mem_map.2 ⟨(k, t), this, rfl⟩
  · rintro ⟨k, t⟩ hkt
    obtain ⟨hk, hu, _⟩ := expectedStops_sound _ P _ k t hkt
    have hkt1 := hterm k hk
    refine ⟨hmem k hk, ?_, ?_, hu⟩
    · cases hm : is_metainfo_key k
      · rfl
      · rw [metainfo_key_less k hm] at hkt1
        exact absurd hkt1 (by decide)
    · cases hm : is_user_metadata_key k
      · rfl
      · rw [user_metadata_key_less k hm] at hkt1
        exact absurd hkt1 (by decide)

theorem exampleKeys_postlistKeys :
    PostlistKeys unpackStringPreservingSort packStringPreservingSort exampleKeys [97] where
  sorted := by decide
  readable := by decide
  ordered := by decide
  seek := by decide
  seek_term := by decide
  first_chunk := by decide

/-- On the example keys with the prefix `a`, the calls of `next` stop at the
terms `a` and `ab` and then reach the end. -/
theorem alltermslist_next_terms_witness :
    (PostlistKeys unpackStringPreservingSort packStringPreservingSort exampleKeys [97] ∧
      exampleKeys.length < 8) ∧
    (∃ stops last,
      allTerms unpackStringPreservingSort 8 8
          (BrassAllTermsList.create packStringPreservingSort exampleKeys [97]) =
        Except.ok (stops, last) ∧
      last.at_end = true ∧
      (∀ t, t ∈ stops.map Prod.snd ↔
        (startswith t [97] = true ∧
          ∃ k ∈ exampleKeys, strLess k [0x00, 0xff] = false ∧
            unpackStringPreservingSort k = some (t, []))) ∧
      (stops.map Prod.snd).Pairwise (fun a b => strLess a b = true) ∧
      (∀ kt ∈ stops, kt.1 ∈ exampleKeys ∧ is_metainfo_key kt.1 = false ∧
        is_user_metadata_key kt.1 = false ∧
        unpackStringPreservingSort kt.1 = some (kt.2, []))) ∧
    allTerms unpackStringPreservingSort 8 8
        (BrassAllTermsList.create packStringPreservingSort exampleKeys [97]) =
      Except.ok ([([97, 0, 0], [97]), ([97, 98, 0, 0], [97, 98])],
        ⟨⟨[98, 0, 0], [], true⟩, [], [97], 0⟩) :=
  ⟨⟨exampleKeys_postlistKeys, by decide⟩,
    alltermslist_next_terms unpackStringPreservingSort packStringPreservingSort exampleKeys [97]
      8 8 exampleKeys_postlistKeys (by decide) (by decide),
    rfl⟩

end Brass

/-! ## Theorems: `skip_to` of the all-terms list -/

namespace Brass

open Compact

/-- C21, on the code: the list of the terms with prefix `b` of a table with
the terms `a` and `b1` stands on `b1` after its first `next()`. A
`skip_to("a")` then finds the key of `a`, whose term does not start with `b`,
and sends the list to its end, although `b1` is a term of the list that is
not before `a`; `skip_to("b")` and `skip_to("b1")` stop on `b1`, and
`skip_to("c")` reaches the end. -/
theorem skip_to_below_prefix_ends_list :
    skipList = Except.ok ⟨⟨[98, 49, 0, 0], [], false⟩, [98, 49], [98], 0⟩ ∧
    (skipList.bind (fun tl =>
        tl.skip_to packStringPreservingSort unpackStringPreservingSort skipKeys [97])).map
      (fun tl => (tl.at_end, tl.get_termname)) = Except.ok (true, []) ∧
    ((BrassAllTermsList.create packStringPreservingSort skipKeys [98]).skip_to
        packStringPreservingSort unpackStringPreservingSort skipKeys [97]).map
      (fun tl => (tl.at_end, tl.get_termname)) = Except.ok (true, []) ∧
    (startswith [98, 49] [98] = true ∧ strLess [98, 49] [97] = false ∧
      packStringPreservingSort [98, 49] ∈ skipKeys) ∧
    (skipList.bind (fun tl =>
        tl.skip_to packStringPreservingSort unpackStringPreservingSort skipKeys [98])).map
      (fun tl => (tl.at_end, tl.get_termname)) = Except.ok (false, [98, 49]) ∧
    (skipList.bind (fun tl =>
        tl.skip_to packStringPreservingSort unpackStringPreservingSort skipKeys [98, 49])).map
      (fun tl => (tl.at_end, tl.get_termname)) = Except.ok (false, [98, 49]) ∧
    (skipList.bind (fun tl =>
        tl.skip_to packStringPreservingSort unpackStringPreservingSort skipKeys [99])).map
      (fun tl => (tl.at_end, tl.get_termname)) = Except.ok (true, []) :=
  ⟨rfl, rfl, rfl, ⟨rfl, rfl, by decide⟩, rfl, rfl, rfl⟩

end Brass

/-! ## Theorems: the chert record table and all-docs list -/

namespace Chert

open Compact

theorem listTable_get_add (t : List (Bytes × Bytes)) (key tag : Bytes) :
    Flint.get_exact_entry (tableAdd t key tag) key = some tag := by
  induction t with
  | nil => simp [tableAdd, Flint.get_exact_entry]
  | cons e rest ih =>
    obtain ⟨k, v⟩ := e
    unfold tableAdd
    by_cases h1 : strLess key k = true
    · simp [h1, Flint.get_exact_entry]
    · by_cases h2 : key = k
      · subst h2
        simp [h1, Flint.get_exact_entry]
      · simp [h1, h2, Flint.get_exact_entry, ih]

theorem listTable_get_add_other (t : List (Bytes × Bytes)) (key tag k : Bytes)
    (hk : k ≠ key) :
    Flint.get_exact_entry (tableAdd t key tag) k = Flint.get_exact_entry t k := by
  induction t with
  | nil => simp [tableAdd, Flint.get_exact_entry, hk]
  | cons e rest ih =>
    obtain ⟨k1, v⟩ := e
    unfold tableAdd
    by_cases h1 : strLess key k1 = true
    · simp [h1, Flint.get_exact_entry, hk]
    · by_cases h2 : key = k1
      · subst h2
        simp [h1, Flint.get_exact_entry, hk]
      · simp only [h1, h2, if_false, Flint.get_exact_entry, ih, Bool.false_eq_true]

theorem get_exact_entry_isSome (t : List (Bytes × Bytes)) (key : Bytes) :
    (Flint.get_exact_entry t key).isSome = t.any (fun e => decide (e.1 = key)) := by
  induction t with
  | nil => rfl
  | cons e rest ih =>
    obtain ⟨k1, v⟩ := e
    by_cases h : key = k1
    · subst h
      simp [Flint.get_exact_entry]
    · have h2 : ¬ k1 = key := fun e => h e.symm
      simp [Flint.get_exact_entry, h, h2, ih]

theorem get_exact_entry_filter (t : List (Bytes × Bytes)) (key k : Bytes) :
    Flint.get_exact_entry (t.filter (fun e => !decide (e.1 = key))) k =
      if k = key then none else Flint.get_exact_entry t k := by
  induction t with
  | nil => simp [Flint.get_exact_entry]
  | cons e rest ih =>
    obtain ⟨k1, v⟩ := e
    by_cases h : k1 = key
    · subst h
      simp only [List.filter_cons, decide_True, Bool.not_true, Bool.false_eq_true, if_false, ih]
      by_cases h2 : k = k1
      · simp [h2]
      · simp [h2, Flint.get_exact_entry]
    · simp only [List.filter_cons, h, decide_False, Bool.not_false, if_true,
        Flint.get_exact_entry, ih]
      by_cases h2 : k = k1
      · subst h2
        simp [h]
      · simp [h2]

theorem filter_absent (t : List (Bytes × Bytes)) (key : Bytes)
    (h : Flint.get_exact_entry t key = none) :
    t.filter (fun e => !decide (e.1 = key)) = t := by
  induction t with
  | nil => rfl
  | cons e rest ih =>
    obtain ⟨k1, v⟩ := e
    by_cases h2 : key = k1
    · subst h2
      simp [Flint.get_exact_entry] at h
    · have h3 : ¬ k1 = key := fun e => h2 e.symm
      simp only [Flint.get_exact_entry, h2, if_false] at h
      simp [h3, ih h]

theorem listTable_isTable : IsTable listTable where
  get_add := listTable_get_add
  get_add_other := listTable_get_add_other
  del_found := fun t key => (get_exact_entry_isSome t key).symm
  del_absent := fun t key h => filter_absent t key h
  get_del := fun t key => by
    show Flint.get_exact_entry (t.filter _) key = none
    rw [get_exact_entry_filter]; simp
  get_del_other := fun t key k hk => by
    show Flint.get_exact_entry (t.filter _) k = _
    rw [get_exact_entry_filter]; simp [hk]
    rfl

end Chert

namespace Chert

open Compact

theorem packUintPreservingSort_go_value : ∀ (fuel v : Nat) (acc : Bytes), v < 256 ^ fuel →
    (packUintPreservingSort.go fuel v acc).foldl (fun x b => 256 * x + b) 0 =
      acc.foldl (fun x b => 256 * x + b) v
  | 0, v, acc, h => by
    have hv : v = 0 := by simpa using h
    subst hv
    rfl
  | fuel + 1, v, acc, h => by
    unfold packUintPreservingSort.go
    by_cases hv : v = 0
    · subst hv
      simp
    · rw [if_neg hv]
      have h2 : v / 256 < 256 ^ fuel := by
        rw [Nat.div_lt_iff_lt_mul (by decide)]
        rw [pow_succ] at h
        exact h
      rw [packUintPreservingSort_go_value fuel (v / 256) _ h2]
      simp only [List.foldl_cons]
      congr 1
      omega

theorem packUintPreservingSort_go_length : ∀ (fuel v : Nat) (acc : Bytes),
    (packUintPreservingSort.go fuel v acc).length ≤ fuel + acc.length
  | 0, v, acc => by simp [packUintPreservingSort.go]
  | fuel + 1, v, acc => by
    unfold packUintPreservingSort.go
    by_cases hv : v = 0
    · rw [if_pos hv]; omega
    · rw [if_neg hv]
      have := packUintPreservingSort_go_length fuel (v / 256) ((v % 256) :: acc)
      simp only [List.length_cons] at this
      omega

theorem unpack_packUintPreservingSort (v : Nat) (h : v < 2 ^ 32) :
    unpackUintPreservingSort (packUintPreservingSort v) = some (v, []) := by
  have hl := packUintPreservingSort_go_length 4 v []
  have hv := packUintPreservingSort_go_value 4 v [] (by norm_num at h ⊢; exact h)
  simp only [List.length_nil, Nat.add_zero, List.foldl_nil] at hl hv
  unfold packUintPreservingSort unpackUintPreservingSort
  simp only [hl, le_refl, and_self, if_true, List.take_length, List.drop_length, hv]

theorem packUintPreservingSort_injective (d e : Nat) (hd : d < 2 ^ 32) (he : e < 2 ^ 32)
    (h : packUintPreservingSort d = packUintPreservingSort e) : d = e := by
  have h1 := unpack_packUintPreservingSort d hd
  rw [h, unpack_packUintPreservingSort e he] at h1
  simpa using h1.symm

/-- C23: at every position of a `ChertAllDocsPostList`, `get_wdf()` is 1,
`get_doclength()` is `ChertPostList::get_wdf()`, the number in the wdf field
of the current posting, `get_termfreq()` is the doccount given to the
constructor, and `read_position_list()` and `open_position_list()` throw
`InvalidOperationError`. -/
theorem alldocs_postlist_accessors (base : ChertPostList) (doccount_ : Nat) (P : Type) :
    (ChertAllDocsPostList.create base doccount_).get_wdf = 1 ∧
    (ChertAllDocsPostList.create base doccount_).get_doclength = base.get_wdf ∧
    (ChertAllDocsPostList.create base doccount_).get_doclength = base.wdf ∧
    (ChertAllDocsPostList.create base doccount_).get_termfreq = doccount_ ∧
    (∃ msg, (ChertAllDocsPostList.create base doccount_).read_position_list P =
      Except.error (ChertError.InvalidOperationError msg)) ∧
    (∃ msg, (ChertAllDocsPostList.create base doccount_).open_position_list P =
      Except.error (ChertError.InvalidOperationError msg)) :=
  ⟨rfl, rfl, rfl, rfl, ⟨_, rfl⟩, ⟨_, rfl⟩⟩

/-- The accessors of C23 on the all-docs list of 5 documents, standing on
docid 3 whose stored length is 42. -/
theorem alldocs_postlist_accessors_witness :
    (ChertAllDocsPostList.create ⟨3, 42, false⟩ 5).get_wdf = 1 ∧
    (ChertAllDocsPostList.create ⟨3, 42, false⟩ 5).get_doclength = 42 ∧
    (ChertAllDocsPostList.create ⟨3, 42, false⟩ 5).get_termfreq = 5 ∧
    (ChertAllDocsPostList.create ⟨3, 42, false⟩ 5).read_position_list Unit =
      Except.error (ChertError.InvalidOperationError
        "ChertAllDocsPostList::read_position_list() not meaningful") :=
  ⟨(alldocs_postlist_accessors ⟨3, 42, false⟩ 5 Unit).1,
    (alldocs_postlist_accessors ⟨3, 42, false⟩ 5 Unit).2.2.1, rfl, rfl⟩

/-- C22: over a table that is a map from key to value, and with keys made by
a `pack_uint_preserving_sort` that gives different docids different keys,
`ChertRecordTable` is the partial map from docid to record: `get_record`,
`replace_record` and `delete_record` act on the table as looking up, setting
and deleting act on the map it holds. So after `replace_record(data, did)`,
`get_record(did)` is `data` and `get_record(d)` is as before for `d != did`;
`get_record` and `delete_record` throw `DocNotFoundError` exactly when there
is no entry, in which case `delete_record` leaves the table as it is; and
otherwise `delete_record` removes that entry and no other. -/
theorem record_table_refines_map {T : Type} (ops : TableOps T) (hops : IsTable ops)
    (pack_uint_preserving_sort : Nat → Bytes)
    (hinj : ∀ d e : Nat, d < 2 ^ 32 → e < 2 ^ 32 →
      pack_uint_preserving_sort d = pack_uint_preserving_sort e → d = e)
    (t : T) (data : Bytes) (did : Nat) (hdid : did < 2 ^ 32) :
    -- the three functions against the partial map
    ChertRecordTable.get_record ops pack_uint_preserving_sort t did =
      (RecordMap.ofTable ops pack_uint_preserving_sort t).get_record did ∧
    (∀ d, d < 2 ^ 32 →
      RecordMap.ofTable ops pack_uint_preserving_sort
          (ChertRecordTable.replace_record ops pack_uint_preserving_sort t data did) d =
        (RecordMap.ofTable ops pack_uint_preserving_sort t).replace_record data did d) ∧
    (ChertRecordTable.delete_record ops pack_uint_preserving_sort t did).1 =
      ((RecordMap.ofTable ops pack_uint_preserving_sort t).delete_record did).1 ∧
    (∀ d, d < 2 ^ 32 →
      RecordMap.ofTable ops pack_uint_preserving_sort
          (ChertRecordTable.delete_record ops pack_uint_preserving_sort t did).2 d =
        ((RecordMap.ofTable ops pack_uint_preserving_sort t).delete_record did).2 d) ∧
    -- and in the words of the claim
    ChertRecordTable.get_record ops pack_uint_preserving_sort
      (ChertRecordTable.replace_record ops pack_uint_preserving_sort t data did) did =
        Except.ok data ∧
    (∀ d, d < 2 ^ 32 → d ≠ did →
      ChertRecordTable.get_record ops pack_uint_preserving_sort
        (ChertRecordTable.replace_record ops pack_uint_preserving_sort t data did) d =
          ChertRecordTable.get_record ops pack_uint_preserving_sort t d) ∧
    ((∃ msg, ChertRecordTable.get_record ops pack_uint_preserving_sort t did =
        Except.error (ChertError.DocNotFoundError msg)) ↔
      ops.get_exact_entry t (make_key pack_uint_preserving_sort did) = none) ∧
    ((∃ msg, (ChertRecordTable.delete_record ops pack_uint_preserving_sort t did).1 =
        some (ChertError.DocNotFoundError msg)) ↔
      ops.get_exact_entry t (make_key pack_uint_preserving_sort did) = none) ∧
    (ops.get_exact_entry t (make_key pack_uint_preserving_sort did) = none →
      (ChertRecordTable.delete_record ops pack_uint_preserving_sort t did).2 = t) ∧
    ((ChertRecordTable.delete_record ops pack_uint_preserving_sort t did).1 = none →
      ops.get_exact_entry (ChertRecordTable.delete_record ops pack_uint_preserving_sort t did).2
          (make_key pack_uint_preserving_sort did) = none ∧
      ∀ key, key ≠ make_key pack_uint_preserving_sort did →
        ops.get_exact_entry
            (ChertRecordTable.delete_record ops pack_uint_preserving_sort t did).2 key =
          ops.get_exact_entry t key) := by
  have hkey : ∀ d, d < 2 ^ 32 → d ≠ did →
      make_key pack_uint_preserving_sort d ≠ make_key pack_uint_preserving_sort did := by
    intro d hd hne h
    apply hne
    simp only [make_key, List.nil_append] at h
    exact hinj d did hd hdid h
  have hdel2 : (ChertRecordTable.delete_record ops pack_uint_preserving_sort t did).2 =
      (ops.del t (make_key pack_uint_preserving_sort did)).2 := by
    unfold ChertRecordTable.delete_record
    dsimp only
    split <;> rfl
  have hdel1 : (ChertRecordTable.delete_record ops pack_uint_preserving_sort t did).1 =
      if (ops.get_exact_entry t (make_key pack_uint_preserving_sort did)).isSome then none
      else some (ChertError.DocNotFoundError
        ("Can't delete non-existent document #" ++ om_tostring did)) := by
    unfold ChertRecordTable.delete_record
    dsimp only
    rw [hops.del_found]
    cases ops.get_exact_entry t (make_key pack_uint_preserving_sort did) <;> rfl
  refine ⟨rfl, ?_, ?_, ?_, ?_, ?_, ?_, ?_, ?_, ?_⟩
  · intro d hd
    unfold RecordMap.ofTable RecordMap.replace_record ChertRecordTable.replace_record
    by_cases h : d = did
    · subst h
      rw [hops.get_add, if_pos rfl]
    · rw [hops.get_add_other _ _ _ _ (hkey d hd h), if_neg h]
  · rw [hdel1]
    unfold RecordMap.delete_record RecordMap.ofTable
    cases ops.get_exact_entry t (make_key pack_uint_preserving_sort did) <;> rfl
  · intro d hd
    rw [hdel2]
    unfold RecordMap.delete_record RecordMap.ofTable
    by_cases h : d = did
    · subst h
      rw [hops.get_del]
      cases hg : ops.get_exact_entry t (make_key pack_uint_preserving_sort d)
      · exact hg.symm
      · simp
    · rw [hops.get_del_other _ _ _ (hkey d hd h)]
      cases hg : ops.get_exact_entry t (make_key pack_uint_preserving_sort did)
      · rfl
      · simp [h]
  · unfold ChertRecordTable.get_record ChertRecordTable.replace_record
    rw [hops.get_add]
  · intro d hd hne
    unfold ChertRecordTable.get_record ChertRecordTable.replace_record
    rw [hops.get_add_other _ _ _ _ (hkey d hd hne)]
  · unfold ChertRecordTable.get_record
    cases ops.get_exact_entry t (make_key pack_uint_preserving_sort did) with
    | none => simp
    | some tag => simp
  · rw [hdel1]
    cases ops.get_exact_entry t (make_key pack_uint_preserving_sort did) with
    | none => simp
    | some tag => simp
  · intro hnone
    rw [hdel2]
    exact hops.del_absent _ _ hnone
  · intro _
    rw [hdel2]
    exact ⟨hops.get_del _ _, fun key hk => hops.get_del_other _ _ _ hk⟩

/-- C22 on the table of the entries in key order, with the records of the
docids 1 and 2: replacing the record of docid 2, and deleting docid 3, which
has none. -/
theorem record_table_refines_map_witness :
    (IsTable listTable ∧
      ∀ d e : Nat, d < 2 ^ 32 → e < 2 ^ 32 →
        packUintPreservingSort d = packUintPreservingSort e → d = e) ∧
    ChertRecordTable.replace_record listTable packUintPreservingSort exampleRecords [12] 2 =
      [(packUintPreservingSort 1, [10]), (packUintPreservingSort 2, [12])] ∧
    ChertRecordTable.delete_record listTable packUintPreservingSort exampleRecords 3 =
      (some (ChertError.DocNotFoundError "Can't delete non-existent document #3"),
        exampleRecords) ∧
    ChertRecordTable.delete_record listTable packUintPreservingSort exampleRecords 1 =
      (none, [(packUintPreservingSort 2, [11])]) ∧
    ChertRecordTable.get_record listTable packUintPreservingSort
      (ChertRecordTable.replace_record listTable packUintPreservingSort exampleRecords [12] 2)
      2 = Except.ok [12] :=
  ⟨⟨listTable_isTable, packUintPreservingSort_injective⟩, by decide, by decide, by decide,
    (record_table_refines_map listTable listTable_isTable packUintPreservingSort
      packUintPreservingSort_injective exampleRecords [12] 2 (by norm_num)).2.2.2.2.1⟩

end Chert

